import Mathlib

/-!
# Buffer cache of `kernel/bio.c`

A shallow embedding of the sharded buffer cache: the `bcache` structure is a
record, every `struct buf` (the `NBUF` buffers and the `NBUFBUCKET` sentinel
heads) is a cell of one memory addressed by `Ptr`, and each C statement is one
update of that record.  `NBUF` and `NBUFBUCKET` come from `param.h`, which is not
among the sources, so they are parameters of every definition that uses them.

A call has one of four outcomes: it returns, it halts in `panic`, it waits for
a lock that somebody else holds, or one of its list walks does not end.
-/

namespace Bio

/-- Address of a `struct buf`: `&bcache.buf[k]`, `&bcache.heads[i]`, or the
null pointer found in the links of a zero-initialised buffer. -/
inductive Ptr where
  | null
  | buf (k : Nat)
  | head (i : Nat)
  deriving DecidableEq, Repr

/-- Modelled from the spec: `struct buf` of `buf.h` (not among the sources), with
the fields `bio.c` reads and writes.  `valid` is the C flag (0 or 1), `lock`
is the `locked` flag of the buffer's sleep-lock, and `refcnt` is, in the
spec's words, the number of outstanding holders: a count, with no word width
fixed by the sources. -/
structure Buf where
  valid : Nat
  dev : Nat
  blockno : Nat
  lock : Bool
  refcnt : Nat
  prev : Ptr
  next : Ptr
  deriving DecidableEq, Repr

/-- The spin-locks of `bcache`: `bcache.locks[i]` and `bcache.borrow_mutex`. -/
inductive Lock where
  | bucket (i : Nat)
  | borrow_mutex
  deriving DecidableEq, Repr

/-- What a call does to the lock primitives and to the disk driver, in the
order in which it does it. -/
inductive Event where
  | acquire (l : Lock)
  | release (l : Lock)
  | acquiresleep (b : Ptr)
  | releasesleep (b : Ptr)
  | virtio_disk_rw (b : Ptr) (write : Nat)
  deriving DecidableEq, Repr

/-- The global `bcache`: `locks i` is the `locked` flag of `bcache.locks[i]`
and `borrow_mutex` that of `bcache.borrow_mutex` (modelled from the spec:
`struct spinlock` of `spinlock.h`, not among the sources, is its observable
"is locked" flag, the field the borrow path of `bget` probes),
`mem (.buf k)` is `bcache.buf[k]`, `mem (.head i)` is `bcache.heads[i]`, and
`trace` records the lock and disk calls made so far. -/
structure Bcache where
  locks : Nat → Bool
  borrow_mutex : Bool
  mem : Ptr → Buf
  trace : List Event

/-- Result of a kernel call on a state of type `σ`. -/
inductive Outcome (σ α : Type) where
  /-- the call returns `a`, leaving state `s` -/
  | ret (s : σ) (a : α)
  /-- the kernel halts in `panic(msg)` -/
  | panic (s : σ) (msg : String)
  /-- the call waits in `acquire` or `acquiresleep` for a lock that is held -/
  | blocked (s : σ)
  /-- a list walk visited more nodes than there are buffers -/
  | diverge

/-- A `struct buf` of the zero-initialised `bcache`. -/
def Buf.zero : Buf :=
  { valid := 0, dev := 0, blockno := 0, lock := false, refcnt := 0, prev := .null, next := .null }

/-- The `bcache` global before `binit`: static storage, all zero. -/
def bcache0 : Bcache :=
  { locks := fun _ => false, borrow_mutex := false, mem := fun _ => Buf.zero, trace := [] }

/-- Write to the `struct buf` at `p`: `*p = f(*p)`. -/
def Bcache.store (s : Bcache) (p : Ptr) (f : Buf → Buf) : Bcache :=
  { s with mem := Function.update s.mem p (f (s.mem p)) }

/-- Append an event to the trace. -/
def Bcache.log (s : Bcache) (e : Event) : Bcache :=
  { s with trace := s.trace ++ [e] }

/-- Set the `locked` flag of a spin-lock. -/
def Bcache.setLocked (s : Bcache) (l : Lock) (v : Bool) : Bcache :=
  match l with
  | .bucket i => { s with locks := Function.update s.locks i v }
  | .borrow_mutex => { s with borrow_mutex := v }

/-- Modelled from the spec: `initlock(lk, name)` of the spin-lock primitive
(`spinlock.c` is not among the sources): the lock starts free. -/
def Bcache.initlock (s : Bcache) (l : Lock) : Bcache :=
  s.setLocked l false

/-- Modelled from the spec: `acquire(lk)` of the spin-lock primitive
(`spinlock.c` is not among the sources), called on a lock that is free: the
caller now holds it.  On a lock that is held the call waits; the callers below
test `locked` first and give the outcome `blocked` then. -/
def Bcache.acquire (s : Bcache) (l : Lock) : Bcache :=
  (s.setLocked l true).log (.acquire l)

/-- Modelled from the spec: `release(lk)` of the spin-lock primitive
(`spinlock.c` is not among the sources). -/
def Bcache.release (s : Bcache) (l : Lock) : Bcache :=
  (s.setLocked l false).log (.release l)

/-- Modelled from the spec: `releasesleep(&b->lock)` of the sleep-lock
primitive (`sleeplock.c` is not among the sources). -/
def Bcache.releasesleep (s : Bcache) (b : Ptr) : Bcache :=
  (s.store b fun c => { c with lock := false }).log (.releasesleep b)

/-- Lines 50-56 of `binit`: link the buffers `b, b+1, ..` (`count` of them,
as far as `e`) at the front of the list of `head`, one after the other. -/
def binitLink (head : Ptr) : Nat → Nat → Bcache → Bcache
  | 0, _, s => s
  | count + 1, b, s =>
    let s := s.store (.buf b) fun c => { c with next := (s.mem head).next }
    let s := s.store (.buf b) fun c => { c with prev := head }
    -- initsleeplock(&b->lock, "buffer")
    let s := s.store (.buf b) fun c => { c with lock := false }
    let s := s.store (s.mem head).next fun c => { c with prev := .buf b }
    let s := s.store head fun c => { c with next := .buf b }
    binitLink head count (b + 1) s

/-- Lines 41-57 of `binit`: the iterations `i, i+1, ..` (`count` of them) of
the loop over the buckets; `buf_end` is the C variable of that name.  The
`uint` variables `m`, `n`, `buf_begin` and `buf_end` never exceed `NBUF`, an
`int` constant and the length of a static array, so they are not reduced
modulo `2^32`. -/
def binitLoop (NBUF NBUFBUCKET : Nat) : Nat → Nat → Nat → Bcache → Bcache
  | 0, _, _, s => s
  | count + 1, i, buf_end, s =>
    let m := NBUF / NBUFBUCKET
    let n := NBUF % NBUFBUCKET
    let s := s.initlock (.bucket i)
    let head := Ptr.head i
    let buf_begin := buf_end
    let buf_end := buf_begin + m + (if i < n then 1 else 0)
    let s := s.store head fun c => { c with prev := head }
    let s := s.store head fun c => { c with next := head }
    let s := binitLink head (buf_end - buf_begin) buf_begin s
    binitLoop NBUF NBUFBUCKET count (i + 1) buf_end s

/-- The function `binit`. -/
def binit (NBUF NBUFBUCKET : Nat) (s : Bcache) : Bcache :=
  (binitLoop NBUF NBUFBUCKET NBUFBUCKET 0 0 s).initlock .borrow_mutex

/-- The loop of lines 75-82 of `bget`, from `b` on: follow `next` until `head`
and stop at the first buffer whose identity is `(dev, blockno)`.
`some (some b)`: found `b`; `some none`: reached `head`; `none`: no fuel left. -/
def findCached (mem : Ptr → Buf) (head : Ptr) (dev blockno : Nat) :
    Nat → Ptr → Option (Option Ptr)
  | 0, b => if b = head then some none else none
  | fuel + 1, b =>
    if b = head then some none
    else if (mem b).dev = dev ∧ (mem b).blockno = blockno then some (some b)
    else findCached mem head dev blockno fuel (mem b).next

/-- The loops of lines 86-96 and 109-127 of `bget`, from `b` on: follow `prev`
until `head` and stop at the first buffer with `refcnt == 0`. -/
def findFree (mem : Ptr → Buf) (head : Ptr) : Nat → Ptr → Option (Option Ptr)
  | 0, b => if b = head then some none else none
  | fuel + 1, b =>
    if b = head then some none
    else if (mem b).refcnt = 0 then some (some b)
    else findFree mem head fuel (mem b).prev

/-- The end of every returning path of `bget`: `acquiresleep(&b->lock);
return b;`.  Modelled from the spec: `acquiresleep` of the sleep-lock
primitive (`sleeplock.c` is not among the sources) is a blocking acquire: it
takes the lock when it is free and waits, outcome `blocked`, when it is
held. -/
def sleepReturn (s : Bcache) (b : Ptr) : Outcome Bcache Ptr :=
  let s := s.log (.acquiresleep b)
  if (s.mem b).lock then .blocked s
  else .ret (s.store b fun c => { c with lock := true }) b

/-- Lines 88-91 and 117-120 of `bget`: give `b` the identity of the request. -/
def claim (s : Bcache) (b : Ptr) (dev blockno : Nat) : Bcache :=
  let s := s.store b fun c => { c with dev := dev }
  let s := s.store b fun c => { c with blockno := blockno }
  let s := s.store b fun c => { c with valid := 0 }
  s.store b fun c => { c with refcnt := 1 }

/-- Lines 111-116 of `bget`: unlink `b` and link it right after `head`. -/
def steal (s : Bcache) (head b : Ptr) : Bcache :=
  let s := s.store (s.mem b).prev fun c => { c with next := (s.mem b).next }
  let s := s.store (s.mem b).next fun c => { c with prev := (s.mem b).prev }
  let s := s.store b fun c => { c with next := (s.mem head).next }
  let s := s.store b fun c => { c with prev := head }
  let s := s.store (s.mem head).next fun c => { c with prev := b }
  s.store head fun c => { c with next := b }

/-- Lines 99-130 of `bget`: the iterations `i, i+1, ..` (`count` of them) of
the loop over the peer buckets, then the panic. -/
def borrow (NBUF : Nat) (dev blockno bucket_idx : Nat) : Nat → Nat → Bcache → Outcome Bcache Ptr
  | 0, _, s => .panic s "bget: no buffers"
  | count + 1, i, s =>
    if i = bucket_idx then borrow NBUF dev blockno bucket_idx count (i + 1) s
    else if s.locks i then borrow NBUF dev blockno bucket_idx count (i + 1) s
    else
      let peer_head := Ptr.head i
      let s := s.acquire (.bucket i)
      match findFree s.mem peer_head NBUF (s.mem peer_head).prev with
      | none => .diverge
      | some (some b) =>
        let s := steal s (.head bucket_idx) b
        let s := claim s b dev blockno
        let s := s.release (.bucket i)
        let s := s.release .borrow_mutex
        let s := s.release (.bucket bucket_idx)
        sleepReturn s b
      | some none =>
        borrow NBUF dev blockno bucket_idx count (i + 1) (s.release (.bucket i))

/-- The function `bget`. -/
def bget (NBUF NBUFBUCKET : Nat) (s : Bcache) (dev blockno : Nat) : Outcome Bcache Ptr :=
  let bucket_idx := blockno % NBUFBUCKET
  let head := Ptr.head bucket_idx
  if s.locks bucket_idx then .blocked s
  else
    let s := s.acquire (.bucket bucket_idx)
    match findCached s.mem head dev blockno NBUF (s.mem head).next with
    | none => .diverge
    | some (some b) =>
      let s := s.store b fun c => { c with refcnt := c.refcnt + 1 }
      let s := s.release (.bucket bucket_idx)
      sleepReturn s b
    | some none =>
      match findFree s.mem head NBUF (s.mem head).prev with
      | none => .diverge
      | some (some b) =>
        let s := claim s b dev blockno
        let s := s.release (.bucket bucket_idx)
        sleepReturn s b
      | some none =>
        if s.borrow_mutex then .blocked s
        else
          let s := s.acquire .borrow_mutex
          borrow NBUF dev blockno bucket_idx NBUFBUCKET 0 s

/-- The function `bread`.  The disk driver is not among the sources: the call
`virtio_disk_rw(b, 0)` is recorded in the trace, and the payload it fills is
not part of the state. -/
def bread (NBUF NBUFBUCKET : Nat) (s : Bcache) (dev blockno : Nat) : Outcome Bcache Ptr :=
  match bget NBUF NBUFBUCKET s dev blockno with
  | .ret s b =>
    if (s.mem b).valid = 0 then
      let s := s.log (.virtio_disk_rw b 0)
      .ret (s.store b fun c => { c with valid := 1 }) b
    else .ret s b
  | .panic s msg => .panic s msg
  | .blocked s => .blocked s
  | .diverge => .diverge

/-- Lines 174-179 of `brelse` (the `refcnt == 0` branch): unlink `b` and link
it right after `head`. -/
def toFront (s : Bcache) (head b : Ptr) : Bcache :=
  let s := s.store (s.mem b).next fun c => { c with prev := (s.mem b).prev }
  let s := s.store (s.mem b).prev fun c => { c with next := (s.mem b).next }
  let s := s.store b fun c => { c with next := (s.mem head).next }
  let s := s.store b fun c => { c with prev := head }
  let s := s.store (s.mem head).next fun c => { c with prev := b }
  s.store head fun c => { c with next := b }

/-- The function `brelse`; `holdingsleep(&b->lock)` is the `locked` flag of
the sleep-lock of `b`. -/
def brelse (NBUFBUCKET : Nat) (s : Bcache) (b : Ptr) : Outcome Bcache Unit :=
  if (s.mem b).lock = false then .panic s "brelse"
  else
    let s := s.releasesleep b
    let bucket_idx := (s.mem b).blockno % NBUFBUCKET
    let head := Ptr.head bucket_idx
    if s.locks bucket_idx then .blocked s
    else
      let s := s.acquire (.bucket bucket_idx)
      let s := s.store b fun c => { c with refcnt := c.refcnt - 1 }
      let s := if (s.mem b).refcnt = 0 then toFront s head b else s
      .ret (s.release (.bucket bucket_idx)) ()

/-- The function `bpin`. -/
def bpin (NBUFBUCKET : Nat) (s : Bcache) (b : Ptr) : Outcome Bcache Unit :=
  if s.locks ((s.mem b).blockno % NBUFBUCKET) then .blocked s
  else
    let s := s.acquire (.bucket ((s.mem b).blockno % NBUFBUCKET))
    let s := s.store b fun c => { c with refcnt := c.refcnt + 1 }
    .ret (s.release (.bucket ((s.mem b).blockno % NBUFBUCKET))) ()

/-- The function `bunpin`.  Here and in `brelse`, `refcnt--` is applied to a
count of at least one whenever the buffer is held or pinned; on a count of
zero the model leaves zero. -/
def bunpin (NBUFBUCKET : Nat) (s : Bcache) (b : Ptr) : Outcome Bcache Unit :=
  if s.locks ((s.mem b).blockno % NBUFBUCKET) then .blocked s
  else
    let s := s.acquire (.bucket ((s.mem b).blockno % NBUFBUCKET))
    let s := s.store b fun c => { c with refcnt := c.refcnt - 1 }
    .ret (s.release (.bucket ((s.mem b).blockno % NBUFBUCKET))) ()

/-! ## The bucket lists read off the memory -/

/-- The `next` field of every cell. -/
def nxt (mem : Ptr → Buf) (p : Ptr) : Ptr := (mem p).next

/-- The `prev` field of every cell. -/
def prv (mem : Ptr → Buf) (p : Ptr) : Ptr := (mem p).prev

/-- The buffers met from `p` on by following `next`, up to the first cell
that is not a buffer (a bucket head), at most `fuel` of them. -/
def walkNext (mem : Ptr → Buf) : Nat → Ptr → List Nat
  | fuel + 1, .buf k => k :: walkNext mem fuel (mem (.buf k)).next
  | _, _ => []

/-- The list of bucket `i`: the indices of the buffers between
`bcache.heads[i].next` and the next bucket head, in `next` order. -/
def bucketList (NBUF : Nat) (s : Bcache) (i : Nat) : List Nat :=
  walkNext s.mem NBUF (s.mem (.head i)).next

/-- The fields of a buffer other than its two links. -/
def Buf.dat (c : Buf) : Nat × Nat × Nat × Bool × Nat :=
  (c.valid, c.dev, c.blockno, c.lock, c.refcnt)

/-- The identity test of the cache lookup, on buffer `k`. -/
def isCached (mem : Ptr → Buf) (dev blockno : Nat) (k : Nat) : Bool :=
  decide ((mem (.buf k)).dev = dev ∧ (mem (.buf k)).blockno = blockno)

/-- The test `refcnt == 0`, on buffer `k`. -/
def isFree (mem : Ptr → Buf) (k : Nat) : Bool :=
  decide ((mem (.buf k)).refcnt = 0)

/-- Bucket lists after buffer `k` is taken off its list and put at the front
of bucket `i`. -/
def moveFront (L : Nat → List Nat) (i k : Nat) (j : Nat) : List Nat :=
  if j = i then k :: (L j).erase k else (L j).erase k

/-- A doubly-linked segment: following `nx` from `p` visits the buffers of `l`
in order and then `q`, and `pv` leads back the same way. -/
def Seg (nx pv : Ptr → Ptr) : Ptr → List Nat → Ptr → Prop
  | p, [], q => nx p = q ∧ pv q = p
  | p, k :: t, q => nx p = .buf k ∧ pv (.buf k) = p ∧ Seg nx pv (.buf k) t q

/-- The lists `L 0 .. L (NBUFBUCKET-1)` are the buckets of memory `mem`: each
is a circular doubly-linked list through its sentinel head, and every one of
the `NBUF` buffers is on exactly one of them, once. -/
structure Rep (NBUF NBUFBUCKET : Nat) (mem : Ptr → Buf) (L : Nat → List Nat) : Prop where
  seg : ∀ i < NBUFBUCKET, Seg (nxt mem) (prv mem) (.head i) (L i) (.head i)
  nodup : ∀ i < NBUFBUCKET, (L i).Nodup
  disj : ∀ i < NBUFBUCKET, ∀ j < NBUFBUCKET, i ≠ j → ∀ k ∈ L i, k ∉ L j
  cover : ∀ k < NBUF, ∃ i < NBUFBUCKET, k ∈ L i
  bound : ∀ i < NBUFBUCKET, ∀ k ∈ L i, k < NBUF

/-- A well-formed cache state: the bucket lists read off the memory are
circular doubly-linked lists that hold every buffer once, a buffer nobody
refers to is not sleep-locked, and `borrow_mutex` is only held by a caller
that holds a bucket lock. -/
structure WF (NBUF NBUFBUCKET : Nat) (s : Bcache) : Prop where
  rep : Rep NBUF NBUFBUCKET s.mem (bucketList NBUF s)
  idle : ∀ k < NBUF, (s.mem (.buf k)).refcnt = 0 → (s.mem (.buf k)).lock = false
  nest : s.borrow_mutex = true → ∃ i < NBUFBUCKET, s.locks i = true

/-- The cache states reached from `binit` by calls of `bread`, `brelse`,
`bpin` and `bunpin` that return.  `pins k` counts the calls of `bpin` on
buffer `k` not yet undone by `bunpin`: `brelse` is applied to a buffer whose
sleep-lock is held, `bpin` to a buffer that is held or pinned, `bunpin` to a
buffer that is pinned. -/
inductive Reach (NBUF NBUFBUCKET : Nat) : Bcache → (Nat → Nat) → Prop where
  | binit : Reach NBUF NBUFBUCKET (binit NBUF NBUFBUCKET bcache0) (fun _ => 0)
  | bread {s pins} (dev blockno : Nat) {s' b} :
      Reach NBUF NBUFBUCKET s pins →
      bread NBUF NBUFBUCKET s dev blockno = .ret s' b →
      Reach NBUF NBUFBUCKET s' pins
  | brelse {s pins} (k : Nat) {s'} :
      Reach NBUF NBUFBUCKET s pins → k < NBUF → (s.mem (.buf k)).lock = true →
      brelse NBUFBUCKET s (.buf k) = .ret s' () →
      Reach NBUF NBUFBUCKET s' pins
  | bpin {s pins} (k : Nat) {s'} :
      Reach NBUF NBUFBUCKET s pins → k < NBUF →
      ((s.mem (.buf k)).lock = true ∨ 0 < pins k) →
      bpin NBUFBUCKET s (.buf k) = .ret s' () →
      Reach NBUF NBUFBUCKET s' (Function.update pins k (pins k + 1))
  | bunpin {s pins} (k : Nat) {s'} :
      Reach NBUF NBUFBUCKET s pins → k < NBUF → 0 < pins k →
      bunpin NBUFBUCKET s (.buf k) = .ret s' () →
      Reach NBUF NBUFBUCKET s' (Function.update pins k (pins k - 1))

/-- A cache state reachable from `binit`. -/
def Reachable (NBUF NBUFBUCKET : Nat) (s : Bcache) : Prop :=
  ∃ pins, Reach NBUF NBUFBUCKET s pins

/-- Whether an event is a call of the disk driver. -/
def Event.isDisk : Event → Bool
  | .virtio_disk_rw _ _ => true
  | _ => false

/-- The tail-most buffer of list `l` with `refcnt == 0`. -/
def lastFree (mem : Ptr → Buf) (l : List Nat) : Option Nat :=
  l.reverse.find? (isFree mem)

/-- The first buffer of list `l` with identity `(dev, blockno)`. -/
def firstCached (mem : Ptr → Buf) (dev blockno : Nat) (l : List Nat) : Option Nat :=
  l.find? (isCached mem dev blockno)

/-- The peer bucket the borrow loop of `bget` takes a buffer from, and that
buffer: the first bucket `j` among `j0, j0+1, ..` (`count` of them) other than
`i` whose lock is seen free and whose list has a buffer with `refcnt == 0`. -/
def peerFree (mem : Ptr → Buf) (locks : Nat → Bool) (L : Nat → List Nat) (i : Nat) :
    Nat → Nat → Option (Nat × Nat)
  | 0, _ => none
  | count + 1, j =>
    if j = i ∨ locks j = true then peerFree mem locks L i count (j + 1)
    else
      match lastFree mem (L j) with
      | some k => some (j, k)
      | none => peerFree mem locks L i count (j + 1)

/-- What a returning call of `bget`, `brelse`, `bpin` or `bunpin` leaves
behind, apart from the links: the buffer `k` it returns or was given carries
the data `d`, every other cell keeps its data, the spin-locks are as before,
and no disk transfer was started. -/
structure Post (s s' : Bcache) (k : Nat) (d : Nat × Nat × Nat × Bool × Nat) : Prop where
  dat_self : (s'.mem (.buf k)).dat = d
  dat_other : ∀ p, p ≠ Ptr.buf k → (s'.mem p).dat = (s.mem p).dat
  locks : s'.locks = s.locks
  mutex : s'.borrow_mutex = s.borrow_mutex
  trace : ∃ evs, s'.trace = s.trace ++ evs ∧ ∀ e ∈ evs, e.isDisk = false

/-- The value of the C variable `buf_begin` of `binit` in iteration `i`: the
index of the first buffer handed to bucket `i`. -/
def bufBegin (NBUF NBUFBUCKET i : Nat) : Nat :=
  i * (NBUF / NBUFBUCKET) + min i (NBUF % NBUFBUCKET)

/-- The number of buffers `binit` hands to bucket `i`. -/
def bucketSize (NBUF NBUFBUCKET i : Nat) : Nat :=
  NBUF / NBUFBUCKET + (if i < NBUF % NBUFBUCKET then 1 else 0)

/-- The list `binit` builds for bucket `i`: its slice of the buffer array,
last buffer first. -/
def initList (NBUF NBUFBUCKET i : Nat) : List Nat :=
  (List.range' (bufBegin NBUF NBUFBUCKET i) (bucketSize NBUF NBUFBUCKET i)).reverse

/-- The invariant of the reachable cache states, for bucket lists `L` and pin
counts `pins`: the lists represent the memory, no spin-lock is held, the
reference count of a buffer is its sleep-lock holder plus its pins, a
referenced buffer is on the bucket of its block number, two buffers of one
bucket never share an identity other than the all-zero one, and `valid` is a
flag. -/
structure Inv (NBUF NBUFBUCKET : Nat) (s : Bcache) (pins : Nat → Nat)
    (L : Nat → List Nat) : Prop where
  rep : Rep NBUF NBUFBUCKET s.mem L
  locks : ∀ j, s.locks j = false
  mutex : s.borrow_mutex = false
  count : ∀ k < NBUF,
    (s.mem (.buf k)).refcnt = (if (s.mem (.buf k)).lock then 1 else 0) + pins k
  home : ∀ k < NBUF, 0 < (s.mem (.buf k)).refcnt →
    k ∈ L ((s.mem (.buf k)).blockno % NBUFBUCKET)
  uniq : ∀ dev blockno, (dev, blockno) ≠ (0, 0) →
    ∀ k1 ∈ L (blockno % NBUFBUCKET), ∀ k2 ∈ L (blockno % NBUFBUCKET),
      (s.mem (.buf k1)).dev = dev → (s.mem (.buf k1)).blockno = blockno →
      (s.mem (.buf k2)).dev = dev → (s.mem (.buf k2)).blockno = blockno → k1 = k2
  flag : ∀ k < NBUF, (s.mem (.buf k)).valid ≤ 1

/-- Whether a call halted in `panic`. -/
def Outcome.isPanic {σ α : Type} : Outcome σ α → Bool
  | .panic _ _ => true
  | _ => false

/-- The value a call returned, if it returned. -/
def Outcome.val? {σ α : Type} : Outcome σ α → Option α
  | .ret _ a => some a
  | _ => none

/-- The state a call left (the state `d` for a walk that did not end). -/
def Outcome.state {σ α : Type} (d : σ) : Outcome σ α → σ
  | .ret s _ => s
  | .panic s _ => s
  | .blocked s => s
  | .diverge => d

/-- An example state: the cache of four buffers in two buckets, after
`binit` and one `bread(1, 3)`. -/
def demoRead : Bcache :=
  (bread 4 2 (binit 4 2 bcache0) 1 3).state bcache0

/-- A call of the buffer cache interface, for writing down example runs. -/
inductive Call where
  | bread (dev blockno : Nat)
  | brelse (b : Ptr)
  | bpin (b : Ptr)
  | bunpin (b : Ptr)

/-- The state a call leaves. -/
def Call.run (NBUF NBUFBUCKET : Nat) (s : Bcache) : Call → Bcache
  | .bread dev blockno => (Bio.bread NBUF NBUFBUCKET s dev blockno).state s
  | .brelse b => (Bio.brelse NBUFBUCKET s b).state s
  | .bpin b => (Bio.bpin NBUFBUCKET s b).state s
  | .bunpin b => (Bio.bunpin NBUFBUCKET s b).state s

/-- The state a sequence of calls leaves, started right after `binit`. -/
def afterCalls (NBUF NBUFBUCKET : Nat) (calls : List Call) : Bcache :=
  calls.foldl (Call.run NBUF NBUFBUCKET) (binit NBUF NBUFBUCKET bcache0)

/-- An example state: the cache of two buffers in two buckets, after `binit`
and one `bread(1, 0)`, which leaves bucket 0 without a free buffer. -/
def demoFull : Bcache :=
  (bread 2 2 (binit 2 2 bcache0) 1 0).state bcache0

/-- An example state: the cache of two buffers in one bucket, after `binit`,
`bread(1, 1)` and `bread(1, 2)`, which leaves no free buffer at all. -/
def demoExhausted : Bcache :=
  (bread 2 1 ((bread 2 1 (binit 2 1 bcache0) 1 1).state bcache0) 1 2).state bcache0

end Bio

/-!
# Page allocator of `kernel/kalloc.c`

Physical memory is a map from byte addresses to bytes; a free page is linked
into its list by the pointer stored in its first eight bytes.  `end` (the
linker symbol, written `end_` here), `PHYSTOP` and `CPUS` come from the linker
script, `memlayout.h` and `param.h`, which are not among the sources, so they
are parameters.  Addresses and `uint64` values are numbers below `2^64`.
-/

namespace Kalloc

open Bio (Outcome)

/-- Modelled from the spec: `PGSIZE` of `riscv.h` (not among the sources), the
4096 bytes of a page. -/
def PGSIZE : Nat := 4096

/-- Modelled from the spec: the macro `PGROUNDUP` of `riscv.h` (not among the
sources): the `uint64` sum `sz + PGSIZE - 1` rounded down to a multiple of
`PGSIZE`. -/
def PGROUNDUP (sz : Nat) : Nat :=
  (sz + PGSIZE - 1) % 2 ^ 64 / PGSIZE * PGSIZE

/-- Modelled from the spec: the macro `PGROUNDDOWN` of `riscv.h` (not among the
sources): `a` rounded down to a multiple of `PGSIZE`. -/
def PGROUNDDOWN (a : Nat) : Nat :=
  a / PGSIZE * PGSIZE

/-- The spin-locks of `kmem`: `kmem.locks[i]` and `kmem.borrow_mutex`. -/
inductive Lock where
  | freelist (i : Nat)
  | borrow_mutex
  deriving DecidableEq, Repr

/-- What a call does to the lock primitives, in the order in which it does
it. -/
inductive Event where
  | acquire (l : Lock)
  | release (l : Lock)
  deriving DecidableEq, Repr

/-- The global `kmem` together with physical memory: `locks i` is the `locked`
flag of `kmem.locks[i]` and `borrow_mutex` that of `kmem.borrow_mutex`
(modelled from the spec: `struct spinlock` of `spinlock.h`, not among the
sources, is its "is locked" flag), `freelists i` is the pointer
`kmem.freelists[i]` (0 is the null pointer), `mem a` is the byte at address
`a`, and `trace` records the lock calls made so far.  The memory is total: the
model has no access fault.  The code only follows pointers that it takes from
the free lists, which on well-formed lists are pages of `[end, PHYSTOP)`. -/
structure Kmem where
  locks : Nat → Bool
  borrow_mutex : Bool
  freelists : Nat → Nat
  mem : Nat → Nat
  trace : List Event

/-- The `kmem` global before `kinit`: static storage, all zero, over a
physical memory of content `mem`. -/
def kmem0 (mem : Nat → Nat) : Kmem :=
  { locks := fun _ => false, borrow_mutex := false, freelists := fun _ => 0, mem := mem,
    trace := [] }

/-- Modelled from the spec: `memset(dst, c, n)` of `string.c` (not among the
sources): the `n` bytes from `dst` on become `c`. -/
def memset (mem : Nat → Nat) (dst c n : Nat) : Nat → Nat :=
  fun a => if dst ≤ a ∧ a < dst + n then c else mem a

/-- Reading the pointer `r->next`: the eight bytes from address `r` on, least
significant first. -/
def loadNext (mem : Nat → Nat) (r : Nat) : Nat :=
  mem r + 2 ^ 8 * mem (r + 1) + 2 ^ 16 * mem (r + 2) + 2 ^ 24 * mem (r + 3)
    + 2 ^ 32 * mem (r + 4) + 2 ^ 40 * mem (r + 5) + 2 ^ 48 * mem (r + 6)
    + 2 ^ 56 * mem (r + 7)

/-- Writing the pointer `r->next = v`: the eight bytes from address `r` on
become the bytes of `v`, least significant first. -/
def storeNext (mem : Nat → Nat) (r v : Nat) : Nat → Nat :=
  fun a => if r ≤ a ∧ a < r + 8 then v / 2 ^ (8 * (a - r)) % 2 ^ 8 else mem a

/-- Append an event to the trace. -/
def Kmem.log (s : Kmem) (e : Event) : Kmem :=
  { s with trace := s.trace ++ [e] }

/-- Set the `locked` flag of a spin-lock. -/
def Kmem.setLocked (s : Kmem) (l : Lock) (v : Bool) : Kmem :=
  match l with
  | .freelist i => { s with locks := Function.update s.locks i v }
  | .borrow_mutex => { s with borrow_mutex := v }

/-- Modelled from the spec: `initlock(lk, name)` of the spin-lock primitive
(`spinlock.c` is not among the sources): the lock starts free. -/
def Kmem.initlock (s : Kmem) (l : Lock) : Kmem :=
  s.setLocked l false

/-- Modelled from the spec: `acquire(lk)` of the spin-lock primitive
(`spinlock.c` is not among the sources), called on a lock that is free: the
caller now holds it.  On a lock that is held the call waits; the callers below
test `locked` first and give the outcome `blocked` then. -/
def Kmem.acquire (s : Kmem) (l : Lock) : Kmem :=
  (s.setLocked l true).log (.acquire l)

/-- Modelled from the spec: `release(lk)` of the spin-lock primitive
(`spinlock.c` is not among the sources). -/
def Kmem.release (s : Kmem) (l : Lock) : Kmem :=
  (s.setLocked l false).log (.release l)

/-- A store by a caller of the allocator: the byte at address `a` becomes
`b`.  This is not code of `kalloc.c`: it is what the kernel code that was
given a page by `kalloc` does with it. -/
def Kmem.store (s : Kmem) (a b : Nat) : Kmem :=
  { s with mem := Function.update s.mem a (b % 256) }

/-- The function `kfree0`. -/
def kfree0 (end_ PHYSTOP : Nat) (s : Kmem) (pa cpuid : Nat) : Outcome Kmem Unit :=
  if pa % PGSIZE ≠ 0 ∨ pa < end_ ∨ pa ≥ PHYSTOP then .panic s "kfree"
  else
    -- Fill with junk to catch dangling refs.
    let s := { s with mem := memset s.mem pa 1 PGSIZE }
    let r := pa
    if s.locks cpuid then .blocked s
    else
      let s := s.acquire (.freelist cpuid)
      let s := { s with mem := storeNext s.mem r (s.freelists cpuid) }
      let s := { s with freelists := Function.update s.freelists cpuid r }
      .ret (s.release (.freelist cpuid)) ()

/-- The function `kfree`; `cpuid` is what `cpuid()` returns, the index of the
CPU the caller runs on. -/
def kfree (end_ PHYSTOP : Nat) (s : Kmem) (cpuid : Nat) (pa : Nat) : Outcome Kmem Unit :=
  kfree0 end_ PHYSTOP s pa cpuid

/-- The loop of `freerange`, from `p` on, at most `fuel` iterations.  A
pointer is a 64-bit address: the sum `p + PGSIZE`, in the test and in the
step, is taken modulo `2^64` as the machine takes it, so that above
`2^64 - PGSIZE` it wraps to the bottom of the address space. -/
def freerangeLoop (end_ PHYSTOP : Nat) (pa_end cpuid : Nat) :
    Nat → Nat → Kmem → Outcome Kmem Unit
  | 0, p, s => if (p + PGSIZE) % 2 ^ 64 ≤ pa_end then .diverge else .ret s ()
  | fuel + 1, p, s =>
    if (p + PGSIZE) % 2 ^ 64 ≤ pa_end then
      match kfree0 end_ PHYSTOP s p cpuid with
      | .ret s _ => freerangeLoop end_ PHYSTOP pa_end cpuid fuel ((p + PGSIZE) % 2 ^ 64) s
      | .panic s msg => .panic s msg
      | .blocked s => .blocked s
      | .diverge => .diverge
    else .ret s ()

/-- The function `freerange`.  The addresses `p` takes repeat after
`2^64 / PGSIZE` iterations, and whether an iteration after the first ends the
loop depends on `p` only, so a loop that has not ended by then never ends:
`2^64 / PGSIZE` is the fuel. -/
def freerange (end_ PHYSTOP : Nat) (s : Kmem) (pa_start pa_end cpuid : Nat) :
    Outcome Kmem Unit :=
  freerangeLoop end_ PHYSTOP pa_end cpuid (2 ^ 64 / PGSIZE) (PGROUNDUP pa_start) s

/-- The loop of `kinit`: the iterations `i, i+1, ..` (`count` of them); `base`
and `range` are the C variables of those names, and the sums and products of
`uint64` values are taken modulo `2^64`. -/
def kinitLoop (end_ PHYSTOP CPUS : Nat) (base range : Nat) :
    Nat → Nat → Kmem → Outcome Kmem Unit
  | 0, _, s => .ret s ()
  | count + 1, i, s =>
    let s := s.initlock (.freelist i)
    let o :=
      if i = CPUS - 1 then
        freerange end_ PHYSTOP s ((base + range * i) % 2 ^ 64) PHYSTOP i
      else
        freerange end_ PHYSTOP s ((base + range * i) % 2 ^ 64)
          ((base + range * (i + 1)) % 2 ^ 64) i
    match o with
    | .ret s _ => kinitLoop end_ PHYSTOP CPUS base range count (i + 1) s
    | .panic s msg => .panic s msg
    | .blocked s => .blocked s
    | .diverge => .diverge

/-- The function `kinit`. -/
def kinit (end_ PHYSTOP CPUS : Nat) (s : Kmem) : Outcome Kmem Unit :=
  let base := PGROUNDUP end_
  let range := PGROUNDDOWN ((PHYSTOP + 2 ^ 64 - end_) % 2 ^ 64 / CPUS)
  kinitLoop end_ PHYSTOP CPUS base range CPUS 0 s

/-- Lines 93-105 of `kalloc`: the iterations `i, i+1, ..` (`count` of them) of
the loop over the other CPUs; the result is the value of `r` after the loop,
which is null when no iteration found a page. -/
def kallocLoop (cid : Nat) : Nat → Nat → Kmem → Outcome Kmem Nat
  | 0, _, s => .ret s 0
  | count + 1, i, s =>
    if i = cid then kallocLoop cid count (i + 1) s
    else if s.locks i then .blocked s
    else
      let s := s.acquire (.freelist i)
      let r := s.freelists i
      if r ≠ 0 then
        let s := { s with freelists := Function.update s.freelists i (loadNext s.mem r) }
        .ret (s.release (.freelist i)) r
      else kallocLoop cid count (i + 1) (s.release (.freelist i))

/-- Lines 84-108 of `kalloc`: everything up to the last `release`; the result
is the value of `r`. -/
def kallocTake (CPUS : Nat) (s : Kmem) (cid : Nat) : Outcome Kmem Nat :=
  if s.locks cid then .blocked s
  else
    let s := s.acquire (.freelist cid)
    let r := s.freelists cid
    if r ≠ 0 then
      let s := { s with freelists := Function.update s.freelists cid (loadNext s.mem r) }
      .ret (s.release (.freelist cid)) r
    else
      -- borrow from other harts
      let s := s.release (.freelist cid)
      if s.borrow_mutex then .blocked s
      else
        let s := s.acquire .borrow_mutex
        if s.locks cid then .blocked s
        else
          let s := s.acquire (.freelist cid)
          match kallocLoop cid CPUS 0 s with
          | .ret s r => .ret ((s.release .borrow_mutex).release (.freelist cid)) r
          | .panic s msg => .panic s msg
          | .blocked s => .blocked s
          | .diverge => .diverge

/-- The function `kalloc`; `cid` is what `cpuid()` returns, the index of the
CPU the caller runs on. -/
def kalloc (CPUS : Nat) (s : Kmem) (cid : Nat) : Outcome Kmem Nat :=
  match kallocTake CPUS s cid with
  | .ret s r =>
    if r ≠ 0 then .ret { s with mem := memset s.mem r 5 PGSIZE } r -- fill with junk
    else .ret s r
  | .panic s msg => .panic s msg
  | .blocked s => .blocked s
  | .diverge => .diverge

/-! ## The free lists read off the memory -/

/-- The pages met from pointer `p` on by following `next` up to the null
pointer, at most `fuel` of them. -/
def walk (mem : Nat → Nat) : Nat → Nat → List Nat
  | 0, _ => []
  | fuel + 1, p => if p = 0 then [] else p :: walk mem fuel (loadNext mem p)

/-- The free list of CPU `i`: the pages linked from `kmem.freelists[i]`, head
first.  A list of distinct pages below `PHYSTOP` has at most
`PHYSTOP / PGSIZE` elements. -/
def freelist (PHYSTOP : Nat) (s : Kmem) (i : Nat) : List Nat :=
  walk s.mem (PHYSTOP / PGSIZE) (s.freelists i)

/-- A null-terminated list: following `next` from pointer `p` visits the
pages of `l` in order and then the null pointer. -/
def KList (mem : Nat → Nat) : Nat → List Nat → Prop
  | p, [] => p = 0
  | p, a :: t => p = a ∧ a ≠ 0 ∧ KList mem (loadNext mem a) t

/-- The addresses `kfree` accepts: the negation of the test of `kfree0`. -/
def validPage (end_ PHYSTOP : Nat) (pa : Nat) : Prop :=
  pa % PGSIZE = 0 ∧ end_ ≤ pa ∧ pa < PHYSTOP

instance (end_ PHYSTOP pa : Nat) : Decidable (validPage end_ PHYSTOP pa) := by
  unfold validPage; infer_instance

/-- The lists `L 0 .. L (CPUS-1)` are the free lists of state `s`: each is the
null-terminated list linked from its head pointer, its elements are pages
that `kfree` accepts, and no page occurs twice, on one list or on two. -/
structure KRep (end_ PHYSTOP CPUS : Nat) (s : Kmem) (L : Nat → List Nat) : Prop where
  list : ∀ i < CPUS, KList s.mem (s.freelists i) (L i)
  page : ∀ i < CPUS, ∀ a ∈ L i, validPage end_ PHYSTOP a
  nodup : ∀ i < CPUS, (L i).Nodup
  disj : ∀ i < CPUS, ∀ j < CPUS, i ≠ j → ∀ a ∈ L i, a ∉ L j

/-- An allocator state between two calls: the free lists read off the memory
are well formed and no spin-lock is held. -/
structure KWF (end_ PHYSTOP CPUS : Nat) (s : Kmem) : Prop where
  rep : KRep end_ PHYSTOP CPUS s (freelist PHYSTOP s)
  locks : ∀ i, s.locks i = false
  mutex : s.borrow_mutex = false

/-- The state of `kalloc` when it enters the loop over the other CPUs. -/
def borrowEntry (s : Kmem) (c : Nat) : Kmem :=
  (((s.acquire (.freelist c)).release (.freelist c)).acquire .borrow_mutex).acquire (.freelist c)

/-- The `n` pages from address `p` on, in increasing order. -/
def pageList : Nat → Nat → List Nat
  | _, 0 => []
  | p, n + 1 => p :: pageList (p + PGSIZE) n

/-- The end of the range `kinit` hands to CPU `k`: the second argument of its
call of `freerange`. -/
def rangeEnd (PHYSTOP CPUS base range k : Nat) : Nat :=
  if k = CPUS - 1 then PHYSTOP else base + range * (k + 1)

/-- The list `kinit` builds for CPU `k`: the pages of its range, last page
first. -/
def initPages (PHYSTOP CPUS base range k : Nat) : List Nat :=
  (pageList (base + range * k)
    ((rangeEnd PHYSTOP CPUS base range k - (base + range * k)) / PGSIZE)).reverse

/-- The width of a CPU's range in the words of the claim on `kinit`:
`PGROUNDDOWN((PHYSTOP - base) / CPUS)` for `base = PGROUNDUP(end)`. -/
def rangeOfBase (end_ PHYSTOP CPUS : Nat) : Nat :=
  PGROUNDDOWN ((PHYSTOP - PGROUNDUP end_) / CPUS)

/-- The configurations the allocator is built for: `end` is the address of
an object, so it is not null, and it is not above `PHYSTOP`, the page-aligned
top of physical memory, a `uint64`; there is at least one CPU. -/
structure Config (end_ PHYSTOP CPUS : Nat) : Prop where
  end_pos : 0 < end_
  end_le : end_ ≤ PHYSTOP
  aligned : PHYSTOP % PGSIZE = 0
  bound : PHYSTOP < 2 ^ 64
  cpus : 1 ≤ CPUS

/-- The allocator states reached from `kinit` (run on the zero-initialised
`kmem`, over any memory content) by calls of `kalloc` on any CPU, calls of
`kfree` that return, and stores of the callers into the pages they own,
together with the pages owned by callers: a page is owned from the `kalloc`
that returned it to the `kfree` that gives it back, `kfree` is only applied to
an owned page, and a caller only writes to an owned page. -/
inductive KReach (end_ PHYSTOP CPUS : Nat) : Kmem → List Nat → Prop where
  | kinit (mem : Nat → Nat) {s} :
      kinit end_ PHYSTOP CPUS (kmem0 mem) = .ret s () →
      KReach end_ PHYSTOP CPUS s []
  | kalloc {s owned} (c : Nat) {s' r} :
      KReach end_ PHYSTOP CPUS s owned → c < CPUS →
      kalloc CPUS s c = .ret s' r →
      KReach end_ PHYSTOP CPUS s' (if r = 0 then owned else r :: owned)
  | kfree {s owned} (c p : Nat) {s'} :
      KReach end_ PHYSTOP CPUS s owned → c < CPUS → p ∈ owned →
      kfree end_ PHYSTOP s c p = .ret s' () →
      KReach end_ PHYSTOP CPUS s' (owned.erase p)
  | store {s owned} (p a b : Nat) :
      KReach end_ PHYSTOP CPUS s owned → p ∈ owned → p ≤ a → a < p + PGSIZE →
      KReach end_ PHYSTOP CPUS (s.store a b) owned

/-- The invariant of the reachable allocator states, for free lists `L` and
owned pages `owned`: the lists represent the memory, no spin-lock is held, and
every page that `kfree` accepts is either owned, once, or on a list. -/
structure KInv (end_ PHYSTOP CPUS : Nat) (s : Kmem) (owned : List Nat)
    (L : Nat → List Nat) : Prop where
  rep : KRep end_ PHYSTOP CPUS s L
  locks : ∀ i, s.locks i = false
  mutex : s.borrow_mutex = false
  owned_nodup : owned.Nodup
  owned_page : ∀ a ∈ owned, validPage end_ PHYSTOP a
  owned_free : ∀ a ∈ owned, ∀ i < CPUS, a ∉ L i
  cover : ∀ a, validPage end_ PHYSTOP a → a ∈ owned ∨ ∃ i < CPUS, a ∈ L i

/-- A step of an example run: a call of the allocator interface on CPU `c`, or
a store of the byte `b` at address `a` by a caller. -/
inductive KCall where
  | kalloc (c : Nat)
  | kfree (c pa : Nat)
  | store (a b : Nat)
  deriving DecidableEq, Repr

/-- The state a step leaves. -/
def KCall.run (end_ PHYSTOP CPUS : Nat) (s : Kmem) : KCall → Kmem
  | .kalloc c => (Kalloc.kalloc CPUS s c).state s
  | .kfree c pa => (Kalloc.kfree end_ PHYSTOP s c pa).state s
  | .store a b => s.store a b

/-- The eight byte stores by which a caller writes the pointer `v` at address
`a`, least significant byte first. -/
def storePointer (a v : Nat) : List KCall :=
  (List.range 8).map fun k => .store (a + k) (v / 2 ^ (8 * k) % 256)

/-- The state a sequence of steps leaves, started right after `kinit` on a
memory of zero bytes. -/
def afterKCalls (end_ PHYSTOP CPUS : Nat) (calls : List KCall) : Kmem :=
  calls.foldl (KCall.run end_ PHYSTOP CPUS)
    ((kinit end_ PHYSTOP CPUS (kmem0 fun _ => 0)).state (kmem0 fun _ => 0))

/-- An example state: `end = 1`, two page frames (4096 and 8192) and two CPUS,
right after `kinit`: each CPU has one page. -/
def demoInit : Kmem := afterKCalls 1 12288 2 []

/-- An example state: as `demoInit`, after CPU 0 has allocated its page. -/
def demoTaken : Kmem := afterKCalls 1 12288 2 [.kalloc 0]

/-- An example run on the layout of `demoInit`: CPU 0 allocates its page,
4096, and frees it twice; both `kfree` pass the validity check, and the page
is now linked to itself.  CPU 0 allocates again and is given the page, which
stays on the list. -/
def doubleFree : List KCall :=
  [.kalloc 0, .kfree 0 4096, .kfree 0 4096, .kalloc 0]

/-- The run `doubleFree`, after which the caller, which owns page 4096, writes
the pointer 4104, an address inside its page, at the start of the page. -/
def doubleFreeStore : List KCall :=
  doubleFree ++ storePointer 4096 4104

/-- An example state: as `demoTaken`, after the caller has written the pointer
4104 at the start of its page 4096. -/
def demoStored : Kmem := afterKCalls 1 12288 2 ([.kalloc 0] ++ storePointer 4096 4104)

/-- An example state: as `demoInit`, after CPU 1 has allocated its page, so
that CPU 0 holds one page and CPU 1 none. -/
def demoPeer : Kmem := afterKCalls 1 12288 2 [.kalloc 1]

end Kalloc

/-!
# Lock discipline of one caller

The lock calls that one call of `bget`, `brelse`, `bpin`, `bunpin`, `kalloc` or
`kfree` makes, read off the trace, and the properties of their order.
-/

namespace Locking

open Bio (Outcome)

/-- A spin-lock of one component: the lock of shard `i` (a bucket of the
buffer cache, a free list of the allocator) or the component's
`borrow_mutex`. -/
inductive Res where
  | shard (i : Nat)
  | borrow_mutex
  deriving DecidableEq, Repr

/-- A lock call of either component. -/
inductive Op where
  | acquire (r : Res)
  | release (r : Res)
  | acquiresleep
  | other
  deriving DecidableEq, Repr

/-- The lock call behind an event of the buffer cache. -/
def ofBio : Bio.Event → Op
  | .acquire (.bucket i) => .acquire (.shard i)
  | .acquire .borrow_mutex => .acquire .borrow_mutex
  | .release (.bucket i) => .release (.shard i)
  | .release .borrow_mutex => .release .borrow_mutex
  | .acquiresleep _ => .acquiresleep
  | .releasesleep _ => .other
  | .virtio_disk_rw _ _ => .other

/-- The lock call behind an event of the allocator. -/
def ofKalloc : Kalloc.Event → Op
  | .acquire (.freelist i) => .acquire (.shard i)
  | .acquire .borrow_mutex => .acquire .borrow_mutex
  | .release (.freelist i) => .release (.shard i)
  | .release .borrow_mutex => .release .borrow_mutex

/-- The state a call left, when it left one. -/
def state? {σ α : Type} : Outcome σ α → Option σ
  | .ret s _ => some s
  | .panic s _ => some s
  | .blocked s => some s
  | .diverge => none

/-- The events a call of the buffer cache added to the trace of `s`. -/
def bioEvents {α : Type} (s : Bio.Bcache) (o : Outcome Bio.Bcache α) : List Op :=
  (((o.state s).trace).drop s.trace.length).map ofBio

/-- The events a call of the allocator added to the trace of `s`. -/
def kallocEvents {α : Type} (s : Kalloc.Kmem) (o : Outcome Kalloc.Kmem α) : List Op :=
  (((o.state s).trace).drop s.trace.length).map ofKalloc

/-- The spin-locks the caller holds after one more lock call. -/
def holdStep (h : Res → Bool) : Op → Res → Bool
  | .acquire r => Function.update h r true
  | .release r => Function.update h r false
  | _ => h

/-- The spin-locks the caller holds after the lock calls `evs`, when it held
the locks `h` before. -/
def holdsFrom (h : Res → Bool) : List Op → Res → Bool
  | [] => h
  | e :: t => holdsFrom (holdStep h e) t

/-- The spin-locks the caller holds after the lock calls `evs` of one call. -/
def holds (evs : List Op) : Res → Bool :=
  holdsFrom (fun _ => false) evs

/-- The lock order, for a caller that held the locks `h` before: at every
point of `evs` where the caller holds two shard locks it also holds
`borrow_mutex`, and whenever it acquires a shard lock while it holds another
one, it holds `borrow_mutex` already. -/
def OrderedFrom (h : Res → Bool) (evs : List Op) : Prop :=
  ∀ pre post, evs = pre ++ post →
    (∀ i j, i ≠ j → holdsFrom h pre (.shard i) = true → holdsFrom h pre (.shard j) = true →
      holdsFrom h pre .borrow_mutex = true)
    ∧ (∀ j rest, post = .acquire (.shard j) :: rest →
        ∀ i, i ≠ j → holdsFrom h pre (.shard i) = true →
          holdsFrom h pre .borrow_mutex = true)

/-- The lock order of the events of one call. -/
def Ordered (evs : List Op) : Prop :=
  OrderedFrom (fun _ => false) evs

/-- No spin-lock is held at a call of `acquiresleep`. -/
def SleepFree (evs : List Op) : Prop :=
  ∀ pre post, evs = pre ++ .acquiresleep :: post → ∀ r, holds pre r = false

/-- Every spin-lock is released as many times as it is acquired, and none is
held at the end. -/
def Balanced (evs : List Op) : Prop :=
  ∀ r, evs.count (.acquire r) = evs.count (.release r) ∧ holds evs r = false

/-- The locks a caller holds, as a monitor of its lock calls keeps them: the
shard locks and whether it holds `borrow_mutex`. -/
structure Mon where
  shards : List Nat
  mutex : Bool
  deriving DecidableEq, Repr

/-- One step of the monitor: `none` when the lock call breaks the discipline
(a lock acquired twice or released without being held, a second shard lock
acquired without `borrow_mutex`, `borrow_mutex` released while two shard locks
are held, `acquiresleep` with a spin-lock held). -/
def Mon.step (m : Mon) : Op → Option Mon
  | .acquire (.shard j) =>
    if j ∈ m.shards then none
    else if m.shards ≠ [] ∧ m.mutex = false then none
    else some { m with shards := j :: m.shards }
  | .release (.shard j) =>
    if j ∈ m.shards then some { m with shards := m.shards.erase j } else none
  | .acquire .borrow_mutex =>
    if m.mutex then none else some { m with mutex := true }
  | .release .borrow_mutex =>
    if m.mutex = false then none
    else if 2 ≤ m.shards.length then none
    else some { m with mutex := false }
  | .acquiresleep =>
    if m.shards = [] ∧ m.mutex = false then some m else none
  | .other => some m

/-- The monitor run over a list of lock calls. -/
def Mon.run (m : Mon) : List Op → Option Mon
  | [] => some m
  | e :: t => (m.step e).bind fun m' => m'.run t

/-- The monitor state of a caller that holds nothing. -/
def Mon.idle : Mon := { shards := [], mutex := false }

/-- The monitor state `m` describes the held locks `h`. -/
structure Tracks (h : Res → Bool) (m : Mon) : Prop where
  shard : ∀ i, h (.shard i) = true ↔ i ∈ m.shards
  mutex : h .borrow_mutex = m.mutex
  nodup : m.shards.Nodup
  good : 2 ≤ m.shards.length → m.mutex = true

end Locking

/-!
# Concurrent calls of `bget`

Several CPUs run `bget` on the one `bcache`.  Each CPU is at a program point
of `bget`, and a step of the machine is a step of one CPU: a spin-lock
`acquire` (possible only when the lock is free), the read of
`peer_lock->locked`, or a stretch of code under a bucket lock.
-/

namespace Conc

open Bio

/-- The program points of `bget` between which one CPU moves in one step. -/
inductive Pc where
  /-- before `acquire(lock)`, line 72 -/
  | entry
  /-- holding the bucket lock, before the two scans of lines 75-96 -/
  | lookup
  /-- before `acquire(&bcache.borrow_mutex)`, line 98 -/
  | wantMutex
  /-- at the head of the loop of line 99, with loop variable `i` -/
  | probe (i : Nat)
  /-- before `acquire(peer_lock)`, line 108, having read `peer_lock->locked`
  as zero -/
  | wantPeer (i : Nat)
  /-- holding the lock of peer `i`, before the scan of lines 109-127 -/
  | scanPeer (i : Nat)
  /-- before `acquiresleep(&b->lock)` -/
  | sleep (b : Ptr)
  /-- returned `b` -/
  | done (b : Ptr)
  /-- halted in `panic("bget: no buffers")` -/
  | panicked
  deriving DecidableEq, Repr

/-- A CPU inside a call `bget(dev, blockno)`. -/
structure Thread where
  dev : Nat
  blockno : Nat
  pc : Pc
  deriving DecidableEq, Repr

/-- One step of one CPU on the shared cache, following the text of `bget`;
`none` when the CPU cannot move: it waits in `acquire` or `acquiresleep` for a
lock that is held, it has finished, or a list walk ran out of fuel. -/
def step (NBUF NBUFBUCKET : Nat) (s : Bcache) (t : Thread) : Option (Bcache × Thread) :=
  let bucket_idx := t.blockno % NBUFBUCKET
  let head := Ptr.head bucket_idx
  match t.pc with
  | .entry =>
    if s.locks bucket_idx then none
    else some (s.acquire (.bucket bucket_idx), { t with pc := .lookup })
  | .lookup =>
    match findCached s.mem head t.dev t.blockno NBUF (s.mem head).next with
    | none => none
    | some (some b) =>
      let s := s.store b fun c => { c with refcnt := c.refcnt + 1 }
      let s := s.release (.bucket bucket_idx)
      some (s, { t with pc := .sleep b })
    | some none =>
      match findFree s.mem head NBUF (s.mem head).prev with
      | none => none
      | some (some b) =>
        let s := claim s b t.dev t.blockno
        let s := s.release (.bucket bucket_idx)
        some (s, { t with pc := .sleep b })
      | some none => some (s, { t with pc := .wantMutex })
  | .wantMutex =>
    if s.borrow_mutex then none
    else some (s.acquire .borrow_mutex, { t with pc := .probe 0 })
  | .probe i =>
    if i < NBUFBUCKET then
      if i = bucket_idx then some (s, { t with pc := .probe (i + 1) })
      else if s.locks i then some (s, { t with pc := .probe (i + 1) })
      else some (s, { t with pc := .wantPeer i })
    else some (s, { t with pc := .panicked })
  | .wantPeer i =>
    if s.locks i then none
    else some (s.acquire (.bucket i), { t with pc := .scanPeer i })
  | .scanPeer i =>
    match findFree s.mem (.head i) NBUF (s.mem (.head i)).prev with
    | none => none
    | some (some b) =>
      let s := steal s head b
      let s := claim s b t.dev t.blockno
      let s := s.release (.bucket i)
      let s := s.release .borrow_mutex
      let s := s.release (.bucket bucket_idx)
      some (s, { t with pc := .sleep b })
    | some none => some (s.release (.bucket i), { t with pc := .probe (i + 1) })
  | .sleep b =>
    let s := s.log (.acquiresleep b)
    if (s.mem b).lock then none
    else some (s.store b fun c => { c with lock := true }, { t with pc := .done b })
  | .done _ => none
  | .panicked => none

/-- Whether the call of a CPU is over. -/
def Thread.finished (t : Thread) : Bool :=
  match t.pc with
  | .done _ => true
  | .panicked => true
  | _ => false

/-- The shared cache and the CPUs that run `bget` on it. -/
structure Config where
  cache : Bcache
  threads : List Thread

/-- One step of CPU `tid`; `none` when it cannot move. -/
def Config.step (NBUF NBUFBUCKET : Nat) (c : Config) (tid : Nat) : Option Config :=
  match c.threads.get? tid with
  | none => none
  | some t =>
    match Conc.step NBUF NBUFBUCKET c.cache t with
    | none => none
    | some (s, t') => some { cache := s, threads := c.threads.set tid t' }

/-- An interleaving: the CPUs move one after the other in the order
`schedule`; `none` when the CPU whose turn it is cannot move. -/
def Config.run (NBUF NBUFBUCKET : Nat) (c : Config) : List Nat → Option Config
  | [] => some c
  | tid :: rest =>
    match c.step NBUF NBUFBUCKET tid with
    | none => none
    | some c' => c'.run NBUF NBUFBUCKET rest

/-- A deadlock: a call is not over and no CPU can move. -/
def Config.deadlocked (NBUF NBUFBUCKET : Nat) (c : Config) : Bool :=
  c.threads.any (fun t => !t.finished)
    && (List.range c.threads.length).all fun tid => (c.step NBUF NBUFBUCKET tid).isNone

/-- One CPU alone: it moves until it cannot, at most `fuel` steps. -/
def solo (NBUF NBUFBUCKET : Nat) : Nat → Bcache → Thread → Bcache × Thread
  | 0, s, t => (s, t)
  | fuel + 1, s, t =>
    match step NBUF NBUFBUCKET s t with
    | none => (s, t)
    | some (s', t') => solo NBUF NBUFBUCKET fuel s' t'

/-- The cache of four buffers in four buckets, one buffer each, after `binit`,
`bread(1, 0)` and `bread(1, 1)`: the buffers of buckets 0 and 1 are held and
the buffers of buckets 2 and 3 are free. -/
def raceCache : Bcache :=
  (bread 4 4 ((bread 4 4 (binit 4 4 bcache0) 1 0).state bcache0) 1 1).state bcache0

/-- Two CPUs at the start of `bget(1, 4)` (bucket 0) and `bget(1, 5)`
(bucket 1) on `raceCache`. -/
def raceStart : Config :=
  { cache := raceCache,
    threads := [{ dev := 1, blockno := 4, pc := .entry }, { dev := 1, blockno := 5, pc := .entry }] }

/-- The interleaving in which CPU 0 runs up to its read of
`bcache.locks[1].locked` and CPU 1 then runs up to its `acquire` of
`borrow_mutex`. -/
def raceSchedule : List Nat := [0, 0, 0, 0, 0, 1, 1]

/-- The interleaving in which CPU 0 runs its whole call and CPU 1 runs its
whole call after that. -/
def firstThenSecond : List Nat := List.replicate 11 0 ++ List.replicate 14 1

/-- The interleaving in which CPU 1 runs its whole call and CPU 0 runs its
whole call after that. -/
def secondThenFirst : List Nat := List.replicate 11 1 ++ List.replicate 14 0

end Conc

namespace Bio

/-! ## Memory updates seen through the views -/

@[simp] theorem store_mem (s : Bcache) (p : Ptr) (f : Buf → Buf) :
    (s.store p f).mem = Function.update s.mem p (f (s.mem p)) := rfl
@[simp] theorem store_locks (s : Bcache) (p : Ptr) (f : Buf → Buf) :
    (s.store p f).locks = s.locks := rfl
@[simp] theorem store_borrow_mutex (s : Bcache) (p : Ptr) (f : Buf → Buf) :
    (s.store p f).borrow_mutex = s.borrow_mutex := rfl
@[simp] theorem store_trace (s : Bcache) (p : Ptr) (f : Buf → Buf) :
    (s.store p f).trace = s.trace := rfl
@[simp] theorem log_mem (s : Bcache) (e : Event) : (s.log e).mem = s.mem := rfl
@[simp] theorem log_locks (s : Bcache) (e : Event) : (s.log e).locks = s.locks := rfl
@[simp] theorem log_borrow_mutex (s : Bcache) (e : Event) :
    (s.log e).borrow_mutex = s.borrow_mutex := rfl
@[simp] theorem log_trace (s : Bcache) (e : Event) : (s.log e).trace = s.trace ++ [e] := rfl
@[simp] theorem acquire_mem (s : Bcache) (l : Lock) : (s.acquire l).mem = s.mem := by
  cases l <;> rfl
@[simp] theorem release_mem (s : Bcache) (l : Lock) : (s.release l).mem = s.mem := by
  cases l <;> rfl
@[simp] theorem acquire_bucket_locks (s : Bcache) (i : Nat) :
    (s.acquire (.bucket i)).locks = Function.update s.locks i true := rfl
@[simp] theorem release_bucket_locks (s : Bcache) (i : Nat) :
    (s.release (.bucket i)).locks = Function.update s.locks i false := rfl
@[simp] theorem acquire_mutex_locks (s : Bcache) :
    (s.acquire .borrow_mutex).locks = s.locks := rfl
@[simp] theorem release_mutex_locks (s : Bcache) :
    (s.release .borrow_mutex).locks = s.locks := rfl
@[simp] theorem acquire_bucket_mutex (s : Bcache) (i : Nat) :
    (s.acquire (.bucket i)).borrow_mutex = s.borrow_mutex := rfl
@[simp] theorem release_bucket_mutex (s : Bcache) (i : Nat) :
    (s.release (.bucket i)).borrow_mutex = s.borrow_mutex := rfl
@[simp] theorem acquire_mutex_mutex (s : Bcache) :
    (s.acquire .borrow_mutex).borrow_mutex = true := rfl
@[simp] theorem release_mutex_mutex (s : Bcache) :
    (s.release .borrow_mutex).borrow_mutex = false := rfl
@[simp] theorem acquire_trace (s : Bcache) (l : Lock) :
    (s.acquire l).trace = s.trace ++ [.acquire l] := by cases l <;> rfl
@[simp] theorem release_trace (s : Bcache) (l : Lock) :
    (s.release l).trace = s.trace ++ [.release l] := by cases l <;> rfl

theorem nxt_update (m : Ptr → Buf) (p : Ptr) (c : Buf) :
    nxt (Function.update m p c) = Function.update (nxt m) p c.next := by
  funext q
  by_cases h : q = p
  · subst h; simp [nxt]
  · simp [nxt, Function.update_noteq h]

theorem prv_update (m : Ptr → Buf) (p : Ptr) (c : Buf) :
    prv (Function.update m p c) = Function.update (prv m) p c.prev := by
  funext q
  by_cases h : q = p
  · subst h; simp [prv]
  · simp [prv, Function.update_noteq h]

/-! ## Segments -/

theorem Seg.frame {nx pv nx' pv' : Ptr → Ptr} :
    ∀ {l : List Nat} {p q : Ptr}, Seg nx pv p l q →
      nx' p = nx p → (∀ k ∈ l, nx' (.buf k) = nx (.buf k)) →
      (∀ k ∈ l, pv' (.buf k) = pv (.buf k)) → pv' q = pv q →
      Seg nx' pv' p l q
  | [], p, q, h, hp, _, _, hq => by
    obtain ⟨h1, h2⟩ := h
    exact ⟨by rw [hp, h1], by rw [hq, h2]⟩
  | k :: t, p, q, h, hp, hn, hv, hq => by
    obtain ⟨h1, h2, h3⟩ := h
    refine ⟨by rw [hp, h1], by rw [hv k (List.mem_cons_self _ _), h2], ?_⟩
    exact Seg.frame h3 (hn k (List.mem_cons_self _ _))
      (fun x hx => hn x (List.mem_cons_of_mem _ hx))
      (fun x hx => hv x (List.mem_cons_of_mem _ hx)) hq

theorem Seg.append {nx pv : Ptr → Ptr} {k : Nat} {l2 : List Nat} {q : Ptr} :
    ∀ {l1 : List Nat} {p : Ptr},
      Seg nx pv p (l1 ++ k :: l2) q ↔ Seg nx pv p l1 (.buf k) ∧ Seg nx pv (.buf k) l2 q
  | [], p => by simp [Seg, and_assoc]
  | k1 :: t1, p => by
    have ih := @Seg.append nx pv k l2 q t1 (.buf k1)
    show (nx p = .buf k1 ∧ pv (.buf k1) = p ∧ Seg nx pv (.buf k1) (t1 ++ k :: l2) q) ↔
      (nx p = .buf k1 ∧ pv (.buf k1) = p ∧ Seg nx pv (.buf k1) t1 (.buf k)) ∧ _
    rw [ih, and_assoc, and_assoc]

/-- The cell before `q` in a segment. -/
theorem Seg.prev_mem {nx pv : Ptr → Ptr} :
    ∀ {l : List Nat} {p q : Ptr}, Seg nx pv p l q → pv q = p ∨ ∃ x ∈ l, pv q = .buf x
  | [], p, q, h => Or.inl h.2
  | k :: t, p, q, h => by
    rcases Seg.prev_mem h.2.2 with h1 | ⟨x, hx, h1⟩
    · exact Or.inr ⟨k, List.mem_cons_self _ _, h1⟩
    · exact Or.inr ⟨x, List.mem_cons_of_mem _ hx, h1⟩

/-- The cell after `p` in a segment. -/
theorem Seg.next_mem {nx pv : Ptr → Ptr} :
    ∀ {l : List Nat} {p q : Ptr}, Seg nx pv p l q → nx p = q ∨ ∃ x ∈ l, nx p = .buf x
  | [], p, q, h => Or.inl h.1
  | k :: t, p, q, h => Or.inr ⟨k, List.mem_cons_self _ _, h.1⟩

/-- Unlinking buffer `k`: `k->prev->next = k->next; k->next->prev = k->prev`. -/
theorem Seg.unlink_seg {nx pv : Ptr → Ptr} {k : Nat} {l2 : List Nat} {q : Ptr} :
    ∀ {l1 : List Nat} {p : Ptr}, Seg nx pv p (l1 ++ k :: l2) q →
      (l1 ++ k :: l2).Nodup → (∀ x ∈ l1 ++ k :: l2, p ≠ .buf x) →
      (∀ x ∈ l1 ++ k :: l2, q ≠ .buf x) →
      Seg (Function.update nx (pv (.buf k)) (nx (.buf k)))
        (Function.update pv (nx (.buf k)) (pv (.buf k))) p (l1 ++ l2) q
  | [], p, h, hnd, hp, hq => by
    obtain ⟨h1, h2, h3⟩ := h
    simp only [List.nil_append] at *
    rw [h2]
    cases l2 with
    | nil =>
      obtain ⟨h4, h5⟩ := h3
      rw [h4]
      exact ⟨Function.update_same _ _ _, Function.update_same _ _ _⟩
    | cons k2 t =>
      obtain ⟨h4, h5, h6⟩ := h3
      have hk2 : k2 ∉ t := (List.nodup_cons.1 (List.nodup_cons.1 hnd).2).1
      rw [h4]
      refine ⟨Function.update_same _ _ _, Function.update_same _ _ _, ?_⟩
      refine Seg.frame h6 ?_ ?_ ?_ ?_
      · rw [Function.update_noteq]
        exact fun e => hp k2 (by simp) e.symm
      · intro x hx
        rw [Function.update_noteq]
        exact fun e => hp x (by simp [hx]) e.symm
      · intro x hx
        rw [Function.update_noteq]
        intro e
        injection e with e
        exact hk2 (e ▸ hx)
      · rw [Function.update_noteq]
        exact hq k2 (by simp)
  | k1 :: t1, p, h, hnd, hp, hq => by
    obtain ⟨h1, h2, h3⟩ := h
    simp only [List.cons_append] at hnd hp hq ⊢
    have hnd' := (List.nodup_cons.1 hnd)
    have ih := Seg.unlink_seg h3 hnd'.2
      (fun x hx e => hnd'.1 (by injection e with e; exact e ▸ hx))
      (fun x hx => hq x (List.mem_cons_of_mem _ hx))
    obtain ⟨ha, hb⟩ := Seg.append.1 h3
    refine ⟨?_, ?_, ih⟩
    · rw [Function.update_noteq, h1]
      rcases Seg.prev_mem ha with e | ⟨x, hx, e⟩
      · rw [e]; exact fun e' => hp k1 (by simp) e'
      · rw [e]; exact fun e' => hp x (by simp [hx]) e'
    · rw [Function.update_noteq, h2]
      rcases Seg.next_mem hb with e | ⟨x, hx, e⟩
      · rw [e]; exact fun e' => hq k1 (by simp) e'.symm
      · rw [e]
        intro e'
        injection e' with e'
        exact hnd'.1 (by simp [e', hx])

/-- Linking buffer `k` right after `h`: `k->next = h->next; k->prev = h;
h->next->prev = k; h->next = k`. -/
theorem Seg.link {nx pv : Ptr → Ptr} {k : Nat} {l : List Nat} {h q : Ptr}
    (hs : Seg nx pv h l q) (hk : k ∉ l) (hh : h ≠ .buf k) (hq : q ≠ .buf k)
    (hnd : l.Nodup) (hl : ∀ x ∈ l, h ≠ .buf x) (hlq : ∀ x ∈ l, q ≠ .buf x) :
    Seg (Function.update (Function.update nx (.buf k) (nx h)) h (.buf k))
      (Function.update (Function.update pv (.buf k) h) (nx h) (.buf k)) h (k :: l) q := by
  have hf : nx h ≠ .buf k := by
    rcases Seg.next_mem hs with e | ⟨x, hx, e⟩
    · rw [e]; exact hq
    · rw [e]; intro e'; injection e' with e'; exact hk (e' ▸ hx)
  refine ⟨by simp, ?_, ?_⟩
  · rw [Function.update_noteq hf.symm]; simp
  · cases l with
    | nil =>
      obtain ⟨h1, h2⟩ := hs
      refine ⟨?_, ?_⟩
      · rw [Function.update_noteq hh.symm]; simp [h1]
      · rw [h1]; simp
    | cons k1 t =>
      obtain ⟨h1, h2, h3⟩ := hs
      have hk1 : k1 ∉ t := (List.nodup_cons.1 hnd).1
      refine ⟨?_, ?_, ?_⟩
      · rw [Function.update_noteq hh.symm]; simp [h1]
      · rw [h1]; simp
      · refine Seg.frame h3 ?_ ?_ ?_ ?_
        · rw [Function.update_noteq (fun e => hl k1 (by simp) e.symm),
            Function.update_noteq (fun e => hk (by injection e with e; simp [e]))]
        · intro x hx
          rw [Function.update_noteq (fun e => hl x (by simp [hx]) e.symm),
            Function.update_noteq (fun e => hk (by injection e with e; simp [← e, hx]))]
        · intro x hx
          rw [h1, Function.update_noteq (fun e => hk1 (by injection e with e; exact e ▸ hx)),
            Function.update_noteq (fun e => hk (by injection e with e; simp [← e, hx]))]
        · rw [h1, Function.update_noteq (hlq k1 (by simp)), Function.update_noteq hq]

theorem walkNext_seg {m : Ptr → Buf} {i : Nat} :
    ∀ {l : List Nat} {p : Ptr} {fuel : Nat}, Seg (nxt m) (prv m) p l (.head i) →
      l.length ≤ fuel → walkNext m fuel (nxt m p) = l
  | [], p, fuel, h, _ => by
    rw [h.1]; cases fuel <;> rfl
  | k :: t, p, fuel, h, hf => by
    obtain ⟨h1, _, h3⟩ := h
    cases fuel with
    | zero => simp at hf
    | succ f =>
      rw [h1]
      show k :: walkNext m f (nxt m (.buf k)) = k :: t
      rw [walkNext_seg h3 (by simpa using hf)]

theorem findCached_seg {m : Ptr → Buf} {i dev blockno : Nat} :
    ∀ {l : List Nat} {p : Ptr} {fuel : Nat}, Seg (nxt m) (prv m) p l (.head i) →
      l.length ≤ fuel →
      findCached m (.head i) dev blockno fuel (nxt m p)
        = some ((l.find? (isCached m dev blockno)).map Ptr.buf)
  | [], p, fuel, h, _ => by
    rw [h.1]; cases fuel <;> simp [findCached]
  | k :: t, p, fuel, h, hf => by
    obtain ⟨h1, _, h3⟩ := h
    cases fuel with
    | zero => simp at hf
    | succ f =>
      rw [h1]
      have ih := @findCached_seg m i dev blockno t (.buf k) f h3 (by simpa using hf)
      by_cases hc : (m (.buf k)).dev = dev ∧ (m (.buf k)).blockno = blockno
      · simp [findCached, List.find?_cons, isCached, hc]
      · have hc' : isCached m dev blockno k = false := by simp [isCached, hc]
        rw [List.find?_cons, hc', ← ih]
        simp only [findCached, hc, if_false, reduceCtorEq, nxt]

theorem findFree_seg {m : Ptr → Buf} {i : Nat} (l : List Nat) :
    ∀ {q : Ptr} {fuel : Nat}, Seg (nxt m) (prv m) (.head i) l q →
      l.length ≤ fuel →
      findFree m (.head i) fuel (prv m q)
        = some ((l.reverse.find? (isFree m)).map Ptr.buf) := by
  induction l using List.reverseRecOn with
  | nil =>
    intro q fuel h _
    rw [h.2]; cases fuel <;> simp [findFree]
  | append_singleton l1 k ih =>
    intro q fuel h hf
    obtain ⟨h1, h2, h3⟩ := Seg.append.1 h
    cases fuel with
    | zero => simp at hf
    | succ f =>
      rw [h3]
      have ih' := @ih (.buf k) f h1 (by simpa using hf)
      by_cases hc : (m (.buf k)).refcnt = 0
      · simp [findFree, List.find?_cons, isFree, hc]
      · have hc' : isFree m k = false := by simp [isFree, hc]
        rw [List.reverse_append, List.reverse_singleton, List.singleton_append,
          List.find?_cons, hc', ← ih']
        simp only [findFree, hc, if_false, reduceCtorEq, prv]

variable {NBUF NBUFBUCKET : Nat}

theorem Rep.length_le {m : Ptr → Buf} {L : Nat → List Nat}
    (hr : Rep NBUF NBUFBUCKET m L) {i : Nat} (hi : i < NBUFBUCKET) : (L i).length ≤ NBUF := by
  have h : List.Subperm (L i) (List.range NBUF) :=
    (hr.nodup i hi).subperm (fun k hk => List.mem_range.2 (hr.bound i hi k hk))
  simpa using h.length_le

theorem Rep.walk {m : Ptr → Buf} {L : Nat → List Nat}
    (hr : Rep NBUF NBUFBUCKET m L) {i : Nat} (hi : i < NBUFBUCKET) :
    walkNext m NBUF (m (.head i)).next = L i :=
  walkNext_seg (hr.seg i hi) (hr.length_le hi)

theorem Rep.congr {m m' : Ptr → Buf} {L L' : Nat → List Nat}
    (hr : Rep NBUF NBUFBUCKET m L) (hn : nxt m' = nxt m) (hp : prv m' = prv m)
    (hL : ∀ i < NBUFBUCKET, L' i = L i) : Rep NBUF NBUFBUCKET m' L' where
  seg i hi := by rw [hn, hp, hL i hi]; exact hr.seg i hi
  nodup i hi := by rw [hL i hi]; exact hr.nodup i hi
  disj i hi j hj hij k hk := by
    rw [hL j hj]; rw [hL i hi] at hk; exact hr.disj i hi j hj hij k hk
  cover k hk := by
    obtain ⟨i, hi, h⟩ := hr.cover k hk
    exact ⟨i, hi, by rw [hL i hi]; exact h⟩
  bound i hi k hk := by rw [hL i hi] at hk; exact hr.bound i hi k hk

/-- The bucket lists read off the memory are the lists of any representation. -/
theorem Rep.bucketList_eq {s : Bcache} {L : Nat → List Nat}
    (hr : Rep NBUF NBUFBUCKET s.mem L) {i : Nat} (hi : i < NBUFBUCKET) :
    bucketList NBUF s i = L i := hr.walk hi

theorem Rep.toBucketList {s : Bcache} {L : Nat → List Nat}
    (hr : Rep NBUF NBUFBUCKET s.mem L) : Rep NBUF NBUFBUCKET s.mem (bucketList NBUF s) :=
  hr.congr rfl rfl (fun _ hi => hr.bucketList_eq hi)

/-- A buffer is on one bucket only. -/
theorem Rep.unique {m : Ptr → Buf} {L : Nat → List Nat} (hr : Rep NBUF NBUFBUCKET m L)
    {i j k : Nat} (hi : i < NBUFBUCKET) (hj : j < NBUFBUCKET) (h1 : k ∈ L i) (h2 : k ∈ L j) :
    i = j := by
  by_contra h
  exact hr.disj i hi j hj h k h1 h2

/-- Unlinking buffer `k` leaves every bucket with its list less `k`. -/
theorem Rep.unlink_rep {m : Ptr → Buf} {L : Nat → List Nat} (hr : Rep NBUF NBUFBUCKET m L)
    {k : Nat} (hk : k < NBUF) {i : Nat} (hi : i < NBUFBUCKET) :
    Seg (Function.update (nxt m) (prv m (.buf k)) (nxt m (.buf k)))
      (Function.update (prv m) (nxt m (.buf k)) (prv m (.buf k)))
      (.head i) ((L i).erase k) (.head i) := by
  obtain ⟨j, hj, hkj⟩ := hr.cover k hk
  obtain ⟨l1, l2, hl⟩ := List.append_of_mem hkj
  have hsj := hr.seg j hj
  have hndj := hr.nodup j hj
  rw [hl] at hsj hndj
  have hk1 : k ∉ l1 := by
    intro h
    have := (List.nodup_append.1 hndj).2.2 h (List.mem_cons_self _ _)
    exact this
  by_cases hij : i = j
  · subst hij
    rw [hl, List.erase_append_right _ hk1, List.erase_cons_head]
    exact Seg.unlink_seg hsj hndj (fun _ _ => by simp) (fun _ _ => by simp)
  · have hki : k ∉ L i := fun h => hij (hr.unique hi hj h hkj)
    rw [List.erase_of_not_mem hki]
    obtain ⟨ha, hb⟩ := Seg.append.1 hsj
    have hmem : ∀ x, x ∈ l1 ∨ x ∈ l2 → x ∉ L i := by
      intro x hx hxi
      have : x ∈ L j := by
        rw [hl]; rcases hx with h | h
        · exact List.mem_append_left _ h
        · exact List.mem_append_right _ (List.mem_cons_of_mem _ h)
      exact hij (hr.unique hi hj hxi this)
    have hane : ∀ p, (p = .head i ∨ ∃ x ∈ L i, p = .buf x) → p ≠ prv m (.buf k) := by
      intro p hp e
      rcases Seg.prev_mem ha with e1 | ⟨x, hx, e1⟩
      · rw [e1] at e
        rcases hp with h | ⟨y, _, h⟩
        · rw [h] at e; injection e with e; exact hij e
        · rw [h] at e; cases e
      · rw [e1] at e
        rcases hp with h | ⟨y, hy, h⟩
        · rw [h] at e; cases e
        · rw [h] at e; injection e with e; exact hmem x (Or.inl hx) (e ▸ hy)
    have hcne : ∀ p, (p = .head i ∨ ∃ x ∈ L i, p = .buf x) → p ≠ nxt m (.buf k) := by
      intro p hp e
      rcases Seg.next_mem hb with e1 | ⟨x, hx, e1⟩
      · rw [e1] at e
        rcases hp with h | ⟨y, _, h⟩
        · rw [h] at e; injection e with e; exact hij e
        · rw [h] at e; cases e
      · rw [e1] at e
        rcases hp with h | ⟨y, hy, h⟩
        · rw [h] at e; cases e
        · rw [h] at e; injection e with e; exact hmem x (Or.inr hx) (e ▸ hy)
    refine Seg.frame (hr.seg i hi) ?_ ?_ ?_ ?_
    · exact Function.update_noteq (hane _ (Or.inl rfl)) _ _
    · exact fun x hx => Function.update_noteq (hane _ (Or.inr ⟨x, hx, rfl⟩)) _ _
    · exact fun x hx => Function.update_noteq (hcne _ (Or.inr ⟨x, hx, rfl⟩)) _ _
    · exact Function.update_noteq (hcne _ (Or.inl rfl)) _ _

/-- Taking buffer `k` off its list and linking it right after the head of
bucket `i` turns a representation `L` into `moveFront L i k`. -/
theorem Rep.relink {m m' : Ptr → Buf} {L : Nat → List Nat} (hr : Rep NBUF NBUFBUCKET m L)
    {k : Nat} (hk : k < NBUF) {i : Nat} (hi : i < NBUFBUCKET)
    (hn : nxt m' = Function.update (Function.update
        (Function.update (nxt m) (prv m (.buf k)) (nxt m (.buf k))) (.buf k)
        (Function.update (nxt m) (prv m (.buf k)) (nxt m (.buf k)) (.head i)))
        (.head i) (.buf k))
    (hp : prv m' = Function.update (Function.update
        (Function.update (prv m) (nxt m (.buf k)) (prv m (.buf k))) (.buf k) (.head i))
        (Function.update (nxt m) (prv m (.buf k)) (nxt m (.buf k)) (.head i)) (.buf k)) :
    Rep NBUF NBUFBUCKET m' (moveFront L i k) := by
  have hE : ∀ j < NBUFBUCKET, k ∉ (L j).erase k := fun j hj => (hr.nodup j hj).not_mem_erase
  have hEnd : ∀ j < NBUFBUCKET, ((L j).erase k).Nodup := fun j hj => (hr.nodup j hj).erase k
  have hsub : ∀ j x, x ∈ (L j).erase k → x ∈ L j := fun j x h => List.mem_of_mem_erase h
  refine ⟨?_, ?_, ?_, ?_, ?_⟩
  · intro j hj
    rw [hn, hp]
    by_cases hji : j = i
    · subst hji
      rw [moveFront, if_pos rfl]
      exact Seg.link (hr.unlink_rep hk hj) (hE j hj) (by simp) (by simp) (hEnd j hj)
        (fun _ _ => by simp) (fun _ _ => by simp)
    · rw [moveFront, if_neg hji]
      have hf := Seg.next_mem (hr.unlink_rep hk hi)
      refine Seg.frame (hr.unlink_rep hk hj) ?_ ?_ ?_ ?_
      · rw [Function.update_noteq (by simpa using hji), Function.update_noteq (by simp)]
      · intro x hx
        rw [Function.update_noteq (by simp), Function.update_noteq]
        intro e; injection e with e; exact hE j hj (e ▸ hx)
      · intro x hx
        rw [Function.update_noteq, Function.update_noteq]
        · intro e; injection e with e; exact hE j hj (e ▸ hx)
        · rcases hf with e | ⟨y, hy, e⟩
          · rw [e]; simp
          · rw [e]; intro e'; injection e' with e'
            exact hji (hr.unique hj hi (hsub _ _ hx) (e' ▸ hsub _ _ hy))
      · rw [Function.update_noteq, Function.update_noteq (by simp)]
        rcases hf with e | ⟨y, hy, e⟩
        · rw [e]; simpa using hji
        · rw [e]; simp
  · intro j hj
    by_cases hji : j = i
    · rw [moveFront, if_pos hji]; exact List.nodup_cons.2 ⟨hE j hj, hEnd j hj⟩
    · rw [moveFront, if_neg hji]; exact hEnd j hj
  · intro a ha b hb hab x hx hx'
    have hxa : x = k ∨ x ∈ L a := by
      unfold moveFront at hx; split at hx
      · rcases List.mem_cons.1 hx with h | h
        · exact Or.inl h
        · exact Or.inr (hsub _ _ h)
      · exact Or.inr (hsub _ _ hx)
    have hxb : x = k ∨ x ∈ L b := by
      unfold moveFront at hx'; split at hx'
      · rcases List.mem_cons.1 hx' with h | h
        · exact Or.inl h
        · exact Or.inr (hsub _ _ h)
      · exact Or.inr (hsub _ _ hx')
    by_cases hxk : x = k
    · subst hxk
      have h1 : a = i := by
        by_contra h; rw [moveFront, if_neg h] at hx; exact hE a ha hx
      have h2 : b = i := by
        by_contra h; rw [moveFront, if_neg h] at hx'; exact hE b hb hx'
      exact hab (h1.trans h2.symm)
    · exact hr.disj a ha b hb hab x (hxa.resolve_left hxk) (hxb.resolve_left hxk)
  · intro x hx
    by_cases hxk : x = k
    · exact ⟨i, hi, by rw [moveFront, if_pos rfl, hxk]; exact List.mem_cons_self _ _⟩
    · obtain ⟨j, hj, h⟩ := hr.cover x hx
      refine ⟨j, hj, ?_⟩
      have : x ∈ (L j).erase k := (List.mem_erase_of_ne hxk).2 h
      unfold moveFront; split
      · exact List.mem_cons_of_mem _ this
      · exact this
  · intro j hj x hx
    unfold moveFront at hx; split at hx
    · rcases List.mem_cons.1 hx with h | h
      · exact h ▸ hk
      · exact hr.bound j hj x (hsub _ _ h)
    · exact hr.bound j hj x (hsub _ _ hx)

theorem mem_next (s : Bcache) (p : Ptr) : (s.mem p).next = nxt s.mem p := rfl
theorem mem_prev (s : Bcache) (p : Ptr) : (s.mem p).prev = prv s.mem p := rfl

theorem nxt_store_next (s : Bcache) (p x : Ptr) :
    nxt (s.store p fun c => { c with next := x }).mem = Function.update (nxt s.mem) p x :=
  nxt_update _ _ _

theorem nxt_store_prev (s : Bcache) (p x : Ptr) :
    nxt (s.store p fun c => { c with prev := x }).mem = nxt s.mem :=
  (nxt_update _ _ _).trans (Function.update_eq_self p (nxt s.mem))

theorem prv_store_prev (s : Bcache) (p x : Ptr) :
    prv (s.store p fun c => { c with prev := x }).mem = Function.update (prv s.mem) p x :=
  prv_update _ _ _

theorem prv_store_next (s : Bcache) (p x : Ptr) :
    prv (s.store p fun c => { c with next := x }).mem = prv s.mem :=
  (prv_update _ _ _).trans (Function.update_eq_self p (prv s.mem))

theorem update_app_same {α β : Type} [DecidableEq α] (f : α → β) (a b : α) :
    Function.update f a (f b) b = f b := by
  by_cases h : b = a
  · subst h; simp
  · simp [Function.update_noteq h]

theorem dat_store (s : Bcache) (p : Ptr) (f : Buf → Buf) (hf : ∀ c, (f c).dat = c.dat)
    (q : Ptr) : ((s.store p f).mem q).dat = (s.mem q).dat := by
  by_cases h : q = p
  · subst h; simp [hf]
  · simp [Function.update_noteq h]

theorem dat_store_next (s : Bcache) (p x q : Ptr) :
    ((s.store p fun c => { c with next := x }).mem q).dat = (s.mem q).dat :=
  dat_store s p (fun c => { c with next := x }) (fun _ => rfl) q

theorem dat_store_prev (s : Bcache) (p x q : Ptr) :
    ((s.store p fun c => { c with prev := x }).mem q).dat = (s.mem q).dat :=
  dat_store s p (fun c => { c with prev := x }) (fun _ => rfl) q

theorem steal_nxt (s : Bcache) (i k : Nat) :
    nxt (steal s (.head i) (.buf k)).mem = Function.update (Function.update
        (Function.update (nxt s.mem) (prv s.mem (.buf k)) (nxt s.mem (.buf k))) (.buf k)
        (Function.update (nxt s.mem) (prv s.mem (.buf k)) (nxt s.mem (.buf k)) (.head i)))
        (.head i) (.buf k) := by
  simp only [steal, mem_next, mem_prev, nxt_store_next, nxt_store_prev, prv_store_next,
    prv_store_prev]

theorem steal_prv (s : Bcache) (i k : Nat) :
    prv (steal s (.head i) (.buf k)).mem = Function.update (Function.update
        (Function.update (prv s.mem) (nxt s.mem (.buf k)) (prv s.mem (.buf k))) (.buf k)
        (.head i))
        (Function.update (nxt s.mem) (prv s.mem (.buf k)) (nxt s.mem (.buf k)) (.head i))
        (.buf k) := by
  simp only [steal, mem_next, mem_prev, nxt_store_next, nxt_store_prev, prv_store_next,
    prv_store_prev, update_app_same]

theorem steal_dat (s : Bcache) (h b p : Ptr) :
    ((steal s h b).mem p).dat = (s.mem p).dat := by
  simp only [steal, dat_store_next, dat_store_prev]

theorem toFront_nxt (s : Bcache) (i k : Nat) :
    nxt (toFront s (.head i) (.buf k)).mem = Function.update (Function.update
        (Function.update (nxt s.mem) (prv s.mem (.buf k)) (nxt s.mem (.buf k))) (.buf k)
        (Function.update (nxt s.mem) (prv s.mem (.buf k)) (nxt s.mem (.buf k)) (.head i)))
        (.head i) (.buf k) := by
  simp only [toFront, mem_next, mem_prev, nxt_store_next, nxt_store_prev, prv_store_next,
    prv_store_prev, update_app_same]

theorem toFront_prv (s : Bcache) (i k : Nat) :
    prv (toFront s (.head i) (.buf k)).mem = Function.update (Function.update
        (Function.update (prv s.mem) (nxt s.mem (.buf k)) (prv s.mem (.buf k))) (.buf k)
        (.head i))
        (Function.update (nxt s.mem) (prv s.mem (.buf k)) (nxt s.mem (.buf k)) (.head i))
        (.buf k) := by
  simp only [toFront, mem_next, mem_prev, nxt_store_next, nxt_store_prev, prv_store_next,
    prv_store_prev, update_app_same]

theorem toFront_dat (s : Bcache) (h b p : Ptr) :
    ((toFront s h b).mem p).dat = (s.mem p).dat := by
  simp only [toFront, dat_store_next, dat_store_prev]

/-! ## What `bget` does, path by path -/

theorem claim_mem (s : Bcache) (b : Ptr) (dev blockno : Nat) :
    (claim s b dev blockno).mem = Function.update s.mem b
      { s.mem b with dev := dev, blockno := blockno, valid := 0, refcnt := 1 } := by
  simp [claim]

@[simp] theorem claim_locks (s : Bcache) (b : Ptr) (dev blockno : Nat) :
    (claim s b dev blockno).locks = s.locks := rfl
@[simp] theorem claim_borrow_mutex (s : Bcache) (b : Ptr) (dev blockno : Nat) :
    (claim s b dev blockno).borrow_mutex = s.borrow_mutex := rfl
@[simp] theorem claim_trace (s : Bcache) (b : Ptr) (dev blockno : Nat) :
    (claim s b dev blockno).trace = s.trace := rfl
@[simp] theorem steal_locks (s : Bcache) (h b : Ptr) : (steal s h b).locks = s.locks := rfl
@[simp] theorem steal_borrow_mutex (s : Bcache) (h b : Ptr) :
    (steal s h b).borrow_mutex = s.borrow_mutex := rfl
@[simp] theorem steal_trace (s : Bcache) (h b : Ptr) : (steal s h b).trace = s.trace := rfl
@[simp] theorem toFront_locks (s : Bcache) (h b : Ptr) : (toFront s h b).locks = s.locks := rfl
@[simp] theorem toFront_borrow_mutex (s : Bcache) (h b : Ptr) :
    (toFront s h b).borrow_mutex = s.borrow_mutex := rfl
@[simp] theorem toFront_trace (s : Bcache) (h b : Ptr) : (toFront s h b).trace = s.trace := rfl

theorem steal_congr {s t : Bcache} (h : s.mem = t.mem) (hd b : Ptr) :
    (steal s hd b).mem = (steal t hd b).mem := by
  simp [steal, h]

theorem claim_congr {s t : Bcache} (h : s.mem = t.mem) (b : Ptr) (dev blockno : Nat) :
    (claim s b dev blockno).mem = (claim t b dev blockno).mem := by
  simp [claim_mem, h]

theorem update_true_false {f : Nat → Bool} {j : Nat} (h : f j = false) :
    Function.update (Function.update f j true) j false = f := by
  rw [Function.update_idem, ← h, Function.update_eq_self]

/-- The scan for a free buffer, on a represented bucket. -/
theorem Rep.findFree_rep {m : Ptr → Buf} {L : Nat → List Nat} (hr : Rep NBUF NBUFBUCKET m L)
    {j : Nat} (hj : j < NBUFBUCKET) :
    findFree m (.head j) NBUF (m (.head j)).prev = some ((lastFree m (L j)).map Ptr.buf) :=
  findFree_seg (L j) (hr.seg j hj) (hr.length_le hj)

/-- The scan for a cached block, on a represented bucket. -/
theorem Rep.findCached_rep {m : Ptr → Buf} {L : Nat → List Nat} (hr : Rep NBUF NBUFBUCKET m L)
    {j : Nat} (hj : j < NBUFBUCKET) (dev blockno : Nat) :
    findCached m (.head j) dev blockno NBUF (m (.head j)).next
      = some ((firstCached m dev blockno (L j)).map Ptr.buf) :=
  findCached_seg (hr.seg j hj) (hr.length_le hj)

/-- The borrow loop: it panics when no peer offers a buffer, and otherwise
moves the buffer `peerFree` names to the front of bucket `i`. -/
theorem borrow_spec (L : Nat → List Nat) (dev blockno i : Nat) (count : Nat) :
    ∀ (j : Nat) (t : Bcache), Rep NBUF NBUFBUCKET t.mem L → j + count ≤ NBUFBUCKET →
      match peerFree t.mem t.locks L i count j with
      | none => ∃ t', borrow NBUF dev blockno i count j t = .panic t' "bget: no buffers"
      | some (_, k) => ∃ t', borrow NBUF dev blockno i count j t = sleepReturn t' (.buf k)
          ∧ t'.mem = (claim (steal t (.head i) (.buf k)) (.buf k) dev blockno).mem
          ∧ t'.locks = Function.update t.locks i false ∧ t'.borrow_mutex = false
          ∧ ∃ evs, t'.trace = t.trace ++ evs ∧ ∀ e ∈ evs, e.isDisk = false := by
  induction count with
  | zero => exact fun j t _ _ => ⟨t, rfl⟩
  | succ count ih =>
    intro j t hr hb
    replace ih := ih (j + 1)
    have hj : j < NBUFBUCKET := by omega
    unfold peerFree borrow
    by_cases h1 : j = i
    · simp only [h1, true_or, if_true]
      exact h1 ▸ ih t hr (by omega)
    by_cases h2 : t.locks j = true
    · simp only [h1, h2, or_true, if_true, if_false]
      exact ih t hr (by omega)
    simp only [h1, h2, or_false, if_false, acquire_mem, Bool.false_eq_true]
    rw [hr.findFree_rep hj]
    cases hk : lastFree t.mem (L j) with
    | some k =>
      refine ⟨_, rfl, ?_, ?_, rfl, ?_⟩
      · simp only [release_mem]
        exact claim_congr (steal_congr (acquire_mem _ _) _ _) _ _ _
      · simp only [release_mutex_locks, release_bucket_locks, claim_locks, steal_locks,
          acquire_bucket_locks]
        rw [update_true_false (by simpa using h2)]
      · exact ⟨[.acquire (.bucket j), .release (.bucket j), .release .borrow_mutex,
          .release (.bucket i)], by simp, by simp [Event.isDisk]⟩
    | none =>
      have h3 := ih ((t.acquire (.bucket j)).release (.bucket j)) (by simpa using hr) (by omega)
      simp only [release_mem, acquire_mem, release_bucket_locks, acquire_bucket_locks,
        update_true_false (Bool.eq_false_iff.2 h2)] at h3
      simp only [Option.map_none']
      cases hp : peerFree t.mem t.locks L i count (j + 1) with
      | none =>
        rw [hp] at h3
        exact h3
      | some r =>
        rw [hp] at h3
        obtain ⟨t', e1, e2, e3, e4, evs, e5, e6⟩ := h3
        refine ⟨t', e1, ?_, ?_, e4, ?_⟩
        · rw [e2]
          exact claim_congr (steal_congr (by simp) _ _) _ _ _
        · rw [e3]
        · refine ⟨[.acquire (.bucket j), .release (.bucket j)] ++ evs, ?_, ?_⟩
          · rw [e5]; simp
          · intro e he
            rcases List.mem_append.1 he with h | h
            · revert h; simp; rintro (rfl | rfl) <;> rfl
            · exact e6 e h

theorem lastFree_some {m : Ptr → Buf} {l : List Nat} {k : Nat} (h : lastFree m l = some k) :
    k ∈ l ∧ (m (.buf k)).refcnt = 0 := by
  unfold lastFree at h
  have h1 := List.mem_of_find?_eq_some h
  have h2 := List.find?_some h
  exact ⟨List.mem_reverse.1 h1, by simpa [isFree] using h2⟩

theorem lastFree_none {m : Ptr → Buf} {l : List Nat} (h : lastFree m l = none) :
    ∀ k ∈ l, (m (.buf k)).refcnt ≠ 0 := by
  unfold lastFree at h
  intro k hk
  have := List.find?_eq_none.1 h k (List.mem_reverse.2 hk)
  simpa [isFree] using this

theorem firstCached_some {m : Ptr → Buf} {dev blockno : Nat} {l : List Nat} {k : Nat}
    (h : firstCached m dev blockno l = some k) :
    k ∈ l ∧ (m (.buf k)).dev = dev ∧ (m (.buf k)).blockno = blockno := by
  unfold firstCached at h
  have h1 := List.mem_of_find?_eq_some h
  have h2 := List.find?_some h
  exact ⟨h1, by simpa [isCached] using h2⟩

theorem firstCached_none {m : Ptr → Buf} {dev blockno : Nat} {l : List Nat}
    (h : firstCached m dev blockno l = none) :
    ∀ k ∈ l, ¬ ((m (.buf k)).dev = dev ∧ (m (.buf k)).blockno = blockno) := by
  unfold firstCached at h
  intro k hk
  have := List.find?_eq_none.1 h k hk
  simpa [isCached] using this

theorem peerFree_congr (m : Ptr → Buf) {locks locks' : Nat → Bool} (L : Nat → List Nat)
    (i : Nat) (h : ∀ j, j ≠ i → locks j = locks' j) (count : Nat) :
    ∀ j, peerFree m locks L i count j = peerFree m locks' L i count j := by
  induction count with
  | zero => intro j; rfl
  | succ count ih =>
    intro j
    unfold peerFree
    by_cases hj : j = i
    · simp [hj, ih]
    · simp [hj, h j hj, ih]

theorem peerFree_some {m : Ptr → Buf} {locks : Nat → Bool} {L : Nat → List Nat} {i : Nat}
    {r : Nat × Nat} (count : Nat) :
    ∀ j0, peerFree m locks L i count j0 = some r →
      j0 ≤ r.1 ∧ r.1 < j0 + count ∧ r.1 ≠ i ∧ locks r.1 = false ∧ lastFree m (L r.1) = some r.2 ∧
        ∀ j, j0 ≤ j → j < r.1 → j = i ∨ locks j = true ∨ lastFree m (L j) = none := by
  induction count with
  | zero => intro j0 h; simp [peerFree] at h
  | succ count ih =>
    intro j0 h
    unfold peerFree at h
    have step : peerFree m locks L i count (j0 + 1) = some r →
        (j0 = i ∨ locks j0 = true ∨ lastFree m (L j0) = none) →
        j0 ≤ r.1 ∧ r.1 < j0 + (count + 1) ∧ r.1 ≠ i ∧ locks r.1 = false ∧
          lastFree m (L r.1) = some r.2 ∧
          ∀ j, j0 ≤ j → j < r.1 → j = i ∨ locks j = true ∨ lastFree m (L j) = none := by
      intro h' h0
      obtain ⟨a, b, c, d, e, f⟩ := ih (j0 + 1) h'
      refine ⟨by omega, by omega, c, d, e, ?_⟩
      intro j hj1 hj2
      by_cases hjj : j = j0
      · rw [hjj]; exact h0
      · exact f j (by omega) hj2
    by_cases h1 : j0 = i ∨ locks j0 = true
    · rw [if_pos h1] at h
      exact step h (by tauto)
    · rw [if_neg h1] at h
      cases hk : lastFree m (L j0) with
      | none =>
        rw [hk] at h
        exact step h (Or.inr (Or.inr hk))
      | some k =>
        rw [hk] at h
        simp only [Option.some.injEq] at h
        subst h
        push_neg at h1
        exact ⟨le_refl _, by omega, h1.1, by simpa using h1.2, hk, fun j a b => by omega⟩

theorem peerFree_none {m : Ptr → Buf} {locks : Nat → Bool} {L : Nat → List Nat} {i : Nat}
    (count : Nat) :
    ∀ j0, peerFree m locks L i count j0 = none →
      ∀ j, j0 ≤ j → j < j0 + count → j = i ∨ locks j = true ∨ lastFree m (L j) = none := by
  induction count with
  | zero => intro j0 _ j h1 h2; omega
  | succ count ih =>
    intro j0 h j hj1 hj2
    unfold peerFree at h
    by_cases h1 : j0 = i ∨ locks j0 = true
    · rw [if_pos h1] at h
      by_cases hjj : j = j0
      · rw [hjj]; tauto
      · exact ih (j0 + 1) h j (by omega) (by omega)
    · rw [if_neg h1] at h
      cases hk : lastFree m (L j0) with
      | none =>
        rw [hk] at h
        by_cases hjj : j = j0
        · rw [hjj]; exact Or.inr (Or.inr hk)
        · exact ih (j0 + 1) h j (by omega) (by omega)
      | some k =>
        rw [hk] at h
        simp at h

theorem sleepReturn_free {t : Bcache} {b : Ptr} (h : (t.mem b).lock = false) :
    sleepReturn t b
      = .ret ((t.log (.acquiresleep b)).store b fun c => { c with lock := true }) b := by
  simp [sleepReturn, h]

theorem sleepReturn_held {t : Bcache} {b : Ptr} (h : (t.mem b).lock = true) :
    sleepReturn t b = .blocked (t.log (.acquiresleep b)) := by
  simp [sleepReturn, h]

theorem dat_update_ne (m : Ptr → Buf) {p q : Ptr} (c : Buf) (h : q ≠ p) :
    (Function.update m p c q).dat = (m q).dat := by
  rw [Function.update_noteq h]

/-- The hit path of `bget`, when the sleep-lock of the cached buffer is free. -/
theorem bget_hit {s : Bcache} {L : Nat → List Nat} {dev blockno k : Nat}
    (hr : Rep NBUF NBUFBUCKET s.mem L) (hB : 0 < NBUFBUCKET)
    (hl : s.locks (blockno % NBUFBUCKET) = false)
    (hc : firstCached s.mem dev blockno (L (blockno % NBUFBUCKET)) = some k)
    (hk : (s.mem (.buf k)).lock = false) :
    ∃ s', bget NBUF NBUFBUCKET s dev blockno = .ret s' (.buf k)
      ∧ nxt s'.mem = nxt s.mem ∧ prv s'.mem = prv s.mem
      ∧ Post s s' k ((s.mem (.buf k)).valid, (s.mem (.buf k)).dev,
          (s.mem (.buf k)).blockno, true, (s.mem (.buf k)).refcnt + 1) := by
  have hi : blockno % NBUFBUCKET < NBUFBUCKET := Nat.mod_lt _ hB
  unfold bget
  simp only [hl, Bool.false_eq_true, if_false, acquire_mem]
  rw [hr.findCached_rep hi, hc]
  simp only [Option.map_some']
  rw [sleepReturn_free (by simp [hk])]
  refine ⟨_, rfl, ?_, ?_, ?_, ?_, ?_, ?_, ?_⟩
  · simp only [store_mem, log_mem, release_mem, acquire_mem, nxt_update]
    simp [nxt]
  · simp only [store_mem, log_mem, release_mem, acquire_mem, prv_update]
    simp [prv]
  · simp [Buf.dat]
  · intro p hp
    simp only [store_mem, log_mem, release_mem, acquire_mem]
    rw [dat_update_ne _ _ hp, dat_update_ne _ _ hp]
  · simp [update_true_false hl]
  · simp
  · exact ⟨[.acquire (.bucket (blockno % NBUFBUCKET)), .release (.bucket (blockno % NBUFBUCKET)),
      .acquiresleep (.buf k)], by simp, by simp [Event.isDisk]⟩

/-- The hit path of `bget`, when the sleep-lock of the cached buffer is held:
the call waits in `acquiresleep`. -/
theorem bget_hit_held {s : Bcache} {L : Nat → List Nat} {dev blockno k : Nat}
    (hr : Rep NBUF NBUFBUCKET s.mem L) (hB : 0 < NBUFBUCKET)
    (hl : s.locks (blockno % NBUFBUCKET) = false)
    (hc : firstCached s.mem dev blockno (L (blockno % NBUFBUCKET)) = some k)
    (hk : (s.mem (.buf k)).lock = true) :
    ∃ s', bget NBUF NBUFBUCKET s dev blockno = .blocked s' := by
  have hi : blockno % NBUFBUCKET < NBUFBUCKET := Nat.mod_lt _ hB
  unfold bget
  simp only [hl, Bool.false_eq_true, if_false, acquire_mem]
  rw [hr.findCached_rep hi, hc]
  simp only [Option.map_some']
  rw [sleepReturn_held (by simp [hk])]
  exact ⟨_, rfl⟩

/-- The local reclaim path of `bget`. -/
theorem bget_reclaim {s : Bcache} {L : Nat → List Nat} {dev blockno k : Nat}
    (hr : Rep NBUF NBUFBUCKET s.mem L) (hB : 0 < NBUFBUCKET)
    (hl : s.locks (blockno % NBUFBUCKET) = false)
    (hc : firstCached s.mem dev blockno (L (blockno % NBUFBUCKET)) = none)
    (hf : lastFree s.mem (L (blockno % NBUFBUCKET)) = some k)
    (hk : (s.mem (.buf k)).lock = false) :
    ∃ s', bget NBUF NBUFBUCKET s dev blockno = .ret s' (.buf k)
      ∧ nxt s'.mem = nxt s.mem ∧ prv s'.mem = prv s.mem
      ∧ Post s s' k (0, dev, blockno, true, 1) := by
  have hi : blockno % NBUFBUCKET < NBUFBUCKET := Nat.mod_lt _ hB
  unfold bget
  simp only [hl, Bool.false_eq_true, if_false, acquire_mem]
  rw [hr.findCached_rep hi, hc]
  simp only [Option.map_none']
  rw [hr.findFree_rep hi, hf]
  simp only [Option.map_some']
  rw [sleepReturn_free (by simp [claim_mem, hk])]
  refine ⟨_, rfl, ?_, ?_, ?_, ?_, ?_, ?_, ?_⟩
  · simp only [store_mem, log_mem, release_mem, claim_mem, acquire_mem, nxt_update]
    simp [nxt]
  · simp only [store_mem, log_mem, release_mem, claim_mem, acquire_mem, prv_update]
    simp [prv]
  · simp [Buf.dat, claim_mem]
  · intro p hp
    simp only [store_mem, log_mem, release_mem, claim_mem, acquire_mem]
    rw [dat_update_ne _ _ hp, dat_update_ne _ _ hp]
  · simp [update_true_false hl]
  · simp
  · exact ⟨[.acquire (.bucket (blockno % NBUFBUCKET)), .release (.bucket (blockno % NBUFBUCKET)),
      .acquiresleep (.buf k)], by simp, by simp [Event.isDisk]⟩

/-- Entering the borrow loop. -/
theorem bget_borrow {s : Bcache} {L : Nat → List Nat} {dev blockno : Nat}
    (hr : Rep NBUF NBUFBUCKET s.mem L) (hB : 0 < NBUFBUCKET)
    (hl : s.locks (blockno % NBUFBUCKET) = false)
    (hc : firstCached s.mem dev blockno (L (blockno % NBUFBUCKET)) = none)
    (hf : lastFree s.mem (L (blockno % NBUFBUCKET)) = none) :
    bget NBUF NBUFBUCKET s dev blockno =
      if s.borrow_mutex then .blocked (s.acquire (.bucket (blockno % NBUFBUCKET)))
      else borrow NBUF dev blockno (blockno % NBUFBUCKET) NBUFBUCKET 0
        ((s.acquire (.bucket (blockno % NBUFBUCKET))).acquire .borrow_mutex) := by
  have hi : blockno % NBUFBUCKET < NBUFBUCKET := Nat.mod_lt _ hB
  unfold bget
  simp only [hl, Bool.false_eq_true, if_false, acquire_mem]
  rw [hr.findCached_rep hi, hc]
  simp only [Option.map_none']
  rw [hr.findFree_rep hi, hf]
  simp only [Option.map_none', acquire_bucket_mutex]

/-- The borrow path of `bget`, when a peer bucket offers a buffer. -/
theorem bget_steal {s : Bcache} {L : Nat → List Nat} {dev blockno j k : Nat}
    (hr : Rep NBUF NBUFBUCKET s.mem L) (hB : 0 < NBUFBUCKET)
    (hl : s.locks (blockno % NBUFBUCKET) = false)
    (hc : firstCached s.mem dev blockno (L (blockno % NBUFBUCKET)) = none)
    (hf : lastFree s.mem (L (blockno % NBUFBUCKET)) = none)
    (hm : s.borrow_mutex = false)
    (hp : peerFree s.mem s.locks L (blockno % NBUFBUCKET) NBUFBUCKET 0 = some (j, k))
    (hk : (s.mem (.buf k)).lock = false) :
    ∃ s', bget NBUF NBUFBUCKET s dev blockno = .ret s' (.buf k)
      ∧ Rep NBUF NBUFBUCKET s'.mem (moveFront L (blockno % NBUFBUCKET) k)
      ∧ Post s s' k (0, dev, blockno, true, 1) := by
  have hi : blockno % NBUFBUCKET < NBUFBUCKET := Nat.mod_lt _ hB
  obtain ⟨_, hjB, _, _, hkj, _⟩ := peerFree_some NBUFBUCKET 0 hp
  have hkN : k < NBUF := hr.bound j (by simpa using hjB) k (lastFree_some hkj).1
  rw [bget_borrow hr hB hl hc hf, hm]
  simp only [Bool.false_eq_true, if_false]
  have h := borrow_spec L dev blockno (blockno % NBUFBUCKET) NBUFBUCKET 0
    ((s.acquire (.bucket (blockno % NBUFBUCKET))).acquire .borrow_mutex)
    (by simpa using hr) (by omega)
  simp only [acquire_mem, acquire_mutex_locks, acquire_bucket_locks] at h
  rw [peerFree_congr s.mem L (blockno % NBUFBUCKET)
    (fun j hj => Function.update_noteq hj _ _) NBUFBUCKET 0, hp] at h
  obtain ⟨t, e1, e2, e3, e4, evs, e5, e6⟩ := h
  have hmem : t.mem = (claim (steal s (.head (blockno % NBUFBUCKET)) (.buf k)) (.buf k)
      dev blockno).mem := by
    rw [e2]; exact claim_congr (steal_congr (by simp) _ _) _ _ _
  have hdat : ∀ p, p ≠ Ptr.buf k → (t.mem p).dat = (s.mem p).dat := by
    intro p hp'
    rw [hmem, claim_mem, dat_update_ne _ _ hp', steal_dat]
  have hlk : (t.mem (.buf k)).lock = false := by
    have := steal_dat s (.head (blockno % NBUFBUCKET)) (.buf k) (.buf k)
    simp only [Buf.dat, Prod.mk.injEq] at this
    rw [hmem, claim_mem]; simp [this.2.2.2.1, hk]
  rw [e1, sleepReturn_free hlk]
  refine ⟨_, rfl, ?_, ?_, ?_, ?_, ?_, ?_⟩
  · refine hr.relink hkN hi ?_ ?_
    · simp only [store_mem, log_mem, nxt_update, hmem, claim_mem]
      rw [← steal_nxt]; simp [nxt]
    · simp only [store_mem, log_mem, prv_update, hmem, claim_mem]
      rw [← steal_prv]; simp [prv]
  · simp [Buf.dat, hmem, claim_mem]
  · intro p hp'
    simp only [store_mem, log_mem]
    rw [dat_update_ne _ _ hp', hdat p hp']
  · simp [e3, update_true_false hl]
  · simp [e4, hm]
  · refine ⟨[.acquire (.bucket (blockno % NBUFBUCKET)), .acquire .borrow_mutex] ++ evs
      ++ [.acquiresleep (.buf k)], ?_, ?_⟩
    · simp [e5]
    · intro e he
      simp only [List.mem_append, List.mem_cons, List.mem_singleton, List.not_mem_nil,
        or_false] at he
      rcases he with ((rfl | rfl) | h) | rfl
      · rfl
      · rfl
      · exact e6 e h
      · rfl

/-- Running out of buffers: `bget` panics. -/
theorem bget_panic {s : Bcache} {L : Nat → List Nat} {dev blockno : Nat}
    (hr : Rep NBUF NBUFBUCKET s.mem L) (hB : 0 < NBUFBUCKET)
    (hl : s.locks (blockno % NBUFBUCKET) = false)
    (hc : firstCached s.mem dev blockno (L (blockno % NBUFBUCKET)) = none)
    (hf : lastFree s.mem (L (blockno % NBUFBUCKET)) = none)
    (hm : s.borrow_mutex = false)
    (hp : peerFree s.mem s.locks L (blockno % NBUFBUCKET) NBUFBUCKET 0 = none) :
    ∃ s', bget NBUF NBUFBUCKET s dev blockno = .panic s' "bget: no buffers" := by
  rw [bget_borrow hr hB hl hc hf, hm]
  simp only [Bool.false_eq_true, if_false]
  have h := borrow_spec L dev blockno (blockno % NBUFBUCKET) NBUFBUCKET 0
    ((s.acquire (.bucket (blockno % NBUFBUCKET))).acquire .borrow_mutex)
    (by simpa using hr) (by omega)
  simp only [acquire_mem, acquire_mutex_locks, acquire_bucket_locks] at h
  rw [peerFree_congr s.mem L (blockno % NBUFBUCKET)
    (fun j hj => Function.update_noteq hj _ _) NBUFBUCKET 0, hp] at h
  exact h

/-! ## What `brelse`, `bpin` and `bunpin` do -/

theorem Rep.of_links {m m' : Ptr → Buf} {L : Nat → List Nat}
    (hr : Rep NBUF NBUFBUCKET m L) (hn : nxt m' = nxt m) (hp : prv m' = prv m) :
    Rep NBUF NBUFBUCKET m' L :=
  hr.congr hn hp (fun _ _ => rfl)

/-- The function `brelse` on a buffer whose sleep-lock is held. -/
theorem brelse_spec {s : Bcache} {L : Nat → List Nat} {k : Nat}
    (hr : Rep NBUF NBUFBUCKET s.mem L) (hB : 0 < NBUFBUCKET) (hk : k < NBUF)
    (hh : (s.mem (.buf k)).lock = true)
    (hl : s.locks ((s.mem (.buf k)).blockno % NBUFBUCKET) = false) :
    ∃ s', brelse NBUFBUCKET s (.buf k) = .ret s' ()
      ∧ Rep NBUF NBUFBUCKET s'.mem
          (if (s.mem (.buf k)).refcnt - 1 = 0
            then moveFront L ((s.mem (.buf k)).blockno % NBUFBUCKET) k else L)
      ∧ Post s s' k ((s.mem (.buf k)).valid, (s.mem (.buf k)).dev,
          (s.mem (.buf k)).blockno, false, (s.mem (.buf k)).refcnt - 1) := by
  have hi : (s.mem (.buf k)).blockno % NBUFBUCKET < NBUFBUCKET := Nat.mod_lt _ hB
  unfold brelse
  simp only [hh, Bool.true_eq_false, if_false, Bcache.releasesleep, store_mem, log_mem,
    log_locks, store_locks, Function.update_same, hl, Bool.false_eq_true, acquire_mem]
  refine ⟨_, rfl, ?_, ?_⟩
  · by_cases h0 : (s.mem (.buf k)).refcnt - 1 = 0
    · simp only [h0, if_true, release_mem]
      refine Rep.relink ?_ hk hi (toFront_nxt _ _ _) (toFront_prv _ _ _)
      refine hr.of_links ?_ ?_
      · simp only [store_mem, log_mem, acquire_mem, nxt_update]; simp [nxt]
      · simp only [store_mem, log_mem, acquire_mem, prv_update]; simp [prv]
    · simp only [h0, if_false, release_mem]
      refine hr.of_links ?_ ?_
      · simp only [store_mem, log_mem, acquire_mem, nxt_update]; simp [nxt]
      · simp only [store_mem, log_mem, acquire_mem, prv_update]; simp [prv]
  · refine ⟨?_, ?_, ?_, ?_, ?_⟩
    · split
      · rw [release_mem, toFront_dat]; simp [Buf.dat]
      · simp [Buf.dat]
    · intro p hp
      split
      · rw [release_mem, toFront_dat]
        simp only [store_mem, log_mem, acquire_mem]
        rw [dat_update_ne _ _ hp, dat_update_ne _ _ hp]
      · simp only [release_mem, store_mem, log_mem, acquire_mem]
        rw [dat_update_ne _ _ hp, dat_update_ne _ _ hp]
    · split <;> simp [update_true_false hl]
    · split <;> simp
    · refine ⟨[.releasesleep (.buf k), .acquire (.bucket ((s.mem (.buf k)).blockno % NBUFBUCKET)),
        .release (.bucket ((s.mem (.buf k)).blockno % NBUFBUCKET))], ?_, by simp [Event.isDisk]⟩
      split <;> simp

/-- The function `bpin`. -/
theorem bpin_spec {s : Bcache} {k : Nat}
    (hl : s.locks ((s.mem (.buf k)).blockno % NBUFBUCKET) = false) :
    ∃ s', bpin NBUFBUCKET s (.buf k) = .ret s' ()
      ∧ nxt s'.mem = nxt s.mem ∧ prv s'.mem = prv s.mem
      ∧ Post s s' k ((s.mem (.buf k)).valid, (s.mem (.buf k)).dev,
          (s.mem (.buf k)).blockno, (s.mem (.buf k)).lock, (s.mem (.buf k)).refcnt + 1) := by
  unfold bpin
  simp only [hl, Bool.false_eq_true, if_false]
  refine ⟨_, rfl, ?_, ?_, ?_, ?_, ?_, ?_, ?_⟩
  · simp only [store_mem, release_mem, acquire_mem, nxt_update]; simp [nxt]
  · simp only [store_mem, release_mem, acquire_mem, prv_update]; simp [prv]
  · simp [Buf.dat]
  · intro p hp
    simp only [store_mem, release_mem, acquire_mem]
    rw [dat_update_ne _ _ hp]
  · simp [update_true_false hl]
  · simp
  · exact ⟨[.acquire (.bucket ((s.mem (.buf k)).blockno % NBUFBUCKET)),
      .release (.bucket ((s.mem (.buf k)).blockno % NBUFBUCKET))], by simp, by simp [Event.isDisk]⟩

/-- The function `bunpin`. -/
theorem bunpin_spec {s : Bcache} {k : Nat}
    (hl : s.locks ((s.mem (.buf k)).blockno % NBUFBUCKET) = false) :
    ∃ s', bunpin NBUFBUCKET s (.buf k) = .ret s' ()
      ∧ nxt s'.mem = nxt s.mem ∧ prv s'.mem = prv s.mem
      ∧ Post s s' k ((s.mem (.buf k)).valid, (s.mem (.buf k)).dev,
          (s.mem (.buf k)).blockno, (s.mem (.buf k)).lock, (s.mem (.buf k)).refcnt - 1) := by
  unfold bunpin
  simp only [hl, Bool.false_eq_true, if_false]
  refine ⟨_, rfl, ?_, ?_, ?_, ?_, ?_, ?_, ?_⟩
  · simp only [store_mem, release_mem, acquire_mem, nxt_update]; simp [nxt]
  · simp only [store_mem, release_mem, acquire_mem, prv_update]; simp [prv]
  · simp [Buf.dat]
  · intro p hp
    simp only [store_mem, release_mem, acquire_mem]
    rw [dat_update_ne _ _ hp]
  · simp [update_true_false hl]
  · simp
  · exact ⟨[.acquire (.bucket ((s.mem (.buf k)).blockno % NBUFBUCKET)),
      .release (.bucket ((s.mem (.buf k)).blockno % NBUFBUCKET))], by simp, by simp [Event.isDisk]⟩

/-! ## What `binit` builds -/

theorem bufBegin_succ (NBUF NBUFBUCKET i : Nat) :
    bufBegin NBUF NBUFBUCKET (i + 1)
      = bufBegin NBUF NBUFBUCKET i + bucketSize NBUF NBUFBUCKET i := by
  simp only [bufBegin, bucketSize, Nat.succ_mul]
  split_ifs <;> omega

theorem bufBegin_mono (NBUF NBUFBUCKET : Nat) {i j : Nat} (h : i ≤ j) :
    bufBegin NBUF NBUFBUCKET i ≤ bufBegin NBUF NBUFBUCKET j := by
  induction h with
  | refl => exact le_refl _
  | step _ ih => rw [bufBegin_succ]; omega

theorem bufBegin_last (NBUF : Nat) {NBUFBUCKET : Nat} (hB : 0 < NBUFBUCKET) :
    bufBegin NBUF NBUFBUCKET NBUFBUCKET = NBUF := by
  have h1 := Nat.mod_lt NBUF hB
  have h2 := Nat.div_add_mod NBUF NBUFBUCKET
  simp only [bufBegin]
  rw [Nat.min_eq_right (le_of_lt h1)]
  exact h2

theorem mem_initList {NBUF NBUFBUCKET i k : Nat} :
    k ∈ initList NBUF NBUFBUCKET i
      ↔ bufBegin NBUF NBUFBUCKET i ≤ k ∧ k < bufBegin NBUF NBUFBUCKET (i + 1) := by
  rw [bufBegin_succ, initList, List.mem_reverse, List.mem_range'_1]

theorem nxt_store_lock (s : Bcache) (p : Ptr) (v : Bool) :
    nxt (s.store p fun c => { c with lock := v }).mem = nxt s.mem :=
  (nxt_update _ _ _).trans (Function.update_eq_self p (nxt s.mem))

theorem prv_store_lock (s : Bcache) (p : Ptr) (v : Bool) :
    prv (s.store p fun c => { c with lock := v }).mem = prv s.mem :=
  (prv_update _ _ _).trans (Function.update_eq_self p (prv s.mem))

/-- The inner loop of `binit` puts the buffers `b .. b+count-1` in front of
the list of bucket `i`, and touches no cell outside that bucket. -/
theorem binitLink_seg (i lo : Nat) (count : Nat) :
    ∀ (b : Nat) (s : Bcache) (l : List Nat),
      Seg (nxt s.mem) (prv s.mem) (.head i) l (.head i) → l.Nodup →
      (∀ x ∈ l, lo ≤ x ∧ x < b) → lo ≤ b →
      Seg (nxt (binitLink (.head i) count b s).mem) (prv (binitLink (.head i) count b s).mem)
          (.head i) ((List.range' b count).reverse ++ l) (.head i)
        ∧ ∀ p, p ≠ Ptr.head i → (∀ x, p = Ptr.buf x → x < lo) →
            nxt (binitLink (.head i) count b s).mem p = nxt s.mem p
              ∧ prv (binitLink (.head i) count b s).mem p = prv s.mem p := by
  induction count with
  | zero => intro b s l h _ _ _; exact ⟨by simpa [binitLink] using h, fun _ _ _ => ⟨rfl, rfl⟩⟩
  | succ count ih =>
    intro b s l h hnd hl hlo
    have hb : b ∉ l := fun hx => absurd (hl b hx).2 (lt_irrefl _)
    have hlink := Seg.link h hb (by simp) (by simp) hnd (fun _ _ => by simp) (fun _ _ => by simp)
    have hn : nxt ((((((s.store (.buf b) fun c => { c with next := (s.mem (.head i)).next }).store
        (.buf b) fun c => { c with prev := .head i }).store (.buf b) fun c =>
        { c with lock := false }).store ((((s.store (.buf b) fun c =>
        { c with next := (s.mem (.head i)).next }).store (.buf b) fun c =>
        { c with prev := .head i }).store (.buf b) fun c => { c with lock := false }).mem
        (.head i)).next fun c => { c with prev := .buf b }).store (.head i) fun c =>
        { c with next := .buf b })).mem
        = Function.update (Function.update (nxt s.mem) (.buf b) (nxt s.mem (.head i)))
            (.head i) (.buf b) := by
      simp only [mem_next, mem_prev, nxt_store_next, nxt_store_prev, nxt_store_lock]
    have hp : prv ((((((s.store (.buf b) fun c => { c with next := (s.mem (.head i)).next }).store
        (.buf b) fun c => { c with prev := .head i }).store (.buf b) fun c =>
        { c with lock := false }).store ((((s.store (.buf b) fun c =>
        { c with next := (s.mem (.head i)).next }).store (.buf b) fun c =>
        { c with prev := .head i }).store (.buf b) fun c => { c with lock := false }).mem
        (.head i)).next fun c => { c with prev := .buf b }).store (.head i) fun c =>
        { c with next := .buf b })).mem
        = Function.update (Function.update (prv s.mem) (.buf b) (.head i))
            (nxt s.mem (.head i)) (.buf b) := by
      simp only [mem_next, mem_prev, prv_store_next, prv_store_prev, prv_store_lock,
        nxt_store_next, nxt_store_prev, nxt_store_lock]
      rfl
    rw [← hn, ← hp] at hlink
    obtain ⟨h1, h2⟩ := ih (b + 1) _ (b :: l) hlink (List.nodup_cons.2 ⟨hb, hnd⟩)
      (fun x hx => by
        rcases List.mem_cons.1 hx with e | e
        · omega
        · have := hl x e; omega) (by omega)
    refine ⟨?_, ?_⟩
    · have e : (List.range' b (count + 1)).reverse ++ l
          = (List.range' (b + 1) count).reverse ++ b :: l := by
        rw [List.range'_succ]; simp
      rw [e]; exact h1
    · intro p hp1 hp2
      obtain ⟨e1, e2⟩ := h2 p hp1 hp2
      have hpb : p ≠ Ptr.buf b := fun e => absurd (hp2 b e) (by omega)
      have hpf : p ≠ nxt s.mem (.head i) := by
        intro e
        rcases Seg.next_mem h with e' | ⟨x, hx, e'⟩
        · exact hp1 (e.trans e')
        · have := hp2 x (e.trans e'); have := hl x hx; omega
      refine ⟨e1.trans ?_, e2.trans ?_⟩
      · rw [hn, Function.update_noteq hp1, Function.update_noteq hpb]
      · rw [hp, Function.update_noteq hpf, Function.update_noteq hpb]

/-- The loop of `binit` over the buckets builds bucket after bucket. -/
theorem binitLoop_seg (NBUF NBUFBUCKET : Nat) (count : Nat) :
    ∀ (i : Nat) (s : Bcache),
      (∀ j < i, Seg (nxt s.mem) (prv s.mem) (.head j) (initList NBUF NBUFBUCKET j) (.head j)) →
      ∀ j < i + count,
        Seg (nxt (binitLoop NBUF NBUFBUCKET count i (bufBegin NBUF NBUFBUCKET i) s).mem)
          (prv (binitLoop NBUF NBUFBUCKET count i (bufBegin NBUF NBUFBUCKET i) s).mem)
          (.head j) (initList NBUF NBUFBUCKET j) (.head j) := by
  induction count with
  | zero => intro i s h j hj; exact h j (by simpa using hj)
  | succ count ih =>
    intro i s h j hj
    unfold binitLoop
    simp only []
    have hsz : bufBegin NBUF NBUFBUCKET i + NBUF / NBUFBUCKET
        + (if i < NBUF % NBUFBUCKET then 1 else 0) - bufBegin NBUF NBUFBUCKET i
        = bucketSize NBUF NBUFBUCKET i := by
      unfold bucketSize
      rw [Nat.add_assoc, Nat.add_sub_cancel_left]
    have hnext : bufBegin NBUF NBUFBUCKET i + NBUF / NBUFBUCKET
        + (if i < NBUF % NBUFBUCKET then 1 else 0) = bufBegin NBUF NBUFBUCKET (i + 1) := by
      rw [bufBegin_succ]; unfold bucketSize
      rw [Nat.add_assoc]
    rw [hsz, hnext]
    have hj' : j < i + 1 + count := by omega
    refine ih (i + 1) _ ?_ j hj'
    intro j' hj'
    have hs0 : Seg (nxt (((s.initlock (.bucket i)).store (.head i) fun c =>
          { c with prev := .head i }).store (.head i) fun c => { c with next := .head i }).mem)
        (prv (((s.initlock (.bucket i)).store (.head i) fun c =>
          { c with prev := .head i }).store (.head i) fun c => { c with next := .head i }).mem)
        (.head i) [] (.head i) := by
      simp only [nxt_store_next, prv_store_next, prv_store_prev]
      exact ⟨Function.update_same _ _ _, Function.update_same _ _ _⟩
    obtain ⟨h1, h2⟩ := binitLink_seg i (bufBegin NBUF NBUFBUCKET i)
      (bucketSize NBUF NBUFBUCKET i) (bufBegin NBUF NBUFBUCKET i) _ [] hs0 List.nodup_nil
      (fun _ hx => by simp at hx) (le_refl _)
    by_cases hji : j' = i
    · subst hji
      simpa [initList] using h1
    · have hlt : j' < i := by omega
      have hold := h j' hlt
      have hb : ∀ x ∈ initList NBUF NBUFBUCKET j', x < bufBegin NBUF NBUFBUCKET i := by
        intro x hx
        have := (mem_initList.1 hx).2
        have := bufBegin_mono NBUF NBUFBUCKET (show j' + 1 ≤ i by omega)
        omega
      have hne : Ptr.head j' ≠ Ptr.head i := by simpa using hji
      have base : ∀ p, p ≠ Ptr.head i →
          nxt (((s.initlock (.bucket i)).store (.head i) fun c =>
            { c with prev := .head i }).store (.head i) fun c => { c with next := .head i }).mem p
            = nxt s.mem p ∧
          prv (((s.initlock (.bucket i)).store (.head i) fun c =>
            { c with prev := .head i }).store (.head i) fun c => { c with next := .head i }).mem p
            = prv s.mem p := by
        intro p hp
        simp only [nxt_store_next, nxt_store_prev, prv_store_next, prv_store_prev]
        exact ⟨Function.update_noteq hp _ _, Function.update_noteq hp _ _⟩
      refine Seg.frame hold ?_ ?_ ?_ ?_
      · exact ((h2 _ hne (by simp)).1).trans (base _ hne).1
      · intro x hx
        exact ((h2 _ (by simp) (by intro y e; injection e with e; exact e ▸ hb x hx)).1).trans
          (base _ (by simp)).1
      · intro x hx
        exact ((h2 _ (by simp) (by intro y e; injection e with e; exact e ▸ hb x hx)).2).trans
          (base _ (by simp)).2
      · exact ((h2 _ hne (by simp)).2).trans (base _ hne).2

theorem bufBegin_zero (NBUF NBUFBUCKET : Nat) : bufBegin NBUF NBUFBUCKET 0 = 0 := by
  simp [bufBegin]

theorem bufBegin_cover (NBUF NBUFBUCKET : Nat) {k : Nat} :
    ∀ n, k < bufBegin NBUF NBUFBUCKET n →
      ∃ i < n, bufBegin NBUF NBUFBUCKET i ≤ k ∧ k < bufBegin NBUF NBUFBUCKET (i + 1)
  | 0, h => by simp [bufBegin] at h
  | n + 1, h => by
    by_cases hk : k < bufBegin NBUF NBUFBUCKET n
    · obtain ⟨i, hi, h1⟩ := bufBegin_cover NBUF NBUFBUCKET n hk
      exact ⟨i, by omega, h1⟩
    · exact ⟨n, by omega, by omega, h⟩

@[simp] theorem initlock_mem (s : Bcache) (l : Lock) : (s.initlock l).mem = s.mem := by
  cases l <;> rfl

@[simp] theorem initlock_trace (s : Bcache) (l : Lock) : (s.initlock l).trace = s.trace := by
  cases l <;> rfl

/-- After `binit` the buckets are the slices of the buffer array. -/
theorem binit_rep (NBUF : Nat) {NBUFBUCKET : Nat} (hB : 0 < NBUFBUCKET) (s : Bcache) :
    Rep NBUF NBUFBUCKET (binit NBUF NBUFBUCKET s).mem (initList NBUF NBUFBUCKET) where
  seg i hi := by
    have h := binitLoop_seg NBUF NBUFBUCKET NBUFBUCKET 0 s (fun j hj => absurd hj (by omega))
      i (by omega)
    rw [bufBegin_zero] at h
    simpa [binit] using h
  nodup i _ := List.nodup_reverse.2 (List.nodup_range' _ _)
  disj i _ j _ hij k hk hk' := by
    have h1 := mem_initList.1 hk
    have h2 := mem_initList.1 hk'
    rcases Nat.lt_or_gt_of_ne hij with h | h
    · have := bufBegin_mono NBUF NBUFBUCKET (show i + 1 ≤ j by omega); omega
    · have := bufBegin_mono NBUF NBUFBUCKET (show j + 1 ≤ i by omega); omega
  cover k hk := by
    obtain ⟨i, hi, h⟩ := bufBegin_cover NBUF NBUFBUCKET NBUFBUCKET
      (by rw [bufBegin_last NBUF hB]; exact hk)
    exact ⟨i, hi, mem_initList.2 h⟩
  bound i hi k hk := by
    have h1 := (mem_initList.1 hk).2
    have h2 := bufBegin_mono NBUF NBUFBUCKET (show i + 1 ≤ NBUFBUCKET by omega)
    rw [bufBegin_last NBUF hB] at h2
    omega

theorem dat_store_lock_zero (s : Bcache) (p q : Ptr) (h : ∀ p, (s.mem p).dat = Buf.zero.dat) :
    ((s.store p fun c => { c with lock := false }).mem q).dat = Buf.zero.dat := by
  have hp := h p
  have hq := h q
  simp only [Buf.dat, Buf.zero, Prod.mk.injEq] at hp hq ⊢
  by_cases e : q = p
  · subst e; simp [hp]
  · simp [Function.update_noteq e, hq]

theorem binitLink_dat (h : Ptr) (count : Nat) :
    ∀ (b : Nat) (s : Bcache), (∀ p, (s.mem p).dat = Buf.zero.dat) →
      ∀ p, ((binitLink h count b s).mem p).dat = Buf.zero.dat := by
  induction count with
  | zero => intro b s hz p; exact hz p
  | succ count ih =>
    intro b s hz p
    unfold binitLink
    refine ih (b + 1) _ ?_ p
    intro q
    rw [dat_store_next, dat_store_prev]
    refine dat_store_lock_zero _ _ _ ?_
    intro r
    rw [dat_store_prev, dat_store_next]
    exact hz r

theorem binitLink_other (h : Ptr) (count : Nat) :
    ∀ (b : Nat) (s : Bcache), (binitLink h count b s).locks = s.locks
      ∧ (binitLink h count b s).borrow_mutex = s.borrow_mutex
      ∧ (binitLink h count b s).trace = s.trace := by
  induction count with
  | zero => intro b s; exact ⟨rfl, rfl, rfl⟩
  | succ count ih =>
    intro b s
    unfold binitLink
    obtain ⟨h1, h2, h3⟩ := ih (b + 1)
      (((((s.store (.buf b) fun c => { c with next := (s.mem h).next }).store (.buf b) fun c =>
        { c with prev := h }).store (.buf b) fun c => { c with lock := false }).store
        ((((s.store (.buf b) fun c => { c with next := (s.mem h).next }).store (.buf b) fun c =>
        { c with prev := h }).store (.buf b) fun c => { c with lock := false }).mem h).next
        fun c => { c with prev := .buf b }).store h fun c => { c with next := .buf b })
    exact ⟨h1, h2, h3⟩

theorem binitLoop_other (NBUF NBUFBUCKET : Nat) (count : Nat) :
    ∀ (i e : Nat) (s : Bcache), (∀ p, (s.mem p).dat = Buf.zero.dat) →
      (∀ j, s.locks j = false) →
      (∀ p, ((binitLoop NBUF NBUFBUCKET count i e s).mem p).dat = Buf.zero.dat)
      ∧ (∀ j, (binitLoop NBUF NBUFBUCKET count i e s).locks j = false)
      ∧ (binitLoop NBUF NBUFBUCKET count i e s).borrow_mutex = s.borrow_mutex
      ∧ (binitLoop NBUF NBUFBUCKET count i e s).trace = s.trace := by
  induction count with
  | zero => intro i e s hz hl; exact ⟨hz, hl, rfl, rfl⟩
  | succ count ih =>
    intro i e s hz hl
    unfold binitLoop
    simp only []
    obtain ⟨l1, l2, l3⟩ := binitLink_other (.head i)
      (e + NBUF / NBUFBUCKET + (if i < NBUF % NBUFBUCKET then 1 else 0) - e) e
      (((s.initlock (.bucket i)).store (.head i) fun c => { c with prev := .head i }).store
        (.head i) fun c => { c with next := .head i })
    obtain ⟨h1, h2, h3, h4⟩ := ih (i + 1)
      (e + NBUF / NBUFBUCKET + (if i < NBUF % NBUFBUCKET then 1 else 0))
      (binitLink (.head i)
        (e + NBUF / NBUFBUCKET + (if i < NBUF % NBUFBUCKET then 1 else 0) - e) e
        (((s.initlock (.bucket i)).store (.head i) fun c => { c with prev := .head i }).store
          (.head i) fun c => { c with next := .head i }))
      (binitLink_dat _ _ _ _ (by
        intro p
        rw [dat_store_next, dat_store_prev, initlock_mem]
        exact hz p))
      (by
        intro j
        rw [l1]
        show Function.update s.locks i false j = false
        by_cases hj : j = i
        · rw [hj, Function.update_same]
        · rw [Function.update_noteq hj]; exact hl j)
    refine ⟨h1, h2, ?_, ?_⟩
    · rw [h3, l2]; rfl
    · rw [h4, l3]; rfl

/-- The state `binit` leaves when it starts from the zero-initialised `bcache`:
every buffer still carries zero data, and no lock is held. -/
theorem binit_zero (NBUF NBUFBUCKET : Nat) :
    (∀ p, ((binit NBUF NBUFBUCKET bcache0).mem p).dat = Buf.zero.dat)
      ∧ (∀ j, (binit NBUF NBUFBUCKET bcache0).locks j = false)
      ∧ (binit NBUF NBUFBUCKET bcache0).borrow_mutex = false
      ∧ (binit NBUF NBUFBUCKET bcache0).trace = [] := by
  obtain ⟨h1, h2, _, h4⟩ := binitLoop_other NBUF NBUFBUCKET NBUFBUCKET 0 0 bcache0
    (fun _ => rfl) (fun _ => rfl)
  refine ⟨?_, ?_, rfl, ?_⟩
  · intro p; rw [binit, initlock_mem]; exact h1 p
  · intro j; exact h2 j
  · rw [binit, initlock_trace]; exact h4

/-! ## The paths of `bget`, as one case distinction -/

theorem dat_eq_iff {c : Buf} {v d b : Nat} {l : Bool} {r : Nat} :
    c.dat = (v, d, b, l, r)
      ↔ c.valid = v ∧ c.dev = d ∧ c.blockno = b ∧ c.lock = l ∧ c.refcnt = r := by
  simp [Buf.dat]

theorem dat_eq_dat {c c' : Buf} :
    c.dat = c'.dat
      ↔ c.valid = c'.valid ∧ c.dev = c'.dev ∧ c.blockno = c'.blockno ∧ c.lock = c'.lock
        ∧ c.refcnt = c'.refcnt := by
  simp [Buf.dat]

/-- Every outcome of `bget` on a represented cache whose bucket lock is free:
it waits for the sleep-lock of the cached buffer, returns the cached buffer,
reclaims the tail-most free buffer of its bucket, waits for `borrow_mutex`,
takes a free buffer of a peer bucket, or panics. -/
theorem bget_cases {s : Bcache} {L : Nat → List Nat} (dev blockno : Nat)
    (hr : Rep NBUF NBUFBUCKET s.mem L) (hB : 0 < NBUFBUCKET)
    (hidle : ∀ k < NBUF, (s.mem (.buf k)).refcnt = 0 → (s.mem (.buf k)).lock = false)
    (hl : s.locks (blockno % NBUFBUCKET) = false) :
    (∃ k s', firstCached s.mem dev blockno (L (blockno % NBUFBUCKET)) = some k
        ∧ (s.mem (.buf k)).lock = true
        ∧ bget NBUF NBUFBUCKET s dev blockno = .blocked s')
    ∨ (∃ k s', firstCached s.mem dev blockno (L (blockno % NBUFBUCKET)) = some k
        ∧ (s.mem (.buf k)).lock = false
        ∧ bget NBUF NBUFBUCKET s dev blockno = .ret s' (.buf k)
        ∧ nxt s'.mem = nxt s.mem ∧ prv s'.mem = prv s.mem
        ∧ Post s s' k ((s.mem (.buf k)).valid, (s.mem (.buf k)).dev,
            (s.mem (.buf k)).blockno, true, (s.mem (.buf k)).refcnt + 1))
    ∨ (∃ k s', firstCached s.mem dev blockno (L (blockno % NBUFBUCKET)) = none
        ∧ lastFree s.mem (L (blockno % NBUFBUCKET)) = some k
        ∧ bget NBUF NBUFBUCKET s dev blockno = .ret s' (.buf k)
        ∧ nxt s'.mem = nxt s.mem ∧ prv s'.mem = prv s.mem
        ∧ Post s s' k (0, dev, blockno, true, 1))
    ∨ (∃ s', firstCached s.mem dev blockno (L (blockno % NBUFBUCKET)) = none
        ∧ lastFree s.mem (L (blockno % NBUFBUCKET)) = none
        ∧ s.borrow_mutex = true
        ∧ bget NBUF NBUFBUCKET s dev blockno = .blocked s')
    ∨ (∃ j k s', firstCached s.mem dev blockno (L (blockno % NBUFBUCKET)) = none
        ∧ lastFree s.mem (L (blockno % NBUFBUCKET)) = none
        ∧ s.borrow_mutex = false
        ∧ peerFree s.mem s.locks L (blockno % NBUFBUCKET) NBUFBUCKET 0 = some (j, k)
        ∧ bget NBUF NBUFBUCKET s dev blockno = .ret s' (.buf k)
        ∧ Rep NBUF NBUFBUCKET s'.mem (moveFront L (blockno % NBUFBUCKET) k)
        ∧ Post s s' k (0, dev, blockno, true, 1))
    ∨ (∃ s', firstCached s.mem dev blockno (L (blockno % NBUFBUCKET)) = none
        ∧ lastFree s.mem (L (blockno % NBUFBUCKET)) = none
        ∧ s.borrow_mutex = false
        ∧ peerFree s.mem s.locks L (blockno % NBUFBUCKET) NBUFBUCKET 0 = none
        ∧ bget NBUF NBUFBUCKET s dev blockno = .panic s' "bget: no buffers") := by
  have hi : blockno % NBUFBUCKET < NBUFBUCKET := Nat.mod_lt _ hB
  cases hc : firstCached s.mem dev blockno (L (blockno % NBUFBUCKET)) with
  | some k =>
    cases hk : (s.mem (.buf k)).lock with
    | true =>
      obtain ⟨s', h⟩ := bget_hit_held hr hB hl hc hk
      exact Or.inl ⟨k, s', rfl, hk, h⟩
    | false =>
      obtain ⟨s', h⟩ := bget_hit hr hB hl hc hk
      exact Or.inr (Or.inl ⟨k, s', rfl, hk, h⟩)
  | none =>
    cases hf : lastFree s.mem (L (blockno % NBUFBUCKET)) with
    | some k =>
      have hk := lastFree_some hf
      have hlk := hidle k (hr.bound _ hi k hk.1) hk.2
      obtain ⟨s', h⟩ := bget_reclaim hr hB hl hc hf hlk
      exact Or.inr (Or.inr (Or.inl ⟨k, s', rfl, rfl, h⟩))
    | none =>
      cases hm : s.borrow_mutex with
      | true =>
        refine Or.inr (Or.inr (Or.inr (Or.inl
          ⟨s.acquire (.bucket (blockno % NBUFBUCKET)), rfl, rfl, rfl, ?_⟩)))
        rw [bget_borrow hr hB hl hc hf, hm]; rfl
      | false =>
        cases hp : peerFree s.mem s.locks L (blockno % NBUFBUCKET) NBUFBUCKET 0 with
        | some r =>
          obtain ⟨j, k⟩ := r
          obtain ⟨_, hjB, _, _, hkj, _⟩ := peerFree_some NBUFBUCKET 0 hp
          have hk := lastFree_some hkj
          have hlk := hidle k (hr.bound j (by simpa using hjB) k hk.1) hk.2
          obtain ⟨s', h⟩ := bget_steal hr hB hl hc hf hm hp hlk
          exact Or.inr (Or.inr (Or.inr (Or.inr (Or.inl ⟨j, k, s', rfl, rfl, rfl, rfl, h⟩))))
        | none =>
          obtain ⟨s', h⟩ := bget_panic hr hB hl hc hf hm hp
          exact Or.inr (Or.inr (Or.inr (Or.inr (Or.inr ⟨s', rfl, rfl, rfl, rfl, h⟩))))

theorem mem_moveFront {L : Nat → List Nat} {i k j x : Nat} (h : x ∈ moveFront L i k j) :
    x ∈ L j ∨ (x = k ∧ j = i) := by
  unfold moveFront at h
  split at h
  · rcases List.mem_cons.1 h with e | e
    · exact Or.inr ⟨e, by assumption⟩
    · exact Or.inl (List.mem_of_mem_erase e)
  · exact Or.inl (List.mem_of_mem_erase h)

theorem mem_moveFront_of_ne {L : Nat → List Nat} {i k j x : Nat} (h : x ∈ L j) (hx : x ≠ k) :
    x ∈ moveFront L i k j := by
  have : x ∈ (L j).erase k := (List.mem_erase_of_ne hx).2 h
  unfold moveFront
  split
  · exact List.mem_cons_of_mem _ this
  · exact this

theorem mem_moveFront_self (L : Nat → List Nat) (i k : Nat) : k ∈ moveFront L i k i := by
  simp [moveFront]

/-- A returning call of `bget`: the buffer it returns, the bucket lists it
leaves, and which of its paths it took. -/
theorem bget_ret {s s' : Bcache} {b : Ptr} {L : Nat → List Nat} {dev blockno : Nat}
    (hr : Rep NBUF NBUFBUCKET s.mem L) (hB : 0 < NBUFBUCKET)
    (hidle : ∀ k < NBUF, (s.mem (.buf k)).refcnt = 0 → (s.mem (.buf k)).lock = false)
    (hl : s.locks (blockno % NBUFBUCKET) = false)
    (h : bget NBUF NBUFBUCKET s dev blockno = .ret s' b) :
    ∃ k L' d, b = .buf k ∧ k < NBUF ∧ k ∈ L' (blockno % NBUFBUCKET)
      ∧ Rep NBUF NBUFBUCKET s'.mem L'
      ∧ (∀ j x, x ∈ L' j → x ∈ L j ∨ (x = k ∧ j = blockno % NBUFBUCKET))
      ∧ (∀ j x, x ∈ L j → x ≠ k → x ∈ L' j)
      ∧ Post s s' k d
      ∧ ((firstCached s.mem dev blockno (L (blockno % NBUFBUCKET)) = some k
            ∧ (s.mem (.buf k)).lock = false
            ∧ d = ((s.mem (.buf k)).valid, (s.mem (.buf k)).dev, (s.mem (.buf k)).blockno,
                true, (s.mem (.buf k)).refcnt + 1)
            ∧ L' = L)
          ∨ (firstCached s.mem dev blockno (L (blockno % NBUFBUCKET)) = none
            ∧ (s.mem (.buf k)).refcnt = 0
            ∧ d = (0, dev, blockno, true, 1)
            ∧ ((L' = L ∧ lastFree s.mem (L (blockno % NBUFBUCKET)) = some k)
              ∨ (L' = moveFront L (blockno % NBUFBUCKET) k
                ∧ lastFree s.mem (L (blockno % NBUFBUCKET)) = none
                ∧ ∃ j, peerFree s.mem s.locks L (blockno % NBUFBUCKET) NBUFBUCKET 0
                    = some (j, k))))) := by
  have hi : blockno % NBUFBUCKET < NBUFBUCKET := Nat.mod_lt _ hB
  rcases bget_cases dev blockno hr hB hidle hl with
    ⟨k, t, _, _, e⟩ | ⟨k, t, hc, hk, e, e1, e2, hp⟩ | ⟨k, t, hc, hf, e, e1, e2, hp⟩ |
    ⟨t, _, _, _, e⟩ | ⟨j, k, t, hc, hf, hm, hpf, e, hr', hp⟩ | ⟨t, _, _, _, _, e⟩
  · rw [e] at h; cases h
  · rw [e] at h; cases h
    have hkL := (firstCached_some hc).1
    exact ⟨k, L, _, rfl, hr.bound _ hi k hkL, hkL, hr.of_links e1 e2, fun _ _ hx => Or.inl hx,
      fun _ _ hx _ => hx, hp, Or.inl ⟨hc, hk, rfl, rfl⟩⟩
  · rw [e] at h; cases h
    have hkL := lastFree_some hf
    exact ⟨k, L, _, rfl, hr.bound _ hi k hkL.1, hkL.1, hr.of_links e1 e2,
      fun _ _ hx => Or.inl hx, fun _ _ hx _ => hx, hp,
      Or.inr ⟨hc, hkL.2, rfl, Or.inl ⟨rfl, hf⟩⟩⟩
  · rw [e] at h; cases h
  · rw [e] at h; cases h
    obtain ⟨_, hjB, _, _, hkj, _⟩ := peerFree_some NBUFBUCKET 0 hpf
    have hkL := lastFree_some hkj
    exact ⟨k, _, _, rfl, hr.bound j (by simpa using hjB) k hkL.1, mem_moveFront_self _ _ _, hr',
      fun _ _ hx => mem_moveFront hx, fun _ _ hx hne => mem_moveFront_of_ne hx hne, hp,
      Or.inr ⟨hc, hkL.2, rfl, Or.inr ⟨rfl, hf, j, hpf⟩⟩⟩
  · rw [e] at h; cases h

/-! ## The invariant of the reachable states -/

theorem find?_unique {l : List Nat} {p : Nat → Bool} {k : Nat} (hk : k ∈ l) (hp : p k = true)
    (hu : ∀ x ∈ l, x ≠ k → p x = false) : l.find? p = some k := by
  induction l with
  | nil => simp at hk
  | cons a t ih =>
    by_cases ha : a = k
    · subst ha; simp [List.find?_cons, hp]
    · have hk' : k ∈ t := by
        rcases List.mem_cons.1 hk with e | e
        · exact absurd e.symm ha
        · exact e
      rw [List.find?_cons, hu a (List.mem_cons_self _ _) ha]
      exact ih hk' (fun x hx => hu x (List.mem_cons_of_mem _ hx))

theorem find?_congr_mem {l : List Nat} {p q : Nat → Bool} (h : ∀ x ∈ l, p x = q x) :
    l.find? p = l.find? q := by
  induction l with
  | nil => rfl
  | cons a t ih =>
    rw [List.find?_cons, List.find?_cons, h a (List.mem_cons_self _ _),
      ih (fun x hx => h x (List.mem_cons_of_mem _ hx))]

theorem Post.other {s s' : Bcache} {k : Nat} {d : Nat × Nat × Nat × Bool × Nat}
    (hp : Post s s' k d) {x : Nat} (hx : x ≠ k) :
    (s'.mem (.buf x)).valid = (s.mem (.buf x)).valid
      ∧ (s'.mem (.buf x)).dev = (s.mem (.buf x)).dev
      ∧ (s'.mem (.buf x)).blockno = (s.mem (.buf x)).blockno
      ∧ (s'.mem (.buf x)).lock = (s.mem (.buf x)).lock
      ∧ (s'.mem (.buf x)).refcnt = (s.mem (.buf x)).refcnt :=
  dat_eq_dat.1 (hp.dat_other (.buf x) (by intro e; injection e with e; exact hx e))

theorem Inv.idle {s : Bcache} {pins : Nat → Nat} {L : Nat → List Nat}
    (hI : Inv NBUF NBUFBUCKET s pins L) :
    ∀ k < NBUF, (s.mem (.buf k)).refcnt = 0 → (s.mem (.buf k)).lock = false := by
  intro k hk h0
  have := hI.count k hk
  rw [h0] at this
  cases hl : (s.mem (.buf k)).lock with
  | false => rfl
  | true => rw [hl] at this; simp at this; omega

/-- A returning call of `bget` keeps the invariant. -/
theorem bget_inv {s s' : Bcache} {b : Ptr} {pins : Nat → Nat} {L : Nat → List Nat}
    {dev blockno : Nat} (hI : Inv NBUF NBUFBUCKET s pins L) (hB : 0 < NBUFBUCKET)
    (h : bget NBUF NBUFBUCKET s dev blockno = .ret s' b) :
    ∃ k L', b = .buf k ∧ k < NBUF ∧ Inv NBUF NBUFBUCKET s' pins L'
      ∧ (s'.mem (.buf k)).dev = dev ∧ (s'.mem (.buf k)).blockno = blockno
      ∧ (s'.mem (.buf k)).lock = true ∧ 1 ≤ (s'.mem (.buf k)).refcnt
      ∧ firstCached s'.mem dev blockno (L' (blockno % NBUFBUCKET)) = some k
      ∧ (∀ k0, firstCached s.mem dev blockno (L (blockno % NBUFBUCKET)) = some k0 →
          k0 = k ∧ (s'.mem (.buf k)).valid = (s.mem (.buf k)).valid)
      ∧ (∃ evs, s'.trace = s.trace ++ evs ∧ ∀ e ∈ evs, e.isDisk = false) := by
  obtain ⟨k, L', d, hb, hkN, hkL, hr', hsub, hsup, hp, hcase⟩ :=
    bget_ret hI.rep hB hI.idle (hI.locks _) h
  have hself := hp.dat_self
  -- the data of the returned buffer
  have hnew : (s'.mem (.buf k)).dev = dev ∧ (s'.mem (.buf k)).blockno = blockno
      ∧ (s'.mem (.buf k)).lock = true
      ∧ (s'.mem (.buf k)).refcnt = 1 + pins k := by
    rcases hcase with ⟨hc, hlk, hd, _⟩ | ⟨_, h0, hd, _⟩
    · rw [hd] at hself
      obtain ⟨_, e2, e3, e4, e5⟩ := dat_eq_iff.1 hself
      have hc' := firstCached_some hc
      have hcnt := hI.count k hkN
      rw [hlk] at hcnt
      refine ⟨e2.trans hc'.2.1, e3.trans hc'.2.2, e4, ?_⟩
      rw [e5, hcnt]; simp; omega
    · rw [hd] at hself
      obtain ⟨_, e2, e3, e4, e5⟩ := dat_eq_iff.1 hself
      have hcnt := hI.count k hkN
      rw [h0] at hcnt
      refine ⟨e2, e3, e4, ?_⟩
      rw [e5]; omega
  obtain ⟨hdev, hblk, hlock, hcnt⟩ := hnew
  -- buffers other than the returned one that share its new identity
  have hclash : ∀ x, x ≠ k → x ∈ L (blockno % NBUFBUCKET) →
      (s.mem (.buf x)).dev = dev → (s.mem (.buf x)).blockno = blockno →
      (dev, blockno) ≠ (0, 0) → False := by
    intro x hx hxL hxd hxb hne
    rcases hcase with ⟨hc, _, _, _⟩ | ⟨hc, _, _, _⟩
    · have hc' := firstCached_some hc
      exact hx (hI.uniq dev blockno hne x hxL k hc'.1 hxd hxb hc'.2.1 hc'.2.2)
    · exact firstCached_none hc x hxL ⟨hxd, hxb⟩
  have hflag : ∀ x < NBUF, (s'.mem (.buf x)).valid ≤ 1 := by
    intro x hx
    by_cases hxk : x = k
    · subst hxk
      rcases hcase with ⟨_, _, hd, _⟩ | ⟨_, _, hd, _⟩
      · rw [hd] at hself
        rw [(dat_eq_iff.1 hself).1]; exact hI.flag x hx
      · rw [hd] at hself
        rw [(dat_eq_iff.1 hself).1]; omega
    · rw [(hp.other hxk).1]; exact hI.flag x hx
  refine ⟨k, L', hb, hkN, ⟨hr', ?_, ?_, ?_, ?_, ?_, hflag⟩, hdev, hblk, hlock, by omega, ?_, ?_,
    hp.trace⟩
  · intro j; rw [hp.locks]; exact hI.locks j
  · rw [hp.mutex]; exact hI.mutex
  · intro x hx
    by_cases hxk : x = k
    · subst hxk; rw [hcnt, hlock]; simp
    · obtain ⟨_, _, _, e4, e5⟩ := hp.other hxk
      rw [e4, e5]; exact hI.count x hx
  · intro x hx hpos
    by_cases hxk : x = k
    · subst hxk; rw [hblk]; exact hkL
    · obtain ⟨_, _, e3, _, e5⟩ := hp.other hxk
      rw [e3]
      exact hsup _ _ (hI.home x hx (by rw [← e5]; exact hpos)) hxk
  · intro dev' blockno' hne k1 hk1 k2 hk2 a1 a2 a3 a4
    by_cases h1 : k1 = k <;> by_cases h2 : k2 = k
    · rw [h1, h2]
    · exfalso
      subst h1
      have ed : dev' = dev := a1.symm.trans hdev
      have eb : blockno' = blockno := a2.symm.trans hblk
      subst ed eb
      obtain ⟨_, e2, e3, _, _⟩ := hp.other h2
      have hk2L : k2 ∈ L (blockno' % NBUFBUCKET) := by
        rcases hsub _ _ hk2 with e | ⟨e, _⟩
        · exact e
        · exact absurd e h2
      exact hclash k2 h2 hk2L (e2 ▸ a3) (e3 ▸ a4) hne
    · exfalso
      subst h2
      have ed : dev' = dev := a3.symm.trans hdev
      have eb : blockno' = blockno := a4.symm.trans hblk
      subst ed eb
      obtain ⟨_, e2, e3, _, _⟩ := hp.other h1
      have hk1L : k1 ∈ L (blockno' % NBUFBUCKET) := by
        rcases hsub _ _ hk1 with e | ⟨e, _⟩
        · exact e
        · exact absurd e h1
      exact hclash k1 h1 hk1L (e2 ▸ a1) (e3 ▸ a2) hne
    · obtain ⟨_, e2, e3, _, _⟩ := hp.other h1
      obtain ⟨_, f2, f3, _, _⟩ := hp.other h2
      have hk1L : k1 ∈ L (blockno' % NBUFBUCKET) := by
        rcases hsub _ _ hk1 with e | ⟨e, _⟩
        · exact e
        · exact absurd e h1
      have hk2L : k2 ∈ L (blockno' % NBUFBUCKET) := by
        rcases hsub _ _ hk2 with e | ⟨e, _⟩
        · exact e
        · exact absurd e h2
      exact hI.uniq dev' blockno' hne k1 hk1L k2 hk2L (e2 ▸ a1) (e3 ▸ a2) (f2 ▸ a3) (f3 ▸ a4)
  · rcases hcase with ⟨hc, _, hd, hL⟩ | ⟨hc, _, _, _⟩
    · subst hL
      rw [← hc]
      refine find?_congr_mem ?_
      intro x _
      by_cases hxk : x = k
      · subst hxk
        rw [hd] at hself
        obtain ⟨_, e2, e3, _, _⟩ := dat_eq_iff.1 hself
        simp [isCached, e2, e3]
      · obtain ⟨_, e2, e3, _, _⟩ := hp.other hxk
        simp [isCached, e2, e3]
    · refine find?_unique hkL (by simp [isCached, hdev, hblk]) ?_
      intro x hx hxk
      obtain ⟨_, e2, e3, _, _⟩ := hp.other hxk
      have hxL : x ∈ L (blockno % NBUFBUCKET) := by
        rcases hsub _ _ hx with e | ⟨e, _⟩
        · exact e
        · exact absurd e hxk
      have := firstCached_none hc x hxL
      simp only [isCached, e2, e3]
      simpa using this
  · intro k0 hk0
    rcases hcase with ⟨hc, _, hd, _⟩ | ⟨hc, _, _, _⟩
    · rw [hc] at hk0
      injection hk0 with hk0
      rw [hd] at hself
      exact ⟨hk0.symm, (dat_eq_iff.1 hself).1⟩
    · rw [hc] at hk0; cases hk0

theorem Inv.congr_data {s s' : Bcache} {pins : Nat → Nat} {L : Nat → List Nat}
    (hI : Inv NBUF NBUFBUCKET s pins L)
    (hn : nxt s'.mem = nxt s.mem) (hp : prv s'.mem = prv s.mem)
    (hd : ∀ x, (s'.mem (.buf x)).dev = (s.mem (.buf x)).dev
      ∧ (s'.mem (.buf x)).blockno = (s.mem (.buf x)).blockno
      ∧ (s'.mem (.buf x)).lock = (s.mem (.buf x)).lock
      ∧ (s'.mem (.buf x)).refcnt = (s.mem (.buf x)).refcnt)
    (hl : s'.locks = s.locks) (hm : s'.borrow_mutex = s.borrow_mutex)
    (hf : ∀ x < NBUF, (s'.mem (.buf x)).valid ≤ 1) :
    Inv NBUF NBUFBUCKET s' pins L where
  flag := hf
  rep := hI.rep.of_links hn hp
  locks j := by rw [hl]; exact hI.locks j
  mutex := by rw [hm]; exact hI.mutex
  count k hk := by
    obtain ⟨_, _, e3, e4⟩ := hd k
    rw [e3, e4]; exact hI.count k hk
  home k hk h0 := by
    obtain ⟨_, e2, _, e4⟩ := hd k
    rw [e2]; exact hI.home k hk (by rw [← e4]; exact h0)
  uniq dev blockno hne k1 hk1 k2 hk2 a1 a2 a3 a4 := by
    obtain ⟨e1, e2, _, _⟩ := hd k1
    obtain ⟨f1, f2, _, _⟩ := hd k2
    exact hI.uniq dev blockno hne k1 hk1 k2 hk2 (e1 ▸ a1) (e2 ▸ a2) (f1 ▸ a3) (f2 ▸ a4)

/-- A returning `bread` is a returning `bget` followed, when the buffer is not
valid, by a disk read that makes it valid. -/
theorem bread_ret {s s2 : Bcache} {b : Ptr} {dev blockno : Nat}
    (h : bread NBUF NBUFBUCKET s dev blockno = .ret s2 b) :
    ∃ s1, bget NBUF NBUFBUCKET s dev blockno = .ret s1 b
      ∧ (((s1.mem b).valid = 0
          ∧ s2 = (s1.log (.virtio_disk_rw b 0)).store b fun c => { c with valid := 1 })
        ∨ ((s1.mem b).valid ≠ 0 ∧ s2 = s1)) := by
  unfold bread at h
  cases hg : bget NBUF NBUFBUCKET s dev blockno with
  | ret s1 b1 =>
    rw [hg] at h
    simp only [] at h
    by_cases hv : (s1.mem b1).valid = 0
    · rw [if_pos hv] at h
      injection h with h1 h2
      subst h2
      exact ⟨s1, rfl, Or.inl ⟨hv, h1.symm⟩⟩
    · rw [if_neg hv] at h
      injection h with h1 h2
      subst h2
      exact ⟨s1, rfl, Or.inr ⟨hv, h1.symm⟩⟩
  | panic s1 msg => rw [hg] at h; cases h
  | blocked s1 => rw [hg] at h; cases h
  | diverge => rw [hg] at h; cases h

theorem nxt_store_valid (s : Bcache) (p : Ptr) (v : Nat) :
    nxt (s.store p fun c => { c with valid := v }).mem = nxt s.mem :=
  (nxt_update _ _ _).trans (Function.update_eq_self p (nxt s.mem))

theorem prv_store_valid (s : Bcache) (p : Ptr) (v : Nat) :
    prv (s.store p fun c => { c with valid := v }).mem = prv s.mem :=
  (prv_update _ _ _).trans (Function.update_eq_self p (prv s.mem))

theorem store_valid_fields (s : Bcache) (p q : Ptr) (v : Nat) :
    ((s.store p fun c => { c with valid := v }).mem q).dev = (s.mem q).dev
      ∧ ((s.store p fun c => { c with valid := v }).mem q).blockno = (s.mem q).blockno
      ∧ ((s.store p fun c => { c with valid := v }).mem q).lock = (s.mem q).lock
      ∧ ((s.store p fun c => { c with valid := v }).mem q).refcnt = (s.mem q).refcnt := by
  by_cases h : q = p
  · subst h; simp
  · simp [Function.update_noteq h]

/-- A returning call of `bread` keeps the invariant. -/
theorem bread_inv {s s' : Bcache} {b : Ptr} {pins : Nat → Nat} {L : Nat → List Nat}
    {dev blockno : Nat} (hI : Inv NBUF NBUFBUCKET s pins L) (hB : 0 < NBUFBUCKET)
    (h : bread NBUF NBUFBUCKET s dev blockno = .ret s' b) :
    ∃ L', Inv NBUF NBUFBUCKET s' pins L' := by
  obtain ⟨s1, hg, hv⟩ := bread_ret h
  obtain ⟨k, L', _, _, hI', _⟩ := bget_inv hI hB hg
  refine ⟨L', ?_⟩
  rcases hv with ⟨_, e⟩ | ⟨_, e⟩
  · rw [e]
    exact hI'.congr_data (nxt_store_valid _ _ _) (prv_store_valid _ _ _)
      (fun x => store_valid_fields _ _ _ _) rfl rfl
      (fun x hx => by
        by_cases hxb : Ptr.buf x = b
        · subst hxb; simp
        · simp only [store_mem, log_mem]
          rw [Function.update_noteq hxb]; exact hI'.flag x hx)
  · rw [e]; exact hI'

/-- A call of `brelse` on a held buffer returns and keeps the invariant. -/
theorem brelse_inv {s : Bcache} {pins : Nat → Nat} {L : Nat → List Nat} {k : Nat}
    (hI : Inv NBUF NBUFBUCKET s pins L) (hB : 0 < NBUFBUCKET) (hk : k < NBUF)
    (hh : (s.mem (.buf k)).lock = true) :
    ∃ s', brelse NBUFBUCKET s (.buf k) = .ret s' ()
      ∧ Inv NBUF NBUFBUCKET s' pins
          (if (s.mem (.buf k)).refcnt - 1 = 0
            then moveFront L ((s.mem (.buf k)).blockno % NBUFBUCKET) k else L)
      ∧ Post s s' k ((s.mem (.buf k)).valid, (s.mem (.buf k)).dev,
          (s.mem (.buf k)).blockno, false, (s.mem (.buf k)).refcnt - 1) := by
  obtain ⟨s', e, hr', hp⟩ := brelse_spec hI.rep hB hk hh (hI.locks _)
  have hcnt := hI.count k hk
  rw [hh] at hcnt
  simp only [if_true] at hcnt
  have hhome := hI.home k hk (by omega)
  obtain ⟨_, e2, e3, e4, e5⟩ := dat_eq_iff.1 hp.dat_self
  have hsub : ∀ j x, x ∈ (if (s.mem (.buf k)).refcnt - 1 = 0
      then moveFront L ((s.mem (.buf k)).blockno % NBUFBUCKET) k else L) j → x ∈ L j := by
    intro j x hx
    split at hx
    · rcases mem_moveFront hx with h | ⟨h1, h2⟩
      · exact h
      · rw [h1, h2]; exact hhome
    · exact hx
  have hsup : ∀ j x, x ∈ L j → x ≠ k → x ∈ (if (s.mem (.buf k)).refcnt - 1 = 0
      then moveFront L ((s.mem (.buf k)).blockno % NBUFBUCKET) k else L) j := by
    intro j x hx hxk
    split
    · exact mem_moveFront_of_ne hx hxk
    · exact hx
  have hflag : ∀ x < NBUF, (s'.mem (.buf x)).valid ≤ 1 := by
    intro x hx
    by_cases hxk : x = k
    · subst hxk; rw [(dat_eq_iff.1 hp.dat_self).1]; exact hI.flag x hx
    · rw [(hp.other hxk).1]; exact hI.flag x hx
  refine ⟨s', e, ⟨hr', ?_, ?_, ?_, ?_, ?_, hflag⟩, hp⟩
  · intro j; rw [hp.locks]; exact hI.locks j
  · rw [hp.mutex]; exact hI.mutex
  · intro x hx
    by_cases hxk : x = k
    · subst hxk; rw [e4, e5, hcnt]; simp
    · obtain ⟨_, _, _, f4, f5⟩ := hp.other hxk
      rw [f4, f5]; exact hI.count x hx
  · intro x hx hpos
    by_cases hxk : x = k
    · subst hxk
      rw [e3]
      split
      · exact mem_moveFront_self _ _ _
      · exact hhome
    · obtain ⟨_, _, f3, _, f5⟩ := hp.other hxk
      rw [f3]
      exact hsup _ _ (hI.home x hx (by rw [← f5]; exact hpos)) hxk
  · intro dev blockno hne k1 hk1 k2 hk2 a1 a2 a3 a4
    have hid : ∀ x, (s'.mem (.buf x)).dev = (s.mem (.buf x)).dev
        ∧ (s'.mem (.buf x)).blockno = (s.mem (.buf x)).blockno := by
      intro x
      by_cases hxk : x = k
      · subst hxk; exact ⟨e2, e3⟩
      · obtain ⟨_, f2, f3, _, _⟩ := hp.other hxk
        exact ⟨f2, f3⟩
    exact hI.uniq dev blockno hne k1 (hsub _ _ hk1) k2 (hsub _ _ hk2)
      ((hid k1).1 ▸ a1) ((hid k1).2 ▸ a2) ((hid k2).1 ▸ a3) ((hid k2).2 ▸ a4)

/-- A call of `bpin` on a held or pinned buffer returns and keeps the
invariant, with one more pin. -/
theorem bpin_inv {s : Bcache} {pins : Nat → Nat} {L : Nat → List Nat} {k : Nat}
    (hI : Inv NBUF NBUFBUCKET s pins L) (hk : k < NBUF)
    (hh : (s.mem (.buf k)).lock = true ∨ 0 < pins k) :
    ∃ s', bpin NBUFBUCKET s (.buf k) = .ret s' ()
      ∧ Inv NBUF NBUFBUCKET s' (Function.update pins k (pins k + 1)) L
      ∧ Post s s' k ((s.mem (.buf k)).valid, (s.mem (.buf k)).dev,
          (s.mem (.buf k)).blockno, (s.mem (.buf k)).lock, (s.mem (.buf k)).refcnt + 1) := by
  obtain ⟨s', e, hn, hv, hp⟩ := bpin_spec (hI.locks _)
  obtain ⟨_, e2, e3, e4, e5⟩ := dat_eq_iff.1 hp.dat_self
  have hcnt := hI.count k hk
  have hpos : 0 < (s.mem (.buf k)).refcnt := by
    rcases hh with h | h
    · rw [h] at hcnt; simp only [if_true] at hcnt; omega
    · omega
  have hflag : ∀ x < NBUF, (s'.mem (.buf x)).valid ≤ 1 := by
    intro x hx
    by_cases hxk : x = k
    · subst hxk; rw [(dat_eq_iff.1 hp.dat_self).1]; exact hI.flag x hx
    · rw [(hp.other hxk).1]; exact hI.flag x hx
  refine ⟨s', e, ⟨hI.rep.of_links hn hv, ?_, ?_, ?_, ?_, ?_, hflag⟩, hp⟩
  · intro j; rw [hp.locks]; exact hI.locks j
  · rw [hp.mutex]; exact hI.mutex
  · intro x hx
    by_cases hxk : x = k
    · subst hxk; rw [e4, e5, hcnt, Function.update_same]; omega
    · obtain ⟨_, _, _, f4, f5⟩ := hp.other hxk
      rw [f4, f5, Function.update_noteq hxk]; exact hI.count x hx
  · intro x hx hp0
    by_cases hxk : x = k
    · subst hxk; rw [e3]; exact hI.home x hx hpos
    · obtain ⟨_, _, f3, _, f5⟩ := hp.other hxk
      rw [f3]; exact hI.home x hx (by rw [← f5]; exact hp0)
  · intro dev blockno hne k1 hk1 k2 hk2 a1 a2 a3 a4
    have hid : ∀ x, (s'.mem (.buf x)).dev = (s.mem (.buf x)).dev
        ∧ (s'.mem (.buf x)).blockno = (s.mem (.buf x)).blockno := by
      intro x
      by_cases hxk : x = k
      · subst hxk; exact ⟨e2, e3⟩
      · obtain ⟨_, f2, f3, _, _⟩ := hp.other hxk
        exact ⟨f2, f3⟩
    exact hI.uniq dev blockno hne k1 hk1 k2 hk2
      ((hid k1).1 ▸ a1) ((hid k1).2 ▸ a2) ((hid k2).1 ▸ a3) ((hid k2).2 ▸ a4)

/-- A call of `bunpin` on a pinned buffer returns and keeps the invariant,
with one pin less. -/
theorem bunpin_inv {s : Bcache} {pins : Nat → Nat} {L : Nat → List Nat} {k : Nat}
    (hI : Inv NBUF NBUFBUCKET s pins L) (hk : k < NBUF) (hh : 0 < pins k) :
    ∃ s', bunpin NBUFBUCKET s (.buf k) = .ret s' ()
      ∧ Inv NBUF NBUFBUCKET s' (Function.update pins k (pins k - 1)) L
      ∧ Post s s' k ((s.mem (.buf k)).valid, (s.mem (.buf k)).dev,
          (s.mem (.buf k)).blockno, (s.mem (.buf k)).lock, (s.mem (.buf k)).refcnt - 1) := by
  obtain ⟨s', e, hn, hv, hp⟩ := bunpin_spec (hI.locks _)
  obtain ⟨_, e2, e3, e4, e5⟩ := dat_eq_iff.1 hp.dat_self
  have hcnt := hI.count k hk
  have hflag : ∀ x < NBUF, (s'.mem (.buf x)).valid ≤ 1 := by
    intro x hx
    by_cases hxk : x = k
    · subst hxk; rw [(dat_eq_iff.1 hp.dat_self).1]; exact hI.flag x hx
    · rw [(hp.other hxk).1]; exact hI.flag x hx
  refine ⟨s', e, ⟨hI.rep.of_links hn hv, ?_, ?_, ?_, ?_, ?_, hflag⟩, hp⟩
  · intro j; rw [hp.locks]; exact hI.locks j
  · rw [hp.mutex]; exact hI.mutex
  · intro x hx
    by_cases hxk : x = k
    · subst hxk; rw [e4, e5, hcnt, Function.update_same]; omega
    · obtain ⟨_, _, _, f4, f5⟩ := hp.other hxk
      rw [f4, f5, Function.update_noteq hxk]; exact hI.count x hx
  · intro x hx hp0
    by_cases hxk : x = k
    · subst hxk; rw [e3]; exact hI.home x hx (by rw [e5] at hp0; omega)
    · obtain ⟨_, _, f3, _, f5⟩ := hp.other hxk
      rw [f3]; exact hI.home x hx (by rw [← f5]; exact hp0)
  · intro dev blockno hne k1 hk1 k2 hk2 a1 a2 a3 a4
    have hid : ∀ x, (s'.mem (.buf x)).dev = (s.mem (.buf x)).dev
        ∧ (s'.mem (.buf x)).blockno = (s.mem (.buf x)).blockno := by
      intro x
      by_cases hxk : x = k
      · subst hxk; exact ⟨e2, e3⟩
      · obtain ⟨_, f2, f3, _, _⟩ := hp.other hxk
        exact ⟨f2, f3⟩
    exact hI.uniq dev blockno hne k1 hk1 k2 hk2
      ((hid k1).1 ▸ a1) ((hid k1).2 ▸ a2) ((hid k2).1 ▸ a3) ((hid k2).2 ▸ a4)

/-- The state after `binit` satisfies the invariant, with the slices of the
buffer array as bucket lists and no pin. -/
theorem binit_inv (NBUF : Nat) {NBUFBUCKET : Nat} (hB : 0 < NBUFBUCKET) :
    Inv NBUF NBUFBUCKET (binit NBUF NBUFBUCKET bcache0) (fun _ => 0)
      (initList NBUF NBUFBUCKET) := by
  obtain ⟨hz, hl, hm, _⟩ := binit_zero NBUF NBUFBUCKET
  have hz' : ∀ x, ((binit NBUF NBUFBUCKET bcache0).mem (.buf x)).valid = 0
      ∧ ((binit NBUF NBUFBUCKET bcache0).mem (.buf x)).dev = 0
      ∧ ((binit NBUF NBUFBUCKET bcache0).mem (.buf x)).blockno = 0
      ∧ ((binit NBUF NBUFBUCKET bcache0).mem (.buf x)).lock = false
      ∧ ((binit NBUF NBUFBUCKET bcache0).mem (.buf x)).refcnt = 0 :=
    fun x => dat_eq_iff.1 (hz (.buf x))
  refine ⟨binit_rep NBUF hB _, hl, hm, ?_, ?_, ?_, fun k _ => by rw [(hz' k).1]; omega⟩
  · intro k _
    obtain ⟨_, _, _, e4, e5⟩ := hz' k
    rw [e4, e5]; rfl
  · intro k _ h0
    rw [(hz' k).2.2.2.2] at h0
    exact absurd h0 (lt_irrefl _)
  · intro dev blockno hne k1 _ _ _ a1 a2 _ _
    exfalso
    obtain ⟨_, e2, e3, _, _⟩ := hz' k1
    exact hne (by rw [← a1, ← a2, e2, e3])

/-- Every reachable state satisfies the invariant. -/
theorem reach_inv {s : Bcache} {pins : Nat → Nat} (hB : 0 < NBUFBUCKET)
    (h : Reach NBUF NBUFBUCKET s pins) : ∃ L, Inv NBUF NBUFBUCKET s pins L := by
  induction h with
  | binit => exact ⟨_, binit_inv NBUF hB⟩
  | bread dev blockno _ hb ih =>
    obtain ⟨L, hI⟩ := ih
    exact bread_inv hI hB hb
  | brelse k _ hk hh hb ih =>
    obtain ⟨L, hI⟩ := ih
    obtain ⟨s', e, hI', _⟩ := brelse_inv hI hB hk hh
    rw [e] at hb
    injection hb with hb
    exact ⟨_, hb ▸ hI'⟩
  | bpin k _ hk hh hb ih =>
    obtain ⟨L, hI⟩ := ih
    obtain ⟨s', e, hI', _⟩ := bpin_inv hI hk hh
    rw [e] at hb
    injection hb with hb
    exact ⟨_, hb ▸ hI'⟩
  | bunpin k _ hk hh hb ih =>
    obtain ⟨L, hI⟩ := ih
    obtain ⟨s', e, hI', _⟩ := bunpin_inv hI hk hh
    rw [e] at hb
    injection hb with hb
    exact ⟨_, hb ▸ hI'⟩

/-! ## The claims on `bread` -/

theorem Inv.bucketList_inv {s : Bcache} {pins : Nat → Nat} {L : Nat → List Nat}
    (hI : Inv NBUF NBUFBUCKET s pins L) {i : Nat} (hi : i < NBUFBUCKET) :
    bucketList NBUF s i = L i :=
  hI.rep.bucketList_eq hi

theorem bread_of_bget_ret {s s1 : Bcache} {b : Ptr} {dev blockno : Nat}
    (h : bget NBUF NBUFBUCKET s dev blockno = .ret s1 b) :
    bread NBUF NBUFBUCKET s dev blockno =
      if (s1.mem b).valid = 0 then
        .ret ((s1.log (.virtio_disk_rw b 0)).store b fun c => { c with valid := 1 }) b
      else .ret s1 b := by
  unfold bread
  rw [h]

theorem bread_of_bget_blocked {s t : Bcache} {dev blockno : Nat}
    (h : bget NBUF NBUFBUCKET s dev blockno = .blocked t) :
    bread NBUF NBUFBUCKET s dev blockno = .blocked t := by
  unfold bread
  rw [h]

theorem filter_isDisk_nil {evs : List Event} (h : ∀ e ∈ evs, e.isDisk = false) :
    evs.filter Event.isDisk = [] :=
  List.filter_eq_nil_iff.2 (fun e he => by rw [h e he]; simp)

/-- C1: in every cache state reachable from `binit`, and for every
`(dev, blockno)` for which `bget` does not panic, `bread(dev, blockno)` returns
a buffer `b` with `b.dev = dev`, `b.blockno = blockno`, `b.valid = 1`,
`b.refcnt >= 1` and the sleep-lock of `b` held, and the disk reads issued during
the call are one read of `b` when the buffer returned by `bget` had
`valid = 0` and none otherwise.  The call returns at once unless the
sleep-lock of the buffer caching the block is held: it then waits in
`acquiresleep`, as the only other outcome. -/
theorem bread_returns_valid_locked (NBUF NBUFBUCKET : Nat) (hB : 0 < NBUFBUCKET)
    (s : Bcache) (hs : Reachable NBUF NBUFBUCKET s) (dev blockno : Nat)
    (hnp : ∀ t msg, bget NBUF NBUFBUCKET s dev blockno ≠ .panic t msg) :
    (∃ s1 s2 b, bget NBUF NBUFBUCKET s dev blockno = .ret s1 b
        ∧ bread NBUF NBUFBUCKET s dev blockno = .ret s2 b
        ∧ (s2.mem b).dev = dev ∧ (s2.mem b).blockno = blockno ∧ (s2.mem b).valid = 1
        ∧ 1 ≤ (s2.mem b).refcnt ∧ (s2.mem b).lock = true
        ∧ (s2.trace.drop s.trace.length).filter Event.isDisk
            = if (s1.mem b).valid = 0 then [.virtio_disk_rw b 0] else [])
    ∨ (∃ t k, bread NBUF NBUFBUCKET s dev blockno = .blocked t
        ∧ k ∈ bucketList NBUF s (blockno % NBUFBUCKET)
        ∧ (s.mem (.buf k)).dev = dev ∧ (s.mem (.buf k)).blockno = blockno
        ∧ (s.mem (.buf k)).lock = true) := by
  obtain ⟨pins, hr⟩ := hs
  obtain ⟨L, hI⟩ := reach_inv hB hr
  have hi : blockno % NBUFBUCKET < NBUFBUCKET := Nat.mod_lt _ hB
  have hret : ∀ s1 b, bget NBUF NBUFBUCKET s dev blockno = .ret s1 b →
      ∃ s1 s2 b, bget NBUF NBUFBUCKET s dev blockno = .ret s1 b
        ∧ bread NBUF NBUFBUCKET s dev blockno = .ret s2 b
        ∧ (s2.mem b).dev = dev ∧ (s2.mem b).blockno = blockno ∧ (s2.mem b).valid = 1
        ∧ 1 ≤ (s2.mem b).refcnt ∧ (s2.mem b).lock = true
        ∧ (s2.trace.drop s.trace.length).filter Event.isDisk
            = if (s1.mem b).valid = 0 then [.virtio_disk_rw b 0] else [] := by
    intro s1 b hg
    obtain ⟨k, L', hb, hkN, hI', hdev, hblk, hlock, hcnt, _, _, evs, htr, hnd⟩ :=
      bget_inv hI hB hg
    subst hb
    have hbr := bread_of_bget_ret hg
    by_cases hv : (s1.mem (.buf k)).valid = 0
    · rw [if_pos hv] at hbr
      refine ⟨s1, _, _, hg, hbr, ?_, ?_, ?_, ?_, ?_, ?_⟩
      · simpa using hdev
      · simpa using hblk
      · simp
      · simpa using hcnt
      · simpa using hlock
      · rw [if_pos hv]
        simp only [store_trace, log_trace, htr, List.append_assoc, List.drop_left,
          List.filter_append, filter_isDisk_nil hnd, List.nil_append]
        rfl
    · rw [if_neg hv] at hbr
      have hv1 : (s1.mem (.buf k)).valid = 1 := by
        have := hI'.flag k hkN; omega
      refine ⟨s1, _, _, hg, hbr, hdev, hblk, hv1, hcnt, hlock, ?_⟩
      rw [if_neg hv, htr, List.drop_left, filter_isDisk_nil hnd]
  rcases bget_cases dev blockno hI.rep hB hI.idle (hI.locks _) with
    ⟨k, t, hc, hk, e⟩ | ⟨k, t, _, _, e, _⟩ | ⟨k, t, _, _, e, _⟩ |
    ⟨t, _, _, hm, _⟩ | ⟨j, k, t, _, _, _, _, e, _⟩ | ⟨t, _, _, _, _, e⟩
  · refine Or.inr ⟨t, k, bread_of_bget_blocked e, ?_, (firstCached_some hc).2.1,
      (firstCached_some hc).2.2, hk⟩
    rw [hI.bucketList_inv hi]; exact (firstCached_some hc).1
  · exact Or.inl (hret _ _ e)
  · exact Or.inl (hret _ _ e)
  · rw [hI.mutex] at hm; cases hm
  · exact Or.inl (hret _ _ e)
  · exact absurd e (hnp _ _)

/-- C2: in every cache state reachable from `binit`, if `bread(d, b)` returns
buffer `x`, then `brelse(x)` returns, and a second `bread(d, b)` right after it
returns the same buffer `x`, with `valid = 1`, and issues no disk read. -/
theorem bread_brelse_bread_same (NBUF NBUFBUCKET : Nat) (hB : 0 < NBUFBUCKET)
    (s : Bcache) (hs : Reachable NBUF NBUFBUCKET s) (d b : Nat) (s1 : Bcache) (x : Ptr)
    (h1 : bread NBUF NBUFBUCKET s d b = .ret s1 x) :
    ∃ s2 s3, brelse NBUFBUCKET s1 x = .ret s2 ()
      ∧ bread NBUF NBUFBUCKET s2 d b = .ret s3 x
      ∧ (s3.mem x).valid = 1
      ∧ (s3.trace.drop s2.trace.length).filter Event.isDisk = [] := by
  obtain ⟨pins, hr⟩ := hs
  obtain ⟨L, hI⟩ := reach_inv hB hr
  have hi : b % NBUFBUCKET < NBUFBUCKET := Nat.mod_lt _ hB
  obtain ⟨L1, hI1⟩ := bread_inv hI hB h1
  obtain ⟨s0, hg, hv⟩ := bread_ret h1
  obtain ⟨k, L0, hx, hkN, hI0, hdev, hblk, hlock, hcnt, hfc, _, _⟩ := bget_inv hI hB hg
  subst hx
  -- the state after the first `bread`
  have hs1 : (s1.mem (.buf k)).dev = d ∧ (s1.mem (.buf k)).blockno = b
      ∧ (s1.mem (.buf k)).lock = true ∧ (s1.mem (.buf k)).valid = 1
      ∧ firstCached s1.mem d b (L0 (b % NBUFBUCKET)) = some k
      ∧ Inv NBUF NBUFBUCKET s1 pins L0 := by
    rcases hv with ⟨_, e⟩ | ⟨hv, e⟩
    · subst e
      refine ⟨by simpa using hdev, by simpa using hblk, by simpa using hlock, by simp, ?_, ?_⟩
      · rw [← hfc]
        refine find?_congr_mem (fun y _ => ?_)
        obtain ⟨e1, e2, _, _⟩ := store_valid_fields (s0.log (.virtio_disk_rw (.buf k) 0))
          (.buf k) (.buf y) 1
        simp only [log_mem] at e1 e2
        simp only [isCached, e1, e2]
      · exact hI0.congr_data (nxt_store_valid _ _ _) (prv_store_valid _ _ _)
          (fun y => store_valid_fields _ _ _ _) rfl rfl
          (fun y hy => by
            by_cases hyk : Ptr.buf y = Ptr.buf k
            · rw [hyk]; simp
            · simp only [store_mem, log_mem]
              rw [Function.update_noteq hyk]; exact hI0.flag y hy)
    · subst e
      have := hI0.flag k hkN
      exact ⟨hdev, hblk, hlock, by omega, hfc, hI0⟩
  obtain ⟨hdev1, hblk1, hlock1, hval1, hfc1, hI1'⟩ := hs1
  -- `brelse`
  obtain ⟨s2, e2, hI2, hp2⟩ := brelse_inv hI1' hB hkN hlock1
  obtain ⟨f1, f2, f3, f4, _⟩ := dat_eq_iff.1 hp2.dat_self
  have hid2 : ∀ y, isCached s2.mem d b y = isCached s1.mem d b y := by
    intro y
    by_cases hyk : y = k
    · subst hyk; simp only [isCached, f2, f3]
    · obtain ⟨_, g2, g3, _, _⟩ := hp2.other hyk
      simp only [isCached, g2, g3]
  have hfc2 : firstCached s2.mem d b
      ((if (s1.mem (.buf k)).refcnt - 1 = 0
        then moveFront L0 ((s1.mem (.buf k)).blockno % NBUFBUCKET) k else L0)
        (b % NBUFBUCKET)) = some k := by
    split
    · rw [hblk1]
      simp only [moveFront, if_true, firstCached]
      rw [List.find?_cons_of_pos]
      rw [hid2]; simp [isCached, hdev1, hblk1]
    · rw [← hfc1]
      exact find?_congr_mem (fun y _ => hid2 y)
  -- the second `bread`
  obtain ⟨s3, e3, _, _, hp3⟩ := bget_hit hI2.rep hB (hI2.locks _) hfc2 f4
  obtain ⟨g1, _, _, _, _⟩ := dat_eq_iff.1 hp3.dat_self
  obtain ⟨evs, htr, hnd⟩ := hp3.trace
  have hv3 : (s3.mem (.buf k)).valid = 1 := by rw [g1, f1, hval1]
  refine ⟨s2, s3, e2, ?_, hv3, ?_⟩
  · rw [bread_of_bget_ret e3, if_neg (by rw [hv3]; decide)]
  · rw [htr, List.drop_left, filter_isDisk_nil hnd]

theorem Outcome.ne_panic {σ α : Type} {o : Outcome σ α} (h : o.isPanic = false) :
    ∀ t msg, o ≠ .panic t msg := by
  intro t msg e
  rw [e] at h
  cases h

theorem Outcome.eq_ret {σ α : Type} {o : Outcome σ α} {a : α} (d : σ) (h : o.val? = some a) :
    o = .ret (o.state d) a := by
  cases o with
  | ret s b => simp only [Outcome.val?, Option.some.injEq] at h; rw [h]; rfl
  | panic s m => cases h
  | blocked s => cases h
  | diverge => cases h

/-- C1 at a concrete input: two buffers in one bucket, block 1 of device 1
read right after `binit`. -/
theorem bread_returns_valid_locked_witness :
    0 < 1 ∧ Reachable 2 1 (binit 2 1 bcache0)
      ∧ (∀ t msg, bget 2 1 (binit 2 1 bcache0) 1 1 ≠ .panic t msg)
      ∧ ((∃ s1 s2 b, bget 2 1 (binit 2 1 bcache0) 1 1 = .ret s1 b
          ∧ bread 2 1 (binit 2 1 bcache0) 1 1 = .ret s2 b
          ∧ (s2.mem b).dev = 1 ∧ (s2.mem b).blockno = 1 ∧ (s2.mem b).valid = 1
          ∧ 1 ≤ (s2.mem b).refcnt ∧ (s2.mem b).lock = true
          ∧ (s2.trace.drop (binit 2 1 bcache0).trace.length).filter Event.isDisk
              = if (s1.mem b).valid = 0 then [.virtio_disk_rw b 0] else [])
        ∨ (∃ t k, bread 2 1 (binit 2 1 bcache0) 1 1 = .blocked t
          ∧ k ∈ bucketList 2 (binit 2 1 bcache0) (1 % 1)
          ∧ ((binit 2 1 bcache0).mem (.buf k)).dev = 1
          ∧ ((binit 2 1 bcache0).mem (.buf k)).blockno = 1
          ∧ ((binit 2 1 bcache0).mem (.buf k)).lock = true)) :=
  ⟨by decide, ⟨_, Reach.binit⟩, Outcome.ne_panic (by decide!),
    bread_returns_valid_locked 2 1 (by decide) _ ⟨_, Reach.binit⟩ 1 1
      (Outcome.ne_panic (by decide!))⟩

/-- C2 at a concrete input: two buffers in one bucket, block 1 of device 1
read right after `binit`, released and read again. -/
theorem bread_brelse_bread_same_witness :
    0 < 1 ∧ Reachable 2 1 (binit 2 1 bcache0)
      ∧ (bread 2 1 (binit 2 1 bcache0) 1 1).val? = some (.buf 0)
      ∧ ∃ s2 s3,
          brelse 1 ((bread 2 1 (binit 2 1 bcache0) 1 1).state bcache0) (.buf 0) = .ret s2 ()
          ∧ bread 2 1 s2 1 1 = .ret s3 (.buf 0)
          ∧ (s3.mem (.buf 0)).valid = 1
          ∧ (s3.trace.drop s2.trace.length).filter Event.isDisk = [] :=
  ⟨by decide, ⟨_, Reach.binit⟩, by decide!,
    bread_brelse_bread_same 2 1 (by decide) _ ⟨_, Reach.binit⟩ 1 1 _ _
      (Outcome.eq_ret bcache0 (by decide!))⟩

/-! ## The claims on the reachable states -/

theorem length_le_one_of_all_eq {l : List Nat} (hnd : l.Nodup)
    (h : ∀ a ∈ l, ∀ b ∈ l, a = b) : l.length ≤ 1 := by
  cases l with
  | nil => simp
  | cons a t =>
    cases t with
    | nil => simp
    | cons b t' =>
      exfalso
      have hab : a = b := h a (by simp) b (by simp)
      have := (List.nodup_cons.1 hnd).1
      exact this (by simp [hab])

/-- C3, as the code has it: in every cache state reachable from `binit`
through `bread`, `brelse`, `bpin` and `bunpin`, and for every pair
`(dev, blockno)` other than `(0, 0)`, at most one buffer on the list of bucket
`blockno mod NBUFBUCKET` has identity `(dev, blockno)`. -/
theorem cached_at_most_once (NBUF NBUFBUCKET : Nat) (hB : 0 < NBUFBUCKET)
    (s : Bcache) (hs : Reachable NBUF NBUFBUCKET s) (dev blockno : Nat)
    (hne : (dev, blockno) ≠ (0, 0)) :
    ((bucketList NBUF s (blockno % NBUFBUCKET)).filter
      (isCached s.mem dev blockno)).length ≤ 1 := by
  obtain ⟨pins, hr⟩ := hs
  obtain ⟨L, hI⟩ := reach_inv hB hr
  have hi : blockno % NBUFBUCKET < NBUFBUCKET := Nat.mod_lt _ hB
  rw [hI.bucketList_inv hi]
  refine length_le_one_of_all_eq ((hI.rep.nodup _ hi).filter _) ?_
  intro a ha b hb
  obtain ⟨ha1, ha2⟩ := List.mem_filter.1 ha
  obtain ⟨hb1, hb2⟩ := List.mem_filter.1 hb
  simp only [isCached, decide_eq_true_eq] at ha2 hb2
  exact hI.uniq dev blockno hne a ha1 b hb1 ha2.1 ha2.2 hb2.1 hb2.2

/-- C3 as stated fails right after `binit`: with two buffers in one bucket,
both zero-initialised buffers are on the list of bucket `0 mod 1` with identity
`(0, 0)`. -/
theorem cached_twice_after_binit :
    Reachable 2 1 (binit 2 1 bcache0)
      ∧ ¬ ((bucketList 2 (binit 2 1 bcache0) (0 % 1)).filter
            (isCached (binit 2 1 bcache0).mem 0 0)).length ≤ 1 :=
  ⟨⟨_, Reach.binit⟩, by decide!⟩

/-- The state `demoRead` is reachable. -/
theorem demoRead_reachable : Reachable 4 2 demoRead :=
  ⟨_, Reach.bread 1 3 Reach.binit
    (Outcome.eq_ret bcache0 (show _ = some (Ptr.buf 2) by decide!))⟩

/-- C3 (amended) at a concrete input: block 3 of device 1, after it was read
into a cache of four buffers in two buckets. -/
theorem cached_at_most_once_witness :
    0 < 2 ∧ Reachable 4 2 demoRead ∧ ((1, 3) : Nat × Nat) ≠ (0, 0)
      ∧ ((bucketList 4 demoRead (3 % 2)).filter (isCached demoRead.mem 1 3)).length ≤ 1 :=
  ⟨by decide, demoRead_reachable, by decide,
    cached_at_most_once 4 2 (by decide) _ demoRead_reachable 1 3 (by decide)⟩

/-- C4: in every cache state reachable from `binit` through `bread`, `brelse`,
`bpin` and `bunpin`, every buffer with `refcnt > 0` is on the list of the
bucket whose index is its `blockno mod NBUFBUCKET`, and on no other: the
bucket that `brelse`, `bpin` and `bunpin` compute from `b->blockno` is the
bucket that contains `b`. -/
theorem referenced_buffer_in_home_bucket (NBUF NBUFBUCKET : Nat) (hB : 0 < NBUFBUCKET)
    (s : Bcache) (hs : Reachable NBUF NBUFBUCKET s) (k : Nat) (hk : k < NBUF)
    (hpos : 0 < (s.mem (.buf k)).refcnt) :
    k ∈ bucketList NBUF s ((s.mem (.buf k)).blockno % NBUFBUCKET)
      ∧ ∀ j < NBUFBUCKET, k ∈ bucketList NBUF s j →
          j = (s.mem (.buf k)).blockno % NBUFBUCKET := by
  obtain ⟨pins, hr⟩ := hs
  obtain ⟨L, hI⟩ := reach_inv hB hr
  have hi : (s.mem (.buf k)).blockno % NBUFBUCKET < NBUFBUCKET := Nat.mod_lt _ hB
  have hh := hI.home k hk hpos
  refine ⟨by rw [hI.bucketList_inv hi]; exact hh, ?_⟩
  intro j hj hkj
  rw [hI.bucketList_inv hj] at hkj
  exact hI.rep.unique hj hi hkj hh

/-- C4 at a concrete input: the buffer that holds block 3 of device 1 in a
cache of four buffers in two buckets. -/
theorem referenced_buffer_in_home_bucket_witness :
    0 < 2 ∧ Reachable 4 2 demoRead ∧ 2 < 4 ∧ 0 < (demoRead.mem (.buf 2)).refcnt
      ∧ (2 ∈ bucketList 4 demoRead ((demoRead.mem (.buf 2)).blockno % 2)
          ∧ ∀ j < 2, 2 ∈ bucketList 4 demoRead j →
              j = (demoRead.mem (.buf 2)).blockno % 2) :=
  ⟨by decide, demoRead_reachable, by decide, by decide!,
    referenced_buffer_in_home_bucket 4 2 (by decide) _ demoRead_reachable 2 (by decide)
      (by decide!)⟩

/-- In a segment every link is mirrored: `x.next.prev = x` from the first cell
on, and `x.prev.next = x` up to the last. -/
theorem Seg.links {nx pv : Ptr → Ptr} :
    ∀ {l : List Nat} {p q : Ptr}, Seg nx pv p l q →
      pv (nx p) = p
        ∧ (∀ k ∈ l, pv (nx (.buf k)) = .buf k ∧ nx (pv (.buf k)) = .buf k)
        ∧ nx (pv q) = q
  | [], p, q, h => by
    obtain ⟨h1, h2⟩ := h
    exact ⟨by rw [h1, h2], fun _ hk => by simp at hk, by rw [h2, h1]⟩
  | k :: t, p, q, h => by
    obtain ⟨h1, h2, h3⟩ := h
    obtain ⟨i1, i2, i3⟩ := Seg.links h3
    refine ⟨by rw [h1, h2], ?_, i3⟩
    intro x hx
    rcases List.mem_cons.1 hx with e | e
    · subst e; exact ⟨i1, by rw [h2, h1]⟩
    · exact i2 x e

/-- The sizes of the represented bucket lists add up to `NBUF`. -/
theorem Rep.sum_length {m : Ptr → Buf} {L : Nat → List Nat}
    (hr : Rep NBUF NBUFBUCKET m L) :
    ((List.range NBUFBUCKET).map fun i => (L i).length).sum = NBUF := by
  have hnd : ((List.range NBUFBUCKET).flatMap L).Nodup := by
    rw [List.nodup_flatMap]
    refine ⟨fun i hi => hr.nodup i (List.mem_range.1 hi), ?_⟩
    refine (List.nodup_range NBUFBUCKET).pairwise_of_forall_ne ?_
    intro i hi j hj hij
    exact List.disjoint_left.2
      (fun k hk => hr.disj i (List.mem_range.1 hi) j (List.mem_range.1 hj) hij k hk)
  have hperm : ((List.range NBUFBUCKET).flatMap L).Perm (List.range NBUF) := by
    refine (List.perm_ext_iff_of_nodup hnd (List.nodup_range NBUF)).2 ?_
    intro k
    rw [List.mem_flatMap, List.mem_range]
    constructor
    · rintro ⟨i, hi, hk⟩
      exact hr.bound i (List.mem_range.1 hi) k hk
    · intro hk
      obtain ⟨i, hi, h⟩ := hr.cover k hk
      exact ⟨i, List.mem_range.2 hi, h⟩
  have := hperm.length_eq
  rw [List.length_flatMap, List.length_range] at this
  exact this

/-- C5: in every cache state reachable from `binit` through `bread`,
`brelse`, `bpin` and `bunpin`, each of the `NBUF` buffers occurs exactly once
on exactly one bucket list, every bucket list is a circular doubly-linked list
through its sentinel head (`x.next.prev = x` and `x.prev.next = x` for every
head and every buffer), and the sizes of the bucket lists add up to `NBUF`. -/
theorem buffers_on_exactly_one_list (NBUF NBUFBUCKET : Nat) (hB : 0 < NBUFBUCKET)
    (s : Bcache) (hs : Reachable NBUF NBUFBUCKET s) :
    (∀ k < NBUF, ∃ i < NBUFBUCKET, (bucketList NBUF s i).count k = 1
        ∧ ∀ j < NBUFBUCKET, j ≠ i → (bucketList NBUF s j).count k = 0)
      ∧ (∀ i < NBUFBUCKET, ∀ k ∈ bucketList NBUF s i, k < NBUF)
      ∧ (∀ i < NBUFBUCKET,
          Seg (nxt s.mem) (prv s.mem) (.head i) (bucketList NBUF s i) (.head i))
      ∧ (∀ i < NBUFBUCKET, (s.mem (s.mem (.head i)).next).prev = .head i
          ∧ (s.mem (s.mem (.head i)).prev).next = .head i)
      ∧ (∀ k < NBUF, (s.mem (s.mem (.buf k)).next).prev = .buf k
          ∧ (s.mem (s.mem (.buf k)).prev).next = .buf k)
      ∧ ((List.range NBUFBUCKET).map fun i => (bucketList NBUF s i).length).sum = NBUF := by
  obtain ⟨pins, hr⟩ := hs
  obtain ⟨L, hI⟩ := reach_inv hB hr
  have hrep := hI.rep.toBucketList
  refine ⟨?_, hrep.bound, hrep.seg, ?_, ?_, hrep.sum_length⟩
  · intro k hk
    obtain ⟨i, hi, hki⟩ := hrep.cover k hk
    refine ⟨i, hi, List.count_eq_one_of_mem (hrep.nodup i hi) hki, ?_⟩
    intro j hj hji
    exact List.count_eq_zero_of_not_mem (fun h => hrep.disj i hi j hj (Ne.symm hji) k hki h)
  · intro i hi
    obtain ⟨h1, _, h3⟩ := Seg.links (hrep.seg i hi)
    exact ⟨h1, h3⟩
  · intro k hk
    obtain ⟨i, hi, hki⟩ := hrep.cover k hk
    exact (Seg.links (hrep.seg i hi)).2.1 k hki

/-- C5 at a concrete input: four buffers in two buckets, after block 3 of
device 1 was read. -/
theorem buffers_on_exactly_one_list_witness :
    0 < 2 ∧ Reachable 4 2 demoRead
      ∧ (∀ k < 4, ∃ i < 2, (bucketList 4 demoRead i).count k = 1
          ∧ ∀ j < 2, j ≠ i → (bucketList 4 demoRead j).count k = 0)
      ∧ (∀ i < 2, ∀ k ∈ bucketList 4 demoRead i, k < 4)
      ∧ (∀ i < 2, Seg (nxt demoRead.mem) (prv demoRead.mem) (.head i)
          (bucketList 4 demoRead i) (.head i))
      ∧ (∀ i < 2, (demoRead.mem (demoRead.mem (.head i)).next).prev = .head i
          ∧ (demoRead.mem (demoRead.mem (.head i)).prev).next = .head i)
      ∧ (∀ k < 4, (demoRead.mem (demoRead.mem (.buf k)).next).prev = .buf k
          ∧ (demoRead.mem (demoRead.mem (.buf k)).prev).next = .buf k)
      ∧ ((List.range 2).map fun i => (bucketList 4 demoRead i).length).sum = 4 :=
  ⟨by decide, demoRead_reachable,
    buffers_on_exactly_one_list 4 2 (by decide) _ demoRead_reachable⟩

/-! ## The claim on `binit` -/

/-- C6: after `binit`, for all `NBUF` and all `NBUFBUCKET >= 1`, bucket `i`
holds `NBUF / NBUFBUCKET + 1` buffers when `i < NBUF % NBUFBUCKET` and
`NBUF / NBUFBUCKET` buffers otherwise; its buffers are those of the slice
`[bufBegin i, bufBegin (i+1))` of the buffer array (linked last buffer
first), and these slices follow one another from `0` to `NBUF`. -/
theorem binit_spreads_evenly (NBUF NBUFBUCKET : Nat) (hB : 0 < NBUFBUCKET) (s0 : Bcache) :
    (∀ i < NBUFBUCKET, (bucketList NBUF (binit NBUF NBUFBUCKET s0) i).length
        = NBUF / NBUFBUCKET + (if i < NBUF % NBUFBUCKET then 1 else 0))
      ∧ (∀ i < NBUFBUCKET, bucketList NBUF (binit NBUF NBUFBUCKET s0) i
          = (List.range' (bufBegin NBUF NBUFBUCKET i)
              (NBUF / NBUFBUCKET + (if i < NBUF % NBUFBUCKET then 1 else 0))).reverse)
      ∧ (∀ i < NBUFBUCKET, ∀ k, k ∈ bucketList NBUF (binit NBUF NBUFBUCKET s0) i
          ↔ bufBegin NBUF NBUFBUCKET i ≤ k ∧ k < bufBegin NBUF NBUFBUCKET (i + 1))
      ∧ bufBegin NBUF NBUFBUCKET 0 = 0
      ∧ (∀ i, bufBegin NBUF NBUFBUCKET (i + 1) = bufBegin NBUF NBUFBUCKET i
          + (NBUF / NBUFBUCKET + (if i < NBUF % NBUFBUCKET then 1 else 0)))
      ∧ bufBegin NBUF NBUFBUCKET NBUFBUCKET = NBUF := by
  have hrep := binit_rep NBUF hB s0
  have hl : ∀ i < NBUFBUCKET, bucketList NBUF (binit NBUF NBUFBUCKET s0) i
      = initList NBUF NBUFBUCKET i := fun i hi => hrep.bucketList_eq hi
  refine ⟨?_, ?_, ?_, bufBegin_zero _ _, fun i => bufBegin_succ _ _ i, bufBegin_last NBUF hB⟩
  · intro i hi
    rw [hl i hi]; simp [initList, bucketSize]
  · intro i hi
    rw [hl i hi]; rfl
  · intro i hi k
    rw [hl i hi]; exact mem_initList

/-- C6 at a concrete input: 30 buffers in 13 buckets. -/
theorem binit_spreads_evenly_witness :
    0 < 13
      ∧ (∀ i < 13, (bucketList 30 (binit 30 13 bcache0) i).length
          = 30 / 13 + (if i < 30 % 13 then 1 else 0))
      ∧ (∀ i < 13, bucketList 30 (binit 30 13 bcache0) i
          = (List.range' (bufBegin 30 13 i) (30 / 13 + (if i < 30 % 13 then 1 else 0))).reverse)
      ∧ (∀ i < 13, ∀ k, k ∈ bucketList 30 (binit 30 13 bcache0) i
          ↔ bufBegin 30 13 i ≤ k ∧ k < bufBegin 30 13 (i + 1))
      ∧ bufBegin 30 13 0 = 0
      ∧ (∀ i, bufBegin 30 13 (i + 1) = bufBegin 30 13 i
          + (30 / 13 + (if i < 30 % 13 then 1 else 0)))
      ∧ bufBegin 30 13 13 = 30 :=
  ⟨by decide, binit_spreads_evenly 30 13 (by decide) bcache0⟩

/-! ## The claims on the paths of `bget` -/

/-- A reachable state is well formed, and none of its spin-locks is held. -/
theorem Reachable.wf {s : Bcache} (hB : 0 < NBUFBUCKET) (hs : Reachable NBUF NBUFBUCKET s) :
    WF NBUF NBUFBUCKET s ∧ (∀ j, s.locks j = false) ∧ s.borrow_mutex = false := by
  obtain ⟨pins, hr⟩ := hs
  obtain ⟨L, hI⟩ := reach_inv hB hr
  refine ⟨⟨hI.rep.toBucketList, hI.idle, ?_⟩, hI.locks, hI.mutex⟩
  intro h
  rw [hI.mutex] at h
  cases h

theorem buf_ext {c c' : Buf} (hd : c.dat = c'.dat) (hn : c.next = c'.next)
    (hp : c.prev = c'.prev) : c = c' := by
  obtain ⟨h1, h2, h3, h4, h5⟩ := dat_eq_dat.1 hd
  cases c; cases c'
  simp only [Buf.mk.injEq]
  exact ⟨h1, h2, h3, h4, h5, hp, hn⟩

theorem lastFree_split {m : Ptr → Buf} {l : List Nat} {k : Nat} (h : lastFree m l = some k) :
    ∃ l1 l2, l = l1 ++ k :: l2 ∧ (m (.buf k)).refcnt = 0
      ∧ ∀ x ∈ l2, (m (.buf x)).refcnt ≠ 0 := by
  unfold lastFree at h
  obtain ⟨hk, as, bs, e, has⟩ := List.find?_eq_some.1 h
  refine ⟨bs.reverse, as.reverse, ?_, by simpa [isFree] using hk, ?_⟩
  · have := congrArg List.reverse e
    simpa using this
  · intro x hx
    have := has x (List.mem_reverse.1 hx)
    simpa [isFree] using this

theorem firstCached_eq_none {m : Ptr → Buf} {dev blockno : Nat} {l : List Nat}
    (h : ∀ k ∈ l, ¬ ((m (.buf k)).dev = dev ∧ (m (.buf k)).blockno = blockno)) :
    firstCached m dev blockno l = none := by
  unfold firstCached
  rw [List.find?_eq_none]
  intro k hk
  simpa [isCached] using h k hk

theorem lastFree_eq_none {m : Ptr → Buf} {l : List Nat}
    (h : ∀ k ∈ l, (m (.buf k)).refcnt ≠ 0) : lastFree m l = none := by
  unfold lastFree
  rw [List.find?_eq_none]
  intro k hk
  simpa [isFree] using h k (List.mem_reverse.1 hk)

/-- The local reclaim path of `bget`, on a well-formed state. -/
theorem bget_reclaim_wf {s : Bcache} (hB : 0 < NBUFBUCKET) (hwf : WF NBUF NBUFBUCKET s)
    (dev blockno : Nat) (hl : s.locks (blockno % NBUFBUCKET) = false)
    (hmiss : ∀ k ∈ bucketList NBUF s (blockno % NBUFBUCKET),
      ¬ ((s.mem (.buf k)).dev = dev ∧ (s.mem (.buf k)).blockno = blockno))
    (hfree : ∃ k ∈ bucketList NBUF s (blockno % NBUFBUCKET), (s.mem (.buf k)).refcnt = 0) :
    ∃ s' k l1 l2, bget NBUF NBUFBUCKET s dev blockno = .ret s' (.buf k)
      ∧ bucketList NBUF s (blockno % NBUFBUCKET) = l1 ++ k :: l2
      ∧ (s.mem (.buf k)).refcnt = 0 ∧ (∀ x ∈ l2, (s.mem (.buf x)).refcnt ≠ 0)
      ∧ (s'.mem (.buf k)).dev = dev ∧ (s'.mem (.buf k)).blockno = blockno
      ∧ (s'.mem (.buf k)).valid = 0 ∧ (s'.mem (.buf k)).refcnt = 1
      ∧ (s'.mem (.buf k)).lock = true
      ∧ (s'.mem (.buf k)).next = (s.mem (.buf k)).next
      ∧ (s'.mem (.buf k)).prev = (s.mem (.buf k)).prev
      ∧ (∀ i < NBUFBUCKET, bucketList NBUF s' i = bucketList NBUF s i)
      ∧ (∀ p, p ≠ Ptr.buf k → s'.mem p = s.mem p) := by
  have hi : blockno % NBUFBUCKET < NBUFBUCKET := Nat.mod_lt _ hB
  have hc := firstCached_eq_none hmiss
  cases hf : lastFree s.mem (bucketList NBUF s (blockno % NBUFBUCKET)) with
  | none =>
    obtain ⟨k, hk, h0⟩ := hfree
    exact absurd h0 (lastFree_none hf k hk)
  | some k =>
    obtain ⟨l1, l2, e, h0, hl2⟩ := lastFree_split hf
    have hkN : k < NBUF := hwf.rep.bound _ hi k (lastFree_some hf).1
    obtain ⟨s', hg, hn, hp, hpost⟩ := bget_reclaim hwf.rep hB hl hc hf (hwf.idle k hkN h0)
    obtain ⟨e1, e2, e3, e4, e5⟩ := dat_eq_iff.1 hpost.dat_self
    refine ⟨s', k, l1, l2, hg, e, h0, hl2, e2, e3, e1, e5, e4, congrFun hn _, congrFun hp _,
      ?_, ?_⟩
    · intro j hj
      exact (hwf.rep.of_links hn hp).bucketList_eq hj
    · intro p hpk
      exact buf_ext (hpost.dat_other p hpk) (congrFun hn p) (congrFun hp p)

/-- C7: on every well-formed cache state whose bucket `i = blockno mod
NBUFBUCKET` is not locked, has no buffer with identity `(dev, blockno)` and has
a buffer with `refcnt = 0`, `bget` returns the buffer with `refcnt = 0` that is
nearest the tail of the list of bucket `i`, with `dev` and `blockno` set to the
request, `valid = 0` and `refcnt = 1` (and its sleep-lock taken); the bucket
lists and every other cell of the cache are unchanged.  In particular, with
two buffers in one bucket, on any device, after blocks 1 and 2 are read and
released in the order 1 then 2, reading block 3 reuses the buffer that held
block 1 and reading block 4 reuses the buffer that held block 2. -/
theorem bget_reclaims_tailmost_free :
    (∀ (NBUF NBUFBUCKET : Nat) (s : Bcache) (dev blockno : Nat),
      0 < NBUFBUCKET → WF NBUF NBUFBUCKET s → s.locks (blockno % NBUFBUCKET) = false →
      (∀ k ∈ bucketList NBUF s (blockno % NBUFBUCKET),
        ¬ ((s.mem (.buf k)).dev = dev ∧ (s.mem (.buf k)).blockno = blockno)) →
      (∃ k ∈ bucketList NBUF s (blockno % NBUFBUCKET), (s.mem (.buf k)).refcnt = 0) →
      ∃ s' k l1 l2, bget NBUF NBUFBUCKET s dev blockno = .ret s' (.buf k)
        ∧ bucketList NBUF s (blockno % NBUFBUCKET) = l1 ++ k :: l2
        ∧ (s.mem (.buf k)).refcnt = 0 ∧ (∀ x ∈ l2, (s.mem (.buf x)).refcnt ≠ 0)
        ∧ (s'.mem (.buf k)).dev = dev ∧ (s'.mem (.buf k)).blockno = blockno
        ∧ (s'.mem (.buf k)).valid = 0 ∧ (s'.mem (.buf k)).refcnt = 1
        ∧ (s'.mem (.buf k)).lock = true
        ∧ (s'.mem (.buf k)).next = (s.mem (.buf k)).next
        ∧ (s'.mem (.buf k)).prev = (s.mem (.buf k)).prev
        ∧ (∀ i < NBUFBUCKET, bucketList NBUF s' i = bucketList NBUF s i)
        ∧ (∀ p, p ≠ Ptr.buf k → s'.mem p = s.mem p))
    ∧ (∀ dev : Nat,
        (bread 2 1 (afterCalls 2 1 []) dev 1).val? = some (.buf 0)
        ∧ (bread 2 1 (afterCalls 2 1 [.bread dev 1]) dev 2).val? = some (.buf 1)
        ∧ (brelse 1 (afterCalls 2 1 [.bread dev 1, .bread dev 2]) (.buf 0)).val? = some ()
        ∧ (brelse 1 (afterCalls 2 1 [.bread dev 1, .bread dev 2, .brelse (.buf 0)])
            (.buf 1)).val? = some ()
        ∧ (bread 2 1 (afterCalls 2 1 [.bread dev 1, .bread dev 2, .brelse (.buf 0),
            .brelse (.buf 1)]) dev 3).val? = some (.buf 0)
        ∧ (bread 2 1 (afterCalls 2 1 [.bread dev 1, .bread dev 2, .brelse (.buf 0),
            .brelse (.buf 1), .bread dev 3]) dev 4).val? = some (.buf 1)) := by
  refine ⟨fun NBUF NBUFBUCKET s dev blockno hB hwf hl hmiss hfree =>
    bget_reclaim_wf hB hwf dev blockno hl hmiss hfree, ?_⟩
  intro dev
  simp [afterCalls, Call.run, bread, bget, brelse, toFront, binit, binitLoop, binitLink,
    findCached, findFree, Bcache.releasesleep,
    Bcache.acquire, Bcache.release, Bcache.initlock, Bcache.setLocked, Bcache.log,
    Bcache.store, bcache0, Buf.zero, sleepReturn, claim, borrow, steal, Outcome.val?,
    Outcome.state, Function.update_apply]

/-- C7 at a concrete input: block 1 of device 1 read right after `binit`,
with two buffers in one bucket. -/
theorem bget_reclaims_tailmost_free_witness :
    0 < 1 ∧ WF 2 1 (binit 2 1 bcache0) ∧ (binit 2 1 bcache0).locks (1 % 1) = false
      ∧ (∀ k ∈ bucketList 2 (binit 2 1 bcache0) (1 % 1),
          ¬ (((binit 2 1 bcache0).mem (.buf k)).dev = 1
            ∧ ((binit 2 1 bcache0).mem (.buf k)).blockno = 1))
      ∧ (∃ k ∈ bucketList 2 (binit 2 1 bcache0) (1 % 1),
          ((binit 2 1 bcache0).mem (.buf k)).refcnt = 0)
      ∧ ∃ s' k l1 l2, bget 2 1 (binit 2 1 bcache0) 1 1 = .ret s' (.buf k)
        ∧ bucketList 2 (binit 2 1 bcache0) (1 % 1) = l1 ++ k :: l2
        ∧ ((binit 2 1 bcache0).mem (.buf k)).refcnt = 0
        ∧ (∀ x ∈ l2, ((binit 2 1 bcache0).mem (.buf x)).refcnt ≠ 0)
        ∧ (s'.mem (.buf k)).dev = 1 ∧ (s'.mem (.buf k)).blockno = 1
        ∧ (s'.mem (.buf k)).valid = 0 ∧ (s'.mem (.buf k)).refcnt = 1
        ∧ (s'.mem (.buf k)).lock = true
        ∧ (s'.mem (.buf k)).next = ((binit 2 1 bcache0).mem (.buf k)).next
        ∧ (s'.mem (.buf k)).prev = ((binit 2 1 bcache0).mem (.buf k)).prev
        ∧ (∀ i < 1, bucketList 2 s' i = bucketList 2 (binit 2 1 bcache0) i)
        ∧ (∀ p, p ≠ Ptr.buf k → s'.mem p = (binit 2 1 bcache0).mem p) :=
  ⟨by decide, (Reachable.wf (by decide) ⟨_, Reach.binit⟩).1, by decide!, by decide!, by decide!,
    bget_reclaims_tailmost_free.1 2 1 _ 1 1 (by decide)
      (Reachable.wf (by decide) ⟨_, Reach.binit⟩).1 (by decide!) (by decide!) (by decide!)⟩

/-- The borrow path of `bget`, on a well-formed state none of whose bucket
locks is held. -/
theorem bget_steal_wf {s : Bcache} (hB : 0 < NBUFBUCKET) (hwf : WF NBUF NBUFBUCKET s)
    (dev blockno : Nat) (hl : ∀ j < NBUFBUCKET, s.locks j = false)
    (hmiss : ∀ k ∈ bucketList NBUF s (blockno % NBUFBUCKET),
      ¬ ((s.mem (.buf k)).dev = dev ∧ (s.mem (.buf k)).blockno = blockno))
    (hfull : ∀ k ∈ bucketList NBUF s (blockno % NBUFBUCKET), (s.mem (.buf k)).refcnt ≠ 0)
    (hpeer : ∃ j < NBUFBUCKET, j ≠ blockno % NBUFBUCKET
      ∧ ∃ k ∈ bucketList NBUF s j, (s.mem (.buf k)).refcnt = 0) :
    ∃ s' j k l1 l2, bget NBUF NBUFBUCKET s dev blockno = .ret s' (.buf k)
      ∧ j < NBUFBUCKET ∧ j ≠ blockno % NBUFBUCKET
      ∧ bucketList NBUF s j = l1 ++ k :: l2
      ∧ (s.mem (.buf k)).refcnt = 0 ∧ (∀ x ∈ l2, (s.mem (.buf x)).refcnt ≠ 0)
      ∧ (∀ j' < j, j' ≠ blockno % NBUFBUCKET →
          ∀ x ∈ bucketList NBUF s j', (s.mem (.buf x)).refcnt ≠ 0)
      ∧ bucketList NBUF s' j = l1 ++ l2
      ∧ bucketList NBUF s' (blockno % NBUFBUCKET)
          = k :: bucketList NBUF s (blockno % NBUFBUCKET)
      ∧ (∀ j' < NBUFBUCKET, j' ≠ j → j' ≠ blockno % NBUFBUCKET →
          bucketList NBUF s' j' = bucketList NBUF s j')
      ∧ (s'.mem (.buf k)).dev = dev ∧ (s'.mem (.buf k)).blockno = blockno
      ∧ (s'.mem (.buf k)).valid = 0 ∧ (s'.mem (.buf k)).refcnt = 1
      ∧ (s'.mem (.buf k)).lock = true
      ∧ (∀ p, p ≠ Ptr.buf k → (s'.mem p).dat = (s.mem p).dat) := by
  have hi : blockno % NBUFBUCKET < NBUFBUCKET := Nat.mod_lt _ hB
  have hr := hwf.rep
  have hc := firstCached_eq_none hmiss
  have hf := lastFree_eq_none hfull
  have hm : s.borrow_mutex = false := by
    cases h : s.borrow_mutex with
    | false => rfl
    | true =>
      obtain ⟨j, hj, hjl⟩ := hwf.nest h
      rw [hl j hj] at hjl; cases hjl
  cases hp : peerFree s.mem s.locks (bucketList NBUF s) (blockno % NBUFBUCKET) NBUFBUCKET 0 with
  | none =>
    exfalso
    obtain ⟨j, hj, hji, k, hk, h0⟩ := hpeer
    rcases peerFree_none NBUFBUCKET 0 hp j (Nat.zero_le _) (by simpa using hj) with h | h | h
    · exact hji h
    · rw [hl j hj] at h; cases h
    · exact lastFree_none h k hk h0
  | some r =>
    obtain ⟨j, k⟩ := r
    obtain ⟨_, hjB, hji, _, hkj, hlow⟩ := peerFree_some NBUFBUCKET 0 hp
    simp only [Nat.zero_add] at hjB
    obtain ⟨l1, l2, e, h0, hl2⟩ := lastFree_split hkj
    have hkL := (lastFree_some hkj).1
    have hkN : k < NBUF := hr.bound j hjB k hkL
    obtain ⟨s', hg, hr', hpost⟩ := bget_steal hr hB (hl _ hi) hc hf hm hp (hwf.idle k hkN h0)
    obtain ⟨e1, e2, e3, e4, e5⟩ := dat_eq_iff.1 hpost.dat_self
    have hk1 : k ∉ l1 := by
      have hnd := hr.nodup j hjB
      rw [e] at hnd
      intro h
      exact (List.nodup_append.1 hnd).2.2 h (List.mem_cons_self _ _)
    refine ⟨s', j, k, l1, l2, hg, hjB, hji, e, h0, hl2, ?_, ?_, ?_, ?_, e2, e3, e1, e5, e4,
      hpost.dat_other⟩
    · intro j' hj' hj'i x hx
      rcases hlow j' (Nat.zero_le _) hj' with h | h | h
      · exact absurd h hj'i
      · rw [hl j' (by omega)] at h; cases h
      · exact lastFree_none h x hx
    · rw [hr'.bucketList_eq hjB, moveFront, if_neg hji, e, List.erase_append_right _ hk1,
        List.erase_cons_head]
    · rw [hr'.bucketList_eq hi, moveFront, if_pos rfl, List.erase_of_not_mem]
      exact fun h => hji (hr.unique hjB hi hkL h)
    · intro j' hj' hj'j hj'i
      rw [hr'.bucketList_eq hj', moveFront, if_neg hj'i, List.erase_of_not_mem]
      exact fun h => hj'j (hr.unique hj' hjB h hkL)

/-- C8: on every well-formed cache state none of whose bucket locks is held,
when bucket `i = blockno mod NBUFBUCKET` has no buffer with identity
`(dev, blockno)` and no buffer with `refcnt = 0` while another bucket has one,
`bget` returns the tail-most buffer with `refcnt = 0` of the lowest-index
bucket `j != i` that has one, removes it from the list of bucket `j`, inserts
it at the head of the list of bucket `i`, and sets its identity to
`(dev, blockno)`, `valid = 0` and `refcnt = 1` (and takes its sleep-lock); the
other bucket lists and the data of every other buffer are unchanged.  In
particular, with two buffers in two buckets, on any device, reading block 0,
then block 2, then releasing block 0, then reading block 1 succeeds: the read
of block 2 takes the buffer of bucket 1 and the read of block 1 takes a buffer
back from bucket 0. -/
theorem bget_borrows_from_peer :
    (∀ (NBUF NBUFBUCKET : Nat) (s : Bcache) (dev blockno : Nat),
      0 < NBUFBUCKET → WF NBUF NBUFBUCKET s → (∀ j < NBUFBUCKET, s.locks j = false) →
      (∀ k ∈ bucketList NBUF s (blockno % NBUFBUCKET),
        ¬ ((s.mem (.buf k)).dev = dev ∧ (s.mem (.buf k)).blockno = blockno)) →
      (∀ k ∈ bucketList NBUF s (blockno % NBUFBUCKET), (s.mem (.buf k)).refcnt ≠ 0) →
      (∃ j < NBUFBUCKET, j ≠ blockno % NBUFBUCKET
        ∧ ∃ k ∈ bucketList NBUF s j, (s.mem (.buf k)).refcnt = 0) →
      ∃ s' j k l1 l2, bget NBUF NBUFBUCKET s dev blockno = .ret s' (.buf k)
        ∧ j < NBUFBUCKET ∧ j ≠ blockno % NBUFBUCKET
        ∧ bucketList NBUF s j = l1 ++ k :: l2
        ∧ (s.mem (.buf k)).refcnt = 0 ∧ (∀ x ∈ l2, (s.mem (.buf x)).refcnt ≠ 0)
        ∧ (∀ j' < j, j' ≠ blockno % NBUFBUCKET →
            ∀ x ∈ bucketList NBUF s j', (s.mem (.buf x)).refcnt ≠ 0)
        ∧ bucketList NBUF s' j = l1 ++ l2
        ∧ bucketList NBUF s' (blockno % NBUFBUCKET)
            = k :: bucketList NBUF s (blockno % NBUFBUCKET)
        ∧ (∀ j' < NBUFBUCKET, j' ≠ j → j' ≠ blockno % NBUFBUCKET →
            bucketList NBUF s' j' = bucketList NBUF s j')
        ∧ (s'.mem (.buf k)).dev = dev ∧ (s'.mem (.buf k)).blockno = blockno
        ∧ (s'.mem (.buf k)).valid = 0 ∧ (s'.mem (.buf k)).refcnt = 1
        ∧ (s'.mem (.buf k)).lock = true
        ∧ (∀ p, p ≠ Ptr.buf k → (s'.mem p).dat = (s.mem p).dat))
    ∧ (∀ dev : Nat,
        (bread 2 2 (afterCalls 2 2 []) dev 0).val? = some (.buf 0)
        ∧ bucketList 2 (afterCalls 2 2 [.bread dev 0]) 0 = [0]
        ∧ bucketList 2 (afterCalls 2 2 [.bread dev 0]) 1 = [1]
        ∧ (bread 2 2 (afterCalls 2 2 [.bread dev 0]) dev 2).val? = some (.buf 1)
        ∧ bucketList 2 (afterCalls 2 2 [.bread dev 0, .bread dev 2]) 0 = [1, 0]
        ∧ bucketList 2 (afterCalls 2 2 [.bread dev 0, .bread dev 2]) 1 = []
        ∧ (brelse 2 (afterCalls 2 2 [.bread dev 0, .bread dev 2]) (.buf 0)).val? = some ()
        ∧ bucketList 2 (afterCalls 2 2 [.bread dev 0, .bread dev 2, .brelse (.buf 0)]) 0
            = [0, 1]
        ∧ (bread 2 2 (afterCalls 2 2 [.bread dev 0, .bread dev 2, .brelse (.buf 0)])
            dev 1).val? = some (.buf 0)
        ∧ bucketList 2 (afterCalls 2 2 [.bread dev 0, .bread dev 2, .brelse (.buf 0),
            .bread dev 1]) 0 = [1]
        ∧ bucketList 2 (afterCalls 2 2 [.bread dev 0, .bread dev 2, .brelse (.buf 0),
            .bread dev 1]) 1 = [0]) := by
  refine ⟨fun NBUF NBUFBUCKET s dev blockno hB hwf hl hmiss hfull hpeer =>
    bget_steal_wf hB hwf dev blockno hl hmiss hfull hpeer, ?_⟩
  intro dev
  rcases Nat.eq_zero_or_pos dev with rfl | h
  · decide!
  · have h1 : ¬ (0 = dev) := h.ne
    simp [afterCalls, Call.run, bread, bget, brelse, toFront, binit, binitLoop, binitLink,
      findCached, findFree, Bcache.releasesleep, bucketList, walkNext,
      Bcache.acquire, Bcache.release, Bcache.initlock, Bcache.setLocked, Bcache.log,
      Bcache.store, bcache0, Buf.zero, sleepReturn, claim, borrow, steal, Outcome.val?,
      Outcome.state, Function.update_apply, h1]

/-- The state `demoFull` is reachable. -/
theorem demoFull_reachable : Reachable 2 2 demoFull :=
  ⟨_, Reach.bread 1 0 Reach.binit
    (Outcome.eq_ret bcache0 (show _ = some (Ptr.buf 0) by decide!))⟩

/-- C8 at a concrete input: block 2 of device 1 read while the only buffer of
bucket 0 is held and the buffer of bucket 1 is free. -/
theorem bget_borrows_from_peer_witness :
    0 < 2 ∧ WF 2 2 demoFull ∧ (∀ j < 2, demoFull.locks j = false)
      ∧ (∀ k ∈ bucketList 2 demoFull (2 % 2),
          ¬ ((demoFull.mem (.buf k)).dev = 1 ∧ (demoFull.mem (.buf k)).blockno = 2))
      ∧ (∀ k ∈ bucketList 2 demoFull (2 % 2), (demoFull.mem (.buf k)).refcnt ≠ 0)
      ∧ (∃ j < 2, j ≠ 2 % 2 ∧ ∃ k ∈ bucketList 2 demoFull j, (demoFull.mem (.buf k)).refcnt = 0)
      ∧ ∃ s' j k l1 l2, bget 2 2 demoFull 1 2 = .ret s' (.buf k)
        ∧ j < 2 ∧ j ≠ 2 % 2
        ∧ bucketList 2 demoFull j = l1 ++ k :: l2
        ∧ (demoFull.mem (.buf k)).refcnt = 0 ∧ (∀ x ∈ l2, (demoFull.mem (.buf x)).refcnt ≠ 0)
        ∧ (∀ j' < j, j' ≠ 2 % 2 →
            ∀ x ∈ bucketList 2 demoFull j', (demoFull.mem (.buf x)).refcnt ≠ 0)
        ∧ bucketList 2 s' j = l1 ++ l2
        ∧ bucketList 2 s' (2 % 2) = k :: bucketList 2 demoFull (2 % 2)
        ∧ (∀ j' < 2, j' ≠ j → j' ≠ 2 % 2 → bucketList 2 s' j' = bucketList 2 demoFull j')
        ∧ (s'.mem (.buf k)).dev = 1 ∧ (s'.mem (.buf k)).blockno = 2
        ∧ (s'.mem (.buf k)).valid = 0 ∧ (s'.mem (.buf k)).refcnt = 1
        ∧ (s'.mem (.buf k)).lock = true
        ∧ (∀ p, p ≠ Ptr.buf k → (s'.mem p).dat = (demoFull.mem p).dat) :=
  ⟨by decide, (Reachable.wf (by decide) demoFull_reachable).1, by decide!, by decide!,
    by decide!, by decide!,
    bget_borrows_from_peer.1 2 2 _ 1 2 (by decide)
      (Reachable.wf (by decide) demoFull_reachable).1 (by decide!) (by decide!) (by decide!)
      (by decide!)⟩

/-- C9: on every well-formed cache state none of whose bucket locks is held,
`bget(dev, blockno)` halts with the panic "bget: no buffers" exactly when no
buffer of bucket `blockno mod NBUFBUCKET` has identity `(dev, blockno)` and
every buffer of every bucket has `refcnt > 0`, and it halts with no other
panic; in every other such state it returns a buffer, at once unless the
sleep-lock of the buffer caching the block is held, for which it then waits in
`acquiresleep`. -/
theorem bget_panics_iff_exhausted (NBUF NBUFBUCKET : Nat) (hB : 0 < NBUFBUCKET)
    (s : Bcache) (hwf : WF NBUF NBUFBUCKET s) (hl : ∀ j < NBUFBUCKET, s.locks j = false)
    (dev blockno : Nat) :
    ((∃ t, bget NBUF NBUFBUCKET s dev blockno = .panic t "bget: no buffers")
        ↔ ((∀ k ∈ bucketList NBUF s (blockno % NBUFBUCKET),
              ¬ ((s.mem (.buf k)).dev = dev ∧ (s.mem (.buf k)).blockno = blockno))
            ∧ ∀ j < NBUFBUCKET, ∀ k ∈ bucketList NBUF s j, 0 < (s.mem (.buf k)).refcnt))
      ∧ (∀ t msg, bget NBUF NBUFBUCKET s dev blockno = .panic t msg → msg = "bget: no buffers")
      ∧ (¬ ((∀ k ∈ bucketList NBUF s (blockno % NBUFBUCKET),
              ¬ ((s.mem (.buf k)).dev = dev ∧ (s.mem (.buf k)).blockno = blockno))
            ∧ ∀ j < NBUFBUCKET, ∀ k ∈ bucketList NBUF s j, 0 < (s.mem (.buf k)).refcnt) →
          (∃ s' k, bget NBUF NBUFBUCKET s dev blockno = .ret s' (.buf k) ∧ k < NBUF)
          ∨ (∃ t k, bget NBUF NBUFBUCKET s dev blockno = .blocked t
              ∧ k ∈ bucketList NBUF s (blockno % NBUFBUCKET)
              ∧ (s.mem (.buf k)).dev = dev ∧ (s.mem (.buf k)).blockno = blockno
              ∧ (s.mem (.buf k)).lock = true)) := by
  have hi : blockno % NBUFBUCKET < NBUFBUCKET := Nat.mod_lt _ hB
  have hr := hwf.rep
  have hm : s.borrow_mutex = false := by
    cases h : s.borrow_mutex with
    | false => rfl
    | true =>
      obtain ⟨j, hj, hjl⟩ := hwf.nest h
      rw [hl j hj] at hjl; cases hjl
  rcases bget_cases dev blockno hr hB hwf.idle (hl _ hi) with
    ⟨k, t, hc, hk, e⟩ | ⟨k, t, hc, _, e, _⟩ | ⟨k, t, _, hf, e, _⟩ |
    ⟨t, _, _, hm', _⟩ | ⟨j, k, t, _, _, _, hp, e, _⟩ | ⟨t, hc, hf, _, hp, e⟩
  · have hc' := firstCached_some hc
    have hnc : ¬ ((∀ k ∈ bucketList NBUF s (blockno % NBUFBUCKET),
          ¬ ((s.mem (.buf k)).dev = dev ∧ (s.mem (.buf k)).blockno = blockno))
        ∧ ∀ j < NBUFBUCKET, ∀ k ∈ bucketList NBUF s j, 0 < (s.mem (.buf k)).refcnt) :=
      fun h => h.1 k hc'.1 hc'.2
    refine ⟨⟨?_, fun h => absurd h hnc⟩, ?_, fun _ => Or.inr ⟨t, k, e, hc'.1, hc'.2.1, hc'.2.2, hk⟩⟩
    · rintro ⟨t', e'⟩; rw [e] at e'; cases e'
    · intro t' msg e'; rw [e] at e'; cases e'
  · have hc' := firstCached_some hc
    have hnc : ¬ ((∀ k ∈ bucketList NBUF s (blockno % NBUFBUCKET),
          ¬ ((s.mem (.buf k)).dev = dev ∧ (s.mem (.buf k)).blockno = blockno))
        ∧ ∀ j < NBUFBUCKET, ∀ k ∈ bucketList NBUF s j, 0 < (s.mem (.buf k)).refcnt) :=
      fun h => h.1 k hc'.1 hc'.2
    refine ⟨⟨?_, fun h => absurd h hnc⟩, ?_,
      fun _ => Or.inl ⟨t, k, e, hr.bound _ hi k hc'.1⟩⟩
    · rintro ⟨t', e'⟩; rw [e] at e'; cases e'
    · intro t' msg e'; rw [e] at e'; cases e'
  · have hf' := lastFree_some hf
    have hnc : ¬ ((∀ k ∈ bucketList NBUF s (blockno % NBUFBUCKET),
          ¬ ((s.mem (.buf k)).dev = dev ∧ (s.mem (.buf k)).blockno = blockno))
        ∧ ∀ j < NBUFBUCKET, ∀ k ∈ bucketList NBUF s j, 0 < (s.mem (.buf k)).refcnt) :=
      fun h => absurd (h.2 _ hi k hf'.1) (by rw [hf'.2]; exact lt_irrefl _)
    refine ⟨⟨?_, fun h => absurd h hnc⟩, ?_,
      fun _ => Or.inl ⟨t, k, e, hr.bound _ hi k hf'.1⟩⟩
    · rintro ⟨t', e'⟩; rw [e] at e'; cases e'
    · intro t' msg e'; rw [e] at e'; cases e'
  · rw [hm] at hm'; cases hm'
  · obtain ⟨_, hjB, _, _, hkj, _⟩ := peerFree_some NBUFBUCKET 0 hp
    simp only [Nat.zero_add] at hjB
    have hf' := lastFree_some hkj
    have hnc : ¬ ((∀ k ∈ bucketList NBUF s (blockno % NBUFBUCKET),
          ¬ ((s.mem (.buf k)).dev = dev ∧ (s.mem (.buf k)).blockno = blockno))
        ∧ ∀ j < NBUFBUCKET, ∀ k ∈ bucketList NBUF s j, 0 < (s.mem (.buf k)).refcnt) :=
      fun h => absurd (h.2 j hjB k hf'.1) (by rw [hf'.2]; exact lt_irrefl _)
    refine ⟨⟨?_, fun h => absurd h hnc⟩, ?_,
      fun _ => Or.inl ⟨t, k, e, hr.bound j hjB k hf'.1⟩⟩
    · rintro ⟨t', e'⟩; rw [e] at e'; cases e'
    · intro t' msg e'; rw [e] at e'; cases e'
  · have hcond : (∀ k ∈ bucketList NBUF s (blockno % NBUFBUCKET),
          ¬ ((s.mem (.buf k)).dev = dev ∧ (s.mem (.buf k)).blockno = blockno))
        ∧ ∀ j < NBUFBUCKET, ∀ k ∈ bucketList NBUF s j, 0 < (s.mem (.buf k)).refcnt := by
      refine ⟨firstCached_none hc, ?_⟩
      intro j hj k hk
      refine Nat.pos_of_ne_zero ?_
      by_cases hji : j = blockno % NBUFBUCKET
      · subst hji; exact lastFree_none hf k hk
      · rcases peerFree_none NBUFBUCKET 0 hp j (Nat.zero_le _) (by simpa using hj) with h | h | h
        · exact absurd h hji
        · rw [hl j hj] at h; cases h
        · exact lastFree_none h k hk
    refine ⟨⟨fun _ => hcond, fun _ => ⟨t, e⟩⟩, ?_, fun h => absurd hcond h⟩
    intro t' msg e'
    rw [e] at e'
    injection e' with _ e2
    exact e2.symm

/-- The state `demoExhausted` is reachable. -/
theorem demoExhausted_reachable : Reachable 2 1 demoExhausted :=
  ⟨_, Reach.bread 1 2
    (Reach.bread 1 1 Reach.binit (Outcome.eq_ret bcache0 (show _ = some (Ptr.buf 0) by decide!)))
    (Outcome.eq_ret bcache0 (show _ = some (Ptr.buf 1) by decide!))⟩

/-- C9 at a concrete input: with both buffers of a one-bucket cache held,
asking for a third block panics. -/
theorem bget_panics_iff_exhausted_witness :
    0 < 1 ∧ WF 2 1 demoExhausted ∧ (∀ j < 1, demoExhausted.locks j = false)
      ∧ (∃ t, bget 2 1 demoExhausted 1 3 = .panic t "bget: no buffers")
      ∧ ((∀ k ∈ bucketList 2 demoExhausted (3 % 1),
            ¬ ((demoExhausted.mem (.buf k)).dev = 1 ∧ (demoExhausted.mem (.buf k)).blockno = 3))
          ∧ ∀ j < 1, ∀ k ∈ bucketList 2 demoExhausted j,
              0 < (demoExhausted.mem (.buf k)).refcnt) :=
  ⟨by decide, (Reachable.wf (by decide) demoExhausted_reachable).1, by decide!,
    ((bget_panics_iff_exhausted 2 1 (by decide) demoExhausted
      (Reachable.wf (by decide) demoExhausted_reachable).1 (by decide!) 1 3).1).2 (by decide!),
    by decide!⟩

/-! ## The claim on `brelse` -/

/-- C10: in every reachable cache state, for every buffer `b` whose sleep-lock
is held (so that `b.refcnt >= 1`), `brelse(b)` returns, releases the sleep-lock
and decrements `b.refcnt` by exactly one; if the new `refcnt` is 0, `b` becomes
the first element of the list of its bucket, the other buffers of that list
keep their order, and the other bucket lists are unchanged; if the new
`refcnt` is `> 0`, every bucket list is unchanged; the `dev`, `blockno` and
`valid` of `b` and all the data of every other buffer are unchanged. -/
theorem brelse_unlocks_and_moves_to_front (NBUF NBUFBUCKET : Nat) (hB : 0 < NBUFBUCKET)
    (s : Bcache) (hs : Reachable NBUF NBUFBUCKET s) (k : Nat) (hk : k < NBUF)
    (hh : (s.mem (.buf k)).lock = true) :
    ∃ s', brelse NBUFBUCKET s (.buf k) = .ret s' ()
      ∧ 1 ≤ (s.mem (.buf k)).refcnt
      ∧ (s'.mem (.buf k)).lock = false
      ∧ (s'.mem (.buf k)).refcnt + 1 = (s.mem (.buf k)).refcnt
      ∧ (s'.mem (.buf k)).dev = (s.mem (.buf k)).dev
      ∧ (s'.mem (.buf k)).blockno = (s.mem (.buf k)).blockno
      ∧ (s'.mem (.buf k)).valid = (s.mem (.buf k)).valid
      ∧ ((s'.mem (.buf k)).refcnt = 0 →
          ∃ l1 l2, bucketList NBUF s ((s.mem (.buf k)).blockno % NBUFBUCKET) = l1 ++ k :: l2
            ∧ bucketList NBUF s' ((s.mem (.buf k)).blockno % NBUFBUCKET) = k :: (l1 ++ l2)
            ∧ ∀ j < NBUFBUCKET, j ≠ (s.mem (.buf k)).blockno % NBUFBUCKET →
                bucketList NBUF s' j = bucketList NBUF s j)
      ∧ (0 < (s'.mem (.buf k)).refcnt →
          ∀ j < NBUFBUCKET, bucketList NBUF s' j = bucketList NBUF s j)
      ∧ (∀ p, p ≠ Ptr.buf k → (s'.mem p).dat = (s.mem p).dat) := by
  obtain ⟨pins, hr⟩ := hs
  obtain ⟨L, hI⟩ := reach_inv hB hr
  have hi : (s.mem (.buf k)).blockno % NBUFBUCKET < NBUFBUCKET := Nat.mod_lt _ hB
  obtain ⟨s', e, hI', hp⟩ := brelse_inv hI hB hk hh
  obtain ⟨e1, e2, e3, e4, e5⟩ := dat_eq_iff.1 hp.dat_self
  have hcnt := hI.count k hk
  rw [hh] at hcnt
  simp only [if_true] at hcnt
  have hhome := hI.home k hk (by omega)
  refine ⟨s', e, by omega, e4, by omega, e2, e3, e1, ?_, ?_, hp.dat_other⟩
  · intro h0
    have h0' : (s.mem (.buf k)).refcnt - 1 = 0 := by rw [← e5]; exact h0
    rw [if_pos h0'] at hI'
    obtain ⟨l1, l2, hl⟩ := List.append_of_mem hhome
    have hk1 : k ∉ l1 := by
      have hnd := hI.rep.nodup _ hi
      rw [hl] at hnd
      intro h
      exact (List.nodup_append.1 hnd).2.2 h (List.mem_cons_self _ _)
    refine ⟨l1, l2, by rw [hI.bucketList_inv hi]; exact hl, ?_, ?_⟩
    · rw [hI'.bucketList_inv hi, moveFront, if_pos rfl, hl, List.erase_append_right _ hk1,
        List.erase_cons_head]
    · intro j hj hji
      rw [hI'.bucketList_inv hj, hI.bucketList_inv hj, moveFront, if_neg hji,
        List.erase_of_not_mem]
      exact fun h => hji (hI.rep.unique hj hi h hhome)
  · intro hpos
    have h0' : ¬ (s.mem (.buf k)).refcnt - 1 = 0 := by rw [← e5]; omega
    rw [if_neg h0'] at hI'
    intro j hj
    rw [hI'.bucketList_inv hj, hI.bucketList_inv hj]

/-- C10 at a concrete input: with both buffers of a one-bucket cache held,
the buffer at the tail of the list is released and moves to the front. -/
theorem brelse_unlocks_and_moves_to_front_witness :
    0 < 1 ∧ Reachable 2 1 demoExhausted ∧ 0 < 2
      ∧ (demoExhausted.mem (.buf 0)).lock = true
      ∧ bucketList 2 demoExhausted 0 = [1, 0]
      ∧ ∃ s', brelse 1 demoExhausted (.buf 0) = .ret s' ()
        ∧ 1 ≤ (demoExhausted.mem (.buf 0)).refcnt
        ∧ (s'.mem (.buf 0)).lock = false
        ∧ (s'.mem (.buf 0)).refcnt + 1 = (demoExhausted.mem (.buf 0)).refcnt
        ∧ (s'.mem (.buf 0)).dev = (demoExhausted.mem (.buf 0)).dev
        ∧ (s'.mem (.buf 0)).blockno = (demoExhausted.mem (.buf 0)).blockno
        ∧ (s'.mem (.buf 0)).valid = (demoExhausted.mem (.buf 0)).valid
        ∧ ((s'.mem (.buf 0)).refcnt = 0 →
            ∃ l1 l2, bucketList 2 demoExhausted ((demoExhausted.mem (.buf 0)).blockno % 1)
                = l1 ++ 0 :: l2
              ∧ bucketList 2 s' ((demoExhausted.mem (.buf 0)).blockno % 1) = 0 :: (l1 ++ l2)
              ∧ ∀ j < 1, j ≠ (demoExhausted.mem (.buf 0)).blockno % 1 →
                  bucketList 2 s' j = bucketList 2 demoExhausted j)
        ∧ (0 < (s'.mem (.buf 0)).refcnt →
            ∀ j < 1, bucketList 2 s' j = bucketList 2 demoExhausted j)
        ∧ (∀ p, p ≠ Ptr.buf 0 → (s'.mem p).dat = (demoExhausted.mem p).dat) :=
  ⟨by decide, demoExhausted_reachable, by decide, by decide!, by decide!,
    brelse_unlocks_and_moves_to_front 2 1 (by decide) _ demoExhausted_reachable 0 (by decide)
      (by decide!)⟩

/-! ## The frame of `bget` -/

/-- C11: for every well-formed cache state and every call `bget(dev, blockno)`
that returns, every buffer whose `refcnt` was `> 0` before the call has the
same `dev`, the same `blockno` and the same `valid` flag after the call and is
on the list of the same bucket; so a buffer whose identity, `valid` flag or
bucket differs after the call had `refcnt == 0` before it. -/
theorem bget_keeps_referenced_buffers (NBUF NBUFBUCKET : Nat) (hB : 0 < NBUFBUCKET)
    (s : Bcache) (hwf : WF NBUF NBUFBUCKET s) (dev blockno : Nat) (s' : Bcache) (b : Ptr)
    (h : bget NBUF NBUFBUCKET s dev blockno = .ret s' b) :
    (∀ k < NBUF, 0 < (s.mem (.buf k)).refcnt →
        (s'.mem (.buf k)).dev = (s.mem (.buf k)).dev
        ∧ (s'.mem (.buf k)).blockno = (s.mem (.buf k)).blockno
        ∧ (s'.mem (.buf k)).valid = (s.mem (.buf k)).valid
        ∧ ∀ i < NBUFBUCKET, (k ∈ bucketList NBUF s' i ↔ k ∈ bucketList NBUF s i))
    ∧ (∀ k < NBUF,
        ((s'.mem (.buf k)).dev ≠ (s.mem (.buf k)).dev
          ∨ (s'.mem (.buf k)).blockno ≠ (s.mem (.buf k)).blockno
          ∨ (s'.mem (.buf k)).valid ≠ (s.mem (.buf k)).valid
          ∨ ∃ i < NBUFBUCKET, ¬ (k ∈ bucketList NBUF s' i ↔ k ∈ bucketList NBUF s i)) →
        (s.mem (.buf k)).refcnt = 0) := by
  have hl : s.locks (blockno % NBUFBUCKET) = false := by
    cases hlk : s.locks (blockno % NBUFBUCKET) with
    | false => rfl
    | true => simp [bget, hlk] at h
  obtain ⟨k0, L', d, hb, hk0, hmem, hrep', hsub, hsup, hpost, hcase⟩ :=
    bget_ret hwf.rep hB hwf.idle hl h
  have key : ∀ k < NBUF, 0 < (s.mem (.buf k)).refcnt →
      (s'.mem (.buf k)).dev = (s.mem (.buf k)).dev
      ∧ (s'.mem (.buf k)).blockno = (s.mem (.buf k)).blockno
      ∧ (s'.mem (.buf k)).valid = (s.mem (.buf k)).valid
      ∧ ∀ i < NBUFBUCKET, (k ∈ bucketList NBUF s' i ↔ k ∈ bucketList NBUF s i) := by
    intro k hk hpos
    by_cases hkk : k = k0
    · subst hkk
      rcases hcase with ⟨_, _, hd, hL⟩ | ⟨_, h0, _, _⟩
      · have hdat := hpost.dat_self
        rw [hd] at hdat
        simp only [Buf.dat, Prod.mk.injEq] at hdat
        refine ⟨hdat.2.1, hdat.2.2.1, hdat.1, ?_⟩
        intro i hi
        rw [hrep'.bucketList_eq hi, hL]
      · omega
    · have hdat := hpost.dat_other (.buf k) (by simpa using hkk)
      simp only [Buf.dat, Prod.mk.injEq] at hdat
      refine ⟨hdat.2.1, hdat.2.2.1, hdat.1, ?_⟩
      intro i hi
      rw [hrep'.bucketList_eq hi]
      constructor
      · intro hx
        rcases hsub i k hx with hx' | ⟨hx', _⟩
        · exact hx'
        · exact absurd hx' hkk
      · intro hx
        exact hsup i k hx hkk
  refine ⟨key, ?_⟩
  intro k hk hch
  by_contra hne
  obtain ⟨h1, h2, h3, h4⟩ := key k hk (Nat.pos_of_ne_zero hne)
  rcases hch with hch | hch | hch | ⟨i, hi, hch⟩
  · exact hch h1
  · exact hch h2
  · exact hch h3
  · exact hch (h4 i hi)

/-- C11 at a concrete input: with block 3 of device 1 held in a cache of four
buffers in two buckets, `bget(1, 5)` takes another buffer of bucket 1. -/
theorem bget_keeps_referenced_buffers_witness :
    0 < 2 ∧ WF 4 2 demoRead
      ∧ bget 4 2 demoRead 1 5 = .ret ((bget 4 2 demoRead 1 5).state bcache0) (.buf 3)
      ∧ ((∀ k < 4, 0 < (demoRead.mem (.buf k)).refcnt →
          (((bget 4 2 demoRead 1 5).state bcache0).mem (.buf k)).dev
              = (demoRead.mem (.buf k)).dev
          ∧ (((bget 4 2 demoRead 1 5).state bcache0).mem (.buf k)).blockno
              = (demoRead.mem (.buf k)).blockno
          ∧ (((bget 4 2 demoRead 1 5).state bcache0).mem (.buf k)).valid
              = (demoRead.mem (.buf k)).valid
          ∧ ∀ i < 2, (k ∈ bucketList 4 ((bget 4 2 demoRead 1 5).state bcache0) i
              ↔ k ∈ bucketList 4 demoRead i))
        ∧ (∀ k < 4,
          ((((bget 4 2 demoRead 1 5).state bcache0).mem (.buf k)).dev
              ≠ (demoRead.mem (.buf k)).dev
            ∨ (((bget 4 2 demoRead 1 5).state bcache0).mem (.buf k)).blockno
              ≠ (demoRead.mem (.buf k)).blockno
            ∨ (((bget 4 2 demoRead 1 5).state bcache0).mem (.buf k)).valid
              ≠ (demoRead.mem (.buf k)).valid
            ∨ ∃ i < 2, ¬ (k ∈ bucketList 4 ((bget 4 2 demoRead 1 5).state bcache0) i
              ↔ k ∈ bucketList 4 demoRead i)) →
          (demoRead.mem (.buf k)).refcnt = 0)) :=
  ⟨by decide, (Reachable.wf (by decide) demoRead_reachable).1,
    Outcome.eq_ret bcache0 (show _ = some (Ptr.buf 3) by decide!),
    bget_keeps_referenced_buffers 4 2 (by decide) demoRead
      (Reachable.wf (by decide) demoRead_reachable).1 1 5 _ _
      (Outcome.eq_ret bcache0 (show _ = some (Ptr.buf 3) by decide!))⟩

end Bio

namespace Kalloc

open Bio (Outcome)

/-! ## Reading and writing the link of a page -/

theorem loadNext_storeNext_same (mem : Nat → Nat) (r v : Nat) (hv : v < 2 ^ 64) :
    loadNext (storeNext mem r v) r = v := by
  unfold loadNext storeNext
  simp only [le_refl, Nat.lt_add_of_pos_right, Nat.le_add_right, Nat.add_lt_add_iff_left,
    Nat.add_sub_cancel_left, Nat.sub_self, and_self, if_true, Nat.lt_add_one, true_and]
  norm_num
  omega

/-- Two distinct page-aligned addresses are a page apart. -/
theorem page_apart {a r : Nat} (ha : a % PGSIZE = 0) (hr : r % PGSIZE = 0) (h : a ≠ r) :
    a + PGSIZE ≤ r ∨ r + PGSIZE ≤ a := by
  unfold PGSIZE at *
  omega

theorem loadNext_congr {mem mem' : Nat → Nat} {a : Nat}
    (h : ∀ x, a ≤ x → x < a + 8 → mem' x = mem x) : loadNext mem' a = loadNext mem a := by
  unfold loadNext
  rw [h a (by omega) (by omega), h (a + 1) (by omega) (by omega),
    h (a + 2) (by omega) (by omega), h (a + 3) (by omega) (by omega),
    h (a + 4) (by omega) (by omega), h (a + 5) (by omega) (by omega),
    h (a + 6) (by omega) (by omega), h (a + 7) (by omega) (by omega)]

theorem loadNext_memset_ne (mem : Nat → Nat) {a r : Nat} (c : Nat) (ha : a % PGSIZE = 0)
    (hr : r % PGSIZE = 0) (h : a ≠ r) : loadNext (memset mem r c PGSIZE) a = loadNext mem a := by
  apply loadNext_congr
  intro x h1 h2
  have := page_apart ha hr h
  unfold memset
  unfold PGSIZE at *
  rw [if_neg (by omega)]

theorem loadNext_storeNext_ne (mem : Nat → Nat) {a r : Nat} (v : Nat) (ha : a % PGSIZE = 0)
    (hr : r % PGSIZE = 0) (h : a ≠ r) : loadNext (storeNext mem r v) a = loadNext mem a := by
  apply loadNext_congr
  intro x h1 h2
  have := page_apart ha hr h
  unfold storeNext
  unfold PGSIZE at *
  rw [if_neg (by omega)]

theorem KList.frame_mem {mem mem' : Nat → Nat} :
    ∀ {l : List Nat} {p : Nat}, (∀ a ∈ l, loadNext mem' a = loadNext mem a) →
      KList mem p l → KList mem' p l
  | [], _, _, h => h
  | a :: t, _, hf, ⟨h1, h2, h3⟩ =>
    ⟨h1, h2, by
      rw [hf a (List.mem_cons_self _ _)]
      exact KList.frame_mem (fun x hx => hf x (List.mem_cons_of_mem _ hx)) h3⟩

theorem KList.ne_zero {mem : Nat → Nat} :
    ∀ {l : List Nat} {p : Nat}, KList mem p l → ∀ a ∈ l, a ≠ 0
  | [], _, _, a, ha => by cases ha
  | b :: t, _, ⟨_, h2, h3⟩, a, ha => by
    rcases List.mem_cons.1 ha with rfl | ha
    · exact h2
    · exact KList.ne_zero h3 a ha

theorem KList.walk_eq {mem : Nat → Nat} :
    ∀ {l : List Nat} {p : Nat} {fuel : Nat}, KList mem p l → l.length ≤ fuel →
      walk mem fuel p = l
  | [], _, fuel, h, _ => by
    cases fuel with
    | zero => rfl
    | succ n => simp only [walk]; exact if_pos h
  | a :: t, _, fuel, ⟨h1, h2, h3⟩, hlen => by
    cases fuel with
    | zero => simp at hlen
    | succ n =>
      subst h1
      simp only [walk]
      rw [if_neg h2, KList.walk_eq h3 (by simpa using hlen)]

theorem KList.unique_list {mem : Nat → Nat} :
    ∀ {l l' : List Nat} {p : Nat}, KList mem p l → KList mem p l' → l = l'
  | [], [], _, _, _ => rfl
  | [], b :: t, _, h, ⟨h1, h2, _⟩ => by rw [h] at h1; exact absurd h1.symm h2
  | a :: t, [], _, ⟨h1, h2, _⟩, h => by rw [h] at h1; exact absurd h1.symm h2
  | a :: t, b :: t', _, ⟨h1, _, h3⟩, ⟨h1', _, h3'⟩ => by
    have : a = b := h1.symm.trans h1'
    subst this
    rw [KList.unique_list h3 h3']


@[simp] theorem kmem_log_mem (s : Kmem) (e : Event) : (s.log e).mem = s.mem := rfl
@[simp] theorem kmem_log_locks (s : Kmem) (e : Event) : (s.log e).locks = s.locks := rfl
@[simp] theorem kmem_log_borrow_mutex (s : Kmem) (e : Event) :
    (s.log e).borrow_mutex = s.borrow_mutex := rfl
@[simp] theorem kmem_log_freelists (s : Kmem) (e : Event) : (s.log e).freelists = s.freelists := rfl
@[simp] theorem kmem_log_trace (s : Kmem) (e : Event) : (s.log e).trace = s.trace ++ [e] := rfl

@[simp] theorem kmem_setLocked_mem (s : Kmem) (l : Lock) (v : Bool) : (s.setLocked l v).mem = s.mem := by
  cases l <;> rfl
@[simp] theorem kmem_setLocked_freelists (s : Kmem) (l : Lock) (v : Bool) :
    (s.setLocked l v).freelists = s.freelists := by
  cases l <;> rfl
@[simp] theorem kmem_setLocked_trace (s : Kmem) (l : Lock) (v : Bool) :
    (s.setLocked l v).trace = s.trace := by
  cases l <;> rfl
@[simp] theorem kmem_setLocked_freelist_locks (s : Kmem) (i : Nat) (v : Bool) :
    (s.setLocked (.freelist i) v).locks = Function.update s.locks i v := rfl
@[simp] theorem kmem_setLocked_mutex_locks (s : Kmem) (v : Bool) :
    (s.setLocked .borrow_mutex v).locks = s.locks := rfl
@[simp] theorem kmem_setLocked_freelist_mutex (s : Kmem) (i : Nat) (v : Bool) :
    (s.setLocked (.freelist i) v).borrow_mutex = s.borrow_mutex := rfl
@[simp] theorem kmem_setLocked_mutex_mutex (s : Kmem) (v : Bool) :
    (s.setLocked .borrow_mutex v).borrow_mutex = v := rfl

theorem update_held_free {f : Nat → Bool} {i : Nat} (h : f i = false) :
    Function.update (Function.update f i true) i false = f := by
  rw [Function.update_idem, ← h, Function.update_eq_self]

/-- What a call of `kfree0` that passes the validity check and finds the lock
of its list free leaves behind. -/
theorem kfree0_ret {end_ PHYSTOP : Nat} {s : Kmem} {pa c : Nat}
    (hv : validPage end_ PHYSTOP pa) (hl : s.locks c = false) :
    ∃ s', kfree0 end_ PHYSTOP s pa c = .ret s' ()
      ∧ s'.mem = storeNext (memset s.mem pa 1 PGSIZE) pa (s.freelists c)
      ∧ s'.freelists = Function.update s.freelists c pa
      ∧ s'.locks = s.locks ∧ s'.borrow_mutex = s.borrow_mutex
      ∧ s'.trace = s.trace ++ [.acquire (.freelist c), .release (.freelist c)] := by
  obtain ⟨h1, h2, h3⟩ := hv
  have hne : ¬ (pa % PGSIZE ≠ 0 ∨ pa < end_ ∨ pa ≥ PHYSTOP) := by omega
  simp only [kfree0, if_neg hne, hl]
  refine ⟨_, rfl, ?_⟩
  simp [Kmem.acquire, Kmem.release, update_held_free hl]

/-- A call of `kfree0` that fails the validity check halts. -/
theorem kfree0_panic {end_ PHYSTOP : Nat} {s : Kmem} {pa c : Nat}
    (hv : ¬ validPage end_ PHYSTOP pa) :
    kfree0 end_ PHYSTOP s pa c = .panic s "kfree" := by
  unfold kfree0
  rw [if_pos]
  unfold validPage at hv
  omega


/-- The loop of `kalloc` over the other CPUs when all their lists are empty:
it ends with `r` null and changes nothing but the trace. -/
theorem kallocLoop_none (cid : Nat) :
    ∀ (count i : Nat) (s : Kmem),
      (∀ j, i ≤ j → j < i + count → j ≠ cid → s.locks j = false ∧ s.freelists j = 0) →
      ∃ s', kallocLoop cid count i s = .ret s' 0
        ∧ s'.mem = s.mem ∧ s'.freelists = s.freelists ∧ s'.locks = s.locks
        ∧ s'.borrow_mutex = s.borrow_mutex
  | 0, _, s, _ => ⟨s, rfl, rfl, rfl, rfl, rfl⟩
  | count + 1, i, s, h => by
    unfold kallocLoop
    by_cases hi : i = cid
    · rw [if_pos hi]
      exact kallocLoop_none cid count (i + 1) s (fun j h1 h2 h3 => h j (by omega) (by omega) h3)
    · obtain ⟨hl, hf⟩ := h i (le_refl _) (by omega) hi
      rw [if_neg hi]
      simp only [hl, Bool.false_eq_true, if_false]
      have hf' : ((s.acquire (.freelist i)).freelists i) = 0 := by
        simpa [Kmem.acquire] using hf
      rw [if_neg (by rw [hf']; simp)]
      obtain ⟨s', e, h1, h2, h3, h4⟩ := kallocLoop_none cid count (i + 1)
        ((s.acquire (.freelist i)).release (.freelist i)) (by
          intro j hj1 hj2 hj3
          simpa [Kmem.acquire, Kmem.release, update_held_free hl] using
            h j (by omega) (by omega) hj3)
      refine ⟨s', e, ?_, ?_, ?_, ?_⟩
      · rw [h1]; simp [Kmem.acquire, Kmem.release]
      · rw [h2]; simp [Kmem.acquire, Kmem.release]
      · rw [h3]; simp [Kmem.acquire, Kmem.release, update_held_free hl]
      · rw [h4]; simp [Kmem.acquire, Kmem.release]

/-- The loop of `kalloc` over the other CPUs when `j` is the first of them
with a page: it unlinks the head of list `j` and ends with `r` that page. -/
theorem kallocLoop_some (cid : Nat) {j : Nat} (hj : j ≠ cid) :
    ∀ (count i : Nat) (s : Kmem), i ≤ j → j < i + count → s.freelists j ≠ 0 →
      (∀ k, i ≤ k → k < j → k ≠ cid → s.freelists k = 0) →
      (∀ k, i ≤ k → k ≤ j → k ≠ cid → s.locks k = false) →
      ∃ s', kallocLoop cid count i s = .ret s' (s.freelists j)
        ∧ s'.mem = s.mem
        ∧ s'.freelists = Function.update s.freelists j (loadNext s.mem (s.freelists j))
        ∧ s'.locks = s.locks ∧ s'.borrow_mutex = s.borrow_mutex
  | 0, i, s, h1, h2, _, _, _ => by omega
  | count + 1, i, s, h1, h2, hne, hz, hl => by
    unfold kallocLoop
    by_cases hi : i = cid
    · rw [if_pos hi]
      have : i ≠ j := fun e => hj (e ▸ hi)
      exact kallocLoop_some cid hj count (i + 1) s (by omega) (by omega) hne
        (fun k a b c => hz k (by omega) b c) (fun k a b c => hl k (by omega) b c)
    · rw [if_neg hi]
      have hli := hl i (le_refl _) h1 hi
      simp only [hli, Bool.false_eq_true, if_false]
      by_cases hij : i = j
      · subst hij
        have hf' : ((s.acquire (.freelist i)).freelists i) ≠ 0 := by
          simpa [Kmem.acquire] using hne
        rw [if_pos hf']
        refine ⟨_, rfl, ?_⟩
        simp [Kmem.acquire, Kmem.release, update_held_free hli]
      · have hfi := hz i (le_refl _) (by omega) hi
        have hf' : ((s.acquire (.freelist i)).freelists i) = 0 := by
          simpa [Kmem.acquire] using hfi
        rw [if_neg (by rw [hf']; simp)]
        obtain ⟨s', e, h1', h2', h3', h4'⟩ := kallocLoop_some cid hj count (i + 1)
          ((s.acquire (.freelist i)).release (.freelist i)) (by omega) (by omega)
          (by simpa [Kmem.acquire, Kmem.release] using hne)
          (fun k a b c => by
            simpa [Kmem.acquire, Kmem.release] using hz k (by omega) b c)
          (fun k a b c => by
            simpa [Kmem.acquire, Kmem.release, update_held_free hli] using hl k (by omega) b c)
        refine ⟨s', ?_, ?_, ?_, ?_, ?_⟩
        · rw [e]; simp [Kmem.acquire, Kmem.release]
        · rw [h1']; simp [Kmem.acquire, Kmem.release]
        · rw [h2']; simp [Kmem.acquire, Kmem.release]
        · rw [h3']; simp [Kmem.acquire, Kmem.release, update_held_free hli]
        · rw [h4']; simp [Kmem.acquire, Kmem.release]


/-- The fast path of `kalloc`: the list of the current CPU has a page. -/
theorem kalloc_local (CPUS : Nat) {s : Kmem} {c : Nat} (hl : s.locks c = false)
    (hne : s.freelists c ≠ 0) :
    ∃ s', kalloc CPUS s c = .ret s' (s.freelists c)
      ∧ s'.mem = memset s.mem (s.freelists c) 5 PGSIZE
      ∧ s'.freelists = Function.update s.freelists c (loadNext s.mem (s.freelists c))
      ∧ s'.locks = s.locks ∧ s'.borrow_mutex = s.borrow_mutex := by
  have hf' : ((s.acquire (.freelist c)).freelists c) ≠ 0 := by
    simpa [Kmem.acquire] using hne
  simp only [kalloc, kallocTake, hl, Bool.false_eq_true, if_false, if_pos hf']
  refine ⟨_, rfl, ?_⟩
  simp [Kmem.acquire, Kmem.release, update_held_free hl]

theorem kalloc_borrow_eq (CPUS : Nat) {s : Kmem} {c : Nat} (hl : s.locks c = false)
    (hm : s.borrow_mutex = false) (hc : s.freelists c = 0) :
    kalloc CPUS s c =
      match kallocLoop c CPUS 0 (borrowEntry s c) with
      | .ret s r =>
        if r ≠ 0 then
          .ret { (s.release .borrow_mutex).release (.freelist c) with
            mem := memset ((s.release .borrow_mutex).release (.freelist c)).mem r 5 PGSIZE } r
        else .ret ((s.release .borrow_mutex).release (.freelist c)) r
      | .panic s msg => .panic s msg
      | .blocked s => .blocked s
      | .diverge => .diverge := by
  have hf' : ¬ ((s.acquire (.freelist c)).freelists c) ≠ 0 := by
    simp [Kmem.acquire, hc]
  have h1 : ((s.acquire (.freelist c)).release (.freelist c)).borrow_mutex = false := by
    simpa [Kmem.acquire, Kmem.release] using hm
  have h2 : ((((s.acquire (.freelist c)).release (.freelist c)).acquire .borrow_mutex).locks c)
      = false := by
    simp [Kmem.acquire, Kmem.release, update_held_free hl, hl]
  simp only [kalloc, kallocTake, hl, Bool.false_eq_true, if_false, if_neg hf', h1, h2, borrowEntry]
  cases kallocLoop c CPUS 0 ((((s.acquire (.freelist c)).release (.freelist c)).acquire
    .borrow_mutex).acquire (.freelist c)) <;> rfl

/-- The borrow path of `kalloc` when every list is empty: null. -/
theorem kalloc_none (CPUS : Nat) {s : Kmem} {c : Nat} (hl : ∀ i, s.locks i = false)
    (hm : s.borrow_mutex = false) (hc : s.freelists c = 0)
    (hz : ∀ j < CPUS, j ≠ c → s.freelists j = 0) :
    ∃ s', kalloc CPUS s c = .ret s' 0
      ∧ s'.mem = s.mem ∧ s'.freelists = s.freelists
      ∧ s'.locks = s.locks ∧ s'.borrow_mutex = s.borrow_mutex := by
  rw [kalloc_borrow_eq CPUS (hl c) hm hc]
  obtain ⟨s', e, h1, h2, h3, h4⟩ := kallocLoop_none c CPUS 0 (borrowEntry s c) (by
    intro j _ hj hjc
    have : (Function.update s.locks c true) j = s.locks j := Function.update_noteq hjc _ _
    simp [borrowEntry, Kmem.acquire, Kmem.release, this, hl j, hz j (by omega) hjc])
  rw [e]
  simp only [ne_eq, not_true_eq_false, if_false]
  refine ⟨_, rfl, ?_⟩
  simp [Kmem.release, h1, h2, h3, h4, borrowEntry, Kmem.acquire, update_held_free (hl c), hm]

/-- The borrow path of `kalloc` when `j` is the first other CPU with a page:
the head of list `j`. -/
theorem kalloc_borrow (CPUS : Nat) {s : Kmem} {c j : Nat} (hl : ∀ i, s.locks i = false)
    (hm : s.borrow_mutex = false) (hc : s.freelists c = 0) (hj : j < CPUS) (hjc : j ≠ c)
    (hne : s.freelists j ≠ 0) (hz : ∀ k < j, k ≠ c → s.freelists k = 0) :
    ∃ s', kalloc CPUS s c = .ret s' (s.freelists j)
      ∧ s'.mem = memset s.mem (s.freelists j) 5 PGSIZE
      ∧ s'.freelists = Function.update s.freelists j (loadNext s.mem (s.freelists j))
      ∧ s'.locks = s.locks ∧ s'.borrow_mutex = s.borrow_mutex := by
  rw [kalloc_borrow_eq CPUS (hl c) hm hc]
  have hlk : ∀ k, k ≠ c → (borrowEntry s c).locks k = false := by
    intro k hk
    have : (Function.update s.locks c true) k = s.locks k := Function.update_noteq hk _ _
    simp [borrowEntry, Kmem.acquire, Kmem.release, this, hl k]
  obtain ⟨s', e, h1, h2, h3, h4⟩ := kallocLoop_some c hjc CPUS 0 (borrowEntry s c)
    (Nat.zero_le _) (by omega) (by simpa [borrowEntry, Kmem.acquire, Kmem.release] using hne)
    (fun k _ b d => by simpa [borrowEntry, Kmem.acquire, Kmem.release] using hz k b d)
    (fun k _ _ d => hlk k d)
  rw [e]
  have hfe : (borrowEntry s c).freelists j = s.freelists j := by
    simp [borrowEntry, Kmem.acquire, Kmem.release]
  simp only [hfe, if_pos hne]
  refine ⟨_, rfl, ?_⟩
  simp [Kmem.release, h1, h2, h3, h4, borrowEntry, Kmem.acquire, update_held_free (hl c), hm]


theorem KRep.head_lt {end_ PHYSTOP CPUS : Nat} {s : Kmem} {L : Nat → List Nat}
    (hr : KRep end_ PHYSTOP CPUS s L) {i : Nat} (hi : i < CPUS) :
    s.freelists i = 0 ∨ (s.freelists i ∈ L i ∧ s.freelists i < PHYSTOP) := by
  have h := hr.list i hi
  cases hL : L i with
  | nil => rw [hL] at h; exact Or.inl h
  | cons a t =>
    rw [hL] at h
    have ha : a ∈ L i := by rw [hL]; exact List.mem_cons_self _ _
    rw [h.1]
    exact Or.inr ⟨List.mem_cons_self _ _, (hr.page i hi a ha).2.2⟩

theorem KRep.empty_iff {end_ PHYSTOP CPUS : Nat} {s : Kmem} {L : Nat → List Nat}
    (hr : KRep end_ PHYSTOP CPUS s L) {i : Nat} (hi : i < CPUS) :
    s.freelists i = 0 ↔ L i = [] := by
  have h := hr.list i hi
  cases hL : L i with
  | nil => rw [hL] at h; simpa using h
  | cons a t =>
    rw [hL] at h
    simp only [reduceCtorEq, iff_false]
    rw [h.1]
    exact h.2.1

/-- Pushing a page that is on no list: the representation after `kfree0`. -/
theorem KRep.push {end_ PHYSTOP CPUS : Nat} {s s' : Kmem} {L : Nat → List Nat}
    (hr : KRep end_ PHYSTOP CPUS s L) (hP : PHYSTOP ≤ 2 ^ 64) {c pa : Nat} (hc : c < CPUS)
    (hv : validPage end_ PHYSTOP pa) (h0 : pa ≠ 0) (hn : ∀ i < CPUS, pa ∉ L i)
    (hm : s'.mem = storeNext (memset s.mem pa 1 PGSIZE) pa (s.freelists c))
    (hf : s'.freelists = Function.update s.freelists c pa) :
    KRep end_ PHYSTOP CPUS s' (Function.update L c (pa :: L c)) := by
  have hframe : ∀ i < CPUS, ∀ a ∈ L i, loadNext s'.mem a = loadNext s.mem a := by
    intro i hi a ha
    have hpa := hr.page i hi a ha
    have hne : a ≠ pa := fun e => hn i hi (e ▸ ha)
    rw [hm, loadNext_storeNext_ne _ _ hpa.1 hv.1 hne, loadNext_memset_ne _ _ hpa.1 hv.1 hne]
  refine ⟨?_, ?_, ?_, ?_⟩
  · intro i hi
    by_cases hic : i = c
    · subst hic
      rw [hf, Function.update_same, Function.update_same]
      refine ⟨rfl, h0, ?_⟩
      have hlt : s.freelists i < 2 ^ 64 := by
        rcases hr.head_lt hi with h | h
        · rw [h]; exact Nat.pos_pow_of_pos _ (by decide)
        · omega
      rw [hm, loadNext_storeNext_same _ _ _ hlt, ← hm]
      exact KList.frame_mem (hframe i hi) (hr.list i hi)
    · rw [hf, Function.update_noteq hic, Function.update_noteq hic]
      exact KList.frame_mem (hframe i hi) (hr.list i hi)
  · intro i hi a ha
    by_cases hic : i = c
    · subst hic
      rw [Function.update_same] at ha
      rcases List.mem_cons.1 ha with rfl | ha
      · exact hv
      · exact hr.page i hi a ha
    · rw [Function.update_noteq hic] at ha
      exact hr.page i hi a ha
  · intro i hi
    by_cases hic : i = c
    · subst hic
      rw [Function.update_same]
      exact List.nodup_cons.2 ⟨hn i hi, hr.nodup i hi⟩
    · rw [Function.update_noteq hic]
      exact hr.nodup i hi
  · intro i hi j hj hij a ha
    by_cases hic : i = c
    · subst hic
      rw [Function.update_same] at ha
      rw [Function.update_noteq (Ne.symm hij)]
      rcases List.mem_cons.1 ha with rfl | ha
      · exact hn j hj
      · exact hr.disj i hi j hj hij a ha
    · rw [Function.update_noteq hic] at ha
      by_cases hjc : j = c
      · subst hjc
        rw [Function.update_same]
        intro hmem
        rcases List.mem_cons.1 hmem with rfl | hmem
        · exact hn i hi ha
        · exact hr.disj i hi j hj hij a ha hmem
      · rw [Function.update_noteq hjc]
        exact hr.disj i hi j hj hij a ha

/-- Popping the head of list `j`: the representation after `kalloc`. -/
theorem KRep.pop {end_ PHYSTOP CPUS : Nat} {s s' : Kmem} {L : Nat → List Nat}
    (hr : KRep end_ PHYSTOP CPUS s L) {j r : Nat} {t : List Nat} (hj : j < CPUS)
    (hL : L j = r :: t)
    (hm : s'.mem = memset s.mem r 5 PGSIZE)
    (hf : s'.freelists = Function.update s.freelists j (loadNext s.mem r)) :
    KRep end_ PHYSTOP CPUS s' (Function.update L j t) := by
  have hrj : r ∈ L j := by rw [hL]; exact List.mem_cons_self _ _
  have hv := hr.page j hj r hrj
  have hnd := hr.nodup j hj
  rw [hL] at hnd
  have hrt : r ∉ t := (List.nodup_cons.1 hnd).1
  have hframe : ∀ a, a % PGSIZE = 0 → a ≠ r → loadNext s'.mem a = loadNext s.mem a := by
    intro a ha hne
    rw [hm, loadNext_memset_ne _ _ ha hv.1 hne]
  have hl := hr.list j hj
  rw [hL] at hl
  refine ⟨?_, ?_, ?_, ?_⟩
  · intro i hi
    by_cases hij : i = j
    · subst hij
      rw [hf, Function.update_same, Function.update_same]
      refine KList.frame_mem ?_ hl.2.2
      intro a ha
      exact hframe a (hr.page i hi a (by rw [hL]; exact List.mem_cons_of_mem _ ha)).1
        (fun e => hrt (e ▸ ha))
    · rw [hf, Function.update_noteq hij, Function.update_noteq hij]
      refine KList.frame_mem ?_ (hr.list i hi)
      intro a ha
      exact hframe a (hr.page i hi a ha).1 (fun e => hr.disj i hi j hj hij a ha (e ▸ hrj))
  · intro i hi a ha
    by_cases hij : i = j
    · subst hij
      rw [Function.update_same] at ha
      exact hr.page i hi a (by rw [hL]; exact List.mem_cons_of_mem _ ha)
    · rw [Function.update_noteq hij] at ha
      exact hr.page i hi a ha
  · intro i hi
    by_cases hij : i = j
    · subst hij
      rw [Function.update_same]
      exact (List.nodup_cons.1 hnd).2
    · rw [Function.update_noteq hij]
      exact hr.nodup i hi
  · intro i hi k hk hik a ha
    have hsub : ∀ x, ∀ b ∈ Function.update L j t x, b ∈ L x := by
      intro x b hb
      by_cases hx : x = j
      · subst hx
        rw [Function.update_same] at hb
        rw [hL]; exact List.mem_cons_of_mem _ hb
      · rw [Function.update_noteq hx] at hb
        exact hb
    intro hk'
    exact hr.disj i hi k hk hik a (hsub i a ha) (hsub k a hk')

theorem KRep.congr_state {end_ PHYSTOP CPUS : Nat} {s s' : Kmem} {L : Nat → List Nat}
    (hr : KRep end_ PHYSTOP CPUS s L) (hm : s'.mem = s.mem) (hf : s'.freelists = s.freelists) :
    KRep end_ PHYSTOP CPUS s' L :=
  ⟨fun i hi => by rw [hm, hf]; exact hr.list i hi, hr.page, hr.nodup, hr.disj⟩


/-- A list of distinct non-null pages below `PHYSTOP` has at most
`PHYSTOP / PGSIZE` elements. -/
theorem pages_length_le {PHYSTOP : Nat} {l : List Nat} (hnd : l.Nodup)
    (hp : ∀ a ∈ l, a % PGSIZE = 0 ∧ a ≠ 0 ∧ a < PHYSTOP) : l.length ≤ PHYSTOP / PGSIZE := by
  have hinj : ∀ x ∈ l, ∀ y ∈ l, x / PGSIZE = y / PGSIZE → x = y := by
    intro x hx y hy h
    have h1 := (hp x hx).1
    have h2 := (hp y hy).1
    unfold PGSIZE at *
    omega
  have hnd' : (l.map (· / PGSIZE)).Nodup := List.Nodup.map_on hinj hnd
  have hsub : (l.map (· / PGSIZE)).Subperm (List.range' 1 (PHYSTOP / PGSIZE)) := by
    apply hnd'.subperm
    intro q hq
    obtain ⟨a, ha, rfl⟩ := List.mem_map.1 hq
    obtain ⟨h1, h2, h3⟩ := hp a ha
    rw [List.mem_range'_1]
    unfold PGSIZE at *
    omega
  have := hsub.length_le
  simpa using this

theorem KRep.congr_lists {end_ PHYSTOP CPUS : Nat} {s : Kmem} {L L' : Nat → List Nat}
    (hr : KRep end_ PHYSTOP CPUS s L) (h : ∀ i < CPUS, L' i = L i) :
    KRep end_ PHYSTOP CPUS s L' :=
  ⟨fun i hi => by rw [h i hi]; exact hr.list i hi,
    fun i hi => by rw [h i hi]; exact hr.page i hi,
    fun i hi => by rw [h i hi]; exact hr.nodup i hi,
    fun i hi j hj hij => by rw [h i hi, h j hj]; exact hr.disj i hi j hj hij⟩

/-- The list read off the memory is the represented list. -/
theorem KRep.freelist_eq {end_ PHYSTOP CPUS : Nat} {s : Kmem} {L : Nat → List Nat}
    (hr : KRep end_ PHYSTOP CPUS s L) {i : Nat} (hi : i < CPUS) :
    freelist PHYSTOP s i = L i := by
  unfold freelist
  apply KList.walk_eq (hr.list i hi)
  apply pages_length_le (hr.nodup i hi)
  intro a ha
  exact ⟨(hr.page i hi a ha).1, KList.ne_zero (hr.list i hi) a ha, (hr.page i hi a ha).2.2⟩

theorem KRep.toFreelist {end_ PHYSTOP CPUS : Nat} {s : Kmem} {L : Nat → List Nat}
    (hr : KRep end_ PHYSTOP CPUS s L) : KRep end_ PHYSTOP CPUS s (freelist PHYSTOP s) :=
  hr.congr_lists fun _ hi => hr.freelist_eq hi


theorem mem_pageList {a : Nat} : ∀ {n p : Nat}, p % PGSIZE = 0 →
    (a ∈ pageList p n ↔ a % PGSIZE = 0 ∧ p ≤ a ∧ a < p + n * PGSIZE)
  | 0, p, _ => by simp [pageList]
  | n + 1, p, hp => by
    have hp' : (p + PGSIZE) % PGSIZE = 0 := by unfold PGSIZE at *; omega
    simp only [pageList, List.mem_cons, mem_pageList hp']
    unfold PGSIZE at *
    constructor
    · rintro (rfl | ⟨h1, h2, h3⟩)
      · omega
      · omega
    · rintro ⟨h1, h2, h3⟩
      by_cases h : a = p
      · exact Or.inl h
      · right; omega

theorem nodup_pageList : ∀ (n p : Nat), (pageList p n).Nodup
  | 0, _ => List.nodup_nil
  | n + 1, p => by
    simp only [pageList, List.nodup_cons]
    refine ⟨?_, nodup_pageList n _⟩
    have : ∀ (m q : Nat), ∀ a ∈ pageList q m, q ≤ a := by
      intro m
      induction m with
      | zero => intro q a ha; cases ha
      | succ m ih =>
        intro q a ha
        simp only [pageList, List.mem_cons] at ha
        rcases ha with rfl | ha
        · exact le_refl _
        · have := ih _ a ha
          omega
    intro h
    have := this n _ p h
    unfold PGSIZE at this
    omega

theorem length_pageList : ∀ (n p : Nat), (pageList p n).length = n
  | 0, _ => rfl
  | n + 1, p => by simp [pageList, length_pageList n]

/-- The loop of `freerange` on pages above every page that is on a list, for
a range that ends below the last page of the address space: it returns, and
the pages from `p` up to `pa_end` are pushed on list `c`, one after the
other. -/
theorem freerangeLoop_spec {end_ PHYSTOP CPUS : Nat} (hT : PHYSTOP + PGSIZE < 2 ^ 64)
    {pa_end c : Nat} (hc : c < CPUS) (he : pa_end ≤ PHYSTOP) :
    ∀ (fuel p : Nat) (s : Kmem) (L : Nat → List Nat), KRep end_ PHYSTOP CPUS s L →
      s.locks c = false → p % PGSIZE = 0 → end_ ≤ p → 0 < p → p ≤ pa_end →
      (∀ i < CPUS, ∀ a ∈ L i, a < p) → (pa_end - p) / PGSIZE ≤ fuel →
      ∃ s', freerangeLoop end_ PHYSTOP pa_end c fuel p s = .ret s' ()
        ∧ KRep end_ PHYSTOP CPUS s'
            (Function.update L c ((pageList p ((pa_end - p) / PGSIZE)).reverse ++ L c))
        ∧ s'.locks = s.locks ∧ s'.borrow_mutex = s.borrow_mutex
  | 0, p, s, L, hr, hl, hp, hep, h0, hple, hlt, hf => by
    have hw : (p + PGSIZE) % 2 ^ 64 = p + PGSIZE := Nat.mod_eq_of_lt (by omega)
    have hn : (pa_end - p) / PGSIZE = 0 := Nat.le_zero.1 hf
    have hnot : ¬ p + PGSIZE ≤ pa_end := by
      intro h
      have : 1 ≤ (pa_end - p) / PGSIZE := by
        rw [Nat.one_le_div_iff (by decide)]
        omega
      omega
    refine ⟨s, ?_, ?_, rfl, rfl⟩
    · rw [freerangeLoop]
      rw [hw, if_neg hnot]
    · rw [hn]
      simp only [pageList, List.reverse_nil, List.nil_append, Function.update_eq_self]
      exact hr
  | fuel + 1, p, s, L, hr, hl, hp, hep, h0, hple, hlt, hf => by
    have hw : (p + PGSIZE) % 2 ^ 64 = p + PGSIZE := Nat.mod_eq_of_lt (by omega)
    have hP : PHYSTOP ≤ 2 ^ 64 := by omega
    rw [freerangeLoop]
    rw [hw]
    by_cases hle : p + PGSIZE ≤ pa_end
    · rw [if_pos hle]
      have hv : validPage end_ PHYSTOP p := ⟨hp, hep, by unfold PGSIZE at hle; omega⟩
      obtain ⟨s1, e1, hm1, hf1, hl1, hmu1, _⟩ := kfree0_ret (s := s) (c := c) hv hl
      rw [e1]
      have hr1 := hr.push hP hc hv (by omega)
        (fun i hi hmem => Nat.lt_irrefl _ (hlt i hi p hmem)) hm1 hf1
      have hn : (pa_end - p) / PGSIZE = (pa_end - (p + PGSIZE)) / PGSIZE + 1 := by
        unfold PGSIZE at *
        omega
      obtain ⟨s2, e2, hr2, hl2, hmu2⟩ := freerangeLoop_spec hT hc he fuel (p + PGSIZE) s1 _ hr1
        (by rw [hl1]; exact hl) (by unfold PGSIZE at *; omega) (by omega) (by omega) hle
        (by
          intro i hi a ha
          by_cases hic : i = c
          · subst hic
            rw [Function.update_same] at ha
            rcases List.mem_cons.1 ha with rfl | ha
            · unfold PGSIZE; omega
            · have := hlt i hi a ha
              omega
          · rw [Function.update_noteq hic] at ha
            have := hlt i hi a ha
            omega)
        (by omega)
      refine ⟨s2, e2, ?_, by rw [hl2, hl1], by rw [hmu2, hmu1]⟩
      rw [hn]
      simp only [pageList, List.reverse_cons, List.append_assoc, List.singleton_append]
      simpa using hr2
    · rw [if_neg hle]
      have hn : (pa_end - p) / PGSIZE = 0 := by
        unfold PGSIZE at *
        omega
      refine ⟨s, rfl, ?_, rfl, rfl⟩
      rw [hn]
      simp only [pageList, List.reverse_nil, List.nil_append, Function.update_eq_self]
      exact hr

/-- At the top of the address space the test of the loop of `freerange` never
fails: with `pa_end` in the last page, `p + PGSIZE` is at most `pa_end` or
wraps to 0.  The loop does not return. -/
theorem freerangeLoop_top {end_ PHYSTOP pa_end c : Nat} (hT : 2 ^ 64 ≤ pa_end + PGSIZE) :
    ∀ (fuel p : Nat) (s : Kmem), p % PGSIZE = 0 → p < 2 ^ 64 →
      (freerangeLoop end_ PHYSTOP pa_end c fuel p s).val? = none
  | 0, p, s, hp, hlt => by
    have htest : (p + PGSIZE) % 2 ^ 64 ≤ pa_end := by
      unfold PGSIZE at *
      omega
    rw [freerangeLoop]
    rw [if_pos htest]
    rfl
  | fuel + 1, p, s, hp, hlt => by
    have htest : (p + PGSIZE) % 2 ^ 64 ≤ pa_end := by
      unfold PGSIZE at *
      omega
    rw [freerangeLoop]
    rw [if_pos htest]
    cases hk : kfree0 end_ PHYSTOP s p c with
    | ret s1 u =>
      exact freerangeLoop_top hT fuel _ s1 (by unfold PGSIZE at *; omega)
        (Nat.mod_lt _ (by decide))
    | panic s1 msg => rfl
    | blocked s1 => rfl
    | diverge => rfl

/-- A page-rounded address is page-aligned and a 64-bit value. -/
theorem PGROUNDUP_mod (a : Nat) : PGROUNDUP a % PGSIZE = 0 ∧ PGROUNDUP a < 2 ^ 64 := by
  unfold PGROUNDUP
  have h := Nat.mod_lt (a + PGSIZE - 1) (show 0 < 2 ^ 64 by decide)
  have hd := Nat.div_mul_le_self ((a + PGSIZE - 1) % 2 ^ 64) PGSIZE
  exact ⟨Nat.mul_mod_left _ _, by omega⟩

/-- With `PHYSTOP` in the last page of the address space the loop of `kinit`
does not return: the call of `freerange` for the last CPU does not. -/
theorem kinitLoop_top {end_ PHYSTOP CPUS base range : Nat} (hT : 2 ^ 64 ≤ PHYSTOP + PGSIZE) :
    ∀ (count i : Nat) (s : Kmem), 0 < count → i + count = CPUS →
      (kinitLoop end_ PHYSTOP CPUS base range count i s).val? = none
  | 0, _, _, h, _ => absurd h (Nat.lt_irrefl 0)
  | count + 1, i, s, _, hi => by
    rw [kinitLoop]
    by_cases hlast : i = CPUS - 1
    · simp only [if_pos hlast]
      have h := @freerangeLoop_top end_ PHYSTOP PHYSTOP i hT
        (2 ^ 64 / PGSIZE) _ (s.initlock (.freelist i))
        (PGROUNDUP_mod ((base + range * i) % 2 ^ 64)).1
        (PGROUNDUP_mod ((base + range * i) % 2 ^ 64)).2
      unfold freerange
      revert h
      cases freerangeLoop end_ PHYSTOP PHYSTOP i (2 ^ 64 / PGSIZE)
          (PGROUNDUP ((base + range * i) % 2 ^ 64)) (s.initlock (.freelist i)) with
      | ret s1 u => intro h; cases h
      | panic s1 msg => intro _; rfl
      | blocked s1 => intro _; rfl
      | diverge => intro _; rfl
    · simp only [if_neg hlast]
      cases freerange end_ PHYSTOP (s.initlock (.freelist i)) ((base + range * i) % 2 ^ 64)
          ((base + range * (i + 1)) % 2 ^ 64) i with
      | ret s1 u => exact kinitLoop_top hT count (i + 1) s1 (by omega) (by omega)
      | panic s1 msg => rfl
      | blocked s1 => rfl
      | diverge => rfl

/-- With `PHYSTOP` in the last page of the address space `kinit` does not
return, whatever `end` and the number of CPUs are. -/
theorem kinit_top {end_ PHYSTOP CPUS : Nat} (hT : 2 ^ 64 ≤ PHYSTOP + PGSIZE) (hC : 1 ≤ CPUS)
    (s : Kmem) : (kinit end_ PHYSTOP CPUS s).val? = none := by
  unfold kinit
  exact kinitLoop_top hT CPUS 0 s (by omega) (Nat.zero_add _)


theorem PGROUNDUP_aligned {a : Nat} (ha : a % PGSIZE = 0) (hlt : a + PGSIZE ≤ 2 ^ 64) :
    PGROUNDUP a = a := by
  unfold PGROUNDUP
  unfold PGSIZE at *
  rw [Nat.mod_eq_of_lt (by omega)]
  omega

/-- The loop of `kinit` from iteration `i` on, for a page-aligned `base` and a
page-aligned `range` with `base + range * CPUS <= PHYSTOP`. -/
theorem kinitLoop_spec {end_ PHYSTOP CPUS base range : Nat} (hT : PHYSTOP + PGSIZE < 2 ^ 64)
    (hPa : PHYSTOP % PGSIZE = 0) (hb : base % PGSIZE = 0) (hr : range % PGSIZE = 0)
    (heb : end_ ≤ base) (hb0 : 0 < base) (hsum : base + range * CPUS ≤ PHYSTOP) :
    ∀ (count i : Nat) (s : Kmem) (L : Nat → List Nat), i + count = CPUS →
      KRep end_ PHYSTOP CPUS s L →
      (∀ j < CPUS, ∀ a ∈ L j, a < base + range * i) →
      (∀ j, i ≤ j → j < CPUS → L j = []) →
      ∃ s' L', kinitLoop end_ PHYSTOP CPUS base range count i s = .ret s' ()
        ∧ KRep end_ PHYSTOP CPUS s' L'
        ∧ (∀ j < i, L' j = L j)
        ∧ (∀ j, i ≤ j → j < CPUS → L' j = initPages PHYSTOP CPUS base range j)
        ∧ (∀ j, s'.locks j = if i ≤ j ∧ j < CPUS then false else s.locks j)
        ∧ s'.borrow_mutex = s.borrow_mutex
  | 0, i, s, L, hi, hrep, _, _ => by
    refine ⟨s, L, rfl, hrep, fun _ _ => rfl, ?_, ?_, rfl⟩
    · intro j h1 h2; omega
    · intro j
      rw [if_neg (by omega)]
  | count + 1, i, s, L, hi, hrep, hlt, hnil => by
    have hiC : i < CPUS := by omega
    have hP : PHYSTOP < 2 ^ 64 := by omega
    have hmul : range * i + range ≤ range * CPUS := by
      rw [← Nat.mul_succ]
      exact Nat.mul_le_mul_left _ hiC
    have hlo : (base + range * i) % 2 ^ 64 = base + range * i :=
      Nat.mod_eq_of_lt (by omega)
    have hhi : (base + range * (i + 1)) % 2 ^ 64 = base + range * (i + 1) :=
      Nat.mod_eq_of_lt (by rw [Nat.mul_succ]; omega)
    have hloa : (base + range * i) % PGSIZE = 0 := by
      rw [Nat.add_mod, hb, Nat.mul_mod, hr]; simp
    have hP2 : PHYSTOP + PGSIZE ≤ 2 ^ 64 := by omega
    have hend : rangeEnd PHYSTOP CPUS base range i ≤ PHYSTOP := by
      unfold rangeEnd
      split
      · exact le_refl _
      · rw [Nat.mul_succ]; omega
    have ho : (if i = CPUS - 1 then
          freerange end_ PHYSTOP (s.initlock (.freelist i)) ((base + range * i) % 2 ^ 64)
            PHYSTOP i
        else
          freerange end_ PHYSTOP (s.initlock (.freelist i)) ((base + range * i) % 2 ^ 64)
            ((base + range * (i + 1)) % 2 ^ 64) i)
        = freerangeLoop end_ PHYSTOP (rangeEnd PHYSTOP CPUS base range i) i
            (2 ^ 64 / PGSIZE) (base + range * i)
            (s.initlock (.freelist i)) := by
      rw [hlo, hhi]
      unfold freerange rangeEnd
      rw [PGROUNDUP_aligned hloa (by omega)]
      split <;> rfl
    have hrep1 : KRep end_ PHYSTOP CPUS (s.initlock (.freelist i)) L :=
      hrep.congr_state (by simp [Kmem.initlock]) (by simp [Kmem.initlock])
    have hstart : base + range * i ≤ rangeEnd PHYSTOP CPUS base range i := by
      unfold rangeEnd
      split
      · omega
      · rw [Nat.mul_succ]; omega
    obtain ⟨s1, e1, hr1, hl1, hm1⟩ := freerangeLoop_spec hT hiC hend
      (2 ^ 64 / PGSIZE) (base + range * i)
      (s.initlock (.freelist i)) L hrep1 (by simp [Kmem.initlock]) hloa (by omega) (by omega)
      hstart hlt (Nat.div_le_div_right (by omega))
    rw [hnil i (le_refl _) hiC, List.append_nil] at hr1
    have hstep : kinitLoop end_ PHYSTOP CPUS base range (count + 1) i s
        = kinitLoop end_ PHYSTOP CPUS base range count (i + 1) s1 := by
      rw [kinitLoop]
      simp only [ho, e1]
    rw [hstep]
    by_cases hc0 : count = 0
    · subst hc0
      refine ⟨s1, _, rfl, hr1, ?_, ?_, ?_, ?_⟩
      · intro j hj
        exact Function.update_noteq (by omega) _ _
      · intro j h1 h2
        have : j = i := by omega
        subst this
        exact Function.update_same _ _ _
      · intro j
        rw [hl1]
        by_cases hji : j = i
        · subst hji
          simp [Kmem.initlock, hiC]
        · have : ¬ (i ≤ j ∧ j < CPUS) := by omega
          simp [Kmem.initlock, Function.update_noteq hji, this]
      · rw [hm1]; simp [Kmem.initlock]
    · have hne : i ≠ CPUS - 1 := by omega
      have hre : rangeEnd PHYSTOP CPUS base range i = base + range * (i + 1) := by
        unfold rangeEnd; rw [if_neg hne]
      obtain ⟨s2, L2, e2, hr2, hsame, hinit, hl2, hm2⟩ := kinitLoop_spec hT hPa hb hr heb hb0
        hsum count (i + 1) s1 _ (by omega) hr1
        (by
          intro j hj a ha
          by_cases hji : j = i
          · subst hji
            rw [Function.update_same] at ha
            rw [List.mem_reverse, mem_pageList hloa, hre] at ha
            obtain ⟨_, _, h3⟩ := ha
            have hd : base + range * (j + 1) - (base + range * j) = range := by
              rw [Nat.mul_succ]; omega
            rw [hd] at h3
            have hdiv := Nat.div_mul_le_self range PGSIZE
            rw [Nat.mul_succ]
            omega
          · rw [Function.update_noteq hji] at ha
            have := hlt j hj a ha
            rw [Nat.mul_succ]
            omega)
        (by
          intro j h1 h2
          rw [Function.update_noteq (by omega)]
          exact hnil j (by omega) h2)
      refine ⟨s2, L2, e2, hr2, ?_, ?_, ?_, ?_⟩
      · intro j hj
        rw [hsame j (by omega)]
        exact Function.update_noteq (by omega) _ _
      · intro j h1 h2
        by_cases hji : j = i
        · subst hji
          rw [hsame j (by omega)]
          exact Function.update_same _ _ _
        · exact hinit j (by omega) h2
      · intro j
        rw [hl2, hl1]
        by_cases hji : j = i
        · subst hji
          simp [Kmem.initlock, hiC]
        · by_cases hj : i + 1 ≤ j ∧ j < CPUS
          · rw [if_pos hj, if_pos ⟨by omega, hj.2⟩]
          · rw [if_neg hj, if_neg (by omega)]
            simp [Kmem.initlock, Function.update_noteq hji]
      · rw [hm2, hm1]; simp [Kmem.initlock]


/-- The variable `base` of `kinit`: the first page boundary at or after `end`. -/
theorem PGROUNDUP_spec {end_ PHYSTOP : Nat} (he : end_ ≤ PHYSTOP) (hPa : PHYSTOP % PGSIZE = 0)
    (hP : PHYSTOP < 2 ^ 64) :
    PGROUNDUP end_ % PGSIZE = 0 ∧ end_ ≤ PGROUNDUP end_ ∧ PGROUNDUP end_ < end_ + PGSIZE
      ∧ PGROUNDUP end_ ≤ PHYSTOP := by
  unfold PGROUNDUP
  unfold PGSIZE at *
  have hlt : end_ + 4096 - 1 < 2 ^ 64 := by omega
  rw [Nat.mod_eq_of_lt hlt]
  omega

/-- The width `kinit` computes from the unaligned `end` is the width computed
from `base`. -/
theorem kinit_range_eq {end_ PHYSTOP CPUS : Nat} (he : end_ ≤ PHYSTOP)
    (hPa : PHYSTOP % PGSIZE = 0) (hP : PHYSTOP < 2 ^ 64) :
    PGROUNDDOWN ((PHYSTOP + 2 ^ 64 - end_) % 2 ^ 64 / CPUS) = rangeOfBase end_ PHYSTOP CPUS := by
  obtain ⟨h1, h2, h3, h4⟩ := PGROUNDUP_spec he hPa hP
  have hsub : (PHYSTOP + 2 ^ 64 - end_) % 2 ^ 64 = PHYSTOP - end_ := by
    have : PHYSTOP + 2 ^ 64 - end_ = (PHYSTOP - end_) + 2 ^ 64 := by omega
    rw [this, Nat.add_mod_right, Nat.mod_eq_of_lt (by omega)]
  rw [hsub]
  unfold rangeOfBase PGROUNDDOWN
  congr 1
  rw [Nat.div_div_eq_div_mul, Nat.div_div_eq_div_mul, Nat.mul_comm CPUS PGSIZE,
    ← Nat.div_div_eq_div_mul, ← Nat.div_div_eq_div_mul]
  congr 1
  unfold PGSIZE at *
  omega

theorem rangeOfBase_spec {end_ PHYSTOP CPUS : Nat} (he : end_ ≤ PHYSTOP)
    (hPa : PHYSTOP % PGSIZE = 0) (hP : PHYSTOP < 2 ^ 64) :
    rangeOfBase end_ PHYSTOP CPUS % PGSIZE = 0
      ∧ PGROUNDUP end_ + rangeOfBase end_ PHYSTOP CPUS * CPUS ≤ PHYSTOP := by
  obtain ⟨h1, h2, h3, h4⟩ := PGROUNDUP_spec he hPa hP
  unfold rangeOfBase PGROUNDDOWN
  refine ⟨Nat.mul_mod_left _ _, ?_⟩
  have hle : (PHYSTOP - PGROUNDUP end_) / CPUS / PGSIZE * PGSIZE * CPUS
      ≤ PHYSTOP - PGROUNDUP end_ := by
    calc (PHYSTOP - PGROUNDUP end_) / CPUS / PGSIZE * PGSIZE * CPUS
        ≤ (PHYSTOP - PGROUNDUP end_) / CPUS * CPUS :=
          Nat.mul_le_mul_right _ (Nat.div_mul_le_self _ _)
      _ ≤ PHYSTOP - PGROUNDUP end_ := Nat.div_mul_le_self _ _
  omega


theorem rangeEnd_spec {PHYSTOP CPUS base range : Nat} (hPa : PHYSTOP % PGSIZE = 0)
    (hb : base % PGSIZE = 0) (hr : range % PGSIZE = 0) (hsum : base + range * CPUS ≤ PHYSTOP)
    {k : Nat} (hk : k < CPUS) :
    (base + range * k) % PGSIZE = 0 ∧ rangeEnd PHYSTOP CPUS base range k % PGSIZE = 0
      ∧ base + range * k ≤ rangeEnd PHYSTOP CPUS base range k
      ∧ rangeEnd PHYSTOP CPUS base range k ≤ PHYSTOP := by
  have hmul : range * k + range ≤ range * CPUS := by
    rw [← Nat.mul_succ]
    exact Nat.mul_le_mul_left _ hk
  have h1 : ∀ x, (base + range * x) % PGSIZE = 0 := by
    intro x
    rw [Nat.add_mod, hb, Nat.mul_mod, hr]; simp
  refine ⟨h1 k, ?_, ?_, ?_⟩
  · unfold rangeEnd; split
    · exact hPa
    · exact h1 _
  · unfold rangeEnd; split
    · omega
    · rw [Nat.mul_succ]; omega
  · unfold rangeEnd; split
    · exact le_refl _
    · rw [Nat.mul_succ]; omega

/-- The pages `kinit` puts on the list of CPU `k` are the pages of its range. -/
theorem mem_initPages {PHYSTOP CPUS base range : Nat} (hPa : PHYSTOP % PGSIZE = 0)
    (hb : base % PGSIZE = 0) (hr : range % PGSIZE = 0) (hsum : base + range * CPUS ≤ PHYSTOP)
    {k : Nat} (hk : k < CPUS) (a : Nat) :
    a ∈ initPages PHYSTOP CPUS base range k ↔
      a % PGSIZE = 0 ∧ base + range * k ≤ a ∧ a < rangeEnd PHYSTOP CPUS base range k := by
  obtain ⟨h1, h2, h3, _⟩ := rangeEnd_spec hPa hb hr hsum hk
  unfold initPages
  rw [List.mem_reverse, mem_pageList h1]
  have : base + range * k
      + (rangeEnd PHYSTOP CPUS base range k - (base + range * k)) / PGSIZE * PGSIZE
      = rangeEnd PHYSTOP CPUS base range k := by
    have hd : (rangeEnd PHYSTOP CPUS base range k - (base + range * k)) % PGSIZE = 0 := by
      unfold PGSIZE at *; omega
    have := Nat.div_add_mod (rangeEnd PHYSTOP CPUS base range k - (base + range * k)) PGSIZE
    rw [hd, Nat.mul_comm] at this
    omega
  rw [this]

/-- The state `kinit` leaves: every list holds the pages of its range. -/
theorem kinit_rep {end_ PHYSTOP CPUS : Nat} (h0 : 0 < end_) (he : end_ ≤ PHYSTOP)
    (hPa : PHYSTOP % PGSIZE = 0) (hT : PHYSTOP + PGSIZE < 2 ^ 64) {s0 : Kmem}
    (hs0 : ∀ i < CPUS, s0.freelists i = 0) :
    ∃ s, kinit end_ PHYSTOP CPUS s0 = .ret s ()
      ∧ KRep end_ PHYSTOP CPUS s
          (initPages PHYSTOP CPUS (PGROUNDUP end_) (rangeOfBase end_ PHYSTOP CPUS))
      ∧ (∀ j, s.locks j = if j < CPUS then false else s0.locks j)
      ∧ s.borrow_mutex = s0.borrow_mutex := by
  have hP : PHYSTOP < 2 ^ 64 := by omega
  obtain ⟨h1, h2, h3, h4⟩ := PGROUNDUP_spec he hPa hP
  obtain ⟨h5, h6⟩ := @rangeOfBase_spec end_ PHYSTOP CPUS he hPa hP
  have hrep0 : KRep end_ PHYSTOP CPUS s0 (fun _ => []) :=
    ⟨fun i hi => hs0 i hi, fun _ _ a ha => (by cases ha), fun _ _ => List.nodup_nil,
      fun _ _ _ _ _ a ha => (by cases ha)⟩
  obtain ⟨s, L, e, hr, _, hinit, hl, hm⟩ := kinitLoop_spec hT hPa h1 h5 h2 (by omega) h6
    CPUS 0 s0 (fun _ => []) (Nat.zero_add _) hrep0 (fun _ _ a ha => (by cases ha))
    (fun _ _ _ => rfl)
  refine ⟨s, ?_, hr.congr_lists (fun i hi => (hinit i (Nat.zero_le _) hi).symm), ?_, hm⟩
  · unfold kinit
    simp only [kinit_range_eq he hPa hP]
    exact e
  · intro j
    rw [hl j]
    simp


/-! ## The claim on `kinit` -/

/-- What `kalloc` does on represented free lists with no lock held: it
returns; the result is null when every list is empty, and otherwise the head
of list `j`, which is unlinked, where `j` is the current CPU if its list has a
page and the first other CPU with a page if not. -/
theorem kalloc_cases {end_ PHYSTOP CPUS : Nat} {s : Kmem} {L : Nat → List Nat}
    (hr : KRep end_ PHYSTOP CPUS s L) (hl : ∀ i, s.locks i = false)
    (hm : s.borrow_mutex = false) {c : Nat} (hc : c < CPUS) :
    ∃ s' r, kalloc CPUS s c = .ret s' r
      ∧ (∀ i, s'.locks i = false) ∧ s'.borrow_mutex = false
      ∧ ((r = 0 ∧ (∀ i < CPUS, L i = []) ∧ KRep end_ PHYSTOP CPUS s' L
            ∧ s'.mem = s.mem ∧ s'.freelists = s.freelists)
        ∨ (∃ j t, j < CPUS ∧ L j = r :: t ∧ r ≠ 0
            ∧ (j = c ∨ (L c = [] ∧ ∀ k < j, k ≠ c → L k = []))
            ∧ KRep end_ PHYSTOP CPUS s' (Function.update L j t)
            ∧ s'.mem = memset s.mem r 5 PGSIZE)) := by
  cases hLc : L c with
  | cons r t =>
    have hlist := hr.list c hc
    rw [hLc] at hlist
    have hne : s.freelists c ≠ 0 := by rw [hlist.1]; exact hlist.2.1
    obtain ⟨s', e, h1, h2, h3, h4⟩ := kalloc_local CPUS (hl c) hne
    rw [hlist.1] at e h1 h2
    refine ⟨s', r, e, fun i => by rw [h3]; exact hl i, by rw [h4]; exact hm, Or.inr ?_⟩
    exact ⟨c, t, hc, hLc, hlist.2.1, Or.inl rfl, hr.pop hc hLc h1 h2, h1⟩
  | nil =>
    have hfc : s.freelists c = 0 := (hr.empty_iff hc).2 hLc
    by_cases hex : ∃ j, j < CPUS ∧ j ≠ c ∧ s.freelists j ≠ 0
    · classical
      have hj := Nat.find_spec hex
      have hmin := fun k (hk : k < Nat.find hex) => Nat.find_min hex hk
      generalize Nat.find hex = j at hj hmin
      obtain ⟨hjC, hjc, hne⟩ := hj
      have hz : ∀ k < j, k ≠ c → s.freelists k = 0 := by
        intro k hk hkc
        by_contra h
        exact hmin k hk ⟨by omega, hkc, h⟩
      obtain ⟨s', e, h1, h2, h3, h4⟩ := kalloc_borrow CPUS hl hm hfc hjC hjc hne hz
      cases hLj : L j with
      | nil => exact absurd ((hr.empty_iff hjC).2 hLj) hne
      | cons r t =>
        have hlist := hr.list j hjC
        rw [hLj] at hlist
        rw [hlist.1] at e h1 h2
        refine ⟨s', r, e, fun i => by rw [h3]; exact hl i, by rw [h4]; exact hm, Or.inr ?_⟩
        refine ⟨j, t, hjC, hLj, hlist.2.1, Or.inr ⟨rfl, ?_⟩, hr.pop hjC hLj h1 h2, h1⟩
        intro k hk hkc
        exact (hr.empty_iff (by omega)).1 (hz k hk hkc)
    · have hz : ∀ j < CPUS, j ≠ c → s.freelists j = 0 := by
        intro j hj hjc
        by_contra h
        exact hex ⟨j, hj, hjc, h⟩
      obtain ⟨s', e, h1, h2, h3, h4⟩ := kalloc_none CPUS hl hm hfc hz
      refine ⟨s', 0, e, fun i => by rw [h3]; exact hl i, by rw [h4]; exact hm, Or.inl ?_⟩
      refine ⟨rfl, ?_, hr.congr_state h1 h2, h1, h2⟩
      intro i hi
      by_cases hic : i = c
      · rw [hic]; exact hLc
      · exact (hr.empty_iff hi).1 (hz i hi hic)


/-! ## The invariant of the reachable allocator states -/

theorem PGROUNDUP_le {end_ PHYSTOP a : Nat} (he : end_ ≤ PHYSTOP) (hPa : PHYSTOP % PGSIZE = 0)
    (hP : PHYSTOP < 2 ^ 64) (ha : a % PGSIZE = 0) : end_ ≤ a ↔ PGROUNDUP end_ ≤ a := by
  obtain ⟨h1, h2, h3, h4⟩ := PGROUNDUP_spec he hPa hP
  unfold PGSIZE at *
  omega

/-- Every page between `base` and `PHYSTOP` is in the range of some CPU. -/
theorem initPages_cover {PHYSTOP CPUS base range : Nat} (hC : 1 ≤ CPUS)
    (hPa : PHYSTOP % PGSIZE = 0) (hb : base % PGSIZE = 0) (hr : range % PGSIZE = 0)
    (hsum : base + range * CPUS ≤ PHYSTOP) {a : Nat} (ha : a % PGSIZE = 0) (hba : base ≤ a)
    (haP : a < PHYSTOP) : ∃ k < CPUS, a ∈ initPages PHYSTOP CPUS base range k := by
  by_cases hlast : base + range * (CPUS - 1) ≤ a
  · refine ⟨CPUS - 1, by omega, ?_⟩
    rw [mem_initPages hPa hb hr hsum (by omega)]
    unfold rangeEnd
    rw [if_pos rfl]
    exact ⟨ha, hlast, haP⟩
  · have hlt : a - base < range * (CPUS - 1) := by omega
    have hrpos : 0 < range := by
      rcases Nat.eq_zero_or_pos range with h | h
      · rw [h] at hlt; simp at hlt
      · exact h
    have hk1 : range * ((a - base) / range) ≤ a - base := Nat.mul_div_le _ _
    have hk2 : a - base < range * ((a - base) / range + 1) := Nat.lt_mul_div_succ _ hrpos
    have hk3 : (a - base) / range < CPUS - 1 :=
      Nat.lt_of_mul_lt_mul_left (Nat.lt_of_le_of_lt hk1 hlt)
    refine ⟨(a - base) / range, by omega, ?_⟩
    rw [mem_initPages hPa hb hr hsum (by omega)]
    unfold rangeEnd
    rw [if_neg (by omega)]
    exact ⟨ha, by omega, by omega⟩

theorem kinit_inv {end_ PHYSTOP CPUS : Nat} (hcfg : Config end_ PHYSTOP CPUS)
    {mem : Nat → Nat} {s : Kmem} (h : kinit end_ PHYSTOP CPUS (kmem0 mem) = .ret s ()) :
    ∃ L, KInv end_ PHYSTOP CPUS s [] L := by
  obtain ⟨h0, he, hPa, hP, hC⟩ := hcfg
  have hT : PHYSTOP + PGSIZE < 2 ^ 64 := by
    by_contra hn
    have htop := @kinit_top end_ PHYSTOP CPUS (Nat.le_of_not_lt hn) hC (kmem0 mem)
    rw [h] at htop
    cases htop
  obtain ⟨h1, h2, h3, h4⟩ := PGROUNDUP_spec he hPa hP
  obtain ⟨h5, h6⟩ := @rangeOfBase_spec end_ PHYSTOP CPUS he hPa hP
  obtain ⟨s', e, hr, hl, hm⟩ := @kinit_rep end_ PHYSTOP CPUS h0 he hPa hT
    (kmem0 mem) (fun _ _ => rfl)
  rw [e] at h
  injection h with h
  subst h
  refine ⟨_, hr, ?_, hm, List.nodup_nil, fun a ha => (by cases ha), fun a ha => (by cases ha),
    ?_⟩
  · intro i
    rw [hl i]
    simp [kmem0]
  · intro a ⟨ha1, ha2, ha3⟩
    exact Or.inr (initPages_cover hC hPa h1 h5 h6 ha1 ((PGROUNDUP_le he hPa hP ha1).1 ha2) ha3)

theorem kalloc_inv {end_ PHYSTOP CPUS : Nat} {s s' : Kmem} {owned : List Nat}
    {L : Nat → List Nat} (hI : KInv end_ PHYSTOP CPUS s owned L) {c r : Nat} (hc : c < CPUS)
    (h : kalloc CPUS s c = .ret s' r) :
    ∃ L', KInv end_ PHYSTOP CPUS s' (if r = 0 then owned else r :: owned) L'
      ∧ ((r = 0 ∧ ∀ i < CPUS, L i = [])
        ∨ (r ≠ 0 ∧ validPage end_ PHYSTOP r ∧ ∃ j < CPUS, r ∈ L j)) := by
  obtain ⟨s1, r1, e, hl, hm, hcase⟩ := kalloc_cases hI.rep hI.locks hI.mutex hc
  rw [e] at h
  injection h with h1 h2
  subst h1; subst h2
  rcases hcase with ⟨hr0, hnil, hrep, _, _⟩ | ⟨j, t, hj, hLj, hne, _, hrep, _⟩
  · refine ⟨L, ?_, Or.inl ⟨hr0, hnil⟩⟩
    rw [if_pos hr0]
    exact ⟨hrep, hl, hm, hI.owned_nodup, hI.owned_page, hI.owned_free, hI.cover⟩
  · have hrj : r1 ∈ L j := by rw [hLj]; exact List.mem_cons_self _ _
    have hnd := hI.rep.nodup j hj
    rw [hLj] at hnd
    have hsub : ∀ x, ∀ b ∈ Function.update L j t x, b ∈ L x := by
      intro x b hb
      by_cases hx : x = j
      · subst hx
        rw [Function.update_same] at hb
        rw [hLj]; exact List.mem_cons_of_mem _ hb
      · rw [Function.update_noteq hx] at hb
        exact hb
    refine ⟨Function.update L j t, ?_, Or.inr ⟨hne, hI.rep.page j hj r1 hrj, j, hj, hrj⟩⟩
    rw [if_neg hne]
    refine ⟨hrep, hl, hm, ?_, ?_, ?_, ?_⟩
    · exact List.nodup_cons.2 ⟨fun hmem => hI.owned_free r1 hmem j hj hrj, hI.owned_nodup⟩
    · intro a ha
      rcases List.mem_cons.1 ha with rfl | ha
      · exact hI.rep.page j hj _ hrj
      · exact hI.owned_page a ha
    · intro a ha i hi hmem
      rcases List.mem_cons.1 ha with rfl | ha
      · by_cases hij : i = j
        · subst hij
          rw [Function.update_same] at hmem
          exact (List.nodup_cons.1 hnd).1 hmem
        · rw [Function.update_noteq hij] at hmem
          exact hI.rep.disj i hi j hj hij _ hmem hrj
      · exact hI.owned_free a ha i hi (hsub i a hmem)
    · intro a hv
      rcases hI.cover a hv with ha | ⟨i, hi, ha⟩
      · exact Or.inl (List.mem_cons_of_mem _ ha)
      · by_cases har : a = r1
        · exact Or.inl (har ▸ List.mem_cons_self _ _)
        · refine Or.inr ⟨i, hi, ?_⟩
          by_cases hij : i = j
          · subst hij
            rw [Function.update_same]
            rw [hLj] at ha
            rcases List.mem_cons.1 ha with h | h
            · exact absurd h har
            · exact h
          · rw [Function.update_noteq hij]
            exact ha

theorem kfree_inv {end_ PHYSTOP CPUS : Nat} (hcfg : Config end_ PHYSTOP CPUS) {s s' : Kmem}
    {owned : List Nat} {L : Nat → List Nat} (hI : KInv end_ PHYSTOP CPUS s owned L)
    {c p : Nat} (hc : c < CPUS) (hp : p ∈ owned)
    (h : kfree end_ PHYSTOP s c p = .ret s' ()) :
    KInv end_ PHYSTOP CPUS s' (owned.erase p) (Function.update L c (p :: L c)) := by
  have hv := hI.owned_page p hp
  obtain ⟨s1, e, hm1, hf1, hl1, hmu1, _⟩ := kfree0_ret (s := s) (c := c) hv (hI.locks c)
  unfold kfree at h
  rw [e] at h
  injection h with h
  subst h
  have hp0 : p ≠ 0 := by
    have := hcfg.end_pos
    have := hv.2.1
    omega
  have hrep := hI.rep.push (Nat.le_of_lt hcfg.bound) hc hv hp0 (hI.owned_free p hp) hm1 hf1
  refine ⟨hrep, fun i => by rw [hl1]; exact hI.locks i, by rw [hmu1]; exact hI.mutex,
    hI.owned_nodup.erase p, ?_, ?_, ?_⟩
  · intro a ha
    exact hI.owned_page a (List.mem_of_mem_erase ha)
  · intro a ha i hi hmem
    have ha' := List.mem_of_mem_erase ha
    by_cases hic : i = c
    · subst hic
      rw [Function.update_same] at hmem
      rcases List.mem_cons.1 hmem with rfl | hmem
      · exact (List.Nodup.not_mem_erase hI.owned_nodup) ha
      · exact hI.owned_free a ha' i hi hmem
    · rw [Function.update_noteq hic] at hmem
      exact hI.owned_free a ha' i hi hmem
  · intro a hva
    by_cases hap : a = p
    · subst hap
      exact Or.inr ⟨c, hc, by rw [Function.update_same]; exact List.mem_cons_self _ _⟩
    · rcases hI.cover a hva with ha | ⟨i, hi, ha⟩
      · exact Or.inl ((List.mem_erase_of_ne hap).2 ha)
      · refine Or.inr ⟨i, hi, ?_⟩
        by_cases hic : i = c
        · subst hic
          rw [Function.update_same]
          exact List.mem_cons_of_mem _ ha
        · rw [Function.update_noteq hic]
          exact ha

/-- A store into an owned page changes no link of a page on a free list. -/
theorem loadNext_store_ne (mem : Nat → Nat) {x p a : Nat} (b : Nat) (hx : x % PGSIZE = 0)
    (hp : p % PGSIZE = 0) (h : x ≠ p) (h1 : p ≤ a) (h2 : a < p + PGSIZE) :
    loadNext (Function.update mem a b) x = loadNext mem x := by
  apply loadNext_congr
  intro y hy1 hy2
  have := page_apart hx hp h
  unfold PGSIZE at *
  rw [Function.update_noteq (by omega)]

theorem store_inv {end_ PHYSTOP CPUS : Nat} {s : Kmem} {owned : List Nat}
    {L : Nat → List Nat} (hI : KInv end_ PHYSTOP CPUS s owned L) {p a : Nat} (b : Nat)
    (hp : p ∈ owned) (h1 : p ≤ a) (h2 : a < p + PGSIZE) :
    KInv end_ PHYSTOP CPUS (s.store a b) owned L := by
  refine ⟨⟨?_, hI.rep.page, hI.rep.nodup, hI.rep.disj⟩, hI.locks, hI.mutex, hI.owned_nodup,
    hI.owned_page, hI.owned_free, hI.cover⟩
  intro i hi
  refine KList.frame_mem ?_ (hI.rep.list i hi)
  intro x hx
  exact loadNext_store_ne s.mem _ (hI.rep.page i hi x hx).1 (hI.owned_page p hp).1
    (fun hxp => hI.owned_free p hp i hi (hxp ▸ hx)) h1 h2

theorem kreach_inv {end_ PHYSTOP CPUS : Nat} (hcfg : Config end_ PHYSTOP CPUS) {s : Kmem}
    {owned : List Nat} (h : KReach end_ PHYSTOP CPUS s owned) :
    ∃ L, KInv end_ PHYSTOP CPUS s owned L := by
  induction h with
  | kinit mem h => exact kinit_inv hcfg h
  | kalloc c _ hc h ih =>
    obtain ⟨L, hI⟩ := ih
    obtain ⟨L', hI', _⟩ := kalloc_inv hI hc h
    exact ⟨L', hI'⟩
  | kfree c p _ hc hp h ih =>
    obtain ⟨L, hI⟩ := ih
    exact ⟨_, kfree_inv hcfg hI hc hp h⟩
  | store p a b _ hp h1 h2 ih =>
    obtain ⟨L, hI⟩ := ih
    exact ⟨L, store_inv hI b hp h1 h2⟩


/-! ## The claims on the reachable allocator states -/

theorem demoInit_reachable : KReach 1 12288 2 demoInit [] :=
  KReach.kinit (fun _ => 0)
    (Bio.Outcome.eq_ret (kmem0 fun _ => 0) (show _ = some () by decide!))

theorem demoTaken_reachable : KReach 1 12288 2 demoTaken [4096] :=
  KReach.kalloc 0 demoInit_reachable (by decide)
    (Bio.Outcome.eq_ret demoInit (show _ = some 4096 by decide!))

theorem demo_config : Config 1 12288 2 :=
  ⟨by decide, by decide, by decide, by decide, by decide⟩

/-- The caller that owns page 4096 may write the eight bytes of a pointer at
its start. -/
theorem demoStored_reachable : KReach 1 12288 2 demoStored [4096] :=
  KReach.store 4096 4103 0
    (KReach.store 4096 4102 0
      (KReach.store 4096 4101 0
        (KReach.store 4096 4100 0
          (KReach.store 4096 4099 0
            (KReach.store 4096 4098 0
              (KReach.store 4096 4097 16
                (KReach.store 4096 4096 8 demoTaken_reachable
                  (by decide) (by decide) (by decide))
                (by decide) (by decide) (by decide))
              (by decide) (by decide) (by decide))
            (by decide) (by decide) (by decide))
          (by decide) (by decide) (by decide))
        (by decide) (by decide) (by decide))
      (by decide) (by decide) (by decide))
    (by decide) (by decide) (by decide)

/-- C13: in every allocator state reachable from `kinit` through `kalloc` (on
any CPU) and `kfree(p)` applied only to pages `p` currently owned by a caller,
whatever the callers write into the pages they own in between,
the pages owned by callers and the pages on the `CPUS` free lists are pairwise
disjoint, no page occurs twice on a free list (or among the owned pages), and
their union is exactly the set of pages in `[PGROUNDUP(end), PHYSTOP)`. -/
theorem pages_owned_or_free_once (end_ PHYSTOP CPUS : Nat) (hcfg : Config end_ PHYSTOP CPUS)
    (s : Kmem) (owned : List Nat) (h : KReach end_ PHYSTOP CPUS s owned) :
    owned.Nodup
      ∧ (∀ i < CPUS, (freelist PHYSTOP s i).Nodup)
      ∧ (∀ i < CPUS, ∀ a ∈ freelist PHYSTOP s i, a ∉ owned)
      ∧ (∀ i < CPUS, ∀ j < CPUS, i ≠ j →
          ∀ a ∈ freelist PHYSTOP s i, a ∉ freelist PHYSTOP s j)
      ∧ (∀ a, (a ∈ owned ∨ ∃ i < CPUS, a ∈ freelist PHYSTOP s i) ↔
          (a % PGSIZE = 0 ∧ PGROUNDUP end_ ≤ a ∧ a < PHYSTOP)) := by
  obtain ⟨L, hI⟩ := kreach_inv hcfg h
  have hup : ∀ a, a % PGSIZE = 0 → (end_ ≤ a ↔ PGROUNDUP end_ ≤ a) :=
    fun a ha => PGROUNDUP_le hcfg.end_le hcfg.aligned hcfg.bound ha
  refine ⟨hI.owned_nodup, ?_, ?_, ?_, ?_⟩
  · intro i hi
    rw [hI.rep.freelist_eq hi]
    exact hI.rep.nodup i hi
  · intro i hi a ha hao
    rw [hI.rep.freelist_eq hi] at ha
    exact hI.owned_free a hao i hi ha
  · intro i hi j hj hij a ha
    rw [hI.rep.freelist_eq hi] at ha
    rw [hI.rep.freelist_eq hj]
    exact hI.rep.disj i hi j hj hij a ha
  · intro a
    constructor
    · rintro (ha | ⟨i, hi, ha⟩)
      · obtain ⟨h1, h2, h3⟩ := hI.owned_page a ha
        exact ⟨h1, (hup a h1).1 h2, h3⟩
      · rw [hI.rep.freelist_eq hi] at ha
        obtain ⟨h1, h2, h3⟩ := hI.rep.page i hi a ha
        exact ⟨h1, (hup a h1).1 h2, h3⟩
    · rintro ⟨h1, h2, h3⟩
      rcases hI.cover a ⟨h1, (hup a h1).2 h2, h3⟩ with ha | ⟨i, hi, ha⟩
      · exact Or.inl ha
      · exact Or.inr ⟨i, hi, by rw [hI.rep.freelist_eq hi]; exact ha⟩

/-- C13 at a concrete input: two page frames and two CPUs, after CPU 0 has
allocated its page. -/
theorem pages_owned_or_free_once_witness :
    Config 1 12288 2 ∧ KReach 1 12288 2 demoTaken [4096]
      ∧ ([4096] : List Nat).Nodup
      ∧ (∀ i < 2, (freelist 12288 demoTaken i).Nodup)
      ∧ (∀ i < 2, ∀ a ∈ freelist 12288 demoTaken i, a ∉ ([4096] : List Nat))
      ∧ (∀ i < 2, ∀ j < 2, i ≠ j →
          ∀ a ∈ freelist 12288 demoTaken i, a ∉ freelist 12288 demoTaken j)
      ∧ (∀ a, (a ∈ ([4096] : List Nat) ∨ ∃ i < 2, a ∈ freelist 12288 demoTaken i) ↔
          (a % PGSIZE = 0 ∧ PGROUNDUP 1 ≤ a ∧ a < 12288)) :=
  ⟨demo_config, demoTaken_reachable,
    pages_owned_or_free_once 1 12288 2 demo_config demoTaken [4096] demoTaken_reachable⟩

/-- C14 (amended): for every sequence of `kalloc` and `kfree` calls starting
from `kinit`, with stores of the callers into the pages they own in between,
in which every `kfree` is applied to a page currently owned by a caller, every
non-null address `a` returned by `kalloc` satisfies `a mod 4096 = 0` and
`end <= a < PHYSTOP`. -/
theorem kalloc_returns_page (end_ PHYSTOP CPUS : Nat) (hcfg : Config end_ PHYSTOP CPUS)
    (s : Kmem) (owned : List Nat) (h : KReach end_ PHYSTOP CPUS s owned) (c : Nat)
    (hc : c < CPUS) (s' : Kmem) (a : Nat) (hk : kalloc CPUS s c = .ret s' a) (ha : a ≠ 0) :
    a % 4096 = 0 ∧ end_ ≤ a ∧ a < PHYSTOP := by
  obtain ⟨L, hI⟩ := kreach_inv hcfg h
  obtain ⟨_, _, hcase⟩ := kalloc_inv hI hc hk
  rcases hcase with ⟨h0, _⟩ | ⟨_, hv, _⟩
  · exact absurd h0 ha
  · exact hv

/-- C14 as stated fails after a double free: on two page frames (4096 and
8192, `end = 1`) with two CPUs, CPU 0 allocates page 4096 and frees it twice;
both `kfree` pass the validity check and leave the page linked to itself.  The
next `kalloc` returns the page and leaves it on the list; the caller, which
owns it, writes the pointer 4104 at its start; the following `kalloc` returns
the page once more and takes that pointer for the rest of the list; and the
last `kalloc` returns 4104, which is not page-aligned.  Every access of the
run is to the two page frames: the last `kalloc` fills `[4104, 8200)`. -/
theorem kalloc_returns_unaligned_after_double_free :
    (kinit 1 12288 2 (kmem0 fun _ => 0)).val? = some ()
      ∧ (kalloc 2 (afterKCalls 1 12288 2 []) 0).val? = some 4096
      ∧ validPage 1 12288 4096
      ∧ (kfree 1 12288 (afterKCalls 1 12288 2 [.kalloc 0]) 0 4096).val? = some ()
      ∧ (kfree 1 12288 (afterKCalls 1 12288 2 [.kalloc 0, .kfree 0 4096]) 0 4096).val?
          = some ()
      ∧ (kalloc 2 (afterKCalls 1 12288 2 [.kalloc 0, .kfree 0 4096, .kfree 0 4096]) 0).val?
          = some 4096
      ∧ doubleFreeStore
          = doubleFree ++ [.store 4096 8, .store 4097 16, .store 4098 0, .store 4099 0,
              .store 4100 0, .store 4101 0, .store 4102 0, .store 4103 0]
      ∧ (kalloc 2 (afterKCalls 1 12288 2 doubleFreeStore) 0).val? = some 4096
      ∧ (kalloc 2 (afterKCalls 1 12288 2 (doubleFreeStore ++ [.kalloc 0])) 0).val? = some 4104
      ∧ 4104 ≠ 0
      ∧ ¬ (4104 % 4096 = 0)
      ∧ (1 ≤ 4104 ∧ 4104 + PGSIZE ≤ 12288) := by
  decide!

/-- C14 (amended) at a concrete input: two page frames and two CPUs; after
CPU 0 has allocated its page 4096 and its caller has written the pointer 4104
at the start of the page, the next `kalloc` of CPU 0 takes the page of
CPU 1. -/
theorem kalloc_returns_page_witness :
    Config 1 12288 2 ∧ KReach 1 12288 2 demoStored [4096] ∧ 0 < 2
      ∧ kalloc 2 demoStored 0 = .ret ((kalloc 2 demoStored 0).state demoStored) 8192
      ∧ 8192 ≠ 0
      ∧ (8192 % 4096 = 0 ∧ 1 ≤ 8192 ∧ 8192 < 12288) :=
  ⟨demo_config, demoStored_reachable, by decide,
    Bio.Outcome.eq_ret demoStored (show _ = some 8192 by decide!), by decide,
    kalloc_returns_page 1 12288 2 demo_config demoStored [4096] demoStored_reachable 0
      (by decide) _ 8192 (Bio.Outcome.eq_ret demoStored (show _ = some 8192 by decide!))
      (by decide)⟩


/-! ## The claims on single calls of `kalloc` and `kfree` -/

theorem KReach.kwf {end_ PHYSTOP CPUS : Nat} (hcfg : Config end_ PHYSTOP CPUS) {s : Kmem}
    {owned : List Nat} (h : KReach end_ PHYSTOP CPUS s owned) : KWF end_ PHYSTOP CPUS s := by
  obtain ⟨L, hI⟩ := kreach_inv hcfg h
  exact ⟨hI.rep.toFreelist, hI.locks, hI.mutex⟩

/-- The effect of `kalloc` on the free lists of a well-formed state. -/
theorem kalloc_wf {end_ PHYSTOP CPUS : Nat} {s : Kmem} (hwf : KWF end_ PHYSTOP CPUS s)
    {c : Nat} (hc : c < CPUS) :
    ∃ s' r, kalloc CPUS s c = .ret s' r ∧ KWF end_ PHYSTOP CPUS s'
      ∧ (r = 0 ↔ ∀ i < CPUS, freelist PHYSTOP s i = [])
      ∧ (r = 0 → ∀ i < CPUS, freelist PHYSTOP s' i = freelist PHYSTOP s i)
      ∧ (freelist PHYSTOP s c ≠ [] →
          freelist PHYSTOP s c = r :: freelist PHYSTOP s' c
          ∧ ∀ i < CPUS, i ≠ c → freelist PHYSTOP s' i = freelist PHYSTOP s i)
      ∧ (freelist PHYSTOP s c = [] → ∀ j < CPUS, freelist PHYSTOP s j ≠ [] →
          (∀ k < j, k ≠ c → freelist PHYSTOP s k = []) →
          freelist PHYSTOP s j = r :: freelist PHYSTOP s' j
          ∧ ∀ i < CPUS, i ≠ j → freelist PHYSTOP s' i = freelist PHYSTOP s i) := by
  obtain ⟨s', r, e, hl, hm, hcase⟩ := kalloc_cases hwf.rep hwf.locks hwf.mutex hc
  rcases hcase with ⟨hr0, hnil, hrep, _, _⟩ | ⟨j, t, hj, hLj, hne, hjc, hrep, _⟩
  · refine ⟨s', r, e, ⟨hrep.toFreelist, hl, hm⟩, ⟨fun _ => hnil, fun _ => hr0⟩, ?_, ?_, ?_⟩
    · intro _ i hi
      exact hrep.freelist_eq hi
    · intro h
      exact absurd (hnil c hc) h
    · intro _ j hj h
      exact absurd (hnil j hj) h
  · have hsame : ∀ i < CPUS, i ≠ j → freelist PHYSTOP s' i = freelist PHYSTOP s i := by
      intro i hi hij
      rw [hrep.freelist_eq hi, Function.update_noteq hij]
    have hj' : freelist PHYSTOP s j = r :: freelist PHYSTOP s' j := by
      rw [hrep.freelist_eq hj, Function.update_same, hLj]
    refine ⟨s', r, e, ⟨hrep.toFreelist, hl, hm⟩, ?_, fun h => absurd h hne, ?_, ?_⟩
    · constructor
      · intro h; exact absurd h hne
      · intro h
        rw [h j hj] at hLj
        cases hLj
    · intro hcne
      rcases hjc with rfl | ⟨hcnil, _⟩
      · exact ⟨hj', hsame⟩
      · exact absurd hcnil hcne
    · intro hcnil j' hj' hne' hmin'
      have hjne : j ≠ c := by
        intro h
        rw [h, hcnil] at hLj
        cases hLj
      have hj'ne : j' ≠ c := by
        intro h
        rw [h] at hne'
        exact hne' hcnil
      rcases hjc with h | ⟨_, hmin⟩
      · exact absurd h hjne
      · have : j' = j := by
          rcases Nat.lt_trichotomy j' j with h | h | h
          · exact absurd (hmin j' h hj'ne) hne'
          · exact h
          · have := hmin' j h hjne
            rw [this] at hLj
            cases hLj
        subst this
        exact ⟨by assumption, hsame⟩

/-- C15: for every well-formed allocator state and every current CPU `c`,
`kalloc` returns, and it returns null if and only if all `CPUS` free lists are
empty; if free list `c` is non-empty it returns the head of free list `c` and
removes it, leaving every other free list unchanged; if free list `c` is empty
it returns and removes the head of the lowest-index non-empty free list
`j != c`, leaving every other free list (including that of `c`) unchanged.  In
particular, with `CPUS = 2`, CPU 0 holding one page and CPU 1 none, `kalloc`
on CPU 1 returns the page of CPU 0 and the next `kalloc` on either CPU
returns null. -/
theorem kalloc_null_iff_all_empty (end_ PHYSTOP CPUS : Nat) (s : Kmem)
    (hwf : KWF end_ PHYSTOP CPUS s) (c : Nat) (hc : c < CPUS) :
    ∃ s' r, kalloc CPUS s c = .ret s' r
      ∧ (r = 0 ↔ ∀ i < CPUS, freelist PHYSTOP s i = [])
      ∧ (r = 0 → ∀ i < CPUS, freelist PHYSTOP s' i = freelist PHYSTOP s i)
      ∧ (freelist PHYSTOP s c ≠ [] →
          freelist PHYSTOP s c = r :: freelist PHYSTOP s' c
          ∧ ∀ i < CPUS, i ≠ c → freelist PHYSTOP s' i = freelist PHYSTOP s i)
      ∧ (freelist PHYSTOP s c = [] → ∀ j < CPUS, freelist PHYSTOP s j ≠ [] →
          (∀ k < j, k ≠ c → freelist PHYSTOP s k = []) →
          freelist PHYSTOP s j = r :: freelist PHYSTOP s' j
          ∧ ∀ i < CPUS, i ≠ j → freelist PHYSTOP s' i = freelist PHYSTOP s i)
      ∧ (CPUS = 2 → c = 1 → ∀ p, freelist PHYSTOP s 0 = [p] → freelist PHYSTOP s 1 = [] →
          r = p ∧ ∀ c' < 2, ∃ s'', kalloc 2 s' c' = .ret s'' 0) := by
  obtain ⟨s', r, e, hwf', h1, h2, h3, h4⟩ := kalloc_wf hwf hc
  refine ⟨s', r, e, h1, h2, h3, h4, ?_⟩
  intro hC hc1 p hp0 hp1
  subst hC; subst hc1
  have h0ne : freelist PHYSTOP s 0 ≠ [] := by rw [hp0]; simp
  obtain ⟨h5, h6⟩ := h4 hp1 0 (by decide) h0ne (fun k hk => absurd hk (Nat.not_lt_zero k))
  rw [hp0] at h5
  injection h5 with h5 h7
  refine ⟨h5.symm, ?_⟩
  intro c' hc'
  obtain ⟨s'', r'', e', _, h1', _⟩ := kalloc_wf hwf' hc'
  have : r'' = 0 := by
    rw [h1']
    intro i hi
    have hi' : i = 0 ∨ i = 1 := by omega
    rcases hi' with rfl | rfl
    · exact h7.symm
    · rw [h6 1 (by decide) (by decide)]
      exact hp1
  rw [this] at e'
  exact ⟨s'', e'⟩


theorem demoPeer_reachable : KReach 1 12288 2 demoPeer [8192] :=
  KReach.kalloc 1 demoInit_reachable (by decide)
    (Bio.Outcome.eq_ret demoInit (show _ = some 8192 by decide!))

/-- C15 at a concrete input: two page frames and two CPUs, after CPU 1 has
allocated its page; `kalloc` on CPU 1 then takes the page of CPU 0. -/
theorem kalloc_null_iff_all_empty_witness :
    KWF 1 12288 2 demoPeer ∧ 1 < 2
      ∧ ∃ s' r, kalloc 2 demoPeer 1 = .ret s' r
        ∧ (r = 0 ↔ ∀ i < 2, freelist 12288 demoPeer i = [])
        ∧ (r = 0 → ∀ i < 2, freelist 12288 s' i = freelist 12288 demoPeer i)
        ∧ (freelist 12288 demoPeer 1 ≠ [] →
            freelist 12288 demoPeer 1 = r :: freelist 12288 s' 1
            ∧ ∀ i < 2, i ≠ 1 → freelist 12288 s' i = freelist 12288 demoPeer i)
        ∧ (freelist 12288 demoPeer 1 = [] → ∀ j < 2, freelist 12288 demoPeer j ≠ [] →
            (∀ k < j, k ≠ 1 → freelist 12288 demoPeer k = []) →
            freelist 12288 demoPeer j = r :: freelist 12288 s' j
            ∧ ∀ i < 2, i ≠ j → freelist 12288 s' i = freelist 12288 demoPeer i)
        ∧ (2 = 2 → 1 = 1 → ∀ p, freelist 12288 demoPeer 0 = [p] →
            freelist 12288 demoPeer 1 = [] →
            r = p ∧ ∀ c' < 2, ∃ s'', kalloc 2 s' c' = .ret s'' 0) :=
  ⟨demoPeer_reachable.kwf demo_config, by decide,
    kalloc_null_iff_all_empty 1 12288 2 demoPeer (demoPeer_reachable.kwf demo_config) 1
      (by decide)⟩

/-- C16 (amended): for every well-formed allocator state and every CPU `c` on
which `kalloc` returns a non-null page `p`, calling `kfree(p)` on the same CPU
`c` immediately afterwards returns and leaves the number of pages on the free
list of CPU `c` equal to its number before the `kalloc` call when that list
was non-empty before the call, and one larger when it was empty (the page was
then taken from the list of another CPU). -/
theorem kfree_after_kalloc_count (end_ PHYSTOP CPUS : Nat) (hP : PHYSTOP ≤ 2 ^ 64)
    (s : Kmem) (hwf : KWF end_ PHYSTOP CPUS s) (c : Nat) (hc : c < CPUS) (s1 : Kmem)
    (p : Nat) (hk : kalloc CPUS s c = .ret s1 p) (hp : p ≠ 0) :
    ∃ s2, kfree end_ PHYSTOP s1 c p = .ret s2 ()
      ∧ (freelist PHYSTOP s c ≠ [] →
          (freelist PHYSTOP s2 c).length = (freelist PHYSTOP s c).length)
      ∧ (freelist PHYSTOP s c = [] →
          (freelist PHYSTOP s2 c).length = (freelist PHYSTOP s c).length + 1) := by
  obtain ⟨s', r, e, hl, hm, hcase⟩ := kalloc_cases hwf.rep hwf.locks hwf.mutex hc
  rw [e] at hk
  injection hk with hk1 hk2
  subst hk1; subst hk2
  rcases hcase with ⟨hr0, _⟩ | ⟨j, t, hj, hLj, hne, hjc, hrep, _⟩
  · exact absurd hr0 hp
  · have hrj : r ∈ freelist PHYSTOP s j := by rw [hLj]; exact List.mem_cons_self _ _
    have hv := hwf.rep.page j hj r hrj
    have hnd := hwf.rep.nodup j hj
    rw [hLj] at hnd
    have hfresh : ∀ i < CPUS, r ∉ Function.update (freelist PHYSTOP s) j t i := by
      intro i hi hmem
      by_cases hij : i = j
      · subst hij
        rw [Function.update_same] at hmem
        exact (List.nodup_cons.1 hnd).1 hmem
      · rw [Function.update_noteq hij] at hmem
        exact hwf.rep.disj i hi j hj hij r hmem hrj
    obtain ⟨s2, e2, hm2, hf2, _, _, _⟩ := kfree0_ret (s := s') (c := c) hv (hl c)
    have hrep2 := hrep.push hP hc hv hp hfresh hm2 hf2
    have hlist : freelist PHYSTOP s2 c = r :: Function.update (freelist PHYSTOP s) j t c := by
      rw [hrep2.freelist_eq hc, Function.update_same]
    refine ⟨s2, e2, ?_, ?_⟩
    · intro hcne
      rcases hjc with rfl | ⟨hcnil, _⟩
      · rw [hlist, Function.update_same, hLj]
      · exact absurd hcnil hcne
    · intro hcnil
      have hjne : j ≠ c := by
        intro h
        rw [h, hcnil] at hLj
        cases hLj
      rw [hlist, Function.update_noteq (Ne.symm hjne), hcnil]
      rfl

/-- C16 as stated fails when the page was borrowed: with two page frames and
two CPUs, after CPU 0 has allocated its own page its free list is empty; its
next `kalloc` returns the page of CPU 1, and `kfree` of that page on CPU 0
leaves one page on the free list of CPU 0, not zero. -/
theorem kfree_after_borrow_grows_list :
    KWF 1 12288 2 demoTaken
      ∧ (kalloc 2 demoTaken 0).val? = some 8192
      ∧ (kfree 1 12288 ((kalloc 2 demoTaken 0).state demoTaken) 0 8192).val? = some ()
      ∧ (freelist 12288 demoTaken 0).length = 0
      ∧ (freelist 12288 ((kfree 1 12288 ((kalloc 2 demoTaken 0).state demoTaken) 0 8192).state
            demoTaken) 0).length = 1 :=
  ⟨demoTaken_reachable.kwf demo_config, by decide!, by decide!, by decide!, by decide!⟩

/-- C16 (amended) at a concrete input: two page frames and two CPUs, after
CPU 0 has allocated its page; the page it allocates next is borrowed. -/
theorem kfree_after_kalloc_count_witness :
    12288 ≤ 2 ^ 64 ∧ KWF 1 12288 2 demoTaken ∧ 0 < 2
      ∧ kalloc 2 demoTaken 0 = .ret ((kalloc 2 demoTaken 0).state demoTaken) 8192
      ∧ 8192 ≠ 0
      ∧ ∃ s2, kfree 1 12288 ((kalloc 2 demoTaken 0).state demoTaken) 0 8192 = .ret s2 ()
        ∧ (freelist 12288 demoTaken 0 ≠ [] →
            (freelist 12288 s2 0).length = (freelist 12288 demoTaken 0).length)
        ∧ (freelist 12288 demoTaken 0 = [] →
            (freelist 12288 s2 0).length = (freelist 12288 demoTaken 0).length + 1) :=
  ⟨by decide, demoTaken_reachable.kwf demo_config, by decide,
    Bio.Outcome.eq_ret demoTaken (show _ = some 8192 by decide!), by decide,
    kfree_after_kalloc_count 1 12288 2 (by decide) demoTaken
      (demoTaken_reachable.kwf demo_config) 0 (by decide) _ 8192
      (Bio.Outcome.eq_ret demoTaken (show _ = some 8192 by decide!)) (by decide)⟩


/-- C17 (amended): for every well-formed allocator state, every address `pa`
and current CPU `c`: `kfree(pa)` halts with the panic "kfree", leaving the
state and so every free list unchanged, if and only if `pa mod 4096 != 0` or
`pa < end` or `pa >= PHYSTOP` (so `kfree(a+1)` halts for every page-aligned
`a`); otherwise it returns, fills the page with byte 1, stores the previous
head pointer of list `c` in the page and makes `pa` the head pointer of list
`c`, leaving the other head pointers as they are; for `pa` on no free list
this makes `pa` the new head of free list `c` with the previous head as its
successor and leaves the free list of every other CPU unchanged. -/
theorem kfree_panics_iff_invalid (end_ PHYSTOP CPUS : Nat) (h0 : 0 < end_)
    (hP : PHYSTOP ≤ 2 ^ 64) (s : Kmem) (hwf : KWF end_ PHYSTOP CPUS s) (c : Nat)
    (hc : c < CPUS) (pa : Nat) :
    ((∃ t msg, kfree end_ PHYSTOP s c pa = .panic t msg) ↔
        (pa % 4096 ≠ 0 ∨ pa < end_ ∨ pa ≥ PHYSTOP))
      ∧ (∀ t msg, kfree end_ PHYSTOP s c pa = .panic t msg → t = s ∧ msg = "kfree")
      ∧ (∀ a, a % 4096 = 0 → kfree end_ PHYSTOP s c (a + 1) = .panic s "kfree")
      ∧ (¬ (pa % 4096 ≠ 0 ∨ pa < end_ ∨ pa ≥ PHYSTOP) →
          ∃ s', kfree end_ PHYSTOP s c pa = .ret s' ()
            ∧ s'.mem = storeNext (memset s.mem pa 1 PGSIZE) pa (s.freelists c)
            ∧ (∀ x, pa + 8 ≤ x → x < pa + PGSIZE → s'.mem x = 1)
            ∧ s'.freelists c = pa ∧ loadNext s'.mem pa = s.freelists c
            ∧ (∀ i, i ≠ c → s'.freelists i = s.freelists i)
            ∧ ((∀ i < CPUS, pa ∉ freelist PHYSTOP s i) →
                freelist PHYSTOP s' c = pa :: freelist PHYSTOP s c
                ∧ ∀ i < CPUS, i ≠ c → freelist PHYSTOP s' i = freelist PHYSTOP s i)) := by
  have hvalid : validPage end_ PHYSTOP pa ↔ ¬ (pa % 4096 ≠ 0 ∨ pa < end_ ∨ pa ≥ PHYSTOP) := by
    unfold validPage PGSIZE
    omega
  refine ⟨?_, ?_, ?_, ?_⟩
  · constructor
    · rintro ⟨t, msg, h⟩
      by_contra hn
      obtain ⟨s', e, _⟩ := kfree0_ret (s := s) (c := c) (hvalid.2 hn) (hwf.locks c)
      unfold kfree at h
      rw [e] at h
      cases h
    · intro h
      exact ⟨s, "kfree", kfree0_panic (fun hv => hvalid.1 hv h)⟩
  · intro t msg h
    by_cases hv : validPage end_ PHYSTOP pa
    · obtain ⟨s', e, _⟩ := kfree0_ret (s := s) (c := c) hv (hwf.locks c)
      unfold kfree at h
      rw [e] at h
      cases h
    · unfold kfree at h
      rw [kfree0_panic hv] at h
      injection h with h1 h2
      exact ⟨h1.symm, h2.symm⟩
  · intro a ha
    apply kfree0_panic
    unfold validPage PGSIZE
    omega
  · intro hn
    have hv := hvalid.2 hn
    have hpa0 : pa ≠ 0 := by
      have := hv.2.1
      omega
    obtain ⟨s', e, hm, hf, _, _, _⟩ := kfree0_ret (s := s) (c := c) hv (hwf.locks c)
    have hlt : s.freelists c < 2 ^ 64 := by
      rcases hwf.rep.head_lt hc with h | h
      · rw [h]; exact Nat.pos_pow_of_pos _ (by decide)
      · omega
    refine ⟨s', e, hm, ?_, ?_, ?_, ?_, ?_⟩
    · intro x h1 h2
      rw [hm]
      unfold storeNext memset
      rw [if_neg (by omega), if_pos ⟨by omega, h2⟩]
    · rw [hf, Function.update_same]
    · rw [hm, loadNext_storeNext_same _ _ _ hlt]
    · intro i hic
      rw [hf, Function.update_noteq hic]
    · intro hfresh
      have hrep := hwf.rep.push hP hc hv hpa0 hfresh hm hf
      refine ⟨?_, ?_⟩
      · rw [hrep.freelist_eq hc, Function.update_same]
      · intro i hi hic
        rw [hrep.freelist_eq hi, Function.update_noteq hic]

/-- C17 as stated fails for a page that is on a free list: with two page
frames and two CPUs, right after `kinit`, `kfree(8192)` on CPU 0 passes the
validity check and returns, and the free list of CPU 1, which was the page
8192 alone, now is 8192 followed by 4096. -/
theorem kfree_of_listed_page_changes_peer_list :
    KWF 1 12288 2 demoInit
      ∧ ¬ (8192 % 4096 ≠ 0 ∨ 8192 < 1 ∨ 8192 ≥ 12288)
      ∧ (kfree 1 12288 demoInit 0 8192).val? = some ()
      ∧ freelist 12288 demoInit 1 = [8192]
      ∧ freelist 12288 ((kfree 1 12288 demoInit 0 8192).state demoInit) 1 = [8192, 4096] :=
  ⟨demoInit_reachable.kwf demo_config, by decide, by decide!, by decide!, by decide!⟩

/-- C17 (amended) at a concrete input: two page frames and two CPUs; CPU 0
frees the page it has allocated. -/
theorem kfree_panics_iff_invalid_witness :
    0 < 1 ∧ 12288 ≤ 2 ^ 64 ∧ KWF 1 12288 2 demoTaken ∧ 0 < 2
      ∧ ((∃ t msg, kfree 1 12288 demoTaken 0 4096 = .panic t msg) ↔
          (4096 % 4096 ≠ 0 ∨ 4096 < 1 ∨ 4096 ≥ 12288))
      ∧ (∀ t msg, kfree 1 12288 demoTaken 0 4096 = .panic t msg →
          t = demoTaken ∧ msg = "kfree")
      ∧ (∀ a, a % 4096 = 0 → kfree 1 12288 demoTaken 0 (a + 1) = .panic demoTaken "kfree")
      ∧ (¬ (4096 % 4096 ≠ 0 ∨ 4096 < 1 ∨ 4096 ≥ 12288) →
          ∃ s', kfree 1 12288 demoTaken 0 4096 = .ret s' ()
            ∧ s'.mem = storeNext (memset demoTaken.mem 4096 1 PGSIZE) 4096
                (demoTaken.freelists 0)
            ∧ (∀ x, 4096 + 8 ≤ x → x < 4096 + PGSIZE → s'.mem x = 1)
            ∧ s'.freelists 0 = 4096 ∧ loadNext s'.mem 4096 = demoTaken.freelists 0
            ∧ (∀ i, i ≠ 0 → s'.freelists i = demoTaken.freelists i)
            ∧ ((∀ i < 2, 4096 ∉ freelist 12288 demoTaken i) →
                freelist 12288 s' 0 = 4096 :: freelist 12288 demoTaken 0
                ∧ ∀ i < 2, i ≠ 0 → freelist 12288 s' i = freelist 12288 demoTaken i)) :=
  ⟨by decide, by decide, demoTaken_reachable.kwf demo_config, by decide,
    kfree_panics_iff_invalid 1 12288 2 (by decide) (by decide) demoTaken
      (demoTaken_reachable.kwf demo_config) 0 (by decide) 4096⟩


end Kalloc

namespace Locking

open Bio (Outcome)



/-! ## The monitor is sound -/

theorem Tracks.of_idle : Tracks (fun _ => false) Mon.idle :=
  ⟨fun i => by simp [Mon.idle], rfl, List.nodup_nil, fun h => by simp [Mon.idle] at h⟩

theorem Tracks.two {h : Res → Bool} {m : Mon} (ht : Tracks h m) {i j : Nat} (hij : i ≠ j)
    (hi : h (.shard i) = true) (hj : h (.shard j) = true) : h .borrow_mutex = true := by
  rw [ht.mutex]
  apply ht.good
  have h1 := (ht.shard i).1 hi
  have h2 := (ht.shard j).1 hj
  have hsub : [i, j].Subperm m.shards := by
    apply List.Nodup.subperm
    · simp [hij]
    · intro x hx
      simp only [List.mem_cons, List.mem_singleton, List.not_mem_nil, or_false] at hx
      rcases hx with rfl | rfl
      · exact h1
      · exact h2
  simpa using hsub.length_le

theorem Tracks.step {h : Res → Bool} {m m' : Mon} (ht : Tracks h m) {e : Op}
    (hs : m.step e = some m') : Tracks (holdStep h e) m' := by
  cases e with
  | acquire r =>
    cases r with
    | shard j =>
      simp only [Mon.step] at hs
      split at hs
      · cases hs
      · rename_i hj
        split at hs
        · cases hs
        · rename_i hg
          injection hs with hs
          subst hs
          refine ⟨?_, ?_, ?_, ?_⟩
          · intro i
            simp only [holdStep, List.mem_cons]
            by_cases hij : i = j
            · subst hij; simp
            · rw [Function.update_noteq (by simpa using hij)]
              simp [hij, ht.shard i]
          · simp only [holdStep]
            rw [Function.update_noteq (by simp)]
            exact ht.mutex
          · exact List.nodup_cons.2 ⟨hj, ht.nodup⟩
          · intro hlen
            simp only [List.length_cons] at hlen
            by_contra hm
            apply hg
            refine ⟨?_, by simpa using hm⟩
            intro hnil
            rw [hnil] at hlen
            simp at hlen
    | borrow_mutex =>
      simp only [Mon.step] at hs
      split at hs
      · cases hs
      · injection hs with hs
        subst hs
        refine ⟨?_, ?_, ht.nodup, fun _ => rfl⟩
        · intro i
          simp only [holdStep]
          rw [Function.update_noteq (by simp)]
          exact ht.shard i
        · simp [holdStep]
  | release r =>
    cases r with
    | shard j =>
      simp only [Mon.step] at hs
      split at hs
      · rename_i hj
        injection hs with hs
        subst hs
        refine ⟨?_, ?_, ht.nodup.erase j, ?_⟩
        · intro i
          simp only [holdStep]
          by_cases hij : i = j
          · subst hij
            simp [List.Nodup.not_mem_erase ht.nodup]
          · rw [Function.update_noteq (by simpa using hij)]
            rw [ht.shard i]
            exact (List.mem_erase_of_ne hij).symm
        · simp only [holdStep]
          rw [Function.update_noteq (by simp)]
          exact ht.mutex
        · intro hlen
          apply ht.good
          have := List.length_erase_of_mem hj
          simp only at hlen
          omega
      · cases hs
    | borrow_mutex =>
      simp only [Mon.step] at hs
      split at hs
      · cases hs
      · split at hs
        · cases hs
        · rename_i hlen
          injection hs with hs
          subst hs
          refine ⟨?_, ?_, ht.nodup, fun h2 => absurd h2 hlen⟩
          · intro i
            simp only [holdStep]
            rw [Function.update_noteq (by simp)]
            exact ht.shard i
          · simp [holdStep]
  | acquiresleep =>
    simp only [Mon.step] at hs
    split at hs
    · injection hs with hs
      subst hs
      exact ht
    · cases hs
  | other =>
    simp only [Mon.step] at hs
    injection hs with hs
    subst hs
    exact ht

theorem run_append (m : Mon) (a b : List Op) :
    m.run (a ++ b) = (m.run a).bind fun m' => m'.run b := by
  induction a generalizing m with
  | nil => rfl
  | cons e t ih =>
    simp only [List.cons_append, Mon.run]
    cases m.step e with
    | none => rfl
    | some m1 => simp [ih]

theorem Tracks.run {h : Res → Bool} {m m' : Mon} (ht : Tracks h m) :
    ∀ {evs : List Op}, m.run evs = some m' → Tracks (holdsFrom h evs) m' := by
  intro evs
  induction evs generalizing h m with
  | nil =>
    intro hr
    simp only [Mon.run, Option.some.injEq] at hr
    subst hr
    exact ht
  | cons e t ih =>
    intro hr
    simp only [Mon.run] at hr
    cases hs : m.step e with
    | none => rw [hs] at hr; cases hr
    | some m1 =>
      rw [hs] at hr
      exact ih (ht.step hs) hr



theorem orderedFrom_nil {h : Res → Bool}
    (hp : ∀ i j, i ≠ j → h (.shard i) = true → h (.shard j) = true → h .borrow_mutex = true) :
    OrderedFrom h [] := by
  intro pre post e
  have h1 : pre = [] := (List.append_eq_nil.1 e.symm).1
  have h2 : post = [] := (List.append_eq_nil.1 e.symm).2
  subst h1; subst h2
  exact ⟨hp, fun j rest hr => by cases hr⟩

theorem orderedFrom_cons {h : Res → Bool} {e : Op} {t : List Op}
    (hp : ∀ i j, i ≠ j → h (.shard i) = true → h (.shard j) = true → h .borrow_mutex = true)
    (hq : ∀ j, e = .acquire (.shard j) → ∀ i, i ≠ j → h (.shard i) = true →
      h .borrow_mutex = true)
    (ht : OrderedFrom (holdStep h e) t) : OrderedFrom h (e :: t) := by
  intro pre post hsplit
  cases pre with
  | nil =>
    refine ⟨hp, ?_⟩
    intro j rest hr
    simp only [List.nil_append] at hsplit
    rw [hr] at hsplit
    injection hsplit with h1 _
    exact hq j h1
  | cons e' pre' =>
    simp only [List.cons_append] at hsplit
    injection hsplit with h1 h2
    subst h1
    exact ht pre' post h2

/-- A run that the monitor accepts keeps the lock order. -/
theorem mon_ordered {h : Res → Bool} {m : Mon} (ht : Tracks h m) :
    ∀ {evs : List Op} {m' : Mon}, m.run evs = some m' → OrderedFrom h evs := by
  intro evs
  induction evs generalizing h m with
  | nil =>
    intro m' _
    exact orderedFrom_nil fun i j hij hi hj => ht.two hij hi hj
  | cons e t ih =>
    intro m' hr
    simp only [Mon.run] at hr
    cases hs : m.step e with
    | none => rw [hs] at hr; cases hr
    | some m1 =>
      rw [hs] at hr
      refine orderedFrom_cons (fun i j hij hi hj => ht.two hij hi hj) ?_ (ih (ht.step hs) hr)
      intro j he i hij hi
      subst he
      rw [ht.mutex]
      simp only [Mon.step] at hs
      split at hs
      · cases hs
      · split at hs
        · cases hs
        · rename_i hg
          by_contra hm
          apply hg
          refine ⟨?_, by simpa using hm⟩
          intro hnil
          have := (ht.shard i).1 hi
          rw [hnil] at this
          cases this

/-- A run that the monitor accepts never calls `acquiresleep` with a
spin-lock held. -/
theorem mon_sleepFree {evs : List Op} {m' : Mon} (hr : Mon.idle.run evs = some m') :
    SleepFree evs := by
  intro pre post hsplit r
  rw [hsplit, run_append] at hr
  cases h1 : Mon.idle.run pre with
  | none => rw [h1] at hr; cases hr
  | some m1 =>
    rw [h1] at hr
    simp only [Option.some_bind, Mon.run] at hr
    have ht := Tracks.of_idle.run h1
    cases hs : m1.step .acquiresleep with
    | none => rw [hs] at hr; cases hr
    | some m2 =>
      simp only [Mon.step] at hs
      split at hs
      · rename_i hidle
        cases r with
        | shard i =>
          have := ht.shard i
          rw [hidle.1] at this
          simpa [holds] using this
        | borrow_mutex =>
          have := ht.mutex
          rw [hidle.2] at this
          exact this
      · cases hs

theorem count_balance {h : Res → Bool} {m : Mon} (ht : Tracks h m) :
    ∀ {evs : List Op} {m' : Mon}, m.run evs = some m' → ∀ r,
      evs.count (.acquire r) + (if h r = true then 1 else 0)
        = evs.count (.release r) + (if holdsFrom h evs r = true then 1 else 0) := by
  intro evs
  induction evs generalizing h m with
  | nil => intro m' _ r; simp [holdsFrom]
  | cons e t ih =>
    intro m' hr r
    simp only [Mon.run] at hr
    cases hs : m.step e with
    | none => rw [hs] at hr; cases hr
    | some m1 =>
      rw [hs] at hr
      have hih := ih (ht.step hs) hr r
      simp only [holdsFrom, List.count_cons]
      have hheld : ∀ r', e = .acquire r' → h r' = false := by
        intro r' he
        subst he
        cases r' with
        | shard j =>
          simp only [Mon.step] at hs
          split at hs
          · cases hs
          · rename_i hj
            have := ht.shard j
            simpa [hj] using this
        | borrow_mutex =>
          simp only [Mon.step] at hs
          split at hs
          · cases hs
          · rename_i hm
            rw [ht.mutex]
            simpa using hm
      have hfree : ∀ r', e = .release r' → h r' = true := by
        intro r' he
        subst he
        cases r' with
        | shard j =>
          simp only [Mon.step] at hs
          split at hs
          · rename_i hj
            exact (ht.shard j).2 hj
          · cases hs
        | borrow_mutex =>
          simp only [Mon.step] at hs
          split at hs
          · cases hs
          · rename_i hm
            rw [ht.mutex]
            simpa using hm
      by_cases h1 : e = .acquire r
      · have hh := hheld r h1
        subst h1
        simp only [holdStep, Function.update_same, if_true] at hih ⊢
        simp [hh]
        omega
      · by_cases h2 : e = .release r
        · have hh := hfree r h2
          subst h2
          simp only [holdStep, Function.update_same] at hih ⊢
          simp [hh]
          simp at hih
          omega
        · have hsame : holdStep h e r = h r := by
            cases e with
            | acquire r' =>
              simp only [holdStep]
              exact Function.update_noteq (fun e => h1 (by rw [e])) _ _
            | release r' =>
              simp only [holdStep]
              exact Function.update_noteq (fun e => h2 (by rw [e])) _ _
            | acquiresleep => rfl
            | other => rfl
          rw [hsame] at hih
          have c1 : (e == Op.acquire r) = false := by simpa using h1
          have c2 : (e == Op.release r) = false := by simpa using h2
          simp only [c1, c2]
          simpa using hih

/-- A run that the monitor accepts and that ends with no lock held releases
every lock as often as it acquires it. -/
theorem mon_balanced {evs : List Op} (hr : Mon.idle.run evs = some Mon.idle) :
    Balanced evs := by
  intro r
  have ht := Tracks.of_idle.run hr
  have hfree : holds evs r = false := by
    cases r with
    | shard i =>
      have := ht.shard i
      simpa [holds, Mon.idle] using this
    | borrow_mutex => exact ht.mutex
  have := count_balance Tracks.of_idle hr r
  unfold holds at hfree
  rw [hfree] at this
  simp at this
  exact ⟨this, hfree⟩


open Bio

/-! ## The lock calls of the buffer cache -/

theorem bioEvents_of_state {α : Type} {s s' : Bcache} {o : Outcome Bcache α}
    {evs : List Bio.Event} (h : state? o = some s') (ht : s'.trace = s.trace ++ evs) :
    bioEvents s o = evs.map ofBio := by
  have : o.state s = s' := by
    cases o <;> simp only [state?, Option.some.injEq, reduceCtorEq] at h <;>
      simp only [Outcome.state, h]
  unfold bioEvents
  rw [this, ht, List.drop_left]

theorem bioEvents_of_diverge {α : Type} {s : Bcache} {o : Outcome Bcache α}
    (h : state? o = none) : bioEvents s o = [] := by
  have : o.state s = s := by
    cases o <;> simp only [state?, reduceCtorEq] at h
    rfl
  unfold bioEvents
  rw [this]
  simp

theorem sleepReturn_emits {s s' : Bcache} {b : Ptr} (h : state? (sleepReturn s b) = some s') :
    s'.trace = s.trace ++ [.acquiresleep b] := by
  unfold sleepReturn at h
  simp only [] at h
  split at h <;> simp only [state?, Option.some.injEq] at h <;> rw [← h] <;> simp

/-- The lock calls of the borrow loop of `bget`, made by a caller that holds
the lock of its bucket and `borrow_mutex`. -/
theorem borrow_emits (NBUF dev blockno b : Nat) :
    ∀ (count i : Nat) (s s' : Bcache),
      state? (borrow NBUF dev blockno b count i s) = some s' →
      ∃ evs, s'.trace = s.trace ++ evs
        ∧ ∃ m', Mon.run ⟨[b], true⟩ (evs.map ofBio) = some m'
          ∧ ((borrow NBUF dev blockno b count i s).val?.isSome → m' = Mon.idle)
  | 0, i, s, s', h => by
    simp only [borrow, state?, Option.some.injEq] at h
    subst h
    exact ⟨[], by simp, _, rfl, by simp [borrow, Outcome.val?]⟩
  | count + 1, i, s, s', h => by
    rw [borrow] at h ⊢
    by_cases hi : i = b
    · rw [if_pos hi] at h ⊢
      exact borrow_emits NBUF dev blockno b count (i + 1) s s' h
    · rw [if_neg hi] at h ⊢
      by_cases hl : s.locks i = true
      · rw [if_pos hl] at h ⊢
        exact borrow_emits NBUF dev blockno b count (i + 1) s s' h
      · rw [if_neg hl] at h ⊢
        simp only [] at h ⊢
        cases hff : findFree (s.acquire (.bucket i)).mem (.head i) NBUF
            ((s.acquire (.bucket i)).mem (.head i)).prev with
        | none => rw [hff] at h; simp [state?] at h
        | some r =>
          cases r with
          | some x =>
            rw [hff] at h
            simp only [] at h ⊢
            have ht := sleepReturn_emits h
            refine ⟨[.acquire (.bucket i), .release (.bucket i), .release .borrow_mutex,
              .release (.bucket b), .acquiresleep x], ?_, Mon.idle, ?_, fun _ => rfl⟩
            · rw [ht]; simp
            · simp [Mon.run, Mon.step, ofBio, hi, Mon.idle]
          | none =>
            rw [hff] at h
            simp only [] at h ⊢
            obtain ⟨evs, ht, m', hr, hv⟩ := borrow_emits NBUF dev blockno b count (i + 1)
              ((s.acquire (.bucket i)).release (.bucket i)) s' h
            refine ⟨.acquire (.bucket i) :: .release (.bucket i) :: evs, ?_, m', ?_, hv⟩
            · rw [ht]; simp
            · simp only [List.map_cons, Mon.run, Mon.step, ofBio]
              simp [hi, hr]


open Bio

/-- The lock calls of `bget`. -/
theorem bget_emits (NBUF NBUFBUCKET : Nat) (s : Bcache) (dev blockno : Nat) {s' : Bcache}
    (h : state? (bget NBUF NBUFBUCKET s dev blockno) = some s') :
    ∃ evs, s'.trace = s.trace ++ evs
      ∧ ∃ m', Mon.idle.run (evs.map ofBio) = some m'
        ∧ ((bget NBUF NBUFBUCKET s dev blockno).val?.isSome → m' = Mon.idle) := by
  unfold bget at h ⊢
  simp only [] at h ⊢
  by_cases hl : s.locks (blockno % NBUFBUCKET) = true
  · rw [if_pos hl] at h ⊢
    simp only [state?, Option.some.injEq] at h
    subst h
    exact ⟨[], by simp, _, rfl, fun _ => rfl⟩
  · rw [if_neg hl] at h ⊢
    cases hfc : findCached (s.acquire (.bucket (blockno % NBUFBUCKET))).mem
        (.head (blockno % NBUFBUCKET)) dev blockno NBUF
        ((s.acquire (.bucket (blockno % NBUFBUCKET))).mem (.head (blockno % NBUFBUCKET))).next with
    | none => rw [hfc] at h; simp [state?] at h
    | some r =>
      rw [hfc] at h
      cases r with
      | some x =>
        simp only [] at h ⊢
        have ht := sleepReturn_emits h
        refine ⟨[.acquire (.bucket (blockno % NBUFBUCKET)),
          .release (.bucket (blockno % NBUFBUCKET)), .acquiresleep x], ?_, Mon.idle, ?_,
          fun _ => rfl⟩
        · rw [ht]; simp
        · simp [Mon.run, Mon.step, ofBio, Mon.idle]
      | none =>
        simp only [] at h ⊢
        cases hff : findFree (s.acquire (.bucket (blockno % NBUFBUCKET))).mem
            (.head (blockno % NBUFBUCKET)) NBUF
            ((s.acquire (.bucket (blockno % NBUFBUCKET))).mem
              (.head (blockno % NBUFBUCKET))).prev with
        | none => rw [hff] at h; simp [state?] at h
        | some r =>
          rw [hff] at h
          cases r with
          | some x =>
            simp only [] at h ⊢
            have ht := sleepReturn_emits h
            refine ⟨[.acquire (.bucket (blockno % NBUFBUCKET)),
              .release (.bucket (blockno % NBUFBUCKET)), .acquiresleep x], ?_, Mon.idle, ?_,
              fun _ => rfl⟩
            · rw [ht]; simp
            · simp [Mon.run, Mon.step, ofBio, Mon.idle]
          | none =>
            simp only [] at h ⊢
            by_cases hm : (s.acquire (.bucket (blockno % NBUFBUCKET))).borrow_mutex = true
            · rw [if_pos hm] at h ⊢
              simp only [state?, Option.some.injEq] at h
              subst h
              exact ⟨[.acquire (.bucket (blockno % NBUFBUCKET))], by simp, _, rfl,
                by simp [Outcome.val?]⟩
            · rw [if_neg hm] at h ⊢
              obtain ⟨evs, ht, m', hr, hv⟩ := borrow_emits NBUF dev blockno
                (blockno % NBUFBUCKET) NBUFBUCKET 0 _ s' h
              refine ⟨.acquire (.bucket (blockno % NBUFBUCKET)) :: .acquire .borrow_mutex :: evs,
                ?_, m', ?_, hv⟩
              · rw [ht]; simp
              · simp only [List.map_cons, Mon.run, Mon.step, ofBio, Mon.idle]
                simp [hr]

/-- The lock calls of `brelse`. -/
theorem brelse_emits (NBUFBUCKET : Nat) (s : Bcache) (b : Ptr) {s' : Bcache}
    (h : state? (brelse NBUFBUCKET s b) = some s') :
    ∃ evs, s'.trace = s.trace ++ evs
      ∧ ∃ m', Mon.idle.run (evs.map ofBio) = some m'
        ∧ ((brelse NBUFBUCKET s b).val?.isSome → m' = Mon.idle) := by
  unfold brelse at h ⊢
  simp only [] at h ⊢
  split at h
  · simp only [state?, Option.some.injEq] at h
    subst h
    exact ⟨[], by simp, _, rfl, fun _ => rfl⟩
  · split at h
    · simp only [state?, Option.some.injEq] at h
      subst h
      exact ⟨[.releasesleep b], by simp [Bcache.releasesleep], _, rfl, fun _ => rfl⟩
    · simp only [state?, Option.some.injEq] at h
      subst h
      refine ⟨[.releasesleep b,
        .acquire (.bucket (((s.releasesleep b).mem b).blockno % NBUFBUCKET)),
        .release (.bucket (((s.releasesleep b).mem b).blockno % NBUFBUCKET))], ?_, Mon.idle, ?_,
        fun _ => rfl⟩
      · split <;> simp [Bcache.releasesleep]
      · simp [Mon.run, Mon.step, ofBio, Mon.idle]

/-- The lock calls of `bpin`. -/
theorem bpin_emits (NBUFBUCKET : Nat) (s : Bcache) (b : Ptr) {s' : Bcache}
    (h : state? (bpin NBUFBUCKET s b) = some s') :
    ∃ evs, s'.trace = s.trace ++ evs
      ∧ ∃ m', Mon.idle.run (evs.map ofBio) = some m'
        ∧ ((bpin NBUFBUCKET s b).val?.isSome → m' = Mon.idle) := by
  unfold bpin at h ⊢
  split at h
  · simp only [state?, Option.some.injEq] at h
    subst h
    exact ⟨[], by simp, _, rfl, fun _ => rfl⟩
  · simp only [state?, Option.some.injEq] at h
    subst h
    refine ⟨[.acquire (.bucket ((s.mem b).blockno % NBUFBUCKET)),
      .release (.bucket ((s.mem b).blockno % NBUFBUCKET))], by simp, Mon.idle, ?_, fun _ => rfl⟩
    simp [Mon.run, Mon.step, ofBio, Mon.idle]

/-- The lock calls of `bunpin`. -/
theorem bunpin_emits (NBUFBUCKET : Nat) (s : Bcache) (b : Ptr) {s' : Bcache}
    (h : state? (bunpin NBUFBUCKET s b) = some s') :
    ∃ evs, s'.trace = s.trace ++ evs
      ∧ ∃ m', Mon.idle.run (evs.map ofBio) = some m'
        ∧ ((bunpin NBUFBUCKET s b).val?.isSome → m' = Mon.idle) := by
  unfold bunpin at h ⊢
  split at h
  · simp only [state?, Option.some.injEq] at h
    subst h
    exact ⟨[], by simp, _, rfl, fun _ => rfl⟩
  · simp only [state?, Option.some.injEq] at h
    subst h
    refine ⟨[.acquire (.bucket ((s.mem b).blockno % NBUFBUCKET)),
      .release (.bucket ((s.mem b).blockno % NBUFBUCKET))], by simp, Mon.idle, ?_, fun _ => rfl⟩
    simp [Mon.run, Mon.step, ofBio, Mon.idle]


open Kalloc

/-! ## The lock calls of the allocator -/

theorem kallocEvents_of_state {α : Type} {s s' : Kmem} {o : Outcome Kmem α}
    {evs : List Kalloc.Event} (h : state? o = some s') (ht : s'.trace = s.trace ++ evs) :
    kallocEvents s o = evs.map ofKalloc := by
  have : o.state s = s' := by
    cases o <;> simp only [state?, Option.some.injEq, reduceCtorEq] at h <;>
      simp only [Outcome.state, h]
  unfold kallocEvents
  rw [this, ht, List.drop_left]

theorem kallocEvents_of_diverge {α : Type} {s : Kmem} {o : Outcome Kmem α}
    (h : state? o = none) : kallocEvents s o = [] := by
  have : o.state s = s := by
    cases o <;> simp only [state?, reduceCtorEq] at h
    rfl
  unfold kallocEvents
  rw [this]
  simp

@[simp] theorem kmem_acquire_trace (s : Kmem) (l : Kalloc.Lock) :
    (s.acquire l).trace = s.trace ++ [.acquire l] := by
  simp [Kmem.acquire]

@[simp] theorem kmem_release_trace (s : Kmem) (l : Kalloc.Lock) :
    (s.release l).trace = s.trace ++ [.release l] := by
  simp [Kmem.release]

/-- The lock calls of the loop of `kalloc` over the other CPUs, made by a
caller that holds the lock of its list and `borrow_mutex`: it holds the same
locks when the loop ends. -/
theorem kallocLoop_emits (cid : Nat) :
    ∀ (count i : Nat) (s s' : Kmem), state? (kallocLoop cid count i s) = some s' →
      ∃ evs, s'.trace = s.trace ++ evs
        ∧ Mon.run ⟨[cid], true⟩ (evs.map ofKalloc) = some ⟨[cid], true⟩
  | 0, i, s, s', h => by
    simp only [kallocLoop, state?, Option.some.injEq] at h
    subst h
    exact ⟨[], by simp, rfl⟩
  | count + 1, i, s, s', h => by
    rw [kallocLoop] at h
    by_cases hi : i = cid
    · rw [if_pos hi] at h
      exact kallocLoop_emits cid count (i + 1) s s' h
    · rw [if_neg hi] at h
      by_cases hl : s.locks i = true
      · rw [if_pos hl] at h
        simp only [state?, Option.some.injEq] at h
        subst h
        exact ⟨[], by simp, rfl⟩
      · rw [if_neg hl] at h
        simp only [] at h
        split at h
        · simp only [state?, Option.some.injEq] at h
          subst h
          refine ⟨[.acquire (.freelist i), .release (.freelist i)], by simp, ?_⟩
          simp [Mon.run, Mon.step, ofKalloc, hi]
        · obtain ⟨evs, ht, hr⟩ := kallocLoop_emits cid count (i + 1) _ s' h
          refine ⟨.acquire (.freelist i) :: .release (.freelist i) :: evs, ?_, ?_⟩
          · rw [ht]; simp
          · simp only [List.map_cons, Mon.run, Mon.step, ofKalloc]
            simp [hi, hr]

/-- The lock calls of `kalloc` up to its last `release`. -/
theorem kallocTake_emits (CPUS : Nat) (s : Kmem) (cid : Nat) {s' : Kmem}
    (h : state? (kallocTake CPUS s cid) = some s') :
    ∃ evs, s'.trace = s.trace ++ evs
      ∧ ∃ m', Mon.idle.run (evs.map ofKalloc) = some m'
        ∧ ((kallocTake CPUS s cid).val?.isSome → m' = Mon.idle) := by
  unfold kallocTake at h ⊢
  simp only [] at h ⊢
  by_cases hl : s.locks cid = true
  · rw [if_pos hl] at h ⊢
    simp only [state?, Option.some.injEq] at h
    subst h
    exact ⟨[], by simp, _, rfl, fun _ => rfl⟩
  · rw [if_neg hl] at h ⊢
    by_cases hr : (s.acquire (.freelist cid)).freelists cid ≠ 0
    · rw [if_pos hr] at h ⊢
      simp only [state?, Option.some.injEq] at h
      subst h
      refine ⟨[.acquire (.freelist cid), .release (.freelist cid)], by simp, Mon.idle, ?_,
        fun _ => rfl⟩
      simp [Mon.run, Mon.step, ofKalloc, Mon.idle]
    · rw [if_neg hr] at h ⊢
      by_cases hm : ((s.acquire (.freelist cid)).release (.freelist cid)).borrow_mutex = true
      · rw [if_pos hm] at h ⊢
        simp only [state?, Option.some.injEq] at h
        subst h
        refine ⟨[.acquire (.freelist cid), .release (.freelist cid)], by simp, Mon.idle, ?_,
          fun _ => rfl⟩
        simp [Mon.run, Mon.step, ofKalloc, Mon.idle]
      · rw [if_neg hm] at h ⊢
        by_cases hl2 : (((s.acquire (.freelist cid)).release (.freelist cid)).acquire
            .borrow_mutex).locks cid = true
        · rw [if_pos hl2] at h ⊢
          simp only [state?, Option.some.injEq] at h
          subst h
          refine ⟨[.acquire (.freelist cid), .release (.freelist cid), .acquire .borrow_mutex],
            by simp, ⟨[], true⟩, ?_, by simp [Outcome.val?]⟩
          simp [Mon.run, Mon.step, ofKalloc, Mon.idle]
        · rw [if_neg hl2] at h ⊢
          cases hloop : kallocLoop cid CPUS 0 ((((s.acquire (.freelist cid)).release
              (.freelist cid)).acquire .borrow_mutex).acquire (.freelist cid)) with
          | ret s1 r =>
            rw [hloop] at h
            simp only [state?, Option.some.injEq] at h
            subst h
            obtain ⟨evs, ht, hr'⟩ := kallocLoop_emits cid CPUS 0 _ s1
              (by rw [hloop]; rfl)
            refine ⟨[.acquire (.freelist cid), .release (.freelist cid), .acquire .borrow_mutex,
              .acquire (.freelist cid)] ++ evs ++ [.release .borrow_mutex,
              .release (.freelist cid)], ?_, Mon.idle, ?_, fun _ => rfl⟩
            · simp [ht]
            · rw [List.map_append, List.map_append, run_append, run_append]
              have h1 : Mon.idle.run (List.map ofKalloc [.acquire (.freelist cid),
                  .release (.freelist cid), .acquire .borrow_mutex, .acquire (.freelist cid)])
                  = some ⟨[cid], true⟩ := by
                simp [Mon.run, Mon.step, ofKalloc, Mon.idle]
              rw [h1]
              simp only [Option.some_bind, hr']
              simp [Mon.run, Mon.step, ofKalloc, Mon.idle]
          | panic s1 msg =>
            rw [hloop] at h
            simp only [state?, Option.some.injEq] at h
            subst h
            obtain ⟨evs, ht, hr'⟩ := kallocLoop_emits cid CPUS 0 _ s1
              (by rw [hloop]; rfl)
            refine ⟨[.acquire (.freelist cid), .release (.freelist cid), .acquire .borrow_mutex,
              .acquire (.freelist cid)] ++ evs, ?_, ⟨[cid], true⟩, ?_, by simp [Outcome.val?]⟩
            · simp [ht]
            · rw [List.map_append, run_append]
              have h1 : Mon.idle.run (List.map ofKalloc [.acquire (.freelist cid),
                  .release (.freelist cid), .acquire .borrow_mutex, .acquire (.freelist cid)])
                  = some ⟨[cid], true⟩ := by
                simp [Mon.run, Mon.step, ofKalloc, Mon.idle]
              rw [h1]
              simpa using hr'
          | blocked s1 =>
            rw [hloop] at h
            simp only [state?, Option.some.injEq] at h
            subst h
            obtain ⟨evs, ht, hr'⟩ := kallocLoop_emits cid CPUS 0 _ s1
              (by rw [hloop]; rfl)
            refine ⟨[.acquire (.freelist cid), .release (.freelist cid), .acquire .borrow_mutex,
              .acquire (.freelist cid)] ++ evs, ?_, ⟨[cid], true⟩, ?_, by simp [Outcome.val?]⟩
            · simp [ht]
            · rw [List.map_append, run_append]
              have h1 : Mon.idle.run (List.map ofKalloc [.acquire (.freelist cid),
                  .release (.freelist cid), .acquire .borrow_mutex, .acquire (.freelist cid)])
                  = some ⟨[cid], true⟩ := by
                simp [Mon.run, Mon.step, ofKalloc, Mon.idle]
              rw [h1]
              simpa using hr'
          | diverge =>
            rw [hloop] at h
            simp [state?] at h

/-- The lock calls of `kalloc`. -/
theorem kalloc_emits (CPUS : Nat) (s : Kmem) (cid : Nat) {s' : Kmem}
    (h : state? (kalloc CPUS s cid) = some s') :
    ∃ evs, s'.trace = s.trace ++ evs
      ∧ ∃ m', Mon.idle.run (evs.map ofKalloc) = some m'
        ∧ ((kalloc CPUS s cid).val?.isSome → m' = Mon.idle) := by
  unfold kalloc at h ⊢
  cases ht : kallocTake CPUS s cid with
  | ret s1 r =>
    obtain ⟨evs, he, m', hr, hv⟩ := @kallocTake_emits CPUS s cid s1 (by rw [ht]; rfl)
    rw [ht] at h hv
    simp only [] at h ⊢
    have hs' : s'.trace = s1.trace := by
      split at h <;> simp only [state?, Option.some.injEq] at h <;> rw [← h]
    exact ⟨evs, by rw [hs', he], m', hr, fun _ => hv rfl⟩
  | panic s1 msg =>
    obtain ⟨evs, he, m', hr, _⟩ := @kallocTake_emits CPUS s cid s1 (by rw [ht]; rfl)
    rw [ht] at h
    simp only [state?, Option.some.injEq] at h
    subst h
    exact ⟨evs, he, m', hr, by simp [Outcome.val?]⟩
  | blocked s1 =>
    obtain ⟨evs, he, m', hr, _⟩ := @kallocTake_emits CPUS s cid s1 (by rw [ht]; rfl)
    rw [ht] at h
    simp only [state?, Option.some.injEq] at h
    subst h
    exact ⟨evs, he, m', hr, by simp [Outcome.val?]⟩
  | diverge =>
    rw [ht] at h
    simp [state?] at h

/-- The lock calls of `kfree`. -/
theorem kfree_emits (end_ PHYSTOP : Nat) (s : Kmem) (c pa : Nat) {s' : Kmem}
    (h : state? (kfree end_ PHYSTOP s c pa) = some s') :
    ∃ evs, s'.trace = s.trace ++ evs
      ∧ ∃ m', Mon.idle.run (evs.map ofKalloc) = some m'
        ∧ ((kfree end_ PHYSTOP s c pa).val?.isSome → m' = Mon.idle) := by
  unfold kfree kfree0 at h ⊢
  simp only [] at h ⊢
  split at h
  · simp only [state?, Option.some.injEq] at h
    subst h
    exact ⟨[], by simp, _, rfl, fun _ => rfl⟩
  · split at h
    · simp only [state?, Option.some.injEq] at h
      subst h
      exact ⟨[], by simp, _, rfl, fun _ => rfl⟩
    · simp only [state?, Option.some.injEq] at h
      subst h
      refine ⟨[.acquire (.freelist c), .release (.freelist c)], by simp [Kmem.acquire,
        Kmem.release], Mon.idle, ?_, fun _ => rfl⟩
      simp [Mon.run, Mon.step, ofKalloc, Mon.idle]


open Bio

theorem sleepReturn_ret_trace {s s' : Bcache} {b x : Ptr} (h : sleepReturn s b = .ret s' x) :
    s'.trace = s.trace ++ [.acquiresleep x] := by
  unfold sleepReturn at h
  simp only [] at h
  split at h
  · cases h
  · injection h with h1 h2
    subst h1; subst h2
    simp

/-- A returning run of the borrow loop of `bget` ends with `acquiresleep`. -/
theorem borrow_ends_sleep (NBUF dev blockno b : Nat) :
    ∀ (count i : Nat) (s s' : Bcache) (x : Ptr),
      borrow NBUF dev blockno b count i s = .ret s' x →
      ∃ pre, s'.trace = s.trace ++ (pre ++ [.acquiresleep x])
  | 0, i, s, s', x, h => by simp [borrow] at h
  | count + 1, i, s, s', x, h => by
    rw [borrow] at h
    by_cases hi : i = b
    · rw [if_pos hi] at h
      exact borrow_ends_sleep NBUF dev blockno b count (i + 1) s s' x h
    · rw [if_neg hi] at h
      by_cases hl : s.locks i = true
      · rw [if_pos hl] at h
        exact borrow_ends_sleep NBUF dev blockno b count (i + 1) s s' x h
      · rw [if_neg hl] at h
        simp only [] at h
        cases hff : findFree (s.acquire (.bucket i)).mem (.head i) NBUF
            ((s.acquire (.bucket i)).mem (.head i)).prev with
        | none => rw [hff] at h; cases h
        | some r =>
          rw [hff] at h
          cases r with
          | some y =>
            simp only [] at h
            have ht := sleepReturn_ret_trace h
            refine ⟨[.acquire (.bucket i), .release (.bucket i), .release .borrow_mutex,
              .release (.bucket b)], ?_⟩
            rw [ht]; simp
          | none =>
            simp only [] at h
            obtain ⟨pre, ht⟩ := borrow_ends_sleep NBUF dev blockno b count (i + 1) _ s' x h
            refine ⟨.acquire (.bucket i) :: .release (.bucket i) :: pre, ?_⟩
            rw [ht]; simp

/-- A returning call of `bget` ends with `acquiresleep`. -/
theorem bget_ends_sleep (NBUF NBUFBUCKET : Nat) (s : Bcache) (dev blockno : Nat) {s' : Bcache}
    {x : Ptr} (h : bget NBUF NBUFBUCKET s dev blockno = .ret s' x) :
    ∃ pre, s'.trace = s.trace ++ (pre ++ [.acquiresleep x]) := by
  unfold bget at h
  simp only [] at h
  by_cases hl : s.locks (blockno % NBUFBUCKET) = true
  · rw [if_pos hl] at h
    cases h
  · rw [if_neg hl] at h
    cases hfc : findCached (s.acquire (.bucket (blockno % NBUFBUCKET))).mem
        (.head (blockno % NBUFBUCKET)) dev blockno NBUF
        ((s.acquire (.bucket (blockno % NBUFBUCKET))).mem (.head (blockno % NBUFBUCKET))).next with
    | none => rw [hfc] at h; cases h
    | some r =>
      rw [hfc] at h
      cases r with
      | some y =>
        simp only [] at h
        have ht := sleepReturn_ret_trace h
        refine ⟨[.acquire (.bucket (blockno % NBUFBUCKET)),
          .release (.bucket (blockno % NBUFBUCKET))], ?_⟩
        rw [ht]; simp
      | none =>
        simp only [] at h
        cases hff : findFree (s.acquire (.bucket (blockno % NBUFBUCKET))).mem
            (.head (blockno % NBUFBUCKET)) NBUF
            ((s.acquire (.bucket (blockno % NBUFBUCKET))).mem
              (.head (blockno % NBUFBUCKET))).prev with
        | none => rw [hff] at h; cases h
        | some r =>
          rw [hff] at h
          cases r with
          | some y =>
            simp only [] at h
            have ht := sleepReturn_ret_trace h
            refine ⟨[.acquire (.bucket (blockno % NBUFBUCKET)),
              .release (.bucket (blockno % NBUFBUCKET))], ?_⟩
            rw [ht]; simp
          | none =>
            simp only [] at h
            by_cases hm : (s.acquire (.bucket (blockno % NBUFBUCKET))).borrow_mutex = true
            · rw [if_pos hm] at h
              cases h
            · rw [if_neg hm] at h
              obtain ⟨pre, ht⟩ := borrow_ends_sleep NBUF dev blockno (blockno % NBUFBUCKET)
                NBUFBUCKET 0 _ s' x h
              refine ⟨.acquire (.bucket (blockno % NBUFBUCKET)) :: .acquire .borrow_mutex :: pre,
                ?_⟩
              rw [ht]; simp



/-! ## The claims on the lock discipline of one caller -/

theorem ordered_nil : Ordered [] :=
  orderedFrom_nil fun _ _ _ h => by cases h

theorem sleepFree_nil : SleepFree [] := by
  intro pre post h
  cases pre <;> cases h

theorem bio_discipline {α : Type} (s : Bio.Bcache) (o : Outcome Bio.Bcache α)
    (hem : ∀ s', state? o = some s' → ∃ evs, s'.trace = s.trace ++ evs
      ∧ ∃ m', Mon.idle.run (evs.map ofBio) = some m' ∧ (o.val?.isSome → m' = Mon.idle)) :
    Ordered (bioEvents s o) ∧ SleepFree (bioEvents s o)
      ∧ (o.val?.isSome → Balanced (bioEvents s o)) := by
  cases hs : state? o with
  | none =>
    rw [bioEvents_of_diverge hs]
    refine ⟨ordered_nil, sleepFree_nil, ?_⟩
    intro hv
    cases o <;> simp [state?, Outcome.val?] at hs hv
  | some s' =>
    obtain ⟨evs, ht, m', hr, hv⟩ := hem s' hs
    rw [bioEvents_of_state hs ht]
    refine ⟨mon_ordered Tracks.of_idle hr, mon_sleepFree hr, ?_⟩
    intro h
    rw [hv h] at hr
    exact mon_balanced hr

theorem kalloc_discipline {α : Type} (s : Kalloc.Kmem) (o : Outcome Kalloc.Kmem α)
    (hem : ∀ s', state? o = some s' → ∃ evs, s'.trace = s.trace ++ evs
      ∧ ∃ m', Mon.idle.run (evs.map ofKalloc) = some m' ∧ (o.val?.isSome → m' = Mon.idle)) :
    Ordered (kallocEvents s o) ∧ SleepFree (kallocEvents s o)
      ∧ (o.val?.isSome → Balanced (kallocEvents s o)) := by
  cases hs : state? o with
  | none =>
    rw [kallocEvents_of_diverge hs]
    refine ⟨ordered_nil, sleepFree_nil, ?_⟩
    intro hv
    cases o <;> simp [state?, Outcome.val?] at hs hv
  | some s' =>
    obtain ⟨evs, ht, m', hr, hv⟩ := hem s' hs
    rw [kallocEvents_of_state hs ht]
    refine ⟨mon_ordered Tracks.of_idle hr, mon_sleepFree hr, ?_⟩
    intro h
    rw [hv h] at hr
    exact mon_balanced hr

/-- C18: in every single-caller execution of `bget`, `brelse`, `bpin`,
`bunpin`, `kalloc` and `kfree`, from any state and whether it returns, halts
or waits, at every point where the caller holds two shard locks of the
component (two bucket locks of the buffer cache, two free-list locks of the
allocator) it also holds the `borrow_mutex` of that component, and it held
`borrow_mutex` already when it acquired the second shard lock. -/
theorem shard_locks_ordered_under_borrow_mutex :
    (∀ NBUF NBUFBUCKET s dev blockno,
        Ordered (bioEvents s (Bio.bget NBUF NBUFBUCKET s dev blockno)))
      ∧ (∀ NBUFBUCKET s b, Ordered (bioEvents s (Bio.brelse NBUFBUCKET s b)))
      ∧ (∀ NBUFBUCKET s b, Ordered (bioEvents s (Bio.bpin NBUFBUCKET s b)))
      ∧ (∀ NBUFBUCKET s b, Ordered (bioEvents s (Bio.bunpin NBUFBUCKET s b)))
      ∧ (∀ CPUS s c, Ordered (kallocEvents s (Kalloc.kalloc CPUS s c)))
      ∧ (∀ end_ PHYSTOP s c pa,
          Ordered (kallocEvents s (Kalloc.kfree end_ PHYSTOP s c pa))) :=
  ⟨fun NBUF NBUFBUCKET s dev blockno =>
      (bio_discipline s _ fun _ h => bget_emits NBUF NBUFBUCKET s dev blockno h).1,
    fun NBUFBUCKET s b => (bio_discipline s _ fun _ h => brelse_emits NBUFBUCKET s b h).1,
    fun NBUFBUCKET s b => (bio_discipline s _ fun _ h => bpin_emits NBUFBUCKET s b h).1,
    fun NBUFBUCKET s b => (bio_discipline s _ fun _ h => bunpin_emits NBUFBUCKET s b h).1,
    fun CPUS s c => (kalloc_discipline s _ fun _ h => kalloc_emits CPUS s c h).1,
    fun end_ PHYSTOP s c pa =>
      (kalloc_discipline s _ fun _ h => kfree_emits end_ PHYSTOP s c pa h).1⟩

/-- C18 at concrete inputs: the lock calls of a `bget` that borrows a buffer
(two buffers in two buckets, the buffer of bucket 0 held, block 2 asked for)
and of a `kalloc` that borrows a page (two CPUs, the list of CPU 0 empty). -/
theorem shard_locks_ordered_under_borrow_mutex_witness :
    bioEvents Bio.demoFull (Bio.bget 2 2 Bio.demoFull 1 2)
        = [.acquire (.shard 0), .acquire .borrow_mutex, .acquire (.shard 1),
            .release (.shard 1), .release .borrow_mutex, .release (.shard 0), .acquiresleep]
      ∧ Ordered (bioEvents Bio.demoFull (Bio.bget 2 2 Bio.demoFull 1 2))
      ∧ kallocEvents Kalloc.demoTaken (Kalloc.kalloc 2 Kalloc.demoTaken 0)
        = [.acquire (.shard 0), .release (.shard 0), .acquire .borrow_mutex,
            .acquire (.shard 0), .acquire (.shard 1), .release (.shard 1),
            .release .borrow_mutex, .release (.shard 0)]
      ∧ Ordered (kallocEvents Kalloc.demoTaken (Kalloc.kalloc 2 Kalloc.demoTaken 0)) :=
  ⟨by decide!, shard_locks_ordered_under_borrow_mutex.1 2 2 Bio.demoFull 1 2, by decide!,
    shard_locks_ordered_under_borrow_mutex.2.2.2.2.1 2 Kalloc.demoTaken 0⟩

/-- C19: on every path of `bget` (hit, local reclaim, borrow), every spin-lock
the caller acquired during the call (the lock of the target bucket, the lock
of a peer bucket and `borrow_mutex`) has been released at the moment
`acquiresleep` is called, and each returning execution of `bget`, `brelse`,
`bpin`, `bunpin`, `kalloc` and `kfree` has released every spin-lock exactly as
many times as it acquired it, so that no spin-lock is held at return. -/
theorem spin_locks_released_before_sleep_and_return :
    (∀ NBUF NBUFBUCKET s dev blockno,
        SleepFree (bioEvents s (Bio.bget NBUF NBUFBUCKET s dev blockno)))
      ∧ (∀ NBUF NBUFBUCKET s dev blockno s' b,
          Bio.bget NBUF NBUFBUCKET s dev blockno = .ret s' b →
          Balanced (bioEvents s (Bio.bget NBUF NBUFBUCKET s dev blockno))
            ∧ ∃ pre, bioEvents s (Bio.bget NBUF NBUFBUCKET s dev blockno)
                = pre ++ [.acquiresleep])
      ∧ (∀ NBUFBUCKET s b s', Bio.brelse NBUFBUCKET s b = .ret s' () →
          Balanced (bioEvents s (Bio.brelse NBUFBUCKET s b)))
      ∧ (∀ NBUFBUCKET s b s', Bio.bpin NBUFBUCKET s b = .ret s' () →
          Balanced (bioEvents s (Bio.bpin NBUFBUCKET s b)))
      ∧ (∀ NBUFBUCKET s b s', Bio.bunpin NBUFBUCKET s b = .ret s' () →
          Balanced (bioEvents s (Bio.bunpin NBUFBUCKET s b)))
      ∧ (∀ CPUS s c s' r, Kalloc.kalloc CPUS s c = .ret s' r →
          Balanced (kallocEvents s (Kalloc.kalloc CPUS s c)))
      ∧ (∀ end_ PHYSTOP s c pa s', Kalloc.kfree end_ PHYSTOP s c pa = .ret s' () →
          Balanced (kallocEvents s (Kalloc.kfree end_ PHYSTOP s c pa))) := by
  refine ⟨?_, ?_, ?_, ?_, ?_, ?_, ?_⟩
  · intro NBUF NBUFBUCKET s dev blockno
    exact (bio_discipline s _ fun _ h => bget_emits NBUF NBUFBUCKET s dev blockno h).2.1
  · intro NBUF NBUFBUCKET s dev blockno s' b h
    refine ⟨(bio_discipline s _ fun _ h => bget_emits NBUF NBUFBUCKET s dev blockno h).2.2
      (by rw [h]; rfl), ?_⟩
    obtain ⟨pre, ht⟩ := bget_ends_sleep NBUF NBUFBUCKET s dev blockno h
    refine ⟨pre.map ofBio, ?_⟩
    rw [bioEvents_of_state (by rw [h]; rfl) ht]
    simp [ofBio]
  · intro NBUFBUCKET s b s' h
    exact (bio_discipline s _ fun _ h => brelse_emits NBUFBUCKET s b h).2.2 (by rw [h]; rfl)
  · intro NBUFBUCKET s b s' h
    exact (bio_discipline s _ fun _ h => bpin_emits NBUFBUCKET s b h).2.2 (by rw [h]; rfl)
  · intro NBUFBUCKET s b s' h
    exact (bio_discipline s _ fun _ h => bunpin_emits NBUFBUCKET s b h).2.2 (by rw [h]; rfl)
  · intro CPUS s c s' r h
    exact (kalloc_discipline s _ fun _ h => kalloc_emits CPUS s c h).2.2 (by rw [h]; rfl)
  · intro end_ PHYSTOP s c pa s' h
    exact (kalloc_discipline s _ fun _ h => kfree_emits end_ PHYSTOP s c pa h).2.2
      (by rw [h]; rfl)

/-- C19 at concrete inputs: a `bget` that borrows a buffer (two buffers in two
buckets, the buffer of bucket 0 held, block 2 asked for) and a `kalloc` that
borrows a page (two CPUs, the list of CPU 0 empty). -/
theorem spin_locks_released_before_sleep_and_return_witness :
    Bio.bget 2 2 Bio.demoFull 1 2
        = .ret ((Bio.bget 2 2 Bio.demoFull 1 2).state Bio.bcache0) (.buf 1)
      ∧ SleepFree (bioEvents Bio.demoFull (Bio.bget 2 2 Bio.demoFull 1 2))
      ∧ (Balanced (bioEvents Bio.demoFull (Bio.bget 2 2 Bio.demoFull 1 2))
          ∧ ∃ pre, bioEvents Bio.demoFull (Bio.bget 2 2 Bio.demoFull 1 2)
              = pre ++ [.acquiresleep])
      ∧ Kalloc.kalloc 2 Kalloc.demoTaken 0
        = .ret ((Kalloc.kalloc 2 Kalloc.demoTaken 0).state Kalloc.demoTaken) 8192
      ∧ Balanced (kallocEvents Kalloc.demoTaken (Kalloc.kalloc 2 Kalloc.demoTaken 0)) :=
  ⟨Bio.Outcome.eq_ret Bio.bcache0 (show _ = some (Bio.Ptr.buf 1) by decide!),
    spin_locks_released_before_sleep_and_return.1 2 2 Bio.demoFull 1 2,
    spin_locks_released_before_sleep_and_return.2.1 2 2 Bio.demoFull 1 2 _ _
      (Bio.Outcome.eq_ret Bio.bcache0 (show _ = some (Bio.Ptr.buf 1) by decide!)),
    Bio.Outcome.eq_ret Kalloc.demoTaken (show _ = some 8192 by decide!),
    spin_locks_released_before_sleep_and_return.2.2.2.2.2.1 2 Kalloc.demoTaken 0 _ _
      (Bio.Outcome.eq_ret Kalloc.demoTaken (show _ = some 8192 by decide!))⟩



/-! ## The three properties reject what they should -/

/-- Two shard locks taken without `borrow_mutex` break the lock order. -/
theorem ordered_rejects_two_shards :
    ¬ Ordered [.acquire (.shard 0), .acquire (.shard 1)] := by
  intro h
  have := (h [.acquire (.shard 0)] [.acquire (.shard 1)] rfl).2 1 [] rfl 0 (by decide)
    (by decide)
  revert this
  decide

/-- Releasing `borrow_mutex` while two shard locks are held breaks the lock
order. -/
theorem ordered_rejects_early_release :
    ¬ Ordered [.acquire (.shard 0), .acquire .borrow_mutex, .acquire (.shard 1),
      .release .borrow_mutex] := by
  intro h
  have := (h [.acquire (.shard 0), .acquire .borrow_mutex, .acquire (.shard 1),
    .release .borrow_mutex] [] rfl).1 0 1 (by decide) (by decide) (by decide)
  revert this
  decide

/-- A call of `acquiresleep` with a bucket lock held is not free of
spin-locks. -/
theorem sleepFree_rejects_held_lock : ¬ SleepFree [.acquire (.shard 0), .acquiresleep] := by
  intro h
  have := h [.acquire (.shard 0)] [] rfl (.shard 0)
  revert this
  decide

/-- A lock that is still held at the end is not balanced. -/
theorem balanced_rejects_held_lock : ¬ Balanced [.acquire (.shard 0)] := by
  intro h
  have := (h (.shard 0)).2
  revert this
  decide


end Locking

namespace Conc

open Bio

/-! ## One CPU alone runs `bget` -/

theorem solo_step {NBUF NBUFBUCKET : Nat} {s s' : Bcache} {t t' : Thread} (fuel : Nat)
    (h : step NBUF NBUFBUCKET s t = some (s', t')) :
    solo NBUF NBUFBUCKET (fuel + 1) s t = solo NBUF NBUFBUCKET fuel s' t' := by
  simp only [solo, h]

theorem solo_stuck {NBUF NBUFBUCKET : Nat} {s : Bcache} {t : Thread} (fuel : Nat)
    (h : step NBUF NBUFBUCKET s t = none) : solo NBUF NBUFBUCKET fuel s t = (s, t) := by
  cases fuel with
  | zero => rfl
  | succ n => simp only [solo, h]

theorem solo_sleep {NBUF NBUFBUCKET : Nat} {s s' : Bcache} {dev blockno : Nat} {b x : Ptr}
    (fuel : Nat) (h : sleepReturn s b = .ret s' x) :
    solo NBUF NBUFBUCKET (fuel + 1) s ⟨dev, blockno, .sleep b⟩ = (s', ⟨dev, blockno, .done x⟩) := by
  unfold sleepReturn at h
  simp only [] at h
  split at h
  · cases h
  · rename_i hl
    injection h with h1 h2
    subst h1; subst h2
    have hst : step NBUF NBUFBUCKET s ⟨dev, blockno, .sleep b⟩
        = some ((s.log (.acquiresleep b)).store b fun c => { c with lock := true },
            ⟨dev, blockno, .done b⟩) := by
      simp only [step]; rw [if_neg hl]
    rw [solo_step fuel hst]
    exact solo_stuck fuel rfl

/-- The loop of `bget` over the peer buckets, run by one CPU alone, ends as
the function `borrow` says. -/
theorem solo_probe (NBUF NBUFBUCKET dev blockno : Nat) :
    ∀ (count i : Nat) (s : Bcache), i + count = NBUFBUCKET → ∀ fuel, 3 * count + 2 ≤ fuel →
      (∀ s' b, borrow NBUF dev blockno (blockno % NBUFBUCKET) count i s = .ret s' b →
        solo NBUF NBUFBUCKET fuel s ⟨dev, blockno, .probe i⟩ = (s', ⟨dev, blockno, .done b⟩))
      ∧ (∀ s' msg, borrow NBUF dev blockno (blockno % NBUFBUCKET) count i s = .panic s' msg →
        solo NBUF NBUFBUCKET fuel s ⟨dev, blockno, .probe i⟩ = (s', ⟨dev, blockno, .panicked⟩))
  | 0, i, s, hi, fuel, hf => by
    have hge : ¬ i < NBUFBUCKET := by omega
    obtain ⟨f, rfl⟩ : ∃ f, fuel = f + 1 := ⟨fuel - 1, by omega⟩
    have hst : step NBUF NBUFBUCKET s ⟨dev, blockno, .probe i⟩
        = some (s, ⟨dev, blockno, .panicked⟩) := by
      simp only [step]; rw [if_neg hge]
    constructor
    · intro s' b h
      simp [borrow] at h
    · intro s' msg h
      simp only [borrow] at h
      injection h with h1 _
      subst h1
      rw [solo_step f hst]
      exact solo_stuck f rfl
  | count + 1, i, s, hi, fuel, hf => by
    have hlt : i < NBUFBUCKET := by omega
    obtain ⟨f, rfl⟩ : ∃ f, fuel = f + 1 := ⟨fuel - 1, by omega⟩
    rw [borrow]
    by_cases hib : i = blockno % NBUFBUCKET
    · rw [if_pos hib]
      have hst : step NBUF NBUFBUCKET s ⟨dev, blockno, .probe i⟩
          = some (s, ⟨dev, blockno, .probe (i + 1)⟩) := by
        simp only [step]; rw [if_pos hlt, if_pos hib]
      rw [solo_step f hst]
      exact solo_probe NBUF NBUFBUCKET dev blockno count (i + 1) s (by omega) f (by omega)
    · rw [if_neg hib]
      by_cases hl : s.locks i = true
      · rw [if_pos hl]
        have hst : step NBUF NBUFBUCKET s ⟨dev, blockno, .probe i⟩
            = some (s, ⟨dev, blockno, .probe (i + 1)⟩) := by
          simp only [step]; rw [if_pos hlt, if_neg hib, if_pos hl]
        rw [solo_step f hst]
        exact solo_probe NBUF NBUFBUCKET dev blockno count (i + 1) s (by omega) f (by omega)
      · rw [if_neg hl]
        have hst : step NBUF NBUFBUCKET s ⟨dev, blockno, .probe i⟩
            = some (s, ⟨dev, blockno, .wantPeer i⟩) := by
          simp only [step]; rw [if_pos hlt, if_neg hib, if_neg hl]
        rw [solo_step f hst]
        obtain ⟨f2, rfl⟩ : ∃ f2, f = f2 + 1 := ⟨f - 1, by omega⟩
        have hst2 : step NBUF NBUFBUCKET s ⟨dev, blockno, .wantPeer i⟩
            = some (s.acquire (.bucket i), ⟨dev, blockno, .scanPeer i⟩) := by
          simp only [step]; rw [if_neg hl]
        rw [solo_step f2 hst2]
        obtain ⟨f3, rfl⟩ : ∃ f3, f2 = f3 + 1 := ⟨f2 - 1, by omega⟩
        simp only []
        cases hff : findFree (s.acquire (.bucket i)).mem (.head i) NBUF
            ((s.acquire (.bucket i)).mem (.head i)).prev with
        | none =>
          constructor
          · intro s' b h; cases h
          · intro s' msg h; cases h
        | some r =>
          cases r with
          | some x =>
            simp only []
            have hst3 : step NBUF NBUFBUCKET (s.acquire (.bucket i)) ⟨dev, blockno, .scanPeer i⟩
                = some ((((claim (steal (s.acquire (.bucket i)) (.head (blockno % NBUFBUCKET)) x)
                    x dev blockno).release (.bucket i)).release .borrow_mutex).release
                    (.bucket (blockno % NBUFBUCKET)), ⟨dev, blockno, .sleep x⟩) := by
              simp only [step, hff]
            rw [solo_step f3 hst3]
            obtain ⟨f4, rfl⟩ : ∃ f4, f3 = f4 + 1 := ⟨f3 - 1, by omega⟩
            constructor
            · intro s' b h
              exact solo_sleep f4 h
            · intro s' msg h
              unfold sleepReturn at h
              simp only [] at h
              split at h <;> cases h
          | none =>
            simp only []
            have hst3 : step NBUF NBUFBUCKET (s.acquire (.bucket i)) ⟨dev, blockno, .scanPeer i⟩
                = some ((s.acquire (.bucket i)).release (.bucket i),
                    ⟨dev, blockno, .probe (i + 1)⟩) := by
              simp only [step, hff]
            rw [solo_step f3 hst3]
            exact solo_probe NBUF NBUFBUCKET dev blockno count (i + 1) _ (by omega) f3 (by omega)

/-- One CPU alone, started at the entry of `bget`, ends where the function
`bget` says: it returns the same buffer, or halts in the same panic, in the
same state. -/
theorem solo_matches_bget (NBUF NBUFBUCKET : Nat) (s : Bcache) (dev blockno : Nat) (fuel : Nat)
    (hf : 3 * NBUFBUCKET + 5 ≤ fuel) :
    (∀ s' b, bget NBUF NBUFBUCKET s dev blockno = .ret s' b →
      solo NBUF NBUFBUCKET fuel s ⟨dev, blockno, .entry⟩ = (s', ⟨dev, blockno, .done b⟩))
    ∧ (∀ s' msg, bget NBUF NBUFBUCKET s dev blockno = .panic s' msg →
      solo NBUF NBUFBUCKET fuel s ⟨dev, blockno, .entry⟩ = (s', ⟨dev, blockno, .panicked⟩)) := by
  unfold bget
  simp only []
  by_cases hl : s.locks (blockno % NBUFBUCKET) = true
  · rw [if_pos hl]
    exact ⟨fun s' b h => (by cases h), fun s' msg h => (by cases h)⟩
  · rw [if_neg hl]
    obtain ⟨f, rfl⟩ : ∃ f, fuel = f + 1 := ⟨fuel - 1, by omega⟩
    have hst : step NBUF NBUFBUCKET s ⟨dev, blockno, .entry⟩
        = some (s.acquire (.bucket (blockno % NBUFBUCKET)), ⟨dev, blockno, .lookup⟩) := by
      simp only [step]; rw [if_neg hl]
    rw [solo_step f hst]
    obtain ⟨f2, rfl⟩ : ∃ f2, f = f2 + 1 := ⟨f - 1, by omega⟩
    cases hfc : findCached (s.acquire (.bucket (blockno % NBUFBUCKET))).mem
        (.head (blockno % NBUFBUCKET)) dev blockno NBUF
        ((s.acquire (.bucket (blockno % NBUFBUCKET))).mem (.head (blockno % NBUFBUCKET))).next with
    | none => exact ⟨fun s' b h => (by cases h), fun s' msg h => (by cases h)⟩
    | some r =>
      cases r with
      | some x =>
        simp only []
        have hst2 : step NBUF NBUFBUCKET (s.acquire (.bucket (blockno % NBUFBUCKET)))
            ⟨dev, blockno, .lookup⟩
            = some ((((s.acquire (.bucket (blockno % NBUFBUCKET))).store x
                fun c => { c with refcnt := c.refcnt + 1 }).release
                (.bucket (blockno % NBUFBUCKET))), ⟨dev, blockno, .sleep x⟩) := by
          simp only [step, hfc]
        rw [solo_step f2 hst2]
        obtain ⟨f3, rfl⟩ : ∃ f3, f2 = f3 + 1 := ⟨f2 - 1, by omega⟩
        constructor
        · intro s' b h
          exact solo_sleep f3 h
        · intro s' msg h
          unfold sleepReturn at h
          simp only [] at h
          split at h <;> cases h
      | none =>
        simp only []
        cases hff : findFree (s.acquire (.bucket (blockno % NBUFBUCKET))).mem
            (.head (blockno % NBUFBUCKET)) NBUF
            ((s.acquire (.bucket (blockno % NBUFBUCKET))).mem
              (.head (blockno % NBUFBUCKET))).prev with
        | none => exact ⟨fun s' b h => (by cases h), fun s' msg h => (by cases h)⟩
        | some r =>
          cases r with
          | some x =>
            simp only []
            have hst2 : step NBUF NBUFBUCKET (s.acquire (.bucket (blockno % NBUFBUCKET)))
                ⟨dev, blockno, .lookup⟩
                = some (((claim (s.acquire (.bucket (blockno % NBUFBUCKET))) x dev blockno).release
                    (.bucket (blockno % NBUFBUCKET))), ⟨dev, blockno, .sleep x⟩) := by
              simp only [step, hfc, hff]
            rw [solo_step f2 hst2]
            obtain ⟨f3, rfl⟩ : ∃ f3, f2 = f3 + 1 := ⟨f2 - 1, by omega⟩
            constructor
            · intro s' b h
              exact solo_sleep f3 h
            · intro s' msg h
              unfold sleepReturn at h
              simp only [] at h
              split at h <;> cases h
          | none =>
            simp only []
            have hst2 : step NBUF NBUFBUCKET (s.acquire (.bucket (blockno % NBUFBUCKET)))
                ⟨dev, blockno, .lookup⟩
                = some (s.acquire (.bucket (blockno % NBUFBUCKET)),
                    ⟨dev, blockno, .wantMutex⟩) := by
              simp only [step, hfc, hff]
            rw [solo_step f2 hst2]
            by_cases hm : (s.acquire (.bucket (blockno % NBUFBUCKET))).borrow_mutex = true
            · rw [if_pos hm]
              exact ⟨fun s' b h => (by cases h), fun s' msg h => (by cases h)⟩
            · rw [if_neg hm]
              obtain ⟨f3, rfl⟩ : ∃ f3, f2 = f3 + 1 := ⟨f2 - 1, by omega⟩
              have hst3 : step NBUF NBUFBUCKET (s.acquire (.bucket (blockno % NBUFBUCKET)))
                  ⟨dev, blockno, .wantMutex⟩
                  = some ((s.acquire (.bucket (blockno % NBUFBUCKET))).acquire .borrow_mutex,
                      ⟨dev, blockno, .probe 0⟩) := by
                simp only [step]; rw [if_neg hm]
              rw [solo_step f3 hst3]
              exact solo_probe NBUF NBUFBUCKET dev blockno NBUFBUCKET 0 _ (Nat.zero_add _) f3
                (by omega)

/-! ## The claim on concurrent calls of `bget` -/

/-- In a deadlock no CPU moves, whatever the schedule. -/
theorem deadlocked_run {NBUF NBUFBUCKET : Nat} {c : Config}
    (h : c.deadlocked NBUF NBUFBUCKET = true) (tid : Nat) (rest : List Nat) :
    c.run NBUF NBUFBUCKET (tid :: rest) = none := by
  have hstep : c.step NBUF NBUFBUCKET tid = none := by
    by_cases hlt : tid < c.threads.length
    · simp only [Config.deadlocked, Bool.and_eq_true, List.all_eq_true, List.mem_range] at h
      have := h.2 tid hlt
      cases hs : c.step NBUF NBUFBUCKET tid with
      | none => rfl
      | some c' => rw [hs] at this; cases this
    · have : c.threads.get? tid = none := List.get?_eq_none.2 (by omega)
      simp only [Config.step, this]
  simp only [Config.run, hstep]

theorem raceCache_reachable : Reachable 4 4 raceCache :=
  ⟨_, Reach.bread 1 1
    (Reach.bread 1 0 Reach.binit (Outcome.eq_ret bcache0 (show _ = some (Ptr.buf 0) by decide!)))
    (Outcome.eq_ret bcache0 (show _ = some (Ptr.buf 1) by decide!))⟩

/-- C20 fails on the code: in the reachable cache `raceCache` (four buckets
with one buffer each, the buffers of buckets 0 and 1 held, those of buckets 2
and 3 free) the calls `bget(1, 4)` and `bget(1, 5)` both return when the two
CPUs run one after the other, in either order; but when CPU 0, on the borrow
path of `bget(1, 4)` with the lock of bucket 0 and `borrow_mutex` held, has
read `bcache.locks[1].locked` as zero, and CPU 1 then enters `bget(1, 5)`,
takes the lock of bucket 1, finds no buffer and calls
`acquire(&bcache.borrow_mutex)`, CPU 0 waits in `acquire(peer_lock)` for the
lock of bucket 1, whose holder waits for `borrow_mutex`: no CPU can move, in
no continuation of the interleaving. -/
theorem bget_probe_then_acquire_deadlocks :
    Reachable 4 4 raceCache
      ∧ ((raceStart.run 4 4 firstThenSecond).map fun c => c.threads.map (·.pc))
          = some [.done (.buf 2), .done (.buf 3)]
      ∧ ((raceStart.run 4 4 secondThenFirst).map fun c => c.threads.map (·.pc))
          = some [.done (.buf 3), .done (.buf 2)]
      ∧ ((raceStart.run 4 4 raceSchedule).map fun c => c.threads.map (·.pc))
          = some [.wantPeer 1, .wantMutex]
      ∧ ((raceStart.run 4 4 raceSchedule).map fun c =>
            (c.cache.locks 0, c.cache.locks 1, c.cache.locks 2, c.cache.locks 3,
              c.cache.borrow_mutex))
          = some (true, true, false, false, true)
      ∧ ((raceStart.run 4 4 raceSchedule).map (Config.deadlocked 4 4)) = some true
      ∧ ∀ tid rest,
          ((raceStart.run 4 4 raceSchedule).bind fun c => c.run 4 4 (tid :: rest)) = none := by
  refine ⟨raceCache_reachable, by decide!, by decide!, by decide!, by decide!, by decide!, ?_⟩
  intro tid rest
  have hd : ((raceStart.run 4 4 raceSchedule).map (Config.deadlocked 4 4)) = some true := by
    decide!
  cases hr : raceStart.run 4 4 raceSchedule with
  | none => rfl
  | some c =>
    rw [hr] at hd
    simp only [Option.map_some', Option.some.injEq] at hd
    simp only [Option.some_bind]
    exact deadlocked_run hd tid rest

end Conc
